import Mathlib

/-!
# chessAI: a shallow embedding of the rules engine and the fixed-depth search

The definitions below follow `src/engine_real.hpp` (Position, Engine) and
`src/main.cpp` (move text) function by function and keep the names of the source.

Conventions of the embedding
* C++ `int` is Lean `Int`.  The increment of the halfmove clock in `makeMove` and the
  conversion `(int)std::llround(score)` in `eval` wrap explicitly (`wrapInt32`);
  squares are in `0..63`, and the negations of the search are exact (a score is
  negated in range unless it is `-2^31`).
  `sq & 7` is `sq % 8` and `sq >> 3` is `sq / 8` (Lean rounds both towards minus
  infinity for a positive divisor, as the two's complement operations do); the C++
  `/` is `Int.tdiv`.
* C++ `double` is `Double`: a finite value is an exact rational, every operation
  rounds its exact result to binary64 (`roundDouble`), and the non-finite values
  are one absorbing element.
* a `std::string` is read as its bytes (`stringBytes`).
* `std::array<Piece,64>` is a function `Fin 64 → Piece`; reads and writes take the
  `int` index of the source.
* mutation is explicit state passing: `makeMove` returns the new position together
  with the filled undo record.
* `while(true)` ray loops take a step budget; a ray leaves the board after at most
  seven squares, so the budget `8` is never exhausted.
-/

namespace ChessAI

/-! ## Data model -/

/-- Pieces, in the order of the source enumeration (`EMPTY = 0`, `WP = 1`, ..., `BK = 12`). -/
inductive Piece
  | EMPTY | WP | WN | WB | WR | WQ | WK | BP | BN | BB | BR | BQ | BK
  deriving DecidableEq, Repr

open Piece

/-- The integer value of the enumerator. -/
def Piece.code : Piece → Nat
  | EMPTY => 0 | WP => 1 | WN => 2 | WB => 3 | WR => 4 | WQ => 5 | WK => 6
  | BP => 7 | BN => 8 | BB => 9 | BR => 10 | BQ => 11 | BK => 12

/-- Source: `p>=WP && p<=WK`. -/
def isWhite (p : Piece) : Bool := decide (WP.code ≤ p.code) && decide (p.code ≤ WK.code)

/-- Source: `p>=BP && p<=BK`. -/
def isBlack (p : Piece) : Bool := decide (BP.code ≤ p.code) && decide (p.code ≤ BK.code)

/-- A move: origin, destination, promotion piece and the generator's capture annotation. -/
structure Move where
  from_ : Int := 0
  to_ : Int := 0
  promo : Piece := EMPTY
  captured : Piece := EMPTY
  deriving DecidableEq, Repr

/-- The undo record filled by `makeMove`. -/
structure Undo where
  captured : Piece := EMPTY
  halfmoveClock : Int := 0
  epSq : Int := -1
  castle : Nat := 0
  wasEP : Bool := false
  epCapturedSq : Int := -1
  wasCastle : Bool := false
  rookFrom : Int := -1
  rookTo : Int := -1
  rookPiece : Piece := EMPTY
  movedPiece : Piece := EMPTY
  deriving DecidableEq, Repr

/-- The 64 squares, index `rank*8+file`. -/
abbrev Board := Fin 64 → Piece

/-- Read `b[i]` (an index outside `0..63` is never read by the source; it yields `EMPTY` here). -/
def getSq (b : Board) (i : Int) : Piece :=
  if h : 0 ≤ i ∧ i < 64 then b ⟨i.toNat, by omega⟩ else EMPTY

/-- Write `b[i] = v`. -/
def setSq (b : Board) (i : Int) (v : Piece) : Board :=
  fun j => if (j.val : Int) = i then v else b j

/-- The game state. `castle` is the bit mask `1=WK, 2=WQ, 4=BK, 8=BQ` of a `uint8_t`. -/
structure Position where
  b : Board := fun _ => EMPTY
  whiteToMove : Bool := true
  halfmoveClock : Int := 0
  epSq : Int := -1
  castle : Nat := 0

def fileOf (sq : Int) : Int := sq % 8
def rankOf (sq : Int) : Int := sq / 8
def onBoard (sq : Int) : Bool := decide (sq ≥ 0) && decide (sq < 64)
def xyToSq (x y : Int) : Int := y * 8 + x

/-- C++ `std::abs` on `int`. -/
def iabs (x : Int) : Int := if x < 0 then -x else x

/-- The value of a 32-bit `int` after an arithmetic step whose exact result is `x`: the
representative of `x` modulo `2^32` in `-2^31 .. 2^31 - 1` (the two's complement result that
the conversion `(int)` gives and that the increment of the compiled code leaves). -/
def wrapInt32 (x : Int) : Int := (x + 2147483648) % 4294967296 - 2147483648

/-! ## Start position -/

/-- Source: `Position::setStartPos`. -/
def setStartPos : Position :=
  let b0 : Board := fun _ => EMPTY
  let b1 := (List.range 8).foldl
    (fun (b : Board) (f : Nat) => setSq (setSq b (8 + (f : Int)) WP) (48 + (f : Int)) BP) b0
  let b2 := setSq (setSq (setSq (setSq b1 0 WR) 7 WR) 56 BR) 63 BR
  let b3 := setSq (setSq (setSq (setSq b2 1 WN) 6 WN) 57 BN) 62 BN
  let b4 := setSq (setSq (setSq (setSq b3 2 WB) 5 WB) 58 BB) 61 BB
  let b5 := setSq (setSq b4 3 WQ) 59 BQ
  let b6 := setSq (setSq b5 4 WK) 60 BK
  { b := b6, whiteToMove := true, halfmoveClock := 0, epSq := -1, castle := 1 ||| 2 ||| 4 ||| 8 }

/-! ## FEN loading -/

/-- C `isspace` in the "C" locale: space and the control characters 9..13. -/
def isSpace (c : Char) : Bool := decide (c.toNat = 32) || (decide (9 ≤ c.toNat) && decide (c.toNat ≤ 13))

/-- The successive extractions `ss >> token`: the maximal runs of non-space characters.
`cur` holds the current run, reversed. -/
def splitWS : List Char → List Char → List (List Char)
  | [], cur => if cur = [] then [] else [cur.reverse]
  | c :: cs, cur =>
    if isSpace c then (if cur = [] then splitWS cs [] else cur.reverse :: splitWS cs [])
    else splitWS cs (c :: cur)

/-- The `switch` of `setFEN` from a placement letter to a piece. -/
def fenPiece (c : Char) : Piece :=
  if c = 'P' then WP else if c = 'N' then WN else if c = 'B' then WB
  else if c = 'R' then WR else if c = 'Q' then WQ else if c = 'K' then WK
  else if c = 'p' then BP else if c = 'n' then BN else if c = 'b' then BB
  else if c = 'r' then BR else if c = 'q' then BQ else if c = 'k' then BK
  else EMPTY

/-- One iteration of the placement loop of `setFEN` on the state `(rank, file, b)`. -/
def fenBoardStep (st : Int × Int × Board) (c : Char) : Int × Int × Board :=
  let rank := st.1
  let file := st.2.1
  let b := st.2.2
  if c = '/' then (rank - 1, 0, b)
  else if 49 ≤ c.toNat ∧ c.toNat ≤ 56 then (rank, file + ((c.toNat : Int) - 48), b)
  else if rank < 0 ∨ file < 0 ∨ file ≥ 8 then st
  else
    let p := fenPiece c
    let sq := rank * 8 + file
    let b1 := if p ≠ EMPTY ∧ onBoard sq = true then setSq b sq p else b
    (rank, file + 1, b1)

/-- One iteration of the castling loop of `setFEN`. -/
def fenCastleStep (castle : Nat) (c : Char) : Nat :=
  let c1 := if c = 'K' then castle ||| 1 else castle
  let c2 := if c = 'Q' then c1 ||| 2 else c1
  let c3 := if c = 'k' then c2 ||| 4 else c2
  if c = 'q' then c3 ||| 8 else c3

/-- C++ `std::stoi`: optional white space, optional sign, then decimal digits; `none` stands for
the exceptions (no digit, or a value outside the range of `int`). -/
def stoi (s : List Char) : Option Int :=
  let s1 := s.dropWhile isSpace
  let neg : Bool := decide (s1.head? = some '-')
  let s2 := if s1.head? = some '-' ∨ s1.head? = some '+' then s1.tail else s1
  let ds := s2.takeWhile fun c => decide (48 ≤ c.toNat) && decide (c.toNat ≤ 57)
  if ds = [] then none
  else
    let v : Int := ds.foldl (fun a c => 10 * a + ((c.toNat : Int) - 48)) 0
    let r := if neg then -v else v
    if r < -2147483648 ∨ r > 2147483647 then none else some r

/-- The `char`s of a `std::string`: the bytes of its UTF-8 text, each as the character of that
code (a byte above 127 is a negative `char` in the source; no branch of `setFEN` tells it from
the code used here). -/
def stringBytes (s : String) : List Char :=
  s.toUTF8.data.toList.map fun b => Char.ofNat b.toNat

/-- Source: `Position::setFEN`. -/
def setFEN (fen : String) : Position :=
  match splitWS (stringBytes fen) [] with
  | board :: active :: castlingStr :: epStr :: halfStr :: _fullStr :: _ =>
    let b := (board.foldl fenBoardStep (7, 0, fun _ => EMPTY)).2.2
    let castle := if castlingStr ≠ ['-'] then castlingStr.foldl fenCastleStep 0 else 0
    let fileEp := (epStr.getD 0 ' ').toNat - (97 : Int)
    let rankEp := (epStr.getD 1 ' ').toNat - (49 : Int)
    let epSq : Int :=
      if epStr ≠ ['-'] ∧ epStr.length = 2 ∧ fileEp ≥ 0 ∧ fileEp < 8 ∧ rankEp ≥ 0 ∧ rankEp < 8
      then xyToSq fileEp rankEp else -1
    { b := b, whiteToMove := decide (active = ['w']), halfmoveClock := (stoi halfStr).getD 0,
      epSq := epSq, castle := castle }
  | _ => setStartPos

/-! ## Attack queries -/

/-- Source: `Position::findKingSq`; `-1` when the king is absent. -/
def findKingSq (P : Position) (white : Bool) : Int :=
  let k := if white then WK else BK
  match (List.range 64).find? (fun i => decide (getSq P.b (i : Int) = k)) with
  | some i => (i : Int)
  | none => -1

def knightDeltas : List Int := [17, 15, 10, 6, -6, -10, -15, -17]
def kingDeltas : List Int := [8, -8, 1, -1, 9, 7, -7, -9]
def bishopDirs : List Int := [9, 7, -7, -9]
def rookDirs : List Int := [8, -8, 1, -1]
def queenDirs : List Int := [8, -8, 1, -1, 9, 7, -7, -9]

/-- One diagonal ray of `squareAttacked` (the `while(true)` loop of the bishop/queen block),
started with `prev = targetSq`. -/
def diagRayAttacked (b : Board) (byWhite : Bool) (dv : Int) : Nat → Int → Bool
  | 0, _ => false
  | n + 1, prev =>
    let cur := prev + dv
    if !onBoard cur then false
    else if iabs (fileOf cur - fileOf prev) > 1 then false
    else
      let p := getSq b cur
      if p = EMPTY then diagRayAttacked b byWhite dv n cur
      else if byWhite then decide (p = WB) || decide (p = WQ)
      else decide (p = BB) || decide (p = BQ)

/-- One orthogonal ray of `squareAttacked` (the rook/queen block). -/
def straightRayAttacked (b : Board) (byWhite : Bool) (dv : Int) : Nat → Int → Bool
  | 0, _ => false
  | n + 1, prev =>
    let cur := prev + dv
    if !onBoard cur then false
    else if (dv = 1 ∨ dv = -1) ∧ iabs (fileOf cur - fileOf prev) > 1 then false
    else
      let p := getSq b cur
      if p = EMPTY then straightRayAttacked b byWhite dv n cur
      else if byWhite then decide (p = WR) || decide (p = WQ)
      else decide (p = BR) || decide (p = BQ)

/-- The pawn block of `squareAttacked`. -/
def pawnAttacked (b : Board) (targetSq : Int) (byWhite : Bool) : Bool :=
  let x := fileOf targetSq
  let y := rankOf targetSq
  if byWhite then
    let y2 := y - 1
    decide (y2 ≥ 0) &&
      ((decide (x - 1 ≥ 0) && decide (getSq b (xyToSq (x - 1) y2) = WP)) ||
       (decide (x + 1 < 8) && decide (getSq b (xyToSq (x + 1) y2) = WP)))
  else
    let y2 := y + 1
    decide (y2 < 8) &&
      ((decide (x - 1 ≥ 0) && decide (getSq b (xyToSq (x - 1) y2) = BP)) ||
       (decide (x + 1 < 8) && decide (getSq b (xyToSq (x + 1) y2) = BP)))

/-- The knight block of `squareAttacked`. -/
def knightAttacked (b : Board) (targetSq : Int) (byWhite : Bool) : Bool :=
  knightDeltas.any fun dv =>
    let sq := targetSq + dv
    onBoard sq &&
    decide (max (iabs (fileOf targetSq - fileOf sq)) (iabs (rankOf targetSq - rankOf sq)) = 2) &&
    (if byWhite then decide (getSq b sq = WN) else decide (getSq b sq = BN))

/-- The king block of `squareAttacked`. -/
def kingAttacked (b : Board) (targetSq : Int) (byWhite : Bool) : Bool :=
  kingDeltas.any fun dv =>
    let sq := targetSq + dv
    onBoard sq &&
    !decide (iabs (fileOf targetSq - fileOf sq) > 1) &&
    (if byWhite then decide (getSq b sq = WK) else decide (getSq b sq = BK))

/-- Source: `Position::squareAttacked`. The blocks are tried in the order of the source; each
returns `true` on the first hit. -/
def squareAttacked (b : Board) (targetSq : Int) (byWhite : Bool) : Bool :=
  pawnAttacked b targetSq byWhite ||
  knightAttacked b targetSq byWhite ||
  bishopDirs.any (fun dv => diagRayAttacked b byWhite dv 8 targetSq) ||
  rookDirs.any (fun dv => straightRayAttacked b byWhite dv 8 targetSq) ||
  kingAttacked b targetSq byWhite

/-- Source: `Position::isInCheck`. -/
def isInCheck (P : Position) (white : Bool) : Bool :=
  let ksq := findKingSq P white
  if ksq < 0 then false else squareAttacked P.b ksq (!white)

/-! ## Mutator -/

/-- Source: the lambda `clearRight` of `makeMove`: `castle = (uint8_t)(castle & ~mask)`. -/
def clearRight (castle mask : Nat) : Nat := (castle &&& (255 ^^^ mask)) % 256

/-- Source: `Position::makeMove`. Returns the position after the call and the undo record `u`.
The early `return` of the defensive pawn check leaves the function after the en-passant target
and the halfmove clock have been rewritten. (The source also computes an unused flag `forward`.) -/
def makeMove (P : Position) (m : Move) : Position × Undo :=
  let captured0 := getSq P.b m.to_
  let p := getSq P.b m.from_
  -- reset ep by default; halfmove clock
  let halfmove := if captured0 ≠ EMPTY ∨ p = WP ∨ p = BP then 0 else wrapInt32 (P.halfmoveClock + 1)
  -- en passant capture
  let wasEP : Bool := decide ((p = WP ∨ p = BP) ∧ m.to_ = P.epSq ∧ getSq P.b m.to_ = EMPTY)
  let capSq : Int := if p = WP then m.to_ - 8 else m.to_ + 8
  let captured := if wasEP then getSq P.b capSq else captured0
  let b1 := if wasEP then setSq P.b capSq EMPTY else P.b
  let u0 : Undo :=
    { captured := captured, halfmoveClock := P.halfmoveClock, epSq := P.epSq, castle := P.castle,
      wasEP := wasEP, epCapturedSq := if wasEP then capSq else -1,
      wasCastle := false, rookFrom := -1, rookTo := -1, rookPiece := EMPTY, movedPiece := p }
  -- safety check on diagonal pawn moves
  let diagonal : Bool := decide (iabs (fileOf m.from_ - fileOf m.to_) = 1)
  let hasEnemy : Bool := decide (captured ≠ EMPTY) && (isWhite p != isWhite captured)
  if (p = WP ∨ p = BP) ∧ diagonal = true ∧ wasEP = false ∧ hasEnemy = false then
    ({ P with b := b1, epSq := -1, halfmoveClock := halfmove }, u0)
  else
    -- move piece
    let put := if m.promo ≠ EMPTY then m.promo else p
    let b2 := setSq (setSq b1 m.from_ EMPTY) m.to_ put
    -- ep target on double pawn push
    let ep : Int :=
      if p = WP then
        (if Int.tdiv m.from_ 8 = 1 ∧ Int.tdiv m.to_ 8 = 3 ∧ getSq b2 m.to_ = WP then m.from_ + 8 else -1)
      else if p = BP then
        (if Int.tdiv m.from_ 8 = 6 ∧ Int.tdiv m.to_ 8 = 4 ∧ getSq b2 m.to_ = BP then m.from_ - 8 else -1)
      else -1
    -- castling rights
    let c1 := if p = WK then clearRight P.castle (1 ||| 2) else P.castle
    let c2 := if p = BK then clearRight c1 (4 ||| 8) else c1
    let c3 := if p = WR ∧ m.from_ = 0 then clearRight c2 2 else c2
    let c4 := if p = WR ∧ m.from_ = 7 then clearRight c3 1 else c3
    let c5 := if p = BR ∧ m.from_ = 56 then clearRight c4 8 else c4
    let c6 := if p = BR ∧ m.from_ = 63 then clearRight c5 4 else c5
    let c7 := if captured = WR ∧ m.to_ = 0 then clearRight c6 2 else c6
    let c8 := if captured = WR ∧ m.to_ = 7 then clearRight c7 1 else c7
    let c9 := if captured = BR ∧ m.to_ = 56 then clearRight c8 8 else c8
    let c10 := if captured = BR ∧ m.to_ = 63 then clearRight c9 4 else c9
    -- castling rook move, white
    let wc : Bool := decide (p = WK ∧ m.from_ = 4 ∧ (m.to_ = 6 ∨ m.to_ = 2))
    let u1 : Undo :=
      if wc then
        (if m.to_ = 6 then { u0 with wasCastle := true, rookFrom := 7, rookTo := 5, rookPiece := getSq b2 5 }
         else { u0 with wasCastle := true, rookFrom := 0, rookTo := 3, rookPiece := getSq b2 3 })
      else u0
    let b3 :=
      if wc then
        (if m.to_ = 6 then setSq (setSq b2 5 WR) 7 EMPTY else setSq (setSq b2 3 WR) 0 EMPTY)
      else b2
    -- castling rook move, black
    let bc : Bool := decide (p = BK ∧ m.from_ = 60 ∧ (m.to_ = 62 ∨ m.to_ = 58))
    let u2 : Undo :=
      if bc then
        (if m.to_ = 62 then { u1 with wasCastle := true, rookFrom := 63, rookTo := 61, rookPiece := getSq b3 61 }
         else { u1 with wasCastle := true, rookFrom := 56, rookTo := 59, rookPiece := getSq b3 59 })
      else u1
    let b4 :=
      if bc then
        (if m.to_ = 62 then setSq (setSq b3 61 BR) 63 EMPTY else setSq (setSq b3 59 BR) 56 EMPTY)
      else b3
    ({ b := b4, whiteToMove := !P.whiteToMove, halfmoveClock := halfmove, epSq := ep, castle := c10 }, u2)

/-- Source: `Position::unmakeMove`. -/
def unmakeMove (P : Position) (m : Move) (u : Undo) : Position :=
  let b1 :=
    if u.wasCastle ∧ u.rookFrom ≠ -1 ∧ u.rookTo ≠ -1 then
      setSq (setSq P.b u.rookFrom (if isWhite u.movedPiece then WR else BR)) u.rookTo EMPTY
    else P.b
  let b2 := setSq b1 m.from_ u.movedPiece
  let b3 := setSq b2 m.to_ u.captured
  let b4 := if u.wasEP then setSq (setSq b3 u.epCapturedSq u.captured) m.to_ EMPTY else b3
  { b := b4, whiteToMove := !P.whiteToMove, halfmoveClock := u.halfmoveClock, epSq := u.epSq,
    castle := u.castle }

/-! ## Move generation -/

/-- The lambda `add` of `genPseudoLegalMoves`. -/
def addMove (b : Board) (from_ to_ : Int) (promo : Piece := EMPTY) : Move :=
  { from_ := from_, to_ := to_, promo := promo, captured := getSq b to_ }

/-- The four promotion moves, in the order of the source. -/
def promoMoves (b : Board) (p : Piece) (sq to_ : Int) : List Move :=
  [addMove b sq to_ (if p = WP then WQ else BQ), addMove b sq to_ (if p = WP then WR else BR),
   addMove b sq to_ (if p = WP then WB else BB), addMove b sq to_ (if p = WP then WN else BN)]

/-- The pawn block of `genPseudoLegalMoves` for the pawn `p` on `sq`. -/
def pawnMoves (P : Position) (sq : Int) (p : Piece) : List Move :=
  let b := P.b
  let f := fileOf sq
  let r := rankOf sq
  let dir : Int := if p = WP then 1 else -1
  let r2 := r + dir
  let one := sq + dir * 8
  let lastRank : Bool := decide ((p = WP ∧ r2 = 7) ∨ (p = BP ∧ r2 = 0))
  let pushes : List Move :=
    if r2 ≥ 0 ∧ r2 < 8 ∧ onBoard one = true ∧ getSq b one = EMPTY then
      (if lastRank then promoMoves b p sq one else [addMove b sq one]) ++
      (if (p = WP ∧ r = 1) ∨ (p = BP ∧ r = 6) then
        (let two := sq + dir * 16
         if onBoard two = true ∧ getSq b two = EMPTY then [addMove b sq two] else [])
       else [])
    else []
  let caps : List Move :=
    ([-1, 1] : List Int).flatMap fun df =>
      let nf := f + df
      if nf < 0 ∨ nf ≥ 8 then []
      else
        let cap := sq + dir * 8 + df
        if !onBoard cap then []
        else
          (if getSq b cap ≠ EMPTY ∧ isWhite p ≠ isWhite (getSq b cap) then
            (if lastRank then promoMoves b p sq cap else [addMove b sq cap])
           else []) ++
          (if cap = P.epSq then [{ from_ := sq, to_ := cap, promo := EMPTY, captured := EMPTY }] else [])
  pushes ++ caps

/-- The knight block of `genPseudoLegalMoves`. -/
def knightMoves (b : Board) (sq : Int) (p : Piece) : List Move :=
  knightDeltas.flatMap fun dv =>
    let to_ := sq + dv
    if !onBoard to_ then []
    else if max (iabs (fileOf to_ - fileOf sq)) (iabs (rankOf to_ - rankOf sq)) ≠ 2 then []
    else if getSq b to_ = EMPTY ∨ isWhite (getSq b to_) ≠ isWhite p then [addMove b sq to_] else []

/-- One ray of the lambda `slide` (its `while(true)` loop), started with `prev = sq`. -/
def slideRay (b : Board) (sq : Int) (p : Piece) (dv : Int) : Nat → Int → List Move
  | 0, _ => []
  | n + 1, prev =>
    let to_ := prev + dv
    if !onBoard to_ then []
    else if (dv = 1 ∨ dv = -1) ∧ iabs (fileOf to_ - fileOf prev) ≠ 1 then []
    else if (dv = 7 ∨ dv = -7 ∨ dv = 9 ∨ dv = -9) ∧ iabs (fileOf to_ - fileOf prev) ≠ 1 then []
    else if getSq b to_ = EMPTY then addMove b sq to_ :: slideRay b sq p dv n to_
    else if isWhite (getSq b to_) ≠ isWhite p then [addMove b sq to_]
    else []

/-- The lambda `slide` of `genPseudoLegalMoves`. -/
def slide (b : Board) (sq : Int) (p : Piece) (dirs : List Int) : List Move :=
  dirs.flatMap fun dv => slideRay b sq p dv 8 sq

/-- The king block of `genPseudoLegalMoves`, castling included. -/
def kingMoves (P : Position) (sq : Int) (p : Piece) : List Move :=
  let b := P.b
  let steps : List Move :=
    kingDeltas.flatMap fun dv =>
      let to_ := sq + dv
      if !onBoard to_ then []
      else if iabs (fileOf to_ - fileOf sq) > 1 then []
      else if getSq b to_ = EMPTY ∨ isWhite (getSq b to_) ≠ isWhite p then [addMove b sq to_] else []
  let white : List Move :=
    if p = WK ∧ sq = 4 then
      let inCheck := squareAttacked b 4 false
      (if P.castle &&& 1 ≠ 0 ∧ inCheck = false ∧ getSq b 5 = EMPTY ∧ getSq b 6 = EMPTY
          ∧ squareAttacked b 5 false = false ∧ squareAttacked b 6 false = false
        then [addMove b 4 6] else []) ++
      (if P.castle &&& 2 ≠ 0 ∧ inCheck = false ∧ getSq b 3 = EMPTY ∧ getSq b 2 = EMPTY
          ∧ getSq b 1 = EMPTY
          ∧ squareAttacked b 3 false = false ∧ squareAttacked b 2 false = false
        then [addMove b 4 2] else [])
    else []
  let black : List Move :=
    if p = BK ∧ sq = 60 then
      let inCheck := squareAttacked b 60 true
      (if P.castle &&& 4 ≠ 0 ∧ inCheck = false ∧ getSq b 61 = EMPTY ∧ getSq b 62 = EMPTY
          ∧ squareAttacked b 61 true = false ∧ squareAttacked b 62 true = false
        then [addMove b 60 62] else []) ++
      (if P.castle &&& 8 ≠ 0 ∧ inCheck = false ∧ getSq b 59 = EMPTY ∧ getSq b 58 = EMPTY
          ∧ getSq b 57 = EMPTY
          ∧ squareAttacked b 59 true = false ∧ squareAttacked b 58 true = false
        then [addMove b 60 58] else [])
    else []
  steps ++ white ++ black

/-- The body of the square loop of `genPseudoLegalMoves`: the moves of the piece on `sq`. -/
def movesFrom (P : Position) (sq : Int) : List Move :=
  let p := getSq P.b sq
  if p = EMPTY then []
  else if P.whiteToMove = true ∧ isWhite p = false then []
  else if P.whiteToMove = false ∧ isBlack p = false then []
  else if p = WP ∨ p = BP then pawnMoves P sq p
  else if p = WN ∨ p = BN then knightMoves P.b sq p
  else if p = WB ∨ p = BB then slide P.b sq p bishopDirs
  else if p = WR ∨ p = BR then slide P.b sq p rookDirs
  else if p = WQ ∨ p = BQ then slide P.b sq p queenDirs
  else if p = WK ∨ p = BK then kingMoves P sq p
  else []

/-- Source: `Position::genPseudoLegalMoves`. -/
def genPseudoLegalMoves (P : Position) : List Move :=
  (List.range 64).flatMap fun sq => movesFrom P (sq : Int)

/-- Source: `Position::genLegalMoves`: keep the pseudo-legal moves after which the side that
`makeMove` reports as having moved (`!p2.whiteToMove`) is not in check. -/
def genLegalMoves (P : Position) : List Move :=
  (genPseudoLegalMoves P).filter fun m =>
    let p2 := (makeMove P m).1
    !isInCheck p2 (!p2.whiteToMove)

/-! ## Evaluation and search -/

/-- Evaluation weights. The source stores `double`s. A field holds the number written for the
weight; `eval` reads it through `roundDouble`, so that it stands for the `double` nearest to it
(for itself when it is a `double`, for a non-finite value when it is out of range). -/
structure Weights where
  material : Fin 6 → ℚ
  pstPawn : Fin 64 → ℚ
  pstKnight : Fin 64 → ℚ

/-- Source: `Weights::defaultWeights` (material `100,320,330,500,900,0`, both tables zero). -/
def defaultWeights : Weights :=
  { material := fun i => [100, 320, 330, 500, 900, 0].getD i.val 0
    pstPawn := fun _ => 0
    pstKnight := fun _ => 0 }

/-- The lambda `idxPiece` of `Engine::eval`. -/
def idxPiece : Piece → Fin 6
  | WP | BP => 0
  | WN | BN => 1
  | WB | BB => 2
  | WR | BR => 3
  | WQ | BQ => 4
  | WK | BK => 5
  | EMPTY => 5

/-- A C++ `double` (IEEE 754 binary64): `some q` is the finite value `q`, `none` stands for the
infinities and NaN. The sign of a zero is not kept; it has no effect on `std::llround`. -/
abbrev Double := Option ℚ

/-- The number of binary digits of `n` (`fuel` bounds the recursion; `bitLen n n` is exact). -/
def bitLen : Nat → Nat → Nat
  | 0, _ => 0
  | fuel + 1, n => if n = 0 then 0 else bitLen fuel (n / 2) + 1

/-- The binary exponent of the positive rational `n / d`: the `k` with
`2^k ≤ n / d < 2^(k+1)`. -/
def floorLog2 (n d : Nat) : Int :=
  let k : Int := (bitLen n n : Int) - (bitLen d d : Int)
  if (if 0 ≤ k then d * 2 ^ k.toNat ≤ n else d ≤ n * 2 ^ (-k).toNat) then k else k - 1

/-- The quotient `a / b` rounded to the nearest integer, ties to the even one. -/
def divRoundEven (a b : Nat) : Nat :=
  let qt := a / b
  let rm := a % b
  if 2 * rm < b then qt else if b < 2 * rm then qt + 1 else if qt % 2 = 0 then qt else qt + 1

/-- Rounding of an exact result to `double` in the default mode (to nearest, ties to even):
53 significant bits for the exponents from `-1022` up, the spacing `2^(-1074)` below, and a
non-finite result when the rounded magnitude reaches `2^1024`. -/
def roundDouble (q : ℚ) : Double :=
  if q = 0 then some 0
  else
    let n := q.num.natAbs
    let d := q.den
    let e := max (floorLog2 n d) (-1022)
    let s : Int := 52 - e
    let N := if 0 ≤ s then divRoundEven (n * 2 ^ s.toNat) d else divRoundEven n (d * 2 ^ (-s).toNat)
    let v : ℚ := if 0 ≤ s then mkRat (N : Int) (2 ^ s.toNat) else ((N * 2 ^ (-s).toNat : Nat) : ℚ)
    if v ≥ (2 ^ 1024 : Nat) then none
    else some (if q < 0 then -v else v)

/-- The `double` sum `x + y`; a non-finite operand gives a non-finite result. -/
def fadd (x y : Double) : Double :=
  match x, y with
  | some a, some b => roundDouble (a + b)
  | _, _ => none

/-- The `double` difference `x - y`; a non-finite operand gives a non-finite result. -/
def fsub (x y : Double) : Double :=
  match x, y with
  | some a, some b => roundDouble (a - b)
  | _, _ => none

/-- Rounding to the nearest integer, halfway cases away from zero. -/
def llround (q : ℚ) : Int :=
  if 0 ≤ q then Rat.floor (q + 1 / 2) else -Rat.floor (-q + 1 / 2)

/-- C++ `std::llround` on a `double`. For a non-finite argument or a result outside the range
of `long long` the value is the one the x86-64 conversion returns, `LLONG_MIN`. -/
def llroundDouble (x : Double) : Int :=
  match x with
  | none => -9223372036854775808
  | some q =>
    let r := llround q
    if -9223372036854775808 ≤ r ∧ r < 9223372036854775808 then r else -9223372036854775808

/-- The contribution of square `sq` to the running `score` of `Engine::eval`: every `+=` and
`-=` is one rounded `double` operation. -/
def evalSquare (w : Weights) (b : Board) (score : Double) (sq : Fin 64) : Double :=
  let p := b sq
  if p = EMPTY then score
  else
    let s0 := roundDouble (w.material (idxPiece p))
    let s1 := if p = WP then fadd s0 (roundDouble (w.pstPawn sq)) else s0
    let s2 := if p = BP then fadd s1 (roundDouble (w.pstPawn (Fin.rev sq))) else s1
    let s3 := if p = WN then fadd s2 (roundDouble (w.pstKnight sq)) else s2
    let s4 := if p = BN then fadd s3 (roundDouble (w.pstKnight (Fin.rev sq))) else s3
    if isWhite p then fadd score s4 else fsub score s4

/-- Source: `Engine::eval` (`Fin.rev sq` is the index `63 - sq`): the squares are added in the
order `0..63` in `double` arithmetic and the total is returned as
`(int)std::llround(score)`. -/
def eval (w : Weights) (pos : Position) : Int :=
  wrapInt32 (llroundDouble ((List.finRange 64).foldl (evalSquare w pos.b) (some 0)))

/-- The comparator passed to `std::stable_sort` in `alphabeta`:
`(a.captured!=EMPTY) > (b.captured!=EMPTY)`. -/
def captureFirst (a b : Move) : Bool :=
  decide (a.captured ≠ EMPTY) && !decide (b.captured ≠ EMPTY)

/-- Insert `a` in front of the first element that it must precede or equal in rank; elements
already present and not smaller stay behind it. -/
def stableInsert (lt : Move → Move → Bool) (a : Move) : List Move → List Move
  | [] => [a]
  | b :: l => if lt b a then b :: stableInsert lt a l else a :: b :: l

/-- The function `std::stable_sort`: a stable sort for the strict weak order `lt`. -/
def stableSort (lt : Move → Move → Bool) : List Move → List Move
  | [] => []
  | a :: l => stableInsert lt a (stableSort lt l)

/-- The move loop of `Engine::alphabeta`, with `child` the recursive call at `depth-1`. The
position is passed along as in the source: every move is made on, and unmade from, the position
left by the previous iteration. -/
def abLoop (child : Position → Int → Int → Int × Position) :
    List Move → Position → Int → Int → Int × Position
  | [], pos, alpha, _ => (alpha, pos)
  | m :: ms, pos, alpha, beta =>
    let mk := makeMove pos m
    let r := child mk.1 (-beta) (-alpha)
    let val := -r.1
    let pos1 := unmakeMove r.2 m mk.2
    if val ≥ beta then (beta, pos1)
    else abLoop child ms pos1 (if val > alpha then val else alpha) beta

/-- Source: `Engine::alphabeta` with the remaining depth as a natural number (`0` stands for
every `depth <= 0`). Returns the score and the position left in the reference argument. -/
def alphabetaN (w : Weights) : Nat → Position → Int → Int → Int × Position
  | 0, pos, _, _ => (eval w pos * (if pos.whiteToMove then 1 else -1), pos)
  | n + 1, pos, alpha, beta =>
    let moves := genLegalMoves pos
    if moves.isEmpty then (0, pos)
    else abLoop (alphabetaN w n) (stableSort captureFirst moves) pos alpha beta

/-- Source: `Engine::alphabeta`. -/
def alphabeta (w : Weights) (pos : Position) (depth : Int) (alpha beta : Int) : Int × Position :=
  alphabetaN w depth.toNat pos alpha beta

/-- The random source `std::mt19937*` together with the two distributions drawn from it in
`bestMove`, as a stream of draws: `real k` is what `uniform_real_distribution(0,1)` yields at
the `k`-th draw, `index k hi` what `uniform_int_distribution(0,hi)` yields; `used` counts the
draws made so far. -/
structure Rng where
  real : Nat → ℚ
  index : Nat → Nat → Nat
  index_le : ∀ k hi, index k hi ≤ hi
  used : Nat

/-- The score `bestMove` gives to the move `m`: `-alphabeta(p2, depth-1, -10^9, 10^9)` on a copy
of the position after `m`. -/
def moveScore (w : Weights) (pos : Position) (depth : Int) (m : Move) : Int :=
  -(alphabeta w (makeMove pos m).1 (depth - 1) (-1000000000) 1000000000).1

/-- The selection loop of `Engine::bestMove`. -/
def bestLoop (w : Weights) (pos : Position) (depth : Int) : List Move → Int → Move → Move
  | [], _, best => best
  | m :: ms, bestScore, best =>
    let sc := moveScore w pos depth m
    if sc > bestScore then bestLoop w pos depth ms sc m
    else bestLoop w pos depth ms bestScore best

/-- Source: `Engine::bestMove`. `rng = none` is the null pointer; the second component is the
random source after the call. -/
def bestMove (w : Weights) (pos : Position) (depth : Int) (epsilon : ℚ) (rng : Option Rng) :
    Move × Option Rng :=
  let moves := genLegalMoves pos
  if moves.isEmpty then ({}, rng)
  else
    match rng with
    | some g =>
      if epsilon > 0 then
        if g.real g.used < epsilon then
          (moves.getD (g.index (g.used + 1) (moves.length - 1)) {}, some { g with used := g.used + 2 })
        else
          (bestLoop w pos depth moves (-1000000000) (moves.headD {}), some { g with used := g.used + 1 })
      else (bestLoop w pos depth moves (-1000000000) (moves.headD {}), some g)
    | none => (bestLoop w pos depth moves (-1000000000) (moves.headD {}), none)

/-! ## Move text (`src/main.cpp`) -/

def fileCharToX (f : Char) : Int := (f.toNat : Int) - 97
def rankCharToY (r : Char) : Int := (r.toNat : Int) - 49

/-- Source: `sqToStr`: the characters `'a' + sq % 8` and `'1' + sq / 8`. -/
def sqToStr (sq : Int) : List Char :=
  [Char.ofNat (97 + Int.tmod sq 8).toNat, Char.ofNat (49 + Int.tdiv sq 8).toNat]

/-- C `tolower` in the "C" locale, on character codes. -/
def tolower (c : Nat) : Nat := if 65 ≤ c ∧ c ≤ 90 then c + 32 else c

/-- Source: `normPromoChar`; the result `0` is the character `'\0'`. -/
def normPromoChar (c : Char) : Nat :=
  let c1 := tolower c.toNat
  if c1 = 113 ∨ c1 = 114 ∨ c1 = 98 ∨ c1 = 110 then c1 else 0

/-- Source: `parseUciMoveLocal`; `none` is the result `false`. The promotion test is the one of
the source, `std::tolower((unsigned char)m.promo) == promo`, on the enumerator value of
`m.promo`. -/
def parseUciMoveLocal (pos : Position) (uci : List Char) : Option Move :=
  if uci.length < 4 then none
  else
    let fx := fileCharToX (uci.getD 0 ' ')
    let fy := rankCharToY (uci.getD 1 ' ')
    let tx := fileCharToX (uci.getD 2 ' ')
    let ty := rankCharToY (uci.getD 3 ' ')
    if fx < 0 ∨ fx ≥ 8 ∨ fy < 0 ∨ fy ≥ 8 ∨ tx < 0 ∨ tx ≥ 8 ∨ ty < 0 ∨ ty ≥ 8 then none
    else
      let from_ := xyToSq fx fy
      let to_ := xyToSq tx ty
      let promo : Nat := if uci.length ≥ 5 then normPromoChar (uci.getD 4 ' ') else 0
      (genLegalMoves pos).find? fun m =>
        decide (m.from_ = from_ ∧ m.to_ = to_) &&
          (decide (promo = 0) || decide (tolower m.promo.code = promo))

/-- Source: `promoToChar`; `0` is the character `'\0'`. -/
def promoToChar : Piece → Nat
  | WQ | BQ => 113
  | WR | BR => 114
  | WB | BB => 98
  | WN | BN => 110
  | _ => 0

/-- Source: `moveToUciLocal`. The letter is appended as soon as `promoToChar` is non-zero; the
later test on the destination rank only resets the local `pc`, which is not read again. -/
def moveToUciLocal (m : Move) : List Char :=
  let s := sqToStr m.from_ ++ sqToStr m.to_
  let pc := promoToChar m.promo
  if pc ≠ 0 then s ++ [Char.ofNat pc] else s

/-- Source: `moveToUci`. -/
def moveToUci (m : Move) : List Char := moveToUciLocal m

/-! ## The `go` handler (`src/main.cpp`) -/

/-- The lambda `sameMove` of the `go` handler. -/
def sameMove (a b : Move) : Bool :=
  decide (a.from_ = b.from_) && decide (a.to_ = b.to_) && decide (a.promo = b.promo)

/-- Source: the `go` branch of `runUCI`, from the parsed `depth` to the text printed after
`bestmove `. -/
def goBestMoveText (w : Weights) (pos : Position) (depth : Int) : List Char :=
  let bm := (bestMove w pos depth 0 none).1
  let legal := genLegalMoves pos
  let ok := legal.any fun m => sameMove m bm
  let bm1 := if !ok then (if !legal.isEmpty then legal.headD {} else bm) else bm
  let uci := moveToUci bm1
  if uci.length < 4 then "0000".toList else uci

/-! ## Notions used to state the results -/

/-- What `genPseudoLegalMoves` guarantees about each move `m` it emits from `P`: both squares are
on the board, the origin holds a piece of the side to move, a pawn move is a single push, a double
push from the home rank, or a diagonal step onto an enemy piece or the en-passant target, and a
two-square king move from the home square comes with its right and an empty path. -/
structure GenShape (P : Position) (m : Move) : Prop where
  from_lo : 0 ≤ m.from_
  from_hi : m.from_ < 64
  to_lo : 0 ≤ m.to_
  to_hi : m.to_ < 64
  nonempty : getSq P.b m.from_ ≠ EMPTY
  side : isWhite (getSq P.b m.from_) = P.whiteToMove
  wp : getSq P.b m.from_ = WP →
    (m.to_ = m.from_ + 8 ∧ getSq P.b m.to_ = EMPTY) ∨
    (m.to_ = m.from_ + 16 ∧ rankOf m.from_ = 1 ∧ getSq P.b (m.from_ + 8) = EMPTY ∧
      getSq P.b m.to_ = EMPTY) ∨
    ((m.to_ = m.from_ + 7 ∨ m.to_ = m.from_ + 9) ∧ iabs (fileOf m.from_ - fileOf m.to_) = 1 ∧
      ((getSq P.b m.to_ ≠ EMPTY ∧ isWhite (getSq P.b m.to_) = false) ∨ m.to_ = P.epSq))
  bp : getSq P.b m.from_ = BP →
    (m.to_ = m.from_ - 8 ∧ getSq P.b m.to_ = EMPTY) ∨
    (m.to_ = m.from_ - 16 ∧ rankOf m.from_ = 6 ∧ getSq P.b (m.from_ - 8) = EMPTY ∧
      getSq P.b m.to_ = EMPTY) ∨
    ((m.to_ = m.from_ - 7 ∨ m.to_ = m.from_ - 9) ∧ iabs (fileOf m.from_ - fileOf m.to_) = 1 ∧
      ((getSq P.b m.to_ ≠ EMPTY ∧ isWhite (getSq P.b m.to_) = true) ∨ m.to_ = P.epSq))
  wk : getSq P.b m.from_ = WK → m.from_ = 4 →
    (m.to_ = 6 → P.castle &&& 1 ≠ 0 ∧ getSq P.b 5 = EMPTY ∧ getSq P.b 6 = EMPTY) ∧
    (m.to_ = 2 → P.castle &&& 2 ≠ 0 ∧ getSq P.b 3 = EMPTY ∧ getSq P.b 2 = EMPTY ∧
      getSq P.b 1 = EMPTY)
  bk : getSq P.b m.from_ = BK → m.from_ = 60 →
    (m.to_ = 62 → P.castle &&& 4 ≠ 0 ∧ getSq P.b 61 = EMPTY ∧ getSq P.b 62 = EMPTY) ∧
    (m.to_ = 58 → P.castle &&& 8 ≠ 0 ∧ getSq P.b 59 = EMPTY ∧ getSq P.b 58 = EMPTY ∧
      getSq P.b 57 = EMPTY)

/-- The condition under which `makeMove` leaves through its defensive `return`: a pawn changes
file by one, the move is not an en-passant capture and does not land on an enemy piece. -/
def defensiveReturn (P : Position) (m : Move) : Prop :=
  (getSq P.b m.from_ = WP ∨ getSq P.b m.from_ = BP) ∧
  iabs (fileOf m.from_ - fileOf m.to_) = 1 ∧
  ¬ (m.to_ = P.epSq ∧ getSq P.b m.to_ = EMPTY) ∧
  ¬ (getSq P.b m.to_ ≠ EMPTY ∧ isWhite (getSq P.b m.from_) ≠ isWhite (getSq P.b m.to_))

/-- The en-passant target is none or an empty square. -/
def EpTargetEmpty (P : Position) : Prop := P.epSq = -1 ∨ getSq P.b P.epSq = EMPTY

/-- Every castling right that is held has the matching rook on its home corner
(`h1`, `a1`, `h8`, `a8`). -/
def CastleRooksHome (P : Position) : Prop :=
  (P.castle &&& 1 ≠ 0 → getSq P.b 7 = WR) ∧ (P.castle &&& 2 ≠ 0 → getSq P.b 0 = WR) ∧
  (P.castle &&& 4 ≠ 0 → getSq P.b 63 = BR) ∧ (P.castle &&& 8 ≠ 0 → getSq P.b 56 = BR)

instance (P : Position) : Decidable (EpTargetEmpty P) := by
  unfold EpTargetEmpty; infer_instance

instance (P : Position) : Decidable (CastleRooksHome P) := by
  unfold CastleRooksHome; infer_instance

/-- Every castling right that is held has the king of its colour on the home square
(`e1`, `e8`). -/
def CastleKingsHome (P : Position) : Prop :=
  ((P.castle &&& 1 ≠ 0 ∨ P.castle &&& 2 ≠ 0) → getSq P.b 4 = WK) ∧
  ((P.castle &&& 4 ≠ 0 ∨ P.castle &&& 8 ≠ 0) → getSq P.b 60 = BK)

instance (P : Position) : Decidable (CastleKingsHome P) := by
  unfold CastleKingsHome; infer_instance

/-- The castling-rights update of `makeMove` (source lines 364-387) as a function of the rights
before the move, the moved piece, the captured piece and the two squares. -/
def castleAfter (castle : Nat) (p captured : Piece) (from_ to_ : Int) : Nat :=
  let c1 := if p = WK then clearRight castle (1 ||| 2) else castle
  let c2 := if p = BK then clearRight c1 (4 ||| 8) else c1
  let c3 := if p = WR ∧ from_ = 0 then clearRight c2 2 else c2
  let c4 := if p = WR ∧ from_ = 7 then clearRight c3 1 else c3
  let c5 := if p = BR ∧ from_ = 56 then clearRight c4 8 else c4
  let c6 := if p = BR ∧ from_ = 63 then clearRight c5 4 else c5
  let c7 := if captured = WR ∧ to_ = 0 then clearRight c6 2 else c6
  let c8 := if captured = WR ∧ to_ = 7 then clearRight c7 1 else c7
  let c9 := if captured = BR ∧ to_ = 56 then clearRight c8 8 else c8
  if captured = BR ∧ to_ = 63 then clearRight c9 4 else c9

/-- Every bit of `x` is a bit of `c`. -/
def BitsSubset (x c : Nat) : Prop := ∀ i, x.testBit i = true → c.testBit i = true

/-- The piece of the opposite colour and the same kind. -/
def swapColor : Piece → Piece
  | EMPTY => EMPTY
  | WP => BP | WN => BN | WB => BB | WR => BR | WQ => BQ | WK => BK
  | BP => WP | BN => WN | BB => WB | BR => WR | BQ => WQ | BK => WK

/-- The vertically mirrored square: same file, rank `7 - r`. -/
def mirrorSq (i : Fin 64) : Fin 64 := ⟨(7 - i.val / 8) * 8 + i.val % 8, by omega⟩

/-- The square on the same rank and the mirrored file `7 - f`. -/
def fileFlip (i : Fin 64) : Fin 64 := ⟨(i.val / 8) * 8 + (7 - i.val % 8), by omega⟩

/-- The colour-mirrored position: on every square the opposite-colour piece of the piece on the
vertically mirrored square, with the side to move negated. -/
def colorMirror (P : Position) : Position :=
  { P with b := fun i => swapColor (P.b (mirrorSq i)), whiteToMove := !P.whiteToMove }

/-- The colour-swapped position turned by 180 degrees: on square `sq` the opposite-colour piece
of the piece on `63 - sq`, with the side to move negated. -/
def colorRotate (P : Position) : Position :=
  { P with b := fun i => swapColor (P.b (Fin.rev i)), whiteToMove := !P.whiteToMove }

/-- The contribution of square `sq` to a running `score` in exact arithmetic: the statements
of `evalSquare` with the weights as written and no rounding. -/
def evalSquareExact (w : Weights) (b : Board) (score : ℚ) (sq : Fin 64) : ℚ :=
  let p := b sq
  if p = EMPTY then score
  else
    let s0 := w.material (idxPiece p)
    let s1 := if p = WP then s0 + w.pstPawn sq else s0
    let s2 := if p = BP then s1 + w.pstPawn (Fin.rev sq) else s1
    let s3 := if p = WN then s2 + w.pstKnight sq else s2
    let s4 := if p = BN then s3 + w.pstKnight (Fin.rev sq) else s3
    if isWhite p then score + s4 else score - s4

/-- The score in exact arithmetic: the exact total of the 64 squares, rounded to the nearest
integer. -/
def evalExact (w : Weights) (pos : Position) : Int :=
  llround ((List.finRange 64).foldl (evalSquareExact w pos.b) 0)

/-- The signed contribution of square `i` to the exact score. -/
def squareTerm (w : Weights) (b : Board) (i : Fin 64) : ℚ :=
  evalSquareExact w b 0 i

/-- Weights that are whole numbers of absolute value at most `10000000`. -/
def IntegerWeights (w : Weights) : Prop :=
  (∀ k, (w.material k).den = 1 ∧ (w.material k).num.natAbs ≤ 10000000) ∧
  (∀ i, (w.pstPawn i).den = 1 ∧ (w.pstPawn i).num.natAbs ≤ 10000000) ∧
  (∀ i, (w.pstKnight i).den = 1 ∧ (w.pstKnight i).num.natAbs ≤ 10000000)

instance (w : Weights) : Decidable (IntegerWeights w) := by
  unfold IntegerWeights; infer_instance

/-- The positions reachable from the start position by legal play: each step applies `makeMove`
to a move taken from `genLegalMoves` of the current position. -/
inductive Reachable : Position → Prop
  | start : Reachable setStartPos
  | step (P : Position) (m : Move) :
      Reachable P → m ∈ genLegalMoves P → Reachable (makeMove P m).1

/-- Number of squares of the board that hold the piece `k`. -/
def countPiece (b : Board) (k : Piece) : Nat :=
  ((List.finRange 64).filter fun i => decide (b i = k)).length

/-- At most one square holds the piece `k`. -/
def OnePiece (b : Board) (k : Piece) : Prop :=
  ∀ i j : Int, getSq b i = k → getSq b j = k → i = j

/-- The coordinates `(x, y)` name a square of the board. -/
def inside (x y : Int) : Prop := 0 ≤ x ∧ x < 8 ∧ 0 ≤ y ∧ y < 8

instance (x y : Int) : Decidable (inside x y) := by unfold inside; infer_instance

/-- The squares met when leaving `(x, y)` in the direction `(dx, dy)`: every square up to and
including the first occupied one, or up to the edge of the board. -/
def rayPath (b : Board) (dx dy : Int) : Nat → Int → Int → List Int
  | 0, _, _ => []
  | n + 1, x, y =>
    if inside (x + dx) (y + dy) then
      (if getSq b (xyToSq (x + dx) (y + dy)) = EMPTY
        then xyToSq (x + dx) (y + dy) :: rayPath b dx dy n (x + dx) (y + dy)
        else [xyToSq (x + dx) (y + dy)])
    else []

/-- The step `dv` of the source as a direction in coordinates. -/
def IsDir (dv dx dy : Int) : Prop :=
  (dv = 8 ∧ dx = 0 ∧ dy = 1) ∨ (dv = -8 ∧ dx = 0 ∧ dy = -1) ∨
  (dv = 1 ∧ dx = 1 ∧ dy = 0) ∨ (dv = -1 ∧ dx = -1 ∧ dy = 0) ∨
  (dv = 9 ∧ dx = 1 ∧ dy = 1) ∨ (dv = 7 ∧ dx = -1 ∧ dy = 1) ∨
  (dv = -7 ∧ dx = 1 ∧ dy = -1) ∨ (dv = -9 ∧ dx = -1 ∧ dy = -1)

/-- The sign of an integer: `-1`, `0` or `1`. -/
def sgn (x : Int) : Int := if x < 0 then -1 else if x = 0 then 0 else 1

/-- Every square strictly between `s` and `t`, two squares on a common rank, file or diagonal,
is empty. -/
def clearBetween (b : Board) (s t : Int) : Prop :=
  ∀ k : Nat, k < (max (iabs (fileOf t - fileOf s)) (iabs (rankOf t - rankOf s))).toNat → 0 < k →
    getSq b (xyToSq (fileOf s + k * sgn (fileOf t - fileOf s))
      (rankOf s + k * sgn (rankOf t - rankOf s))) = EMPTY

instance (b : Board) (s t : Int) : Decidable (clearBetween b s t) := by
  unfold clearBetween; infer_instance

/-- Geometric reference for `squareAttacked`: the piece on `s` attacks the square `t`, by
coordinates. A pawn attacks the two squares diagonally ahead of it, a knight the squares at an
L-shaped offset, a bishop or queen along a diagonal and a rook or queen along a rank or file as
far as the first occupied square, a king the squares at distance 1. -/
def attacksGeom (b : Board) (s t : Int) (byWhite : Bool) : Prop :=
  let p := getSq b s
  let df := fileOf s - fileOf t
  let dr := rankOf s - rankOf t
  (p = (if byWhite then WP else BP) ∧ iabs df = 1 ∧ dr = (if byWhite then -1 else 1)) ∨
  (p = (if byWhite then WN else BN) ∧
    ((iabs df = 1 ∧ iabs dr = 2) ∨ (iabs df = 2 ∧ iabs dr = 1))) ∨
  ((p = (if byWhite then WB else BB) ∨ p = (if byWhite then WQ else BQ)) ∧
    iabs df = iabs dr ∧ df ≠ 0 ∧ clearBetween b t s) ∨
  ((p = (if byWhite then WR else BR) ∨ p = (if byWhite then WQ else BQ)) ∧
    ((df = 0 ∧ dr ≠ 0) ∨ (dr = 0 ∧ df ≠ 0)) ∧ clearBetween b t s) ∨
  (p = (if byWhite then WK else BK) ∧ max (iabs df) (iabs dr) = 1)

instance (b : Board) (s t : Int) (byWhite : Bool) : Decidable (attacksGeom b s t byWhite) := by
  unfold attacksGeom; infer_instance

/-- The move is a castling move of `makeMove`: the king leaves its home square by two files. -/
def isCastling (P : Position) (m : Move) : Prop :=
  (getSq P.b m.from_ = WK ∧ m.from_ = 4 ∧ (m.to_ = 6 ∨ m.to_ = 2)) ∨
  (getSq P.b m.from_ = BK ∧ m.from_ = 60 ∧ (m.to_ = 62 ∨ m.to_ = 58))

instance (P : Position) (m : Move) : Decidable (isCastling P m) := by
  unfold isCastling; infer_instance

/-- Geometric reference for the non-castling destinations `d` of a knight, bishop, rook, queen
or king `p` standing on `s`: the square does not hold a piece of the colour of `p`, and it is
at an L-shaped offset (knight), on a common diagonal (bishop, queen) or rank or file (rook,
queen) with every square strictly between empty, or at distance 1 (king). -/
def reachesGeom (b : Board) (p : Piece) (s d : Int) : Prop :=
  let df := fileOf d - fileOf s
  let dr := rankOf d - rankOf s
  ¬ (getSq b d ≠ EMPTY ∧ isWhite (getSq b d) = isWhite p) ∧
  (((p = WN ∨ p = BN) ∧ ((iabs df = 1 ∧ iabs dr = 2) ∨ (iabs df = 2 ∧ iabs dr = 1))) ∨
   ((p = WB ∨ p = BB ∨ p = WQ ∨ p = BQ) ∧ iabs df = iabs dr ∧ df ≠ 0 ∧ clearBetween b s d) ∨
   ((p = WR ∨ p = BR ∨ p = WQ ∨ p = BQ) ∧ ((df = 0 ∧ dr ≠ 0) ∨ (dr = 0 ∧ df ≠ 0)) ∧
     clearBetween b s d) ∨
   ((p = WK ∨ p = BK) ∧ max (iabs df) (iabs dr) = 1))

instance (b : Board) (p : Piece) (s d : Int) : Decidable (reachesGeom b p s d) := by
  unfold reachesGeom; infer_instance

/-- The move is an en-passant capture: a pawn changes file and lands on the en-passant target
of the position. -/
def isEnPassant (P : Position) (m : Move) : Prop :=
  (getSq P.b m.from_ = WP ∨ getSq P.b m.from_ = BP) ∧
  iabs (fileOf m.from_ - fileOf m.to_) = 1 ∧ m.to_ = P.epSq

instance (P : Position) (m : Move) : Decidable (isEnPassant P m) := by
  unfold isEnPassant; infer_instance

/-- The en-passant target is none, or an empty square on rank index 2 or 5. -/
def EpTargetRegular (P : Position) : Prop :=
  P.epSq = -1 ∨ (getSq P.b P.epSq = EMPTY ∧ (rankOf P.epSq = 2 ∨ rankOf P.epSq = 5))

instance (P : Position) : Decidable (EpTargetRegular P) := by
  unfold EpTargetRegular; infer_instance

/-- Plain negamax without pruning and without move ordering, the reference of the claim on
`alphabeta`: at depth 0 the evaluation, negated when Black is to move; 0 when there is no legal
move; otherwise the maximum over the legal moves of the negated value of the position after the
move at depth `d - 1`. -/
def negamax (w : Weights) : Nat → Position → Int
  | 0, P => if P.whiteToMove then eval w P else -eval w P
  | d + 1, P =>
    match genLegalMoves P with
    | [] => 0
    | m :: ms =>
      ms.foldl (fun acc x => max acc (-negamax w d (makeMove P x).1))
        (-negamax w d (makeMove P m).1)

/-! ## Bounds-checked mutator -/

/-- Read `b[i]` with the bounds of the 64-square array checked: `none` outside `0..63`. -/
def readSq (b : Board) (i : Int) : Option Piece :=
  if 0 ≤ i ∧ i < 64 then some (getSq b i) else none

/-- Write `b[i] = v` with the bounds of the 64-square array checked: `none` outside `0..63`. -/
def writeSq (b : Board) (i : Int) (v : Piece) : Option Board :=
  if 0 ≤ i ∧ i < 64 then some (setSq b i v) else none

/-- Source: `Position::makeMove`, statement by statement, with every access `b[i]` of the source
made through `readSq` and `writeSq`: the result is `none` as soon as an index outside `0..63`
is read or written. The conditions are evaluated left to right as `&&` does. -/
def makeMoveChecked (P : Position) (m : Move) : Option (Position × Undo) := do
  -- u.captured = b[m.to]; Piece p = b[m.from]
  let captured0 ← readSq P.b m.to_
  let p ← readSq P.b m.from_
  let halfmove := if captured0 ≠ EMPTY ∨ p = WP ∨ p = BP then 0 else wrapInt32 (P.halfmoveClock + 1)
  -- (p==WP || p==BP) && m.to==u.epSq && b[m.to]==EMPTY
  let toEmpty ← (if (p = WP ∨ p = BP) ∧ m.to_ = P.epSq
    then (readSq P.b m.to_).map (fun x => decide (x = EMPTY)) else some false)
  let wasEP : Bool := decide ((p = WP ∨ p = BP) ∧ m.to_ = P.epSq) && toEmpty
  let capSq : Int := if p = WP then m.to_ - 8 else m.to_ + 8
  -- u.captured = b[capSq]; b[capSq] = EMPTY
  let captured ← (if wasEP then readSq P.b capSq else some captured0)
  let b1 ← (if wasEP then writeSq P.b capSq EMPTY else some P.b)
  let u0 : Undo :=
    { captured := captured, halfmoveClock := P.halfmoveClock, epSq := P.epSq, castle := P.castle,
      wasEP := wasEP, epCapturedSq := if wasEP then capSq else -1,
      wasCastle := false, rookFrom := -1, rookTo := -1, rookPiece := EMPTY, movedPiece := p }
  let diagonal : Bool := decide (iabs (fileOf m.from_ - fileOf m.to_) = 1)
  let hasEnemy : Bool := decide (captured ≠ EMPTY) && (isWhite p != isWhite captured)
  if (p = WP ∨ p = BP) ∧ diagonal = true ∧ wasEP = false ∧ hasEnemy = false then
    some ({ P with b := b1, epSq := -1, halfmoveClock := halfmove }, u0)
  else do
    -- b[m.from] = EMPTY; b[m.to] = put
    let put := if m.promo ≠ EMPTY then m.promo else p
    let b2a ← writeSq b1 m.from_ EMPTY
    let b2 ← writeSq b2a m.to_ put
    -- m.from/8==1 && m.to/8==3 && b[m.to]==WP, and the same for Black
    let ep ←
      (if p = WP then
        (if Int.tdiv m.from_ 8 = 1 ∧ Int.tdiv m.to_ 8 = 3
          then (readSq b2 m.to_).map (fun x => if x = WP then m.from_ + 8 else -1) else some (-1))
      else if p = BP then
        (if Int.tdiv m.from_ 8 = 6 ∧ Int.tdiv m.to_ 8 = 4
          then (readSq b2 m.to_).map (fun x => if x = BP then m.from_ - 8 else -1) else some (-1))
      else some (-1))
    -- the update of the castling rights (lines 364-387) touches no square
    let c10 := castleAfter P.castle p captured m.from_ m.to_
    -- u.rookPiece = b[5]; b[5] = WR; b[7] = EMPTY (and b[3], b[0])
    let wc : Bool := decide (p = WK ∧ m.from_ = 4 ∧ (m.to_ = 6 ∨ m.to_ = 2))
    let r1 ←
      (if wc then
        (if m.to_ = 6 then do
          let rp ← readSq b2 5
          let x ← writeSq b2 5 WR
          let y ← writeSq x 7 EMPTY
          some ({ u0 with wasCastle := true, rookFrom := 7, rookTo := 5, rookPiece := rp }, y)
         else do
          let rp ← readSq b2 3
          let x ← writeSq b2 3 WR
          let y ← writeSq x 0 EMPTY
          some ({ u0 with wasCastle := true, rookFrom := 0, rookTo := 3, rookPiece := rp }, y))
      else some (u0, b2))
    -- u.rookPiece = b[61]; b[61] = BR; b[63] = EMPTY (and b[59], b[56])
    let bc : Bool := decide (p = BK ∧ m.from_ = 60 ∧ (m.to_ = 62 ∨ m.to_ = 58))
    let r2 ←
      (if bc then
        (if m.to_ = 62 then do
          let rp ← readSq r1.2 61
          let x ← writeSq r1.2 61 BR
          let y ← writeSq x 63 EMPTY
          some ({ r1.1 with wasCastle := true, rookFrom := 63, rookTo := 61, rookPiece := rp }, y)
         else do
          let rp ← readSq r1.2 59
          let x ← writeSq r1.2 59 BR
          let y ← writeSq x 56 EMPTY
          some ({ r1.1 with wasCastle := true, rookFrom := 56, rookTo := 59, rookPiece := rp }, y))
      else some r1)
    some ({ b := r2.2, whiteToMove := !P.whiteToMove, halfmoveClock := halfmove, epSq := ep,
            castle := c10 }, r2.1)

/-- Source: `Position::unmakeMove`, with every access `b[i]` checked. -/
def unmakeMoveChecked (P : Position) (m : Move) (u : Undo) : Option Position := do
  -- b[u.rookFrom] = ...; b[u.rookTo] = EMPTY
  let b1 ←
    (if u.wasCastle ∧ u.rookFrom ≠ -1 ∧ u.rookTo ≠ -1 then do
      let x ← writeSq P.b u.rookFrom (if isWhite u.movedPiece then WR else BR)
      writeSq x u.rookTo EMPTY
    else some P.b)
  -- b[m.from] = moved; b[m.to] = u.captured
  let b2 ← writeSq b1 m.from_ u.movedPiece
  let b3 ← writeSq b2 m.to_ u.captured
  -- b[capSq] = u.captured; b[m.to] = EMPTY
  let b4 ←
    (if u.wasEP then do
      let x ← writeSq b3 u.epCapturedSq u.captured
      writeSq x m.to_ EMPTY
    else some b3)
  some { b := b4, whiteToMove := !P.whiteToMove, halfmoveClock := u.halfmoveClock, epSq := u.epSq,
         castle := u.castle }

/-! ## Concrete positions used below -/

/-- King and queen against a bare king, Black to move and stalemated (`h8`, `f7`, `g6`). -/
def stalematePos : Position := setFEN "7k/5K2/6Q1/8/8/8/8/8 b - - 0 1"

/-- White pawn `e2`, white knight `d3`, and an en-passant field `d3` in the FEN: the target
square is occupied by a piece of the side to move; halfmove clock 7. -/
def epOnOwnPiecePos : Position := setFEN "4k3/8/8/8/8/3N4/4P3/4K3 w - d3 7 1"

/-- The start position after the legal move `g1f3` (halfmove clock 1, Black to move). -/
def afterNf3Pos : Position := (makeMove setStartPos { from_ := 6, to_ := 21 }).1

/-- A white pawn on `a7` about to promote. -/
def promoPos : Position := setFEN "4k3/P7/8/8/8/8/8/4K3 w - - 0 1"

/-- A bare white king on `e1` with the kingside right in the FEN but no rook on `h1`. -/
def castleNoRookPos : Position := setFEN "4k3/8/8/8/8/8/8/4K3 w K - 0 1"

/-- As `epOnOwnPiecePos`, with a black rook on `a1` giving check to the white king. -/
def epOnOwnPieceCheckPos : Position := setFEN "4k3/8/8/8/8/3N4/4P3/r3K3 w - d3 0 1"

/-- Default weights, except for the pawn-table entry of `a2`, set to 10. -/
def weightsA2 : Weights :=
  { material := defaultWeights.material
    pstPawn := fun i => if i.val = 8 then 10 else 0
    pstKnight := fun _ => 0 }

/-- Default material, both tables zero except for the pawn-table entries of the third, fourth
and fifth ranks: `1/5`, `1/10` and `1/5` on every file (the tables are symmetric under the file
mirroring). -/
def weightsTenths : Weights :=
  { material := defaultWeights.material
    pstPawn := fun i =>
      if i.val / 8 = 2 then 1 / 5 else if i.val / 8 = 3 then 1 / 10
      else if i.val / 8 = 4 then 1 / 5 else 0
    pstKnight := fun _ => 0 }

/-- Kings on their home squares and white pawns on `a2`, `a3`, `a4`, `a5`, White to move (the
position of the FEN `4k3/8/8/P7/P7/P7/P7/4K3 w - - 0 1`). -/
def fourPawnsPos : Position :=
  { b := fun i =>
      if i.val = 4 then WK else if i.val = 60 then BK
      else if i.val = 8 ∨ i.val = 16 ∨ i.val = 24 ∨ i.val = 32 then WP else EMPTY
    whiteToMove := true, halfmoveClock := 0, epSq := -1, castle := 0 }

/-- Bare kings on their home squares with the halfmove clock at the largest `int`. -/
def clockMaxPos : Position := setFEN "4k3/8/8/8/8/8/8/4K3 w - - 2147483647 1"

/-- Kings on their home squares and a white pawn on `a2`. -/
def pawnA2Pos : Position := setFEN "4k3/8/8/8/8/8/P7/4K3 w - - 0 1"

/-- A white pawn `e5` beside a black pawn `d5`, with the en-passant target `d6`. -/
def epWhitePos : Position := setFEN "4k3/8/8/3pP3/8/8/8/4K3 w - d6 0 1"

/-- Kings and rooks on their home squares, all four rights held, White to move. -/
def castleAllPos : Position := setFEN "r3k2r/8/8/8/8/8/8/R3K2R w KQkq - 0 1"

/-- A white king on `a2` (8) and a black rook on `h1` (7): neighbours by index, not on the
board. -/
def wrapProbePos : Position := setFEN "4k3/8/8/8/8/8/K7/7r w - - 0 1"

/-- A white bishop on `c1`, a white knight on `b1`, a white pawn on `d2`, a black pawn on `a3`. -/
def minorPiecesPos : Position := setFEN "4k3/8/8/8/8/p7/3P4/1NB1K3 w - - 0 1"

/-- A white pawn on `e7` and an en-passant field `d8` in the FEN. -/
def epLastRankPos : Position := setFEN "4k3/4P3/8/8/8/8/8/4K3 w - d8 0 1"

/-- The position `pawnA2Pos` with colours swapped and turned by 180 degrees (a black pawn on
`h7`), with other values in the remaining fields. -/
def rotatedA2Pos : Position :=
  { b := fun i => swapColor (pawnA2Pos.b (Fin.rev i)), whiteToMove := true, halfmoveClock := 5,
    epSq := -1, castle := 0 }

/-! ## Board and piece lemmas -/

theorem getSq_setSq (b : Board) (i : Int) (v : Piece) (k : Int) :
    getSq (setSq b i v) k = if k = i ∧ 0 ≤ k ∧ k < 64 then v else getSq b k := by
  unfold getSq setSq
  by_cases h : 0 ≤ k ∧ k < 64
  · simp only [h, and_self, dite_true, and_true]
    have : ((k.toNat : Nat) : Int) = k := by omega
    simp only [this]
  · simp only [h, dite_false, and_false, if_false]

theorem getSq_coe (b : Board) (j : Fin 64) : getSq b (j.val : Int) = b j := by
  unfold getSq
  have h : 0 ≤ (j.val : Int) ∧ (j.val : Int) < 64 := by omega
  simp [h]

theorem board_ext (b b' : Board) (h : ∀ k : Int, 0 ≤ k → k < 64 → getSq b k = getSq b' k) :
    b = b' := by
  funext j
  have := h (j.val : Int) (by omega) (by omega)
  simpa [getSq_coe] using this

theorem onBoard_iff (sq : Int) : onBoard sq = true ↔ 0 ≤ sq ∧ sq < 64 := by
  simp [onBoard]

theorem slideRay_shape (b : Board) (sq : Int) (p : Piece) (dv : Int) (m : Move) :
    ∀ (n : Nat) (prev : Int), m ∈ slideRay b sq p dv n prev →
      m.from_ = sq ∧ 0 ≤ m.to_ ∧ m.to_ < 64 := by
  intro n
  induction n with
  | zero => intro prev h; simp [slideRay] at h
  | succ n ih =>
    intro prev h
    simp only [slideRay] at h
    split_ifs at h with h1 h2 h3 h4 h5
    · simp at h
    · simp at h
    · simp at h
    · have hb : onBoard (prev + dv) = true := by simpa using h1
      rw [onBoard_iff] at hb
      rcases List.mem_cons.1 h with h | h
      · subst h; simp [addMove]; omega
      · exact ih _ h
    · have hb : onBoard (prev + dv) = true := by simpa using h1
      rw [onBoard_iff] at hb
      simp at h
      subst h; simp [addMove]; omega
    · simp at h

@[simp] theorem isWhite_WP : isWhite WP = true := rfl
@[simp] theorem isWhite_BP : isWhite BP = false := rfl
@[simp] theorem isWhite_EMPTY : isWhite EMPTY = false := rfl
@[simp] theorem isWhite_WN : isWhite WN = true := rfl
@[simp] theorem isWhite_WB : isWhite WB = true := rfl
@[simp] theorem isWhite_WR : isWhite WR = true := rfl
@[simp] theorem isWhite_WQ : isWhite WQ = true := rfl
@[simp] theorem isWhite_WK : isWhite WK = true := rfl
@[simp] theorem isWhite_BN : isWhite BN = false := rfl
@[simp] theorem isWhite_BB : isWhite BB = false := rfl
@[simp] theorem isWhite_BR : isWhite BR = false := rfl
@[simp] theorem isWhite_BQ : isWhite BQ = false := rfl
@[simp] theorem isWhite_BK : isWhite BK = false := rfl

theorem knightMoves_shape (b : Board) (sq : Int) (p : Piece) (m : Move)
    (h : m ∈ knightMoves b sq p) : m.from_ = sq ∧ 0 ≤ m.to_ ∧ m.to_ < 64 := by
  simp only [knightMoves, List.mem_flatMap] at h
  obtain ⟨dv, _, h⟩ := h
  split_ifs at h with h1 h2 h3
  · simp at h
  · simp at h
  · have hb : onBoard (sq + dv) = true := by simpa using h1
    rw [onBoard_iff] at hb
    simp at h
    subst h; simp [addMove]; omega
  · simp at h


theorem pawnMoves_shape_white (P : Position) (sq : Int) (m : Move)
    (hsq : 0 ≤ sq ∧ sq < 64) (h : m ∈ pawnMoves P sq WP) :
    m.from_ = sq ∧ 0 ≤ m.to_ ∧ m.to_ < 64 ∧
    ((m.to_ = sq + 8 ∧ getSq P.b m.to_ = EMPTY) ∨
     (m.to_ = sq + 16 ∧ rankOf sq = 1 ∧ getSq P.b (sq + 8) = EMPTY ∧ getSq P.b m.to_ = EMPTY) ∨
     ((m.to_ = sq + 7 ∨ m.to_ = sq + 9) ∧ iabs (fileOf sq - fileOf m.to_) = 1 ∧
       ((getSq P.b m.to_ ≠ EMPTY ∧ isWhite (getSq P.b m.to_) = false) ∨ m.to_ = P.epSq))) := by
  unfold pawnMoves at h
  simp only [List.mem_append, List.mem_flatMap, List.mem_cons, List.mem_singleton,
    List.not_mem_nil, or_false, if_true, true_and, false_and, reduceCtorEq, if_false,
    promoMoves, addMove, onBoard_iff, exists_eq_or_imp, exists_eq_left, false_or, one_mul,
    Bool.not_eq_true', Bool.not_eq_true, isWhite_WP] at h
  rcases h with h | h | h
  · split_ifs at h with c1 c2 c3 c4 <;>
    simp only [List.mem_append, List.mem_cons, List.mem_singleton, List.not_mem_nil, or_false,
      false_or, or_self, or_assoc] at h <;>
    (try rcases h with rfl | rfl | rfl | rfl | rfl) <;>
    (refine ⟨rfl, by dsimp only; omega, by dsimp only; omega, ?_⟩) <;>
    simp_all
  all_goals
    split_ifs at h with c1 c2 c3 c4 <;>
    simp only [List.mem_append, List.mem_cons, List.mem_singleton, List.not_mem_nil, or_false,
      false_or, or_self, or_assoc] at h <;>
    (try rcases h with rfl | rfl | rfl | rfl | rfl) <;>
    (try simp only [Bool.not_eq_false, onBoard_iff] at c2) <;>
    (refine ⟨rfl, by dsimp only; omega, by dsimp only; omega,
      Or.inr (Or.inr ⟨by dsimp only; omega, ?_, ?_⟩)⟩) <;>
    first
      | (simp only [iabs, fileOf] at *; split_ifs <;> omega)
      | simp_all


theorem pawnMoves_shape_black (P : Position) (sq : Int) (m : Move)
    (hsq : 0 ≤ sq ∧ sq < 64) (h : m ∈ pawnMoves P sq BP) :
    m.from_ = sq ∧ 0 ≤ m.to_ ∧ m.to_ < 64 ∧
    ((m.to_ = sq - 8 ∧ getSq P.b m.to_ = EMPTY) ∨
     (m.to_ = sq - 16 ∧ rankOf sq = 6 ∧ getSq P.b (sq - 8) = EMPTY ∧ getSq P.b m.to_ = EMPTY) ∨
     ((m.to_ = sq - 7 ∨ m.to_ = sq - 9) ∧ iabs (fileOf sq - fileOf m.to_) = 1 ∧
       ((getSq P.b m.to_ ≠ EMPTY ∧ isWhite (getSq P.b m.to_) = true) ∨ m.to_ = P.epSq))) := by
  unfold pawnMoves at h
  simp only [List.mem_append, List.mem_flatMap, List.mem_cons, List.mem_singleton,
    List.not_mem_nil, or_false, if_true, true_and, false_and, reduceCtorEq, if_false,
    promoMoves, addMove, onBoard_iff, exists_eq_or_imp, exists_eq_left, false_or, one_mul,
    Bool.not_eq_true', Bool.not_eq_true, isWhite_BP, neg_mul, Int.reduceNeg, Int.reduceMul] at h
  have e8 : sq + -8 = sq - 8 := by omega
  have e16 : sq + -16 = sq - 16 := by omega
  simp only [e8, e16] at h
  rcases h with h | h | h
  · split_ifs at h with c1 c2 c3 c4 <;>
    simp only [List.mem_append, List.mem_cons, List.mem_singleton, List.not_mem_nil, or_false,
      false_or, or_self, or_assoc] at h <;>
    (try rcases h with rfl | rfl | rfl | rfl | rfl) <;>
    (refine ⟨rfl, by dsimp only; omega, by dsimp only; omega, ?_⟩) <;>
    simp_all
  all_goals
    split_ifs at h with c1 c2 c3 c4 <;>
    simp only [List.mem_append, List.mem_cons, List.mem_singleton, List.not_mem_nil, or_false,
      false_or, or_self, or_assoc] at h <;>
    (try rcases h with rfl | rfl | rfl | rfl | rfl) <;>
    (try simp only [Bool.not_eq_false, onBoard_iff] at c2) <;>
    (refine ⟨rfl, by dsimp only; omega, by dsimp only; omega,
      Or.inr (Or.inr ⟨by dsimp only; omega, ?_, ?_⟩)⟩) <;>
    first
      | (simp only [iabs, fileOf] at *; split_ifs <;> omega)
      | simp_all


theorem kingSteps_shape (b : Board) (sq : Int) (p : Piece) (m : Move)
    (h : m ∈ kingDeltas.flatMap fun dv =>
      let to_ := sq + dv
      if !onBoard to_ then []
      else if iabs (fileOf to_ - fileOf sq) > 1 then []
      else if getSq b to_ = EMPTY ∨ isWhite (getSq b to_) ≠ isWhite p then [addMove b sq to_]
      else []) :
    m.from_ = sq ∧ 0 ≤ m.to_ ∧ m.to_ < 64 ∧ (sq = 4 → m.to_ ≠ 6 ∧ m.to_ ≠ 2) ∧
      (sq = 60 → m.to_ ≠ 62 ∧ m.to_ ≠ 58) := by
  simp only [List.mem_flatMap] at h
  obtain ⟨dv, hdv, h⟩ := h
  split_ifs at h with h1 h2 h3
  · simp at h
  · simp at h
  · have hb : onBoard (sq + dv) = true := by simpa using h1
    rw [onBoard_iff] at hb
    simp at h
    subst h
    simp only [kingDeltas, List.mem_cons, List.mem_singleton, List.not_mem_nil, or_false] at hdv
    rcases hdv with h | h | h | h | h | h | h | h <;> subst h <;>
      simp [addMove] <;> omega
  · simp at h

theorem kingMoves_shape (P : Position) (sq : Int) (p : Piece) (m : Move)
    (h : m ∈ kingMoves P sq p) :
    m.from_ = sq ∧ 0 ≤ m.to_ ∧ m.to_ < 64 ∧
    (p = WK → sq = 4 →
      (m.to_ = 6 → P.castle &&& 1 ≠ 0 ∧ getSq P.b 5 = EMPTY ∧ getSq P.b 6 = EMPTY) ∧
      (m.to_ = 2 → P.castle &&& 2 ≠ 0 ∧ getSq P.b 3 = EMPTY ∧ getSq P.b 2 = EMPTY ∧
        getSq P.b 1 = EMPTY)) ∧
    (p = BK → sq = 60 →
      (m.to_ = 62 → P.castle &&& 4 ≠ 0 ∧ getSq P.b 61 = EMPTY ∧ getSq P.b 62 = EMPTY) ∧
      (m.to_ = 58 → P.castle &&& 8 ≠ 0 ∧ getSq P.b 59 = EMPTY ∧ getSq P.b 58 = EMPTY ∧
        getSq P.b 57 = EMPTY)) := by
  unfold kingMoves at h
  simp only [List.mem_append] at h
  rcases h with (h | h) | h
  · obtain ⟨h1, h2, h3, h4, h5⟩ := kingSteps_shape P.b sq p m h
    refine ⟨h1, h2, h3, ?_, ?_⟩
    · intro _ hs
      exact ⟨fun h6 => absurd h6 (h4 hs).1, fun h2 => absurd h2 (h4 hs).2⟩
    · intro _ hs
      exact ⟨fun h6 => absurd h6 (h5 hs).1, fun h2 => absurd h2 (h5 hs).2⟩
  · split_ifs at h with c1 c2 c3 <;>
    simp only [List.mem_append, List.mem_cons, List.mem_singleton, List.not_mem_nil, or_false,
      false_or, or_self, List.append_nil, List.nil_append] at h <;>
    (try rcases h with rfl | rfl) <;>
    simp_all [addMove]
  · split_ifs at h with c1 c2 c3 <;>
    simp only [List.mem_append, List.mem_cons, List.mem_singleton, List.not_mem_nil, or_false,
      false_or, or_self, List.append_nil, List.nil_append] at h <;>
    (try rcases h with rfl | rfl) <;>
    simp_all [addMove]


theorem side_of_guards (P : Position) (p : Piece) (h0 : p ≠ EMPTY)
    (h1 : ¬ (P.whiteToMove = true ∧ isWhite p = false))
    (h2 : ¬ (P.whiteToMove = false ∧ isBlack p = false)) :
    isWhite p = P.whiteToMove := by
  cases hw : P.whiteToMove <;> cases p <;> simp_all [isWhite, isBlack, Piece.code]

theorem movesFrom_shape (P : Position) (sq : Int) (m : Move) (hsq : 0 ≤ sq ∧ sq < 64)
    (h : m ∈ movesFrom P sq) : GenShape P m := by
  unfold movesFrom at h
  simp only at h
  split_ifs at h with c0 c1 c2 cp cn cb cr cq ck
  · simp at h
  · simp at h
  · simp at h
  · have hside := side_of_guards P _ c0 c1 c2
    rcases cp with cp | cp
    · rw [cp] at h
      obtain ⟨h1, h2, h3, h4⟩ := pawnMoves_shape_white P sq m hsq h
      subst h1
      exact ⟨hsq.1, hsq.2, h2, h3, c0, hside, fun _ => h4, fun h => by simp [cp] at h,
        fun h => by simp [cp] at h, fun h => by simp [cp] at h⟩
    · rw [cp] at h
      obtain ⟨h1, h2, h3, h4⟩ := pawnMoves_shape_black P sq m hsq h
      subst h1
      exact ⟨hsq.1, hsq.2, h2, h3, c0, hside, fun h => by simp [cp] at h, fun _ => h4,
        fun h => by simp [cp] at h, fun h => by simp [cp] at h⟩
  · have hside := side_of_guards P _ c0 c1 c2
    obtain ⟨h1, h2, h3⟩ := knightMoves_shape P.b sq _ m h
    subst h1
    exact ⟨hsq.1, hsq.2, h2, h3, c0, hside, fun h => by simp [h] at cp,
      fun h => by simp [h] at cp, fun h => by simp [h] at cn, fun h => by simp [h] at cn⟩
  · have hside := side_of_guards P _ c0 c1 c2
    simp only [slide, List.mem_flatMap] at h
    obtain ⟨dv, _, h⟩ := h
    obtain ⟨h1, h2, h3⟩ := slideRay_shape P.b sq _ dv m 8 sq h
    subst h1
    exact ⟨hsq.1, hsq.2, h2, h3, c0, hside, fun h => by simp [h] at cp,
      fun h => by simp [h] at cp, fun h => by simp [h] at cb, fun h => by simp [h] at cb⟩
  · have hside := side_of_guards P _ c0 c1 c2
    simp only [slide, List.mem_flatMap] at h
    obtain ⟨dv, _, h⟩ := h
    obtain ⟨h1, h2, h3⟩ := slideRay_shape P.b sq _ dv m 8 sq h
    subst h1
    exact ⟨hsq.1, hsq.2, h2, h3, c0, hside, fun h => by simp [h] at cp,
      fun h => by simp [h] at cp, fun h => by simp [h] at cr, fun h => by simp [h] at cr⟩
  · have hside := side_of_guards P _ c0 c1 c2
    simp only [slide, List.mem_flatMap] at h
    obtain ⟨dv, _, h⟩ := h
    obtain ⟨h1, h2, h3⟩ := slideRay_shape P.b sq _ dv m 8 sq h
    subst h1
    exact ⟨hsq.1, hsq.2, h2, h3, c0, hside, fun h => by simp [h] at cp,
      fun h => by simp [h] at cp, fun h => by simp [h] at cq, fun h => by simp [h] at cq⟩
  · have hside := side_of_guards P _ c0 c1 c2
    obtain ⟨h1, h2, h3, h4, h5⟩ := kingMoves_shape P sq _ m h
    subst h1
    exact ⟨hsq.1, hsq.2, h2, h3, c0, hside, fun h => by simp [h] at cp,
      fun h => by simp [h] at cp, h4, h5⟩
  · simp at h

theorem genPseudoLegalMoves_shape (P : Position) (m : Move) (h : m ∈ genPseudoLegalMoves P) :
    GenShape P m := by
  simp only [genPseudoLegalMoves, List.mem_flatMap, List.mem_range] at h
  obtain ⟨i, hi, h⟩ := h
  exact movesFrom_shape P (i : Int) m ⟨by omega, by omega⟩ h

theorem genLegalMoves_subset (P : Position) (m : Move) (h : m ∈ genLegalMoves P) :
    m ∈ genPseudoLegalMoves P := by
  simp only [genLegalMoves, List.mem_filter] at h
  exact h.1


theorem makeMove_whiteToMove (P : Position) (m : Move) (h : ¬ defensiveReturn P m) :
    (makeMove P m).1.whiteToMove = !P.whiteToMove := by
  unfold defensiveReturn at h
  unfold makeMove
  lift_lets
  intro captured0 p halfmove wasEP capSq captured b1 u0 diagonal hasEnemy put b2 ep
    c1 c2 c3 c4 c5 c6 c7 c8 c9 c10 wc u1 b3 bc u2 b4
  split_ifs with hg
  · exfalso
    apply h
    obtain ⟨g1, g2, g3, g4⟩ := hg
    have h5 : ¬ (m.to_ = P.epSq ∧ getSq P.b m.to_ = EMPTY) := by
      intro h3
      have hw : wasEP = true := decide_eq_true ⟨g1, h3⟩
      rw [hw] at g3
      exact absurd g3 (by decide)
    refine ⟨g1, by simpa [diagonal] using g2, h5, ?_⟩
    intro h4
    have hc : captured = getSq P.b m.to_ := by
      show (if wasEP = true then _ else _) = _
      rw [g3]; rfl
    have g5 : (decide (captured ≠ EMPTY) && (isWhite p != isWhite captured)) = false := g4
    rw [hc] at g5
    have h6 : isWhite p ≠ isWhite (getSq P.b m.to_) := h4.2
    simp [h4.1, h6] at g5
  · rfl

theorem not_defensiveReturn_of_shape (P : Position) (m : Move) (hs : GenShape P m)
    (hep : EpTargetEmpty P) : ¬ defensiveReturn P m := by
  rintro ⟨hp, hd, hne, hnc⟩
  have hto : getSq P.b m.to_ = EMPTY ∨ m.to_ ≠ P.epSq := by
    rcases hep with h | h
    · right; have := hs.to_lo; omega
    · by_cases h2 : m.to_ = P.epSq
      · left; rw [h2]; exact h
      · right; exact h2
  rcases hp with hp | hp
  · rcases hs.wp hp with ⟨h1, _⟩ | ⟨h1, _⟩ | ⟨_, _, h3 | h3⟩
    · rw [h1] at hd; simp only [iabs, fileOf] at hd; split_ifs at hd <;> omega
    · rw [h1] at hd; simp only [iabs, fileOf] at hd; split_ifs at hd <;> omega
    · apply hnc; rw [hp]; simp [h3.1, h3.2]
    · rcases hto with h | h
      · exact hne ⟨h3, h⟩
      · exact h h3
  · rcases hs.bp hp with ⟨h1, _⟩ | ⟨h1, _⟩ | ⟨_, _, h3 | h3⟩
    · rw [h1] at hd; simp only [iabs, fileOf] at hd; split_ifs at hd <;> omega
    · rw [h1] at hd; simp only [iabs, fileOf] at hd; split_ifs at hd <;> omega
    · apply hnc; rw [hp]; simp [h3.1, h3.2]
    · rcases hto with h | h
      · exact hne ⟨h3, h⟩
      · exact h h3

/-- The guard of the defensive return, as `makeMove` evaluates it. -/
theorem makeMove_guard_iff (P : Position) (m : Move) :
    ((getSq P.b m.from_ = WP ∨ getSq P.b m.from_ = BP) ∧
      decide (iabs (fileOf m.from_ - fileOf m.to_) = 1) = true ∧
      decide ((getSq P.b m.from_ = WP ∨ getSq P.b m.from_ = BP) ∧ m.to_ = P.epSq ∧
        getSq P.b m.to_ = EMPTY) = false ∧
      (decide ((if decide ((getSq P.b m.from_ = WP ∨ getSq P.b m.from_ = BP) ∧ m.to_ = P.epSq ∧
            getSq P.b m.to_ = EMPTY) = true
          then getSq P.b (if getSq P.b m.from_ = WP then m.to_ - 8 else m.to_ + 8)
          else getSq P.b m.to_) ≠ EMPTY) &&
        (isWhite (getSq P.b m.from_) !=
          isWhite (if decide ((getSq P.b m.from_ = WP ∨ getSq P.b m.from_ = BP) ∧ m.to_ = P.epSq ∧
            getSq P.b m.to_ = EMPTY) = true
          then getSq P.b (if getSq P.b m.from_ = WP then m.to_ - 8 else m.to_ + 8)
          else getSq P.b m.to_))) = false) ↔ defensiveReturn P m := by
  unfold defensiveReturn
  constructor
  · rintro ⟨g1, g2, g3, g4⟩
    have h5 : ¬ (m.to_ = P.epSq ∧ getSq P.b m.to_ = EMPTY) := by
      intro h3
      rw [decide_eq_true ⟨g1, h3⟩] at g3
      exact absurd g3 (by decide)
    refine ⟨g1, by simpa using g2, h5, ?_⟩
    intro h4
    rw [g3] at g4
    have h6 : isWhite (getSq P.b m.from_) ≠ isWhite (getSq P.b m.to_) := h4.2
    simp [h4.1, h6] at g4
  · rintro ⟨g1, g2, g3, g4⟩
    have h3 : decide ((getSq P.b m.from_ = WP ∨ getSq P.b m.from_ = BP) ∧ m.to_ = P.epSq ∧
        getSq P.b m.to_ = EMPTY) = false := decide_eq_false (fun h => g3 h.2)
    refine ⟨g1, by simpa using g2, h3, ?_⟩
    rw [h3]
    by_cases h1 : getSq P.b m.to_ = EMPTY
    · simp [h1]
    · have h2 : isWhite (getSq P.b m.from_) = isWhite (getSq P.b m.to_) := by
        by_contra h3; exact g4 ⟨h1, h3⟩
      simp [h2]

/-- The undo record: the fields filled before the defensive check. -/
theorem makeMove_undo_basic (P : Position) (m : Move) :
    (makeMove P m).2.halfmoveClock = P.halfmoveClock ∧
    (makeMove P m).2.epSq = P.epSq ∧
    (makeMove P m).2.castle = P.castle ∧
    (makeMove P m).2.movedPiece = getSq P.b m.from_ ∧
    (makeMove P m).2.wasEP = decide ((getSq P.b m.from_ = WP ∨ getSq P.b m.from_ = BP) ∧
      m.to_ = P.epSq ∧ getSq P.b m.to_ = EMPTY) ∧
    (makeMove P m).2.captured =
      (if (getSq P.b m.from_ = WP ∨ getSq P.b m.from_ = BP) ∧ m.to_ = P.epSq ∧
          getSq P.b m.to_ = EMPTY
       then getSq P.b (if getSq P.b m.from_ = WP then m.to_ - 8 else m.to_ + 8)
       else getSq P.b m.to_) ∧
    (makeMove P m).2.epCapturedSq =
      (if (getSq P.b m.from_ = WP ∨ getSq P.b m.from_ = BP) ∧ m.to_ = P.epSq ∧
          getSq P.b m.to_ = EMPTY
       then (if getSq P.b m.from_ = WP then m.to_ - 8 else m.to_ + 8) else -1) := by
  unfold makeMove
  lift_lets
  intro captured0 p halfmove wasEP capSq captured b1 u0 diagonal hasEnemy put b2 ep
    c1 c2 c3 c4 c5 c6 c7 c8 c9 c10 wc u1 b3 bc u2 b4
  have hu1 : u1.halfmoveClock = u0.halfmoveClock ∧ u1.epSq = u0.epSq ∧ u1.castle = u0.castle ∧
      u1.movedPiece = u0.movedPiece ∧ u1.wasEP = u0.wasEP ∧ u1.captured = u0.captured ∧
      u1.epCapturedSq = u0.epCapturedSq := by
    clear_value u0 wc b2
    simp only [u1]
    split_ifs <;> exact ⟨rfl, rfl, rfl, rfl, rfl, rfl, rfl⟩
  have hu2 : u2.halfmoveClock = u0.halfmoveClock ∧ u2.epSq = u0.epSq ∧ u2.castle = u0.castle ∧
      u2.movedPiece = u0.movedPiece ∧ u2.wasEP = u0.wasEP ∧ u2.captured = u0.captured ∧
      u2.epCapturedSq = u0.epCapturedSq := by
    clear_value u1 bc b3 u0
    simp only [u2]
    split_ifs <;> exact hu1
  have hcap : u0.captured = (if (p = WP ∨ p = BP) ∧ m.to_ = P.epSq ∧ getSq P.b m.to_ = EMPTY
      then getSq P.b capSq else getSq P.b m.to_) := by
    simp only [u0, captured, wasEP, captured0, decide_eq_true_eq]
  have hsq : u0.epCapturedSq =
      (if (p = WP ∨ p = BP) ∧ m.to_ = P.epSq ∧ getSq P.b m.to_ = EMPTY then capSq else -1) := by
    simp only [u0, wasEP, decide_eq_true_eq]
  by_cases hg : (p = WP ∨ p = BP) ∧ diagonal = true ∧ wasEP = false ∧ hasEnemy = false
  · rw [if_pos hg]
    exact ⟨rfl, rfl, rfl, rfl, rfl, hcap, hsq⟩
  · rw [if_neg hg]
    obtain ⟨a1, a2, a3, a4, a5, a6, a7⟩ := hu2
    exact ⟨a1, a2, a3, a4, a5, a6.trans hcap, a7.trans hsq⟩

/-- The board after a move that is not stopped by the defensive return. -/
theorem makeMove_board (P : Position) (m : Move) (h : ¬ defensiveReturn P m) :
    (makeMove P m).1.b =
      (let p := getSq P.b m.from_
       let b1 := if (p = WP ∨ p = BP) ∧ m.to_ = P.epSq ∧ getSq P.b m.to_ = EMPTY
         then setSq P.b (if p = WP then m.to_ - 8 else m.to_ + 8) EMPTY else P.b
       let b2 := setSq (setSq b1 m.from_ EMPTY) m.to_ (if m.promo ≠ EMPTY then m.promo else p)
       let b3 := if p = WK ∧ m.from_ = 4 ∧ (m.to_ = 6 ∨ m.to_ = 2)
         then (if m.to_ = 6 then setSq (setSq b2 5 WR) 7 EMPTY else setSq (setSq b2 3 WR) 0 EMPTY)
         else b2
       if p = BK ∧ m.from_ = 60 ∧ (m.to_ = 62 ∨ m.to_ = 58)
         then (if m.to_ = 62 then setSq (setSq b3 61 BR) 63 EMPTY
               else setSq (setSq b3 59 BR) 56 EMPTY)
         else b3) := by
  rw [← makeMove_guard_iff] at h
  unfold makeMove
  lift_lets
  intro captured0 p halfmove wasEP capSq captured b1 u0 diagonal hasEnemy put b2 ep
    c1 c2 c3 c4 c5 c6 c7 c8 c9 c10 wc u1 b3 bc u2 b4 b1' b3' 
  rw [if_neg h]
  simp only [b4, b3, b2, b1, put, capSq, b3', b1', bc, wc, wasEP, decide_eq_true_eq]

/-- The castling fields of the undo record after a move that is not stopped by the defensive
return. -/
theorem makeMove_undo_castle (P : Position) (m : Move) (h : ¬ defensiveReturn P m) :
    ((getSq P.b m.from_ = WK ∧ m.from_ = 4 ∧ m.to_ = 6) →
      (makeMove P m).2.wasCastle = true ∧ (makeMove P m).2.rookFrom = 7 ∧
        (makeMove P m).2.rookTo = 5) ∧
    ((getSq P.b m.from_ = WK ∧ m.from_ = 4 ∧ m.to_ = 2) →
      (makeMove P m).2.wasCastle = true ∧ (makeMove P m).2.rookFrom = 0 ∧
        (makeMove P m).2.rookTo = 3) ∧
    ((getSq P.b m.from_ = BK ∧ m.from_ = 60 ∧ m.to_ = 62) →
      (makeMove P m).2.wasCastle = true ∧ (makeMove P m).2.rookFrom = 63 ∧
        (makeMove P m).2.rookTo = 61) ∧
    ((getSq P.b m.from_ = BK ∧ m.from_ = 60 ∧ m.to_ = 58) →
      (makeMove P m).2.wasCastle = true ∧ (makeMove P m).2.rookFrom = 56 ∧
        (makeMove P m).2.rookTo = 59) ∧
    (¬ (getSq P.b m.from_ = WK ∧ m.from_ = 4 ∧ (m.to_ = 6 ∨ m.to_ = 2)) →
     ¬ (getSq P.b m.from_ = BK ∧ m.from_ = 60 ∧ (m.to_ = 62 ∨ m.to_ = 58)) →
      (makeMove P m).2.wasCastle = false) := by
  rw [← makeMove_guard_iff] at h
  unfold makeMove
  lift_lets
  intro captured0 p halfmove wasEP capSq captured b1 u0 diagonal hasEnemy put b2 ep
    c1 c2 c3 c4 c5 c6 c7 c8 c9 c10 wc u1 b3 bc u2 b4
  rw [if_neg h]
  have hu0 : u0.wasCastle = false := rfl
  clear_value u0 b2
  refine ⟨?_, ?_, ?_, ?_, ?_⟩
  · rintro ⟨h1, h2, h3⟩
    have hwc : wc = true := decide_eq_true ⟨h1, h2, Or.inl h3⟩
    have hbc : bc = false := decide_eq_false (fun hh => by
      have h9 : (WK : Piece) = BK := h1.symm.trans hh.1
      cases h9)
    simp only [u2, u1, hwc, hbc, h3, if_true, Bool.false_eq_true, if_false, and_self]
  · rintro ⟨h1, h2, h3⟩
    have hwc : wc = true := decide_eq_true ⟨h1, h2, Or.inr h3⟩
    have hbc : bc = false := decide_eq_false (fun hh => by
      have h9 : (WK : Piece) = BK := h1.symm.trans hh.1
      cases h9)
    simp [u2, u1, hwc, hbc, h3]
  · rintro ⟨h1, h2, h3⟩
    have hbc : bc = true := decide_eq_true ⟨h1, h2, Or.inl h3⟩
    simp [u2, hbc, h3]
  · rintro ⟨h1, h2, h3⟩
    have hbc : bc = true := decide_eq_true ⟨h1, h2, Or.inr h3⟩
    simp [u2, hbc, h3]
  · intro h1 h2
    have hwc : wc = false := decide_eq_false h1
    have hbc : bc = false := decide_eq_false h2
    simp [u2, u1, hwc, hbc, hu0]

theorem Position.ext_fields (P Q : Position) (hb : P.b = Q.b) (hw : P.whiteToMove = Q.whiteToMove)
    (hh : P.halfmoveClock = Q.halfmoveClock) (he : P.epSq = Q.epSq) (hc : P.castle = Q.castle) :
    P = Q := by
  cases P; cases Q; simp_all

set_option maxHeartbeats 1600000 in
/-- The round trip for a completed move, from what it needs of the position: a castling move
finds its rook on the corner and the rook's destination empty. -/
theorem unmakeMove_makeMove (P : Position) (m : Move) (hnr : ¬ defensiveReturn P m)
    (hw6 : getSq P.b m.from_ = WK → m.from_ = 4 → m.to_ = 6 →
      getSq P.b 5 = EMPTY ∧ getSq P.b 7 = WR)
    (hw2 : getSq P.b m.from_ = WK → m.from_ = 4 → m.to_ = 2 →
      getSq P.b 3 = EMPTY ∧ getSq P.b 0 = WR)
    (hb62 : getSq P.b m.from_ = BK → m.from_ = 60 → m.to_ = 62 →
      getSq P.b 61 = EMPTY ∧ getSq P.b 63 = BR)
    (hb58 : getSq P.b m.from_ = BK → m.from_ = 60 → m.to_ = 58 →
      getSq P.b 59 = EMPTY ∧ getSq P.b 56 = BR) :
    unmakeMove (makeMove P m).1 m (makeMove P m).2 = P := by
  obtain ⟨u1, u2, u3, u4, u5, u6, u7⟩ := makeMove_undo_basic P m
  obtain ⟨k1, k2, k3, k4, k5⟩ := makeMove_undo_castle P m hnr
  have hwtm := makeMove_whiteToMove P m hnr
  have hbd := makeMove_board P m hnr
  apply Position.ext_fields
  · unfold unmakeMove
    simp only [u4, u5, u6, u7, hbd]
    by_cases c1 : getSq P.b m.from_ = WK ∧ m.from_ = 4 ∧ m.to_ = 6
    · obtain ⟨r1, r2, r3⟩ := k1 c1
      obtain ⟨e1, e2⟩ := hw6 c1.1 c1.2.1 c1.2.2
      obtain ⟨a1, a2, a3⟩ := c1
      rw [a2] at a1
      simp only [r1, r2, r3, a1, a2, a3, reduceCtorEq, false_or, or_false, false_and, decide_False,
        if_false, Bool.false_eq_true, and_false, true_and, decide_True, if_true, or_true,
        and_self, and_true, true_or, isWhite_WK]
      apply board_ext
      intro k hk0 hk1
      simp
      simp only [getSq_setSq]
      split_ifs <;> simp_all
    by_cases c2 : getSq P.b m.from_ = WK ∧ m.from_ = 4 ∧ m.to_ = 2
    · obtain ⟨r1, r2, r3⟩ := k2 c2
      obtain ⟨e1, e2⟩ := hw2 c2.1 c2.2.1 c2.2.2
      obtain ⟨a1, a2, a3⟩ := c2
      rw [a2] at a1
      simp only [r1, r2, r3, a1, a2, a3, reduceCtorEq, false_or, or_false, false_and, decide_False,
        if_false, Bool.false_eq_true, and_false, true_and, decide_True, if_true, or_true,
        and_self, and_true, true_or, isWhite_WK]
      apply board_ext
      intro k hk0 hk1
      simp
      simp only [getSq_setSq]
      split_ifs <;> simp_all
    by_cases c3 : getSq P.b m.from_ = BK ∧ m.from_ = 60 ∧ m.to_ = 62
    · obtain ⟨r1, r2, r3⟩ := k3 c3
      obtain ⟨e1, e2⟩ := hb62 c3.1 c3.2.1 c3.2.2
      obtain ⟨a1, a2, a3⟩ := c3
      rw [a2] at a1
      simp only [r1, r2, r3, a1, a2, a3, reduceCtorEq, false_or, or_false, false_and, decide_False,
        if_false, Bool.false_eq_true, and_false, true_and, decide_True, if_true, or_true,
        and_self, and_true, true_or, isWhite_BK]
      apply board_ext
      intro k hk0 hk1
      simp
      simp only [getSq_setSq]
      split_ifs <;> simp_all
    by_cases c4 : getSq P.b m.from_ = BK ∧ m.from_ = 60 ∧ m.to_ = 58
    · obtain ⟨r1, r2, r3⟩ := k4 c4
      obtain ⟨e1, e2⟩ := hb58 c4.1 c4.2.1 c4.2.2
      obtain ⟨a1, a2, a3⟩ := c4
      rw [a2] at a1
      simp only [r1, r2, r3, a1, a2, a3, reduceCtorEq, false_or, or_false, false_and, decide_False,
        if_false, Bool.false_eq_true, and_false, true_and, decide_True, if_true, or_true,
        and_self, and_true, true_or, isWhite_BK]
      apply board_ext
      intro k hk0 hk1
      simp
      simp only [getSq_setSq]
      split_ifs <;> simp_all
    have hnw : ¬ (getSq P.b m.from_ = WK ∧ m.from_ = 4 ∧ (m.to_ = 6 ∨ m.to_ = 2)) := by
      rintro ⟨a1, a2, a3 | a3⟩
      · exact c1 ⟨a1, a2, a3⟩
      · exact c2 ⟨a1, a2, a3⟩
    have hnb : ¬ (getSq P.b m.from_ = BK ∧ m.from_ = 60 ∧ (m.to_ = 62 ∨ m.to_ = 58)) := by
      rintro ⟨a1, a2, a3 | a3⟩
      · exact c3 ⟨a1, a2, a3⟩
      · exact c4 ⟨a1, a2, a3⟩
    have r1 := k5 hnw hnb
    simp only [r1, hnw, hnb, if_false, Bool.false_eq_true, false_and]
    apply board_ext
    intro k hk0 hk1
    by_cases he : (getSq P.b m.from_ = WP ∨ getSq P.b m.from_ = BP) ∧ m.to_ = P.epSq ∧
        getSq P.b m.to_ = EMPTY
    · simp only [eq_true he, if_true, decide_True, getSq_setSq]
      obtain ⟨-, he1, he2⟩ := he
      split_ifs <;> simp_all
    · simp only [eq_false he, if_false, decide_False, Bool.false_eq_true, getSq_setSq]
      split_ifs <;> simp_all
  · unfold unmakeMove; simp [hwtm]
  · unfold unmakeMove; simp [u1]
  · unfold unmakeMove; simp [u2]
  · unfold unmakeMove; simp [u3]

/-! ## Round trip and legality closure -/

set_option maxRecDepth 100000 in
/-- C1, refuted as stated, at two positions obtained through `setFEN`. In `castleNoRookPos`
(kingside right, no rook on `h1`) the castling move `e1g1` is legal, and making and unmaking it
leaves a white rook on `h1`. In `epOnOwnPiecePos` (en-passant field on a square occupied by a
white knight) the move `e2d3` is legal, and making and unmaking it hands the move to Black. -/
theorem roundtrip_fails_after_setFEN :
    (({ from_ := 4, to_ := 6 } : Move) ∈ genLegalMoves castleNoRookPos ∧
      unmakeMove (makeMove castleNoRookPos { from_ := 4, to_ := 6 }).1 { from_ := 4, to_ := 6 }
        (makeMove castleNoRookPos { from_ := 4, to_ := 6 }).2 ≠ castleNoRookPos) ∧
    (({ from_ := 12, to_ := 19 } : Move) ∈ genLegalMoves epOnOwnPiecePos ∧
      unmakeMove (makeMove epOnOwnPiecePos { from_ := 12, to_ := 19 }).1 { from_ := 12, to_ := 19 }
        (makeMove epOnOwnPiecePos { from_ := 12, to_ := 19 }).2 ≠ epOnOwnPiecePos) := by
  refine ⟨⟨by decide!, fun h => ?_⟩, ⟨by decide!, fun h => ?_⟩⟩
  · have h7 := congrArg (fun Q : Position => getSq Q.b 7) h
    revert h7
    decide!
  · have hw := congrArg (fun Q : Position => Q.whiteToMove) h
    revert hw
    decide!

/-- C1, amended. In every position whose en-passant target is none or an empty square and in
which every held castling right has its rook on the home corner, `makeMove` followed by
`unmakeMove` of a move returned by `genLegalMoves` restores the position in every field. -/
theorem unmakeMove_makeMove_legal (P : Position) (hep : EpTargetEmpty P)
    (hc : CastleRooksHome P) (m : Move) (hm : m ∈ genLegalMoves P) :
    unmakeMove (makeMove P m).1 m (makeMove P m).2 = P := by
  have hs := genPseudoLegalMoves_shape P m (genLegalMoves_subset P m hm)
  have hnr := not_defensiveReturn_of_shape P m hs hep
  obtain ⟨c1, c2, c4, c8⟩ := hc
  refine unmakeMove_makeMove P m hnr ?_ ?_ ?_ ?_
  · intro h1 h2 h3
    obtain ⟨a1, a2, _⟩ := (hs.wk h1 h2).1 h3
    exact ⟨a2, c1 a1⟩
  · intro h1 h2 h3
    obtain ⟨a1, a2, _⟩ := (hs.wk h1 h2).2 h3
    exact ⟨a2, c2 a1⟩
  · intro h1 h2 h3
    obtain ⟨a1, a2, _⟩ := (hs.bk h1 h2).1 h3
    exact ⟨a2, c4 a1⟩
  · intro h1 h2 h3
    obtain ⟨a1, a2, _⟩ := (hs.bk h1 h2).2 h3
    exact ⟨a2, c8 a1⟩

set_option maxRecDepth 100000 in
/-- C1, amended, at the start position and its first legal move `b1c3`. -/
theorem unmakeMove_makeMove_legal_startpos :
    EpTargetEmpty setStartPos ∧ CastleRooksHome setStartPos ∧
    ({ from_ := 1, to_ := 18 } : Move) ∈ genLegalMoves setStartPos ∧
    unmakeMove (makeMove setStartPos { from_ := 1, to_ := 18 }).1 { from_ := 1, to_ := 18 }
      (makeMove setStartPos { from_ := 1, to_ := 18 }).2 = setStartPos :=
  ⟨by decide!, by decide!, by decide!,
    unmakeMove_makeMove_legal setStartPos (by decide!) (by decide!) _ (by decide!)⟩

set_option maxRecDepth 100000 in
/-- C2, refuted as stated: in `epOnOwnPieceCheckPos` (White in check from a rook on `a1`, the
en-passant field on a square occupied by a white knight) the generator returns the pawn move
`e2d3`, and after `makeMove` the white king is still attacked. -/
theorem legal_move_leaves_king_attacked :
    epOnOwnPieceCheckPos.whiteToMove = true ∧
    ({ from_ := 12, to_ := 19 } : Move) ∈ genLegalMoves epOnOwnPieceCheckPos ∧
    isInCheck (makeMove epOnOwnPieceCheckPos { from_ := 12, to_ := 19 }).1 true = true := by
  decide!

/-- C2, amended. In every position whose en-passant target is none or an empty square, after
`makeMove` of a move returned by `genLegalMoves` the king of the side that was to move is not in
check. -/
theorem legal_not_in_check (P : Position) (hep : EpTargetEmpty P) (m : Move)
    (hm : m ∈ genLegalMoves P) :
    isInCheck (makeMove P m).1 P.whiteToMove = false := by
  have hs := genPseudoLegalMoves_shape P m (genLegalMoves_subset P m hm)
  have hw := makeMove_whiteToMove P m (not_defensiveReturn_of_shape P m hs hep)
  simp only [genLegalMoves, List.mem_filter] at hm
  have h2 := hm.2
  rw [hw] at h2
  simpa using h2

set_option maxRecDepth 100000 in
/-- C2, amended, at the start position and the legal move `e2e4`. -/
theorem legal_not_in_check_startpos :
    EpTargetEmpty setStartPos ∧
    ({ from_ := 12, to_ := 28 } : Move) ∈ genLegalMoves setStartPos ∧
    isInCheck (makeMove setStartPos { from_ := 12, to_ := 28 }).1 setStartPos.whiteToMove = false :=
  ⟨by decide!, by decide!, legal_not_in_check setStartPos (by decide!) _ (by decide!)⟩

/-! ## Search: terminal positions and move selection -/

theorem alphabeta_leaf (w : Weights) (P : Position) (depth alpha beta : Int) (hd : depth ≤ 0) :
    alphabeta w P depth alpha beta = (eval w P * (if P.whiteToMove then 1 else -1), P) := by
  have h0 : depth.toNat = 0 := by omega
  simp [alphabeta, h0, alphabetaN]

theorem bestLoop_mem (w : Weights) (pos : Position) (depth : Int) (ms : List Move) :
    ∀ (bs : Int) (best : Move), bestLoop w pos depth ms bs best = best ∨
      bestLoop w pos depth ms bs best ∈ ms := by
  induction ms with
  | nil => intro bs best; simp [bestLoop]
  | cons m ms ih =>
    intro bs best
    simp only [bestLoop]
    split_ifs
    · rcases ih (moveScore w pos depth m) m with h | h
      · right; rw [h]; exact List.mem_cons_self _ _
      · right; exact List.mem_cons_of_mem _ h
    · rcases ih bs best with h | h
      · left; exact h
      · right; exact List.mem_cons_of_mem _ h

/-- The selection loop returns the first element of maximal score among those that beat the
initial score, or the initial candidate when none does. -/
theorem bestLoop_spec (w : Weights) (pos : Position) (depth : Int) (ms : List Move) :
    ∀ (bs : Int) (best : Move),
      ((∀ m ∈ ms, moveScore w pos depth m ≤ bs) ∧ bestLoop w pos depth ms bs best = best) ∨
      (∃ i, ∃ h : i < ms.length,
        bestLoop w pos depth ms bs best = ms.get ⟨i, h⟩ ∧
        bs < moveScore w pos depth (ms.get ⟨i, h⟩) ∧
        (∀ m ∈ ms, moveScore w pos depth m ≤ moveScore w pos depth (ms.get ⟨i, h⟩)) ∧
        (∀ j, ∀ hj : j < ms.length, j < i →
          moveScore w pos depth (ms.get ⟨j, hj⟩) < moveScore w pos depth (ms.get ⟨i, h⟩))) := by
  induction ms with
  | nil => intro bs best; left; simp [bestLoop]
  | cons m ms ih =>
    intro bs best
    simp only [bestLoop]
    by_cases hgt : moveScore w pos depth m > bs
    · rw [if_pos hgt]
      right
      rcases ih (moveScore w pos depth m) m with ⟨hall, heq⟩ | ⟨i, hi, heq, hbs, hmax, hfirst⟩
      · refine ⟨0, by simp, ?_, ?_, ?_, ?_⟩
        · simpa using heq
        · simpa using hgt
        · intro m' hm'
          rcases List.mem_cons.1 hm' with h | h
          · subst h; simp
          · simpa using hall m' h
        · intro j hj hlt; omega
      · refine ⟨i + 1, by simp; omega, ?_, ?_, ?_, ?_⟩
        · simpa using heq
        · simp only [List.get_eq_getElem, List.getElem_cons_succ] at hbs ⊢; omega
        · intro m' hm'
          rcases List.mem_cons.1 hm' with h | h
          · subst h
            simp only [List.get_eq_getElem, List.getElem_cons_succ] at hbs ⊢; omega
          · simpa using hmax m' h
        · intro j hj hlt
          cases j with
          | zero => simp only [List.get_eq_getElem, List.getElem_cons_succ,
              List.getElem_cons_zero] at hbs ⊢; omega
          | succ j =>
            have := hfirst j (by simp at hj; omega) (by omega)
            simpa using this
    · rw [if_neg hgt]
      rcases ih bs best with ⟨hall, heq⟩ | ⟨i, hi, heq, hbs, hmax, hfirst⟩
      · left
        refine ⟨?_, heq⟩
        intro m' hm'
        rcases List.mem_cons.1 hm' with h | h
        · subst h; omega
        · exact hall m' h
      · right
        refine ⟨i + 1, by simp; omega, ?_, ?_, ?_, ?_⟩
        · simpa using heq
        · simpa using hbs
        · intro m' hm'
          rcases List.mem_cons.1 hm' with h | h
          · subst h
            simp only [List.get_eq_getElem, List.getElem_cons_succ] at hbs ⊢; omega
          · simpa using hmax m' h
        · intro j hj hlt
          cases j with
          | zero => simp only [List.get_eq_getElem, List.getElem_cons_succ,
              List.getElem_cons_zero] at hbs ⊢; omega
          | succ j =>
            have := hfirst j (by simp at hj; omega) (by omega)
            simpa using this

/-! ## Perft from the start position -/

set_option maxRecDepth 100000 in
/-- The 20 legal moves of the start position, in generation order. -/
theorem genLegalMoves_startpos :
    genLegalMoves setStartPos =
      [{ from_ := 1, to_ := 18, promo := EMPTY, captured := EMPTY },
       { from_ := 1, to_ := 16, promo := EMPTY, captured := EMPTY },
       { from_ := 6, to_ := 23, promo := EMPTY, captured := EMPTY },
       { from_ := 6, to_ := 21, promo := EMPTY, captured := EMPTY },
       { from_ := 8, to_ := 16, promo := EMPTY, captured := EMPTY },
       { from_ := 8, to_ := 24, promo := EMPTY, captured := EMPTY },
       { from_ := 9, to_ := 17, promo := EMPTY, captured := EMPTY },
       { from_ := 9, to_ := 25, promo := EMPTY, captured := EMPTY },
       { from_ := 10, to_ := 18, promo := EMPTY, captured := EMPTY },
       { from_ := 10, to_ := 26, promo := EMPTY, captured := EMPTY },
       { from_ := 11, to_ := 19, promo := EMPTY, captured := EMPTY },
       { from_ := 11, to_ := 27, promo := EMPTY, captured := EMPTY },
       { from_ := 12, to_ := 20, promo := EMPTY, captured := EMPTY },
       { from_ := 12, to_ := 28, promo := EMPTY, captured := EMPTY },
       { from_ := 13, to_ := 21, promo := EMPTY, captured := EMPTY },
       { from_ := 13, to_ := 29, promo := EMPTY, captured := EMPTY },
       { from_ := 14, to_ := 22, promo := EMPTY, captured := EMPTY },
       { from_ := 14, to_ := 30, promo := EMPTY, captured := EMPTY },
       { from_ := 15, to_ := 23, promo := EMPTY, captured := EMPTY },
       { from_ := 15, to_ := 31, promo := EMPTY, captured := EMPTY }] := by
  decide!

set_option maxRecDepth 100000 in
/-- After `b1c3` from the start position Black has 20 legal moves. -/
theorem perft_reply_b1c3 :
    (genLegalMoves (makeMove setStartPos { from_ := 1, to_ := 18, promo := EMPTY, captured := EMPTY }).1).length = 20 := by
  decide!

set_option maxRecDepth 100000 in
/-- After `b1a3` from the start position Black has 20 legal moves. -/
theorem perft_reply_b1a3 :
    (genLegalMoves (makeMove setStartPos { from_ := 1, to_ := 16, promo := EMPTY, captured := EMPTY }).1).length = 20 := by
  decide!

set_option maxRecDepth 100000 in
/-- After `g1h3` from the start position Black has 20 legal moves. -/
theorem perft_reply_g1h3 :
    (genLegalMoves (makeMove setStartPos { from_ := 6, to_ := 23, promo := EMPTY, captured := EMPTY }).1).length = 20 := by
  decide!

set_option maxRecDepth 100000 in
/-- After `g1f3` from the start position Black has 20 legal moves. -/
theorem perft_reply_g1f3 :
    (genLegalMoves (makeMove setStartPos { from_ := 6, to_ := 21, promo := EMPTY, captured := EMPTY }).1).length = 20 := by
  decide!

set_option maxRecDepth 100000 in
/-- After `a2a3` from the start position Black has 20 legal moves. -/
theorem perft_reply_a2a3 :
    (genLegalMoves (makeMove setStartPos { from_ := 8, to_ := 16, promo := EMPTY, captured := EMPTY }).1).length = 20 := by
  decide!

set_option maxRecDepth 100000 in
/-- After `a2a4` from the start position Black has 20 legal moves. -/
theorem perft_reply_a2a4 :
    (genLegalMoves (makeMove setStartPos { from_ := 8, to_ := 24, promo := EMPTY, captured := EMPTY }).1).length = 20 := by
  decide!

set_option maxRecDepth 100000 in
/-- After `b2b3` from the start position Black has 20 legal moves. -/
theorem perft_reply_b2b3 :
    (genLegalMoves (makeMove setStartPos { from_ := 9, to_ := 17, promo := EMPTY, captured := EMPTY }).1).length = 20 := by
  decide!

set_option maxRecDepth 100000 in
/-- After `b2b4` from the start position Black has 20 legal moves. -/
theorem perft_reply_b2b4 :
    (genLegalMoves (makeMove setStartPos { from_ := 9, to_ := 25, promo := EMPTY, captured := EMPTY }).1).length = 20 := by
  decide!

set_option maxRecDepth 100000 in
/-- After `c2c3` from the start position Black has 20 legal moves. -/
theorem perft_reply_c2c3 :
    (genLegalMoves (makeMove setStartPos { from_ := 10, to_ := 18, promo := EMPTY, captured := EMPTY }).1).length = 20 := by
  decide!

set_option maxRecDepth 100000 in
/-- After `c2c4` from the start position Black has 20 legal moves. -/
theorem perft_reply_c2c4 :
    (genLegalMoves (makeMove setStartPos { from_ := 10, to_ := 26, promo := EMPTY, captured := EMPTY }).1).length = 20 := by
  decide!

set_option maxRecDepth 100000 in
/-- After `d2d3` from the start position Black has 20 legal moves. -/
theorem perft_reply_d2d3 :
    (genLegalMoves (makeMove setStartPos { from_ := 11, to_ := 19, promo := EMPTY, captured := EMPTY }).1).length = 20 := by
  decide!

set_option maxRecDepth 100000 in
/-- After `d2d4` from the start position Black has 20 legal moves. -/
theorem perft_reply_d2d4 :
    (genLegalMoves (makeMove setStartPos { from_ := 11, to_ := 27, promo := EMPTY, captured := EMPTY }).1).length = 20 := by
  decide!

set_option maxRecDepth 100000 in
/-- After `e2e3` from the start position Black has 20 legal moves. -/
theorem perft_reply_e2e3 :
    (genLegalMoves (makeMove setStartPos { from_ := 12, to_ := 20, promo := EMPTY, captured := EMPTY }).1).length = 20 := by
  decide!

set_option maxRecDepth 100000 in
/-- After `e2e4` from the start position Black has 20 legal moves. -/
theorem perft_reply_e2e4 :
    (genLegalMoves (makeMove setStartPos { from_ := 12, to_ := 28, promo := EMPTY, captured := EMPTY }).1).length = 20 := by
  decide!

set_option maxRecDepth 100000 in
/-- After `f2f3` from the start position Black has 20 legal moves. -/
theorem perft_reply_f2f3 :
    (genLegalMoves (makeMove setStartPos { from_ := 13, to_ := 21, promo := EMPTY, captured := EMPTY }).1).length = 20 := by
  decide!

set_option maxRecDepth 100000 in
/-- After `f2f4` from the start position Black has 20 legal moves. -/
theorem perft_reply_f2f4 :
    (genLegalMoves (makeMove setStartPos { from_ := 13, to_ := 29, promo := EMPTY, captured := EMPTY }).1).length = 20 := by
  decide!

set_option maxRecDepth 100000 in
/-- After `g2g3` from the start position Black has 20 legal moves. -/
theorem perft_reply_g2g3 :
    (genLegalMoves (makeMove setStartPos { from_ := 14, to_ := 22, promo := EMPTY, captured := EMPTY }).1).length = 20 := by
  decide!

set_option maxRecDepth 100000 in
/-- After `g2g4` from the start position Black has 20 legal moves. -/
theorem perft_reply_g2g4 :
    (genLegalMoves (makeMove setStartPos { from_ := 14, to_ := 30, promo := EMPTY, captured := EMPTY }).1).length = 20 := by
  decide!

set_option maxRecDepth 100000 in
/-- After `h2h3` from the start position Black has 20 legal moves. -/
theorem perft_reply_h2h3 :
    (genLegalMoves (makeMove setStartPos { from_ := 15, to_ := 23, promo := EMPTY, captured := EMPTY }).1).length = 20 := by
  decide!

set_option maxRecDepth 100000 in
/-- After `h2h4` from the start position Black has 20 legal moves. -/
theorem perft_reply_h2h4 :
    (genLegalMoves (makeMove setStartPos { from_ := 15, to_ := 31, promo := EMPTY, captured := EMPTY }).1).length = 20 := by
  decide!

/-- C3. On the position produced by `setStartPos` the legal-move generator returns exactly 20
moves, and the replies to these 20 moves number 400 in total. -/
theorem perft_startpos :
    (genLegalMoves setStartPos).length = 20 ∧
    ((genLegalMoves setStartPos).map
      (fun m => (genLegalMoves (makeMove setStartPos m).1).length)).sum = 400 := by
  rw [genLegalMoves_startpos]
  refine ⟨rfl, ?_⟩
  simp only [List.map_cons, List.map_nil,
    perft_reply_b1c3, perft_reply_b1a3, perft_reply_g1h3, perft_reply_g1f3,
    perft_reply_a2a3, perft_reply_a2a4, perft_reply_b2b3, perft_reply_b2b4,
    perft_reply_c2c3, perft_reply_c2c4, perft_reply_d2d3, perft_reply_d2d4,
    perft_reply_e2e3, perft_reply_e2e4, perft_reply_f2f3, perft_reply_f2f4,
    perft_reply_g2g3, perft_reply_g2g4, perft_reply_h2h3, perft_reply_h2h4]
  rfl

/-! ## Claims on `bestMove` and `alphabeta` -/

/-- C4. Whenever the position has a legal move, the move returned by `bestMove` is an element
of `genLegalMoves` (so it has the from, to and promo of a legal move), for every depth,
exploration rate and random source. -/
theorem bestMove_mem_legal (w : Weights) (P : Position) (depth : Int) (epsilon : ℚ)
    (rng : Option Rng) (h : genLegalMoves P ≠ []) :
    (bestMove w P depth epsilon rng).1 ∈ genLegalMoves P := by
  have hne : (genLegalMoves P).isEmpty = false := by
    cases hm : genLegalMoves P with
    | nil => exact absurd hm h
    | cons a l => rfl
  have hhead : (genLegalMoves P).headD {} ∈ genLegalMoves P := by
    cases hm : genLegalMoves P with
    | nil => exact absurd hm h
    | cons a l => simp
  have hloop : bestLoop w P depth (genLegalMoves P) (-1000000000) ((genLegalMoves P).headD {})
      ∈ genLegalMoves P := by
    rcases bestLoop_mem w P depth (genLegalMoves P) (-1000000000) ((genLegalMoves P).headD {})
      with h1 | h1
    · rw [h1]; exact hhead
    · exact h1
  have hlen : 0 < (genLegalMoves P).length := List.length_pos.2 h
  unfold bestMove
  simp only [hne, Bool.false_eq_true, if_false]
  cases rng with
  | none => exact hloop
  | some g =>
    simp only
    split_ifs
    · have hidx : g.index (g.used + 1) ((genLegalMoves P).length - 1) < (genLegalMoves P).length := by
        have := g.index_le (g.used + 1) ((genLegalMoves P).length - 1)
        omega
      rw [List.getD_eq_getElem _ _ hidx]
      exact List.getElem_mem _
    · exact hloop
    · exact hloop

set_option maxRecDepth 100000 in
/-- C4, at the start position with depth 1, exploration rate 0 and no random source. -/
theorem bestMove_mem_legal_startpos :
    genLegalMoves setStartPos ≠ [] ∧
    (bestMove defaultWeights setStartPos 1 0 none).1 ∈ genLegalMoves setStartPos :=
  ⟨by decide!, bestMove_mem_legal defaultWeights setStartPos 1 0 none (by decide!)⟩

set_option maxRecDepth 100000 in
/-- C5, refuted as stated: in the stalemate of `stalematePos` the side to move has no legal
move, yet `alphabeta` at depth 0 returns `-900` under the default weights. -/
theorem alphabeta_depth0_stalemate_nonzero :
    genLegalMoves stalematePos = [] ∧
    (alphabeta defaultWeights stalematePos 0 (-1000000000) 1000000000).1 = -900 := by
  decide!

/-- C5, amended. At depth 0 (or below) `alphabeta` does not look at the moves: for every
position, window and weight vector it returns `eval`, negated when Black is to move, and leaves
the position as it was. -/
theorem alphabeta_depth0_eq_eval (w : Weights) (P : Position) (alpha beta : Int) :
    alphabeta w P 0 alpha beta = (if P.whiteToMove then eval w P else -eval w P, P) := by
  rw [alphabeta_leaf w P 0 alpha beta (le_refl 0)]
  cases P.whiteToMove <;> simp

/-- C6. When `genLegalMoves` returns no move, `bestMove` returns the null move for every depth,
exploration rate and random source, and hands the random source back without a draw. -/
theorem bestMove_no_legal (w : Weights) (P : Position) (depth : Int) (epsilon : ℚ)
    (rng : Option Rng) (h : genLegalMoves P = []) :
    bestMove w P depth epsilon rng =
      ({ from_ := 0, to_ := 0, promo := EMPTY, captured := EMPTY }, rng) := by
  unfold bestMove
  simp [h]

set_option maxRecDepth 100000 in
/-- C6, at the stalemate `stalematePos` with depth 4, exploration rate 1/2 and a random source. -/
theorem bestMove_no_legal_stalemate :
    genLegalMoves stalematePos = [] ∧
    bestMove defaultWeights stalematePos 4 (1 / 2)
        (some { real := fun _ => 0, index := fun _ _ => 0, index_le := fun _ _ => Nat.zero_le _,
                used := 0 }) =
      ({ from_ := 0, to_ := 0, promo := EMPTY, captured := EMPTY },
        some { real := fun _ => 0, index := fun _ _ => 0, index_le := fun _ _ => Nat.zero_le _,
               used := 0 }) :=
  ⟨by decide!, bestMove_no_legal _ _ _ _ _ (by decide!)⟩

/-- C7. When the side to move has no legal move and `depth >= 1`, `alphabeta` returns exactly 0
for every window (also when 0 lies outside it) and every weight vector, whatever the material. -/
theorem alphabeta_no_legal (w : Weights) (P : Position) (depth alpha beta : Int)
    (hd : 1 ≤ depth) (h : genLegalMoves P = []) :
    (alphabeta w P depth alpha beta).1 = 0 := by
  obtain ⟨n, hn⟩ : ∃ n, depth.toNat = n + 1 := ⟨depth.toNat - 1, by omega⟩
  simp [alphabeta, hn, alphabetaN, h]

set_option maxRecDepth 100000 in
/-- C7, at the stalemate `stalematePos` (a queen up for White) with the window `[5, 10]`. -/
theorem alphabeta_no_legal_stalemate :
    (1 : Int) ≤ 3 ∧ genLegalMoves stalematePos = [] ∧
    (alphabeta defaultWeights stalematePos 3 5 10).1 = 0 :=
  ⟨by decide, by decide!, alphabeta_no_legal _ _ 3 5 10 (by decide) (by decide!)⟩

/-- C8. When the exploration rate is 0 or no random source is supplied, and every legal move
scores above `-10^9`, `bestMove` returns the first legal move of maximal score and hands the
random source back without a draw. -/
theorem bestMove_argmax (w : Weights) (P : Position) (depth : Int) (epsilon : ℚ)
    (rng : Option Rng) (hdet : epsilon = 0 ∨ rng = none)
    (hne : genLegalMoves P ≠ [])
    (hsc : ∀ m ∈ genLegalMoves P, -1000000000 < moveScore w P depth m) :
    (bestMove w P depth epsilon rng).2 = rng ∧
    ∃ i, ∃ h : i < (genLegalMoves P).length,
      (bestMove w P depth epsilon rng).1 = (genLegalMoves P).get ⟨i, h⟩ ∧
      (∀ m ∈ genLegalMoves P,
        moveScore w P depth m ≤ moveScore w P depth ((genLegalMoves P).get ⟨i, h⟩)) ∧
      (∀ j, ∀ hj : j < (genLegalMoves P).length, j < i →
        moveScore w P depth ((genLegalMoves P).get ⟨j, hj⟩) <
          moveScore w P depth ((genLegalMoves P).get ⟨i, h⟩)) := by
  have hemp : (genLegalMoves P).isEmpty = false := by
    cases hm : genLegalMoves P with
    | nil => exact absurd hm hne
    | cons a l => rfl
  have hbm : bestMove w P depth epsilon rng =
      (bestLoop w P depth (genLegalMoves P) (-1000000000) ((genLegalMoves P).headD {}), rng) := by
    unfold bestMove
    simp only [hemp, Bool.false_eq_true, if_false]
    cases rng with
    | none => rfl
    | some g =>
      rcases hdet with h0 | h0
      · subst h0; simp
      · exact absurd h0 (by simp)
  rw [hbm]
  refine ⟨rfl, ?_⟩
  rcases bestLoop_spec w P depth (genLegalMoves P) (-1000000000) ((genLegalMoves P).headD {})
    with ⟨hall, _⟩ | ⟨i, hi, heq, _, hmax, hfirst⟩
  · exfalso
    cases hm : genLegalMoves P with
    | nil => exact hne hm
    | cons a l =>
      have h1 := hall a (by rw [hm]; exact List.mem_cons_self _ _)
      have h2 := hsc a (by rw [hm]; exact List.mem_cons_self _ _)
      omega
  · exact ⟨i, hi, heq, hmax, hfirst⟩

set_option maxRecDepth 100000 in
/-- C8, at the start position with depth 1, exploration rate 0 and no random source. -/
theorem bestMove_argmax_startpos :
    ((0 : ℚ) = 0 ∨ (none : Option Rng) = none) ∧ genLegalMoves setStartPos ≠ [] ∧
    (∀ m ∈ genLegalMoves setStartPos, -1000000000 < moveScore defaultWeights setStartPos 1 m) ∧
    (bestMove defaultWeights setStartPos 1 0 none).2 = none ∧
    ∃ i, ∃ h : i < (genLegalMoves setStartPos).length,
      (bestMove defaultWeights setStartPos 1 0 none).1 = (genLegalMoves setStartPos).get ⟨i, h⟩ ∧
      (∀ m ∈ genLegalMoves setStartPos,
        moveScore defaultWeights setStartPos 1 m ≤
          moveScore defaultWeights setStartPos 1 ((genLegalMoves setStartPos).get ⟨i, h⟩)) ∧
      (∀ j, ∀ hj : j < (genLegalMoves setStartPos).length, j < i →
        moveScore defaultWeights setStartPos 1 ((genLegalMoves setStartPos).get ⟨j, hj⟩) <
          moveScore defaultWeights setStartPos 1 ((genLegalMoves setStartPos).get ⟨i, h⟩)) :=
  ⟨Or.inl rfl, by decide!, by decide!,
    bestMove_argmax defaultWeights setStartPos 1 0 none (Or.inl rfl) (by decide!) (by decide!)⟩

/-! ## The defensive return of `makeMove` -/

/-- What the defensive return does, for every position and every diagonal pawn move that is
neither an en-passant capture nor a capture of an enemy piece: board, side to move and castling
rights are kept, the en-passant target becomes `-1` and the halfmove clock `0`. -/
theorem makeMove_defensive_return (P : Position) (m : Move) (h : defensiveReturn P m) :
    (makeMove P m).1 = { P with epSq := -1, halfmoveClock := 0 } := by
  obtain ⟨hp, hdiag, hep, hcap⟩ := h
  have hen : getSq P.b m.to_ = EMPTY ∨
      isWhite (getSq P.b m.from_) = isWhite (getSq P.b m.to_) := by
    by_cases h1 : getSq P.b m.to_ = EMPTY
    · exact Or.inl h1
    · right
      by_contra h3
      exact hcap ⟨h1, h3⟩
  have hep1 : ¬ (m.to_ = P.epSq ∧ getSq P.b m.to_ = EMPTY) := hep
  unfold makeMove
  rcases hen with h1 | h1 <;> rcases hp with h2 | h2 <;>
    simp [h1, h2, hdiag, hep1] <;> simp_all

set_option maxRecDepth 100000 in
/-- C9, the code at two failing inputs. (1) In `epOnOwnPiecePos` the generator itself emits the
pawn move `e2d3` onto a white knight; it is diagonal, not an en-passant capture (the destination
is occupied) and not a capture of an enemy piece, yet `makeMove` changes the en-passant target
from 19 to -1 and the halfmove clock from 7 to 0. (2) After `g1f3` from the start position, the
black pawn move `a7b6` onto an empty square resets the halfmove clock from 1 to 0. -/
theorem makeMove_defensive_return_not_atomic :
    ((getSq epOnOwnPiecePos.b 12 = WP ∧ iabs (fileOf 12 - fileOf 19) = 1 ∧
      getSq epOnOwnPiecePos.b 19 = WN ∧
      ({ from_ := 12, to_ := 19 } : Move) ∈ genLegalMoves epOnOwnPiecePos) ∧
     (epOnOwnPiecePos.epSq = 19 ∧ (makeMove epOnOwnPiecePos { from_ := 12, to_ := 19 }).1.epSq = -1) ∧
     (epOnOwnPiecePos.halfmoveClock = 7 ∧
      (makeMove epOnOwnPiecePos { from_ := 12, to_ := 19 }).1.halfmoveClock = 0)) ∧
    ((getSq afterNf3Pos.b 48 = BP ∧ iabs (fileOf 48 - fileOf 41) = 1 ∧
      getSq afterNf3Pos.b 41 = EMPTY ∧ afterNf3Pos.epSq = -1) ∧
     (afterNf3Pos.halfmoveClock = 1 ∧
      (makeMove afterNf3Pos { from_ := 48, to_ := 41 }).1.halfmoveClock = 0)) := by
  decide!

/-! ## Move text -/

/-- A move text with a promotion letter is never accepted by `parseUciMoveLocal`: the letter is
compared with the enumerator value of the promotion piece, which is at most 12. -/
theorem parseUciMoveLocal_promo_none (P : Position) (m : Move) (h : promoToChar m.promo ≠ 0) :
    parseUciMoveLocal P (moveToUci m) = none := by
  have hlen : (moveToUci m).length = 5 := by
    simp [moveToUci, moveToUciLocal, h, sqToStr]
  have h4 : normPromoChar ((moveToUci m).getD 4 ' ') = promoToChar m.promo := by
    simp only [moveToUci, moveToUciLocal, h, sqToStr]
    cases hm : m.promo <;> simp [hm, promoToChar] at h ⊢ <;> decide
  unfold parseUciMoveLocal
  rw [hlen, h4]
  simp only [show ¬ (5 < 4) by decide, if_false, show (5 ≥ 5) by decide, if_true]
  split_ifs
  · rfl
  · rw [List.find?_eq_none]
    intro x _
    have hx : tolower x.promo.code ≠ promoToChar m.promo := by
      cases hm : m.promo <;> simp [hm, promoToChar] at h ⊢ <;>
        cases x.promo <;> decide
    simp [h, hx]

set_option maxRecDepth 100000 in
/-- C10, the code at a failing input: in `promoPos` the queen promotion `a7a8` is a legal move
and its text is `a7a8q`, but `parseUciMoveLocal` rejects that text. -/
theorem parseUciMoveLocal_rejects_promotion :
    ({ from_ := 48, to_ := 56, promo := WQ, captured := EMPTY } : Move) ∈ genLegalMoves promoPos ∧
    moveToUci { from_ := 48, to_ := 56, promo := WQ, captured := EMPTY } = "a7a8q".toList ∧
    parseUciMoveLocal promoPos
      (moveToUci { from_ := 48, to_ := 56, promo := WQ, captured := EMPTY }) = none := by
  decide!

/-! ## Move text: `moveToUci` and the `go` handler -/

/-- With no legal move the `go` handler prints the text of `Move{}`, which is `a1a1`: the text
produced by `moveToUci` never has fewer than four characters. -/
theorem goBestMoveText_no_legal (w : Weights) (P : Position) (depth : Int)
    (h : genLegalMoves P = []) : goBestMoveText w P depth = "a1a1".toList := by
  unfold goBestMoveText bestMove
  simp only [h, List.any_nil, Bool.not_false, if_true, List.isEmpty_nil, Bool.not_true,
    Bool.false_eq_true, if_false]
  decide

set_option maxRecDepth 100000 in
/-- C12, the code at a failing input: in the stalemate `stalematePos` the side to move has no
legal move and the `go` handler (default depth 4) prints `a1a1`, not `0000`. -/
theorem goBestMoveText_stalemate :
    genLegalMoves stalematePos = [] ∧
    goBestMoveText defaultWeights stalematePos 4 = "a1a1".toList ∧
    goBestMoveText defaultWeights stalematePos 4 ≠ "0000".toList := by
  decide!

/-! ## Halfmove clock -/

theorem wrapInt32_of_range (x : Int) (h1 : -2147483648 ≤ x) (h2 : x ≤ 2147483647) :
    wrapInt32 x = x := by
  unfold wrapInt32
  omega

/-- After `makeMove` the halfmove clock is 0 when the moved piece is a pawn or the destination
square is occupied, and the result of the 32-bit increment otherwise. -/
theorem makeMove_halfmoveClock_wrap (P : Position) (m : Move) :
    (makeMove P m).1.halfmoveClock =
      if getSq P.b m.from_ = WP ∨ getSq P.b m.from_ = BP ∨ getSq P.b m.to_ ≠ EMPTY
      then 0 else wrapInt32 (P.halfmoveClock + 1) := by
  unfold makeMove
  lift_lets
  intro captured0 p halfmove wasEP capSq captured b1 u0 diagonal hasEnemy put b2 ep
    c1 c2 c3 c4 c5 c6 c7 c8 c9 c10 wc u1 b3 bc u2 b4
  have hh : halfmove = if getSq P.b m.from_ = WP ∨ getSq P.b m.from_ = BP ∨
      getSq P.b m.to_ ≠ EMPTY then 0 else wrapInt32 (P.halfmoveClock + 1) := by
    simp only [halfmove, captured0, p]
    by_cases h1 : getSq P.b m.to_ = EMPTY <;> simp [h1]
  by_cases hg : (p = WP ∨ p = BP) ∧ diagonal = true ∧ wasEP = false ∧ hasEnemy = false
  · rw [if_pos hg]; exact hh
  · rw [if_neg hg]; exact hh

set_option maxRecDepth 100000 in
/-- C19, refuted as stated, at `clockMaxPos`: the clock loaded by `setFEN` is `2147483647`, the
generated king move `e1d1` is neither a pawn move nor a capture, and after `makeMove` the clock
is `-2147483648`, not the previous clock plus 1. -/
theorem makeMove_halfmoveClock_overflow :
    clockMaxPos.halfmoveClock = 2147483647 ∧
    ({ from_ := 4, to_ := 3, promo := EMPTY, captured := EMPTY } : Move) ∈
      genPseudoLegalMoves clockMaxPos ∧
    getSq clockMaxPos.b 4 = WK ∧ getSq clockMaxPos.b 3 = EMPTY ∧
    (makeMove clockMaxPos
      { from_ := 4, to_ := 3, promo := EMPTY, captured := EMPTY }).1.halfmoveClock =
        -2147483648 := by
  decide!

/-- C19, amended. When the clock of `P` is an `int` below `2147483647`, after `makeMove` the
halfmove clock is 0 when the moved piece is a pawn or the destination square is occupied (an
en-passant capture is a pawn move), and the previous clock plus 1 otherwise; this holds for every
move, generated or not. -/
theorem makeMove_halfmoveClock (P : Position) (m : Move)
    (hlo : -2147483648 ≤ P.halfmoveClock) (hhi : P.halfmoveClock < 2147483647) :
    (makeMove P m).1.halfmoveClock =
      if getSq P.b m.from_ = WP ∨ getSq P.b m.from_ = BP ∨ getSq P.b m.to_ ≠ EMPTY
      then 0 else P.halfmoveClock + 1 := by
  rw [makeMove_halfmoveClock_wrap, wrapInt32_of_range _ (by omega) (by omega)]

set_option maxRecDepth 100000 in
/-- C19, amended, at the position after `g1f3` (clock 1) and the knight move `b8c6`: the clock
becomes 2. -/
theorem makeMove_halfmoveClock_afterNf3 :
    afterNf3Pos.halfmoveClock = 1 ∧
    (makeMove afterNf3Pos
      { from_ := 57, to_ := 42, promo := EMPTY, captured := EMPTY }).1.halfmoveClock = 2 ∧
    (makeMove afterNf3Pos
      { from_ := 57, to_ := 42, promo := EMPTY, captured := EMPTY }).1.halfmoveClock =
      if getSq afterNf3Pos.b 57 = WP ∨ getSq afterNf3Pos.b 57 = BP ∨
        getSq afterNf3Pos.b 42 ≠ EMPTY
      then 0 else afterNf3Pos.halfmoveClock + 1 :=
  ⟨by decide!, by decide!,
    makeMove_halfmoveClock afterNf3Pos
      { from_ := 57, to_ := 42, promo := EMPTY, captured := EMPTY } (by decide!) (by decide!)⟩

/-! ## Promotion pieces of generated moves -/

theorem slideRay_promo (b : Board) (sq : Int) (p : Piece) (dv : Int) (m : Move) :
    ∀ (n : Nat) (prev : Int), m ∈ slideRay b sq p dv n prev → m.promo = EMPTY := by
  intro n
  induction n with
  | zero => intro prev h; simp [slideRay] at h
  | succ n ih =>
    intro prev h
    simp only [slideRay] at h
    split_ifs at h with h1 h2 h3 h4 h5
    · simp at h
    · simp at h
    · simp at h
    · rcases List.mem_cons.1 h with h | h
      · subst h; rfl
      · exact ih _ h
    · simp at h
      subst h; rfl
    · simp at h

theorem knightMoves_promo (b : Board) (sq : Int) (p : Piece) (m : Move)
    (h : m ∈ knightMoves b sq p) : m.promo = EMPTY := by
  simp only [knightMoves, List.mem_flatMap] at h
  obtain ⟨dv, _, h⟩ := h
  split_ifs at h <;> simp at h
  subst h; rfl

theorem kingMoves_promo (P : Position) (sq : Int) (p : Piece) (m : Move)
    (h : m ∈ kingMoves P sq p) : m.promo = EMPTY := by
  unfold kingMoves at h
  simp only [List.mem_append, List.mem_flatMap] at h
  rcases h with (⟨dv, _, h⟩ | h) | h
  · split_ifs at h <;> simp at h
    subst h; rfl
  · split_ifs at h <;>
    simp only [List.mem_append, List.mem_cons, List.mem_singleton, List.not_mem_nil, or_false,
      false_or, or_self, List.append_nil, List.nil_append] at h <;>
    (try rcases h with rfl | rfl) <;> rfl
  · split_ifs at h <;>
    simp only [List.mem_append, List.mem_cons, List.mem_singleton, List.not_mem_nil, or_false,
      false_or, or_self, List.append_nil, List.nil_append] at h <;>
    (try rcases h with rfl | rfl) <;> rfl

theorem pawnMoves_promo_white (P : Position) (sq : Int) (m : Move)
    (h : m ∈ pawnMoves P sq WP) :
    m.promo = EMPTY ∨
      (rankOf m.to_ = 7 ∧ (m.promo = WQ ∨ m.promo = WR ∨ m.promo = WB ∨ m.promo = WN)) := by
  unfold pawnMoves at h
  simp only [List.mem_append, List.mem_flatMap, List.mem_cons, List.mem_singleton,
    List.not_mem_nil, or_false, if_true, true_and, false_and, reduceCtorEq, if_false,
    promoMoves, addMove, onBoard_iff, exists_eq_or_imp, exists_eq_left, false_or, one_mul,
    Bool.not_eq_true', Bool.not_eq_true, isWhite_WP] at h
  rcases h with h | h | h
  all_goals
    split_ifs at h with c1 c2 c3 c4 <;>
    simp only [List.mem_append, List.mem_cons, List.mem_singleton, List.not_mem_nil, or_false,
      false_or, or_self, or_assoc] at h <;>
    (try rcases h with rfl | rfl | rfl | rfl | rfl) <;>
    (try simp only [Bool.not_eq_false, onBoard_iff] at c2) <;>
    first
      | (left; rfl)
      | (right
         refine ⟨?_, by simp⟩
         simp only [rankOf, fileOf, decide_eq_true_eq] at *
         omega)

theorem pawnMoves_promo_black (P : Position) (sq : Int) (m : Move)
    (h : m ∈ pawnMoves P sq BP) :
    m.promo = EMPTY ∨
      (rankOf m.to_ = 0 ∧ (m.promo = BQ ∨ m.promo = BR ∨ m.promo = BB ∨ m.promo = BN)) := by
  unfold pawnMoves at h
  simp only [List.mem_append, List.mem_flatMap, List.mem_cons, List.mem_singleton,
    List.not_mem_nil, or_false, if_true, true_and, false_and, reduceCtorEq, if_false,
    promoMoves, addMove, onBoard_iff, exists_eq_or_imp, exists_eq_left, false_or, one_mul,
    Bool.not_eq_true', Bool.not_eq_true, isWhite_BP, neg_mul, Int.reduceNeg, Int.reduceMul] at h
  rcases h with h | h | h
  all_goals
    split_ifs at h with c1 c2 c3 c4 <;>
    simp only [List.mem_append, List.mem_cons, List.mem_singleton, List.not_mem_nil, or_false,
      false_or, or_self, or_assoc] at h <;>
    (try rcases h with rfl | rfl | rfl | rfl | rfl) <;>
    (try simp only [Bool.not_eq_false, onBoard_iff] at c2) <;>
    first
      | (left; rfl)
      | (right
         refine ⟨?_, by simp⟩
         simp only [rankOf, fileOf, decide_eq_true_eq] at *
         omega)

/-- The promotion piece of a generated move: none, or one of the four promotion pieces of the
mover's colour on a pawn move to the last rank. -/
theorem genPseudoLegalMoves_promo (P : Position) (m : Move) (h : m ∈ genPseudoLegalMoves P) :
    m.promo = EMPTY ∨
    (getSq P.b m.from_ = WP ∧ rankOf m.to_ = 7 ∧
      (m.promo = WQ ∨ m.promo = WR ∨ m.promo = WB ∨ m.promo = WN)) ∨
    (getSq P.b m.from_ = BP ∧ rankOf m.to_ = 0 ∧
      (m.promo = BQ ∨ m.promo = BR ∨ m.promo = BB ∨ m.promo = BN)) := by
  simp only [genPseudoLegalMoves, List.mem_flatMap, List.mem_range] at h
  obtain ⟨i, hi, h⟩ := h
  have hsq : 0 ≤ (i : Int) ∧ (i : Int) < 64 := ⟨by omega, by omega⟩
  unfold movesFrom at h
  simp only at h
  split_ifs at h with c0 c1 c2 cp cn cb cr cq ck
  · simp at h
  · simp at h
  · simp at h
  · rcases cp with cp | cp
    · rw [cp] at h
      have hf := (pawnMoves_shape_white P _ m hsq h).1
      rcases pawnMoves_promo_white P _ m h with h1 | h1
      · exact Or.inl h1
      · exact Or.inr (Or.inl ⟨by rw [hf]; exact cp, h1⟩)
    · rw [cp] at h
      have hf := (pawnMoves_shape_black P _ m hsq h).1
      rcases pawnMoves_promo_black P _ m h with h1 | h1
      · exact Or.inl h1
      · exact Or.inr (Or.inr ⟨by rw [hf]; exact cp, h1⟩)
  · exact Or.inl (knightMoves_promo _ _ _ m h)
  · simp only [slide, List.mem_flatMap] at h
    obtain ⟨dv, _, h⟩ := h
    exact Or.inl (slideRay_promo _ _ _ dv m 8 _ h)
  · simp only [slide, List.mem_flatMap] at h
    obtain ⟨dv, _, h⟩ := h
    exact Or.inl (slideRay_promo _ _ _ dv m 8 _ h)
  · simp only [slide, List.mem_flatMap] at h
    obtain ⟨dv, _, h⟩ := h
    exact Or.inl (slideRay_promo _ _ _ dv m 8 _ h)
  · exact Or.inl (kingMoves_promo P _ _ m h)
  · simp at h

/-- The en-passant target after a move that is not stopped by the defensive return and whose
destination is on the board. -/
theorem makeMove_epSq (P : Position) (m : Move) (h : ¬ defensiveReturn P m)
    (hto : 0 ≤ m.to_ ∧ m.to_ < 64) :
    (makeMove P m).1.epSq =
      (if getSq P.b m.from_ = WP then
        (if Int.tdiv m.from_ 8 = 1 ∧ Int.tdiv m.to_ 8 = 3 ∧
            (if m.promo ≠ EMPTY then m.promo else getSq P.b m.from_) = WP
         then m.from_ + 8 else -1)
       else if getSq P.b m.from_ = BP then
        (if Int.tdiv m.from_ 8 = 6 ∧ Int.tdiv m.to_ 8 = 4 ∧
            (if m.promo ≠ EMPTY then m.promo else getSq P.b m.from_) = BP
         then m.from_ - 8 else -1)
       else -1) := by
  rw [← makeMove_guard_iff] at h
  unfold makeMove
  lift_lets
  intro captured0 p halfmove wasEP capSq captured b1 u0 diagonal hasEnemy put b2 ep
    c1 c2 c3 c4 c5 c6 c7 c8 c9 c10 wc u1 b3 bc u2 b4
  rw [if_neg h]
  have hput : getSq b2 m.to_ = put := by
    simp only [b2, getSq_setSq, hto, and_self, if_true]
  simp only [ep, hput, put, p]

/-- C13. For every position and every generated move, the en-passant target after `makeMove` is
`from+8` for a white pawn advancing two ranks from rank index 1, `from-8` for a black pawn
advancing two ranks from rank index 6, and `-1` for every other move. -/
theorem makeMove_epSq_generated (P : Position) (m : Move) (hm : m ∈ genPseudoLegalMoves P) :
    (makeMove P m).1.epSq =
      if getSq P.b m.from_ = WP ∧ rankOf m.from_ = 1 ∧ m.to_ = m.from_ + 16 then m.from_ + 8
      else if getSq P.b m.from_ = BP ∧ rankOf m.from_ = 6 ∧ m.to_ = m.from_ - 16 then m.from_ - 8
      else -1 := by
  have hs := genPseudoLegalMoves_shape P m hm
  have hpr := genPseudoLegalMoves_promo P m hm
  have hf0 := hs.from_lo
  have hf1 := hs.from_hi
  have ht0 := hs.to_lo
  have ht1 := hs.to_hi
  have hdf : Int.tdiv m.from_ 8 = m.from_ / 8 := Int.tdiv_eq_ediv hf0 (by decide)
  have hdt : Int.tdiv m.to_ 8 = m.to_ / 8 := Int.tdiv_eq_ediv ht0 (by decide)
  by_cases hr : defensiveReturn P m
  · rw [makeMove_defensive_return P m hr]
    obtain ⟨hp, hd, -, -⟩ := hr
    have hne : m.to_ ≠ m.from_ + 16 ∧ m.to_ ≠ m.from_ - 16 := by
      simp only [iabs, fileOf] at hd
      constructor <;> intro h <;> rw [h] at hd <;> split_ifs at hd <;> omega
    simp [hne.1, hne.2]
  · rw [makeMove_epSq P m hr ⟨ht0, ht1⟩, hdf, hdt]
    by_cases hw : getSq P.b m.from_ = WP
    · have hsh := hs.wp hw
      simp only [hw, reduceCtorEq, false_and, if_false, true_and, if_true]
      rcases hpr with hp0 | ⟨-, hp1, -⟩ | ⟨hp2, -⟩
      · simp only [hp0, ne_eq, not_true_eq_false, if_false, and_true]
        simp only [rankOf, iabs, fileOf] at hsh ⊢
        split_ifs <;> omega
      · have h7 : ¬ (m.to_ / 8 = 3) := by simp only [rankOf] at hp1; omega
        have h16 : ¬ (m.from_ / 8 = 1 ∧ m.to_ = m.from_ + 16) := by
          simp only [rankOf] at hp1; omega
        simp only [rankOf] at h16 ⊢
        simp [h7, h16]
      · rw [hw] at hp2; cases hp2
    · by_cases hb : getSq P.b m.from_ = BP
      · have hsh := hs.bp hb
        simp only [hb, reduceCtorEq, false_and, if_false, true_and, if_true]
        rcases hpr with hp0 | ⟨hp2, -⟩ | ⟨-, hp1, -⟩
        · simp only [hp0, ne_eq, not_true_eq_false, if_false, and_true]
          simp only [rankOf, iabs, fileOf] at hsh ⊢
          split_ifs <;> omega
        · rw [hb] at hp2; cases hp2
        · have h7 : ¬ (m.to_ / 8 = 4) := by simp only [rankOf] at hp1; omega
          have h16 : ¬ (m.from_ / 8 = 6 ∧ m.to_ = m.from_ - 16) := by
            simp only [rankOf] at hp1; omega
          simp only [rankOf] at h16 ⊢
          simp [h7, h16]
      · simp [hw, hb]

set_option maxRecDepth 100000 in
/-- C13, at the start position and the double push `e2e4`: the target becomes `e3` (20). -/
theorem makeMove_epSq_generated_e2e4 :
    ({ from_ := 12, to_ := 28, promo := EMPTY, captured := EMPTY } : Move) ∈
      genPseudoLegalMoves setStartPos ∧
    (makeMove setStartPos { from_ := 12, to_ := 28, promo := EMPTY, captured := EMPTY }).1.epSq
      = 20 ∧
    (makeMove setStartPos { from_ := 12, to_ := 28, promo := EMPTY, captured := EMPTY }).1.epSq =
      if getSq setStartPos.b 12 = WP ∧ rankOf 12 = 1 ∧ (28 : Int) = 12 + 16 then 12 + 8
      else if getSq setStartPos.b 12 = BP ∧ rankOf 12 = 6 ∧ (28 : Int) = 12 - 16 then 12 - 8
      else -1 :=
  ⟨by decide!, by decide!,
    makeMove_epSq_generated setStartPos
      { from_ := 12, to_ := 28, promo := EMPTY, captured := EMPTY } (by decide!)⟩

/-! ## Castling rights -/

theorem makeMove_castle_aux (P : Position) (m : Move) (h : ¬ defensiveReturn P m) :
    (makeMove P m).1.castle =
      castleAfter P.castle (getSq P.b m.from_)
        (if decide ((getSq P.b m.from_ = WP ∨ getSq P.b m.from_ = BP) ∧ m.to_ = P.epSq ∧
            getSq P.b m.to_ = EMPTY) = true
         then getSq P.b (if getSq P.b m.from_ = WP then m.to_ - 8 else m.to_ + 8)
         else getSq P.b m.to_) m.from_ m.to_ := by
  rw [← makeMove_guard_iff] at h
  unfold makeMove
  lift_lets
  intro captured0 p halfmove wasEP capSq captured b1 u0 diagonal hasEnemy put b2 ep
    c1 c2 c3 c4 c5 c6 c7 c8 c9 c10 wc u1 b3 bc u2 b4
  rw [if_neg h]
  rfl

/-- The castling rights after a move that is not stopped by the defensive return. -/
theorem makeMove_castle (P : Position) (m : Move) (h : ¬ defensiveReturn P m) :
    (makeMove P m).1.castle =
      castleAfter P.castle (getSq P.b m.from_) (makeMove P m).2.captured m.from_ m.to_ := by
  rw [makeMove_castle_aux P m h, (makeMove_undo_basic P m).2.2.2.2.2.1]
  simp only [decide_eq_true_eq]

theorem clearRight_and (c mask bit : Nat) (hb : bit < 256) :
    clearRight c mask &&& bit = c &&& ((255 ^^^ mask) &&& bit) := by
  unfold clearRight
  have h256 : ∀ x : Nat, x % 256 = x &&& 255 := by
    intro x
    have := Nat.and_pow_two_sub_one_eq_mod x 8
    simpa using this.symm
  have hbit : 255 &&& bit = bit := by
    rw [Nat.and_comm]
    exact Nat.and_pow_two_sub_one_of_lt_two_pow (n := 8) hb
  rw [h256, Nat.and_assoc, Nat.and_assoc, hbit]

theorem ite_and (c : Prop) [Decidable c] (a b k : Nat) :
    (if c then a else b) &&& k = if c then a &&& k else b &&& k := by
  split_ifs <;> rfl

theorem clearRight_drop (c mask bit : Nat) (hb : bit < 256) (h : (255 ^^^ mask) &&& bit = 0) :
    clearRight c mask &&& bit = 0 := by
  rw [clearRight_and c mask bit hb, h]; exact Nat.and_zero c

theorem clearRight_keep (c mask bit : Nat) (hb : bit < 256) (h : (255 ^^^ mask) &&& bit = bit) :
    clearRight c mask &&& bit = c &&& bit := by
  rw [clearRight_and c mask bit hb, h]

/-- The four rights after the update, bit by bit. -/
theorem castleAfter_bits (c : Nat) (p cap : Piece) (f t : Int) :
    (castleAfter c p cap f t &&& 1 =
      if p = WK ∨ (p = WR ∧ f = 7) ∨ (cap = WR ∧ t = 7) then 0 else c &&& 1) ∧
    (castleAfter c p cap f t &&& 2 =
      if p = WK ∨ (p = WR ∧ f = 0) ∨ (cap = WR ∧ t = 0) then 0 else c &&& 2) ∧
    (castleAfter c p cap f t &&& 4 =
      if p = BK ∨ (p = BR ∧ f = 63) ∨ (cap = BR ∧ t = 63) then 0 else c &&& 4) ∧
    (castleAfter c p cap f t &&& 8 =
      if p = BK ∨ (p = BR ∧ f = 56) ∨ (cap = BR ∧ t = 56) then 0 else c &&& 8) := by
  unfold castleAfter
  refine ⟨?_, ?_, ?_, ?_⟩
  · simp only [ite_and, clearRight_drop _ (1 ||| 2) 1 (by decide) (by decide),
      clearRight_keep _ (4 ||| 8) 1 (by decide) (by decide),
      clearRight_keep _ 2 1 (by decide) (by decide), clearRight_drop _ 1 1 (by decide) (by decide),
      clearRight_keep _ 8 1 (by decide) (by decide), clearRight_keep _ 4 1 (by decide) (by decide),
      ite_self]
    split_ifs <;> first | rfl | (exfalso; tauto)
  · simp only [ite_and, clearRight_drop _ (1 ||| 2) 2 (by decide) (by decide),
      clearRight_keep _ (4 ||| 8) 2 (by decide) (by decide),
      clearRight_drop _ 2 2 (by decide) (by decide), clearRight_keep _ 1 2 (by decide) (by decide),
      clearRight_keep _ 8 2 (by decide) (by decide), clearRight_keep _ 4 2 (by decide) (by decide),
      ite_self]
    split_ifs <;> first | rfl | (exfalso; tauto)
  · simp only [ite_and, clearRight_keep _ (1 ||| 2) 4 (by decide) (by decide),
      clearRight_drop _ (4 ||| 8) 4 (by decide) (by decide),
      clearRight_keep _ 2 4 (by decide) (by decide), clearRight_keep _ 1 4 (by decide) (by decide),
      clearRight_keep _ 8 4 (by decide) (by decide), clearRight_drop _ 4 4 (by decide) (by decide),
      ite_self]
    split_ifs <;> first | rfl | (exfalso; tauto)
  · simp only [ite_and, clearRight_keep _ (1 ||| 2) 8 (by decide) (by decide),
      clearRight_drop _ (4 ||| 8) 8 (by decide) (by decide),
      clearRight_keep _ 2 8 (by decide) (by decide), clearRight_keep _ 1 8 (by decide) (by decide),
      clearRight_drop _ 8 8 (by decide) (by decide), clearRight_keep _ 4 8 (by decide) (by decide),
      ite_self]
    split_ifs <;> first | rfl | (exfalso; tauto)

theorem BitsSubset.refl (c : Nat) : BitsSubset c c := fun _ h => h

theorem BitsSubset.trans {x y z : Nat} (h1 : BitsSubset x y) (h2 : BitsSubset y z) :
    BitsSubset x z := fun i h => h2 i (h1 i h)

theorem clearRight_subset (c mask : Nat) : BitsSubset (clearRight c mask) c := by
  intro i h
  unfold clearRight at h
  rw [show (256 : Nat) = 2 ^ 8 from rfl, Nat.testBit_mod_two_pow, Nat.testBit_and] at h
  simp only [Bool.and_eq_true, decide_eq_true_eq] at h
  exact h.2.1

theorem ite_clearRight_subset (cond : Prop) [Decidable cond] (x c mask : Nat)
    (h : BitsSubset x c) : BitsSubset (if cond then clearRight x mask else x) c := by
  split_ifs
  · exact (clearRight_subset x mask).trans h
  · exact h

theorem castleAfter_subset (c : Nat) (p cap : Piece) (f t : Int) :
    BitsSubset (castleAfter c p cap f t) c := by
  unfold castleAfter
  repeat apply ite_clearRight_subset
  exact BitsSubset.refl c

theorem BitsSubset.and_eq {x c : Nat} (h : BitsSubset x c) : x &&& c = x := by
  apply Nat.eq_of_testBit_eq
  intro i
  rw [Nat.testBit_and]
  cases hx : x.testBit i
  · rfl
  · rw [h i hx]; rfl

theorem BitsSubset.and_not_eq {x c : Nat} (h : BitsSubset x c) :
    x &&& (255 ^^^ (c % 256)) = 0 := by
  apply Nat.eq_of_testBit_eq
  intro i
  rw [Nat.testBit_and, Nat.testBit_xor, show (256 : Nat) = 2 ^ 8 from rfl,
    Nat.testBit_mod_two_pow, show (255 : Nat) = 2 ^ 8 - 1 from rfl, Nat.testBit_two_pow_sub_one,
    Nat.zero_testBit]
  by_cases hi : i < 8
  · cases hxi : x.testBit i
    · rfl
    · simp [hi, h i hxi]
  · simp [hi]

/-- C14. For every position and every move (generated or not), every castling-right bit that is
set after `makeMove` was set before it: the rights after the move, masked with the complement of
the rights before it, are 0. -/
theorem makeMove_castle_monotone (P : Position) (m : Move) :
    (∀ i : Nat, (makeMove P m).1.castle.testBit i = true → P.castle.testBit i = true) ∧
    (makeMove P m).1.castle &&& (255 ^^^ (P.castle % 256)) = 0 ∧
    (makeMove P m).1.castle &&& P.castle = (makeMove P m).1.castle := by
  have hsub : BitsSubset (makeMove P m).1.castle P.castle := by
    by_cases hr : defensiveReturn P m
    · rw [makeMove_defensive_return P m hr]
      exact BitsSubset.refl P.castle
    · rw [makeMove_castle P m hr]
      exact castleAfter_subset _ _ _ _ _
  exact ⟨hsub, hsub.and_not_eq, hsub.and_eq⟩

theorem captured_on_corner (P : Position) (m : Move)
    (hep : P.epSq = -1 ∨ (getSq P.b P.epSq = EMPTY ∧ (rankOf P.epSq = 2 ∨ rankOf P.epSq = 5)))
    (hto : 0 ≤ m.to_) (R : Piece) (t : Int)
    (ht : t = 0 ∨ t = 7 ∨ t = 56 ∨ t = 63) :
    ((makeMove P m).2.captured = R ∧ m.to_ = t) ↔ (getSq P.b m.to_ = R ∧ m.to_ = t) := by
  rw [(makeMove_undo_basic P m).2.2.2.2.2.1]
  by_cases he : (getSq P.b m.from_ = WP ∨ getSq P.b m.from_ = BP) ∧ m.to_ = P.epSq ∧
      getSq P.b m.to_ = EMPTY
  · rw [if_pos he]
    have hne : m.to_ ≠ t := by
      obtain ⟨-, h2, -⟩ := he
      rcases hep with h | ⟨-, h⟩
      · omega
      · simp only [rankOf] at h
        rw [← h2] at h
        omega
    constructor
    · rintro ⟨-, h⟩; exact absurd h hne
    · rintro ⟨-, h⟩; exact absurd h hne
  · rw [if_neg he]

/-- C15. In a position whose en-passant target is none or an empty square on rank index 2 or 5,
after `makeMove` of a legal move each of the four rights is cleared when the move is made by that
colour's king, or by that colour's rook from the home corner of the right, or lands on that
colour's rook on that corner; otherwise the right is as before. -/
theorem makeMove_castle_exact (P : Position)
    (hep : P.epSq = -1 ∨ (getSq P.b P.epSq = EMPTY ∧ (rankOf P.epSq = 2 ∨ rankOf P.epSq = 5)))
    (m : Move) (hm : m ∈ genLegalMoves P) :
    ((makeMove P m).1.castle &&& 1 =
      if getSq P.b m.from_ = WK ∨ (getSq P.b m.from_ = WR ∧ m.from_ = 7) ∨
        (getSq P.b m.to_ = WR ∧ m.to_ = 7) then 0 else P.castle &&& 1) ∧
    ((makeMove P m).1.castle &&& 2 =
      if getSq P.b m.from_ = WK ∨ (getSq P.b m.from_ = WR ∧ m.from_ = 0) ∨
        (getSq P.b m.to_ = WR ∧ m.to_ = 0) then 0 else P.castle &&& 2) ∧
    ((makeMove P m).1.castle &&& 4 =
      if getSq P.b m.from_ = BK ∨ (getSq P.b m.from_ = BR ∧ m.from_ = 63) ∨
        (getSq P.b m.to_ = BR ∧ m.to_ = 63) then 0 else P.castle &&& 4) ∧
    ((makeMove P m).1.castle &&& 8 =
      if getSq P.b m.from_ = BK ∨ (getSq P.b m.from_ = BR ∧ m.from_ = 56) ∨
        (getSq P.b m.to_ = BR ∧ m.to_ = 56) then 0 else P.castle &&& 8) := by
  have hs := genPseudoLegalMoves_shape P m (genLegalMoves_subset P m hm)
  have hepE : EpTargetEmpty P := by
    rcases hep with h | ⟨h, -⟩
    · exact Or.inl h
    · exact Or.inr h
  have hnr := not_defensiveReturn_of_shape P m hs hepE
  have hc := captured_on_corner P m hep hs.to_lo
  have h7 := hc WR 7 (by decide)
  have h0 := hc WR 0 (by decide)
  have h63 := hc BR 63 (by decide)
  have h56 := hc BR 56 (by decide)
  rw [makeMove_castle P m hnr]
  obtain ⟨b1, b2, b4, b8⟩ := castleAfter_bits P.castle (getSq P.b m.from_)
    (makeMove P m).2.captured m.from_ m.to_
  rw [b1, b2, b4, b8]
  simp only [h7, h0, h63, h56, and_self]

set_option maxRecDepth 100000 in
/-- C15, at `castleAllPos` and the capture `h1xh8`: the rook leaves `h1` and takes the rook on
`h8`, so the two kingside rights go and the two queenside rights stay. -/
theorem makeMove_castle_exact_rxh8 :
    castleAllPos.castle = 15 ∧
    ({ from_ := 7, to_ := 63, promo := EMPTY, captured := BR } : Move) ∈
      genLegalMoves castleAllPos ∧
    (makeMove castleAllPos { from_ := 7, to_ := 63, promo := EMPTY, captured := BR }).1.castle
      = 10 ∧
    ((makeMove castleAllPos
        { from_ := 7, to_ := 63, promo := EMPTY, captured := BR }).1.castle &&& 1 =
      if getSq castleAllPos.b 7 = WK ∨ (getSq castleAllPos.b 7 = WR ∧ (7 : Int) = 7) ∨
        (getSq castleAllPos.b 63 = WR ∧ (63 : Int) = 7) then 0 else castleAllPos.castle &&& 1) :=
  ⟨by decide!, by decide!, by decide!,
    (makeMove_castle_exact castleAllPos (by decide!)
      { from_ := 7, to_ := 63, promo := EMPTY, captured := BR } (by decide!)).1⟩

/-! ## Evaluation under colour mirroring -/

theorem evalSquareExact_eq (w : Weights) (b : Board) (score : ℚ) (i : Fin 64) :
    evalSquareExact w b score i = score + squareTerm w b i := by
  unfold squareTerm evalSquareExact
  simp only
  split_ifs <;> ring

theorem foldl_evalSquareExact (w : Weights) (b : Board) (l : List (Fin 64)) :
    ∀ acc : ℚ, l.foldl (evalSquareExact w b) acc = acc + (l.map (squareTerm w b)).sum := by
  induction l with
  | nil => intro acc; simp
  | cons a l ih =>
    intro acc
    rw [List.foldl_cons, ih, evalSquareExact_eq, List.map_cons, List.sum_cons]
    ring

theorem evalExact_eq_sum (w : Weights) (P : Position) :
    evalExact w P = llround (∑ i : Fin 64, squareTerm w P.b i) := by
  unfold evalExact
  rw [foldl_evalSquareExact, Fin.sum_univ_def, zero_add]

theorem llround_neg (q : ℚ) : llround (-q) = -llround q := by
  unfold llround
  rcases lt_trichotomy q 0 with h | h | h
  · have h1 : (0 : ℚ) ≤ -q := by linarith
    have h2 : ¬ (0 : ℚ) ≤ q := by linarith
    simp [h1, h2]
  · subst h
    have h0 : Rat.floor ((2 : ℚ)⁻¹) = 0 := by
      show ⌊(2 : ℚ)⁻¹⌋ = 0
      rw [Int.floor_eq_iff]
      norm_num
    simp [h0]
  · have h1 : ¬ (0 : ℚ) ≤ -q := by linarith
    have h2 : (0 : ℚ) ≤ q := by linarith
    simp [h1, h2]

theorem mirrorSq_involutive : Function.Involutive mirrorSq := by
  intro i
  apply Fin.ext
  simp only [mirrorSq]
  omega

theorem rev_mirrorSq (i : Fin 64) : Fin.rev (mirrorSq i) = fileFlip i := by
  apply Fin.ext
  simp only [mirrorSq, fileFlip, Fin.val_rev]
  omega

theorem rev_eq_fileFlip_mirrorSq (i : Fin 64) : Fin.rev i = fileFlip (mirrorSq i) := by
  apply Fin.ext
  simp only [mirrorSq, fileFlip, Fin.val_rev]
  omega

theorem squareTerm_colorMirror (w : Weights) (b : Board)
    (hp : ∀ i, w.pstPawn (fileFlip i) = w.pstPawn i)
    (hn : ∀ i, w.pstKnight (fileFlip i) = w.pstKnight i) (i : Fin 64) :
    squareTerm w (fun j => swapColor (b (mirrorSq j))) i = -squareTerm w b (mirrorSq i) := by
  unfold squareTerm evalSquareExact
  simp only
  have e1 := rev_mirrorSq i
  have e2 := rev_eq_fileFlip_mirrorSq i
  have p1 := hp (mirrorSq i)
  have p2 := hp i
  have n1 := hn (mirrorSq i)
  have n2 := hn i
  cases hb : b (mirrorSq i) <;>
    simp [swapColor, idxPiece, e1, e2, p1, p2, n1, n2]

/-- In exact arithmetic, when the pawn and knight tables are symmetric under the file mirroring
`f ↦ 7 - f`, the colour-mirrored position evaluates to the negated score. -/
theorem evalExact_colorMirror (w : Weights) (P : Position)
    (hp : ∀ i, w.pstPawn (fileFlip i) = w.pstPawn i)
    (hn : ∀ i, w.pstKnight (fileFlip i) = w.pstKnight i) :
    evalExact w (colorMirror P) = -evalExact w P := by
  rw [evalExact_eq_sum, evalExact_eq_sum, ← llround_neg]
  congr 1
  have h1 : ∀ i, squareTerm w (colorMirror P).b i = -squareTerm w P.b (mirrorSq i) :=
    fun i => squareTerm_colorMirror w P.b hp hn i
  simp only [h1, Finset.sum_neg_distrib, neg_inj]
  exact Equiv.sum_comp (mirrorSq_involutive.toPerm mirrorSq) (squareTerm w P.b)

theorem bitLen_le (fuel : Nat) : ∀ (n m : Nat), n < 2 ^ m → bitLen fuel n ≤ m := by
  induction fuel with
  | zero => intro n m _; simp [bitLen]
  | succ f ih =>
    intro n m h
    unfold bitLen
    split_ifs with h0
    · omega
    · cases m with
      | zero => simp at h; omega
      | succ m =>
        have : n / 2 < 2 ^ m := by
          rw [Nat.div_lt_iff_lt_mul (by decide)]
          rw [pow_succ] at h
          exact h
        have := ih (n / 2) m this
        omega

theorem two_pow_53_le (k : Nat) (hk : 53 ≤ k) : (2 : Nat) ^ 53 ≤ 2 ^ k :=
  Nat.pow_le_pow_right Nat.two_pos hk

theorem floorLog2_one_le (n : Nat) (h : n < 2 ^ 53) : floorLog2 n 1 ≤ 52 := by
  have h1 := bitLen_le n n 53 h
  have h2 : bitLen 1 1 = 1 := by decide
  unfold floorLog2
  simp only [h2]
  split_ifs <;> omega

theorem divRoundEven_one (a : Nat) : divRoundEven a 1 = a := by
  unfold divRoundEven
  simp [Nat.mod_one]

theorem roundDouble_intCast (z : Int) (h : z.natAbs < 2 ^ 53) :
    roundDouble (z : ℚ) = some (z : ℚ) := by
  unfold roundDouble
  by_cases hz : z = 0
  · subst hz; simp
  · have hq : ((z : ℚ) = 0) = False := by simp [hz]
    simp only [hq, if_false, Rat.num_intCast, Rat.den_intCast]
    have he := floorLog2_one_le z.natAbs h
    have hs : (0 : Int) ≤ 52 - max (floorLog2 z.natAbs 1) (-1022) := by omega
    simp only [hs, if_true, divRoundEven_one]
    generalize (52 - max (floorLog2 z.natAbs 1) (-1022)).toNat = t
    have hv : mkRat ((z.natAbs * 2 ^ t : Nat) : Int) (2 ^ t) = ((z.natAbs : Nat) : ℚ) := by
      rw [Rat.mkRat_eq_div, Int.cast_natCast, Nat.cast_mul]
      have : ((2 ^ t : Nat) : ℚ) ≠ 0 := by positivity
      field_simp
    rw [hv]
    have hlt : ¬ (((z.natAbs : Nat) : ℚ) ≥ ((2 ^ 1024 : Nat) : ℚ)) := by
      rw [ge_iff_le, Nat.cast_le]
      exact Nat.not_le.2 (Nat.lt_of_lt_of_le h (two_pow_53_le 1024 (by decide)))
    rw [if_neg hlt]
    congr 1
    have hc : ((z.natAbs : Nat) : ℚ) = (((z.natAbs : Nat) : Int) : ℚ) := (Int.cast_natCast _).symm
    by_cases hneg : z < 0
    · have h1 : ((z : ℚ) < 0) := by exact_mod_cast hneg
      rw [if_pos h1, hc]
      have : ((z.natAbs : Nat) : Int) = -z := by omega
      rw [this, Int.cast_neg, neg_neg]
    · have h1 : ¬ ((z : ℚ) < 0) := by exact_mod_cast hneg
      rw [if_neg h1, hc]
      have : ((z.natAbs : Nat) : Int) = z := by omega
      rw [this]

theorem roundDouble_intCast_range (z : Int) (h1 : -9007199254740992 < z)
    (h2 : z < 9007199254740992) : roundDouble (z : ℚ) = some (z : ℚ) := by
  apply roundDouble_intCast
  have e53 : (2 : Nat) ^ 53 = 9007199254740992 := by norm_num
  omega

theorem fadd_intCast (a b : Int) (h1 : -9007199254740992 < a + b)
    (h2 : a + b < 9007199254740992) :
    fadd (some (a : ℚ)) (some (b : ℚ)) = some ((a + b : Int) : ℚ) := by
  show roundDouble ((a : ℚ) + (b : ℚ)) = _
  rw [← Int.cast_add, roundDouble_intCast_range _ h1 h2]

theorem fsub_intCast (a b : Int) (h1 : -9007199254740992 < a - b)
    (h2 : a - b < 9007199254740992) :
    fsub (some (a : ℚ)) (some (b : ℚ)) = some ((a - b : Int) : ℚ) := by
  show roundDouble ((a : ℚ) - (b : ℚ)) = _
  rw [← Int.cast_sub, roundDouble_intCast_range _ h1 h2]

theorem integerWeights_cast (q : ℚ) (h : q.den = 1 ∧ q.num.natAbs ≤ 10000000) :
    ∃ z : Int, q = (z : ℚ) ∧ -10000000 ≤ z ∧ z ≤ 10000000 :=
  ⟨q.num, (Rat.coe_int_num_of_den_eq_one h.1).symm, by omega, by omega⟩

theorem evalSquare_intCast (w : Weights) (hw : IntegerWeights w) (b : Board) (sq : Fin 64)
    (z B : Int) (hB : B ≤ 2000000000) (hz : -B ≤ z ∧ z ≤ B) :
    ∃ z1 : Int, evalSquare w b (some (z : ℚ)) sq = some (z1 : ℚ) ∧
      evalSquareExact w b (z : ℚ) sq = (z1 : ℚ) ∧
      -(B + 20000000) ≤ z1 ∧ z1 ≤ B + 20000000 := by
  obtain ⟨zm, hm, bm⟩ := integerWeights_cast _ (hw.1 (idxPiece (b sq)))
  obtain ⟨zp, hp, bp⟩ := integerWeights_cast _ (hw.2.1 sq)
  obtain ⟨zp1, hp1, bp1⟩ := integerWeights_cast _ (hw.2.1 (Fin.rev sq))
  obtain ⟨zn, hn, bn⟩ := integerWeights_cast _ (hw.2.2 sq)
  obtain ⟨zn1, hn1, bn1⟩ := integerWeights_cast _ (hw.2.2 (Fin.rev sq))
  have rm : roundDouble (zm : ℚ) = some (zm : ℚ) :=
    roundDouble_intCast_range _ (by omega) (by omega)
  have rp : roundDouble (zp : ℚ) = some (zp : ℚ) :=
    roundDouble_intCast_range _ (by omega) (by omega)
  have rp1 : roundDouble (zp1 : ℚ) = some (zp1 : ℚ) :=
    roundDouble_intCast_range _ (by omega) (by omega)
  have rn : roundDouble (zn : ℚ) = some (zn : ℚ) :=
    roundDouble_intCast_range _ (by omega) (by omega)
  have rn1 : roundDouble (zn1 : ℚ) = some (zn1 : ℚ) :=
    roundDouble_intCast_range _ (by omega) (by omega)
  unfold evalSquare evalSquareExact
  simp only [hm, hp, hp1, hn, hn1, rm, rp, rp1, rn, rn1]
  clear hm hp hp1 hn hn1 rm rp rp1 rn rn1 hw
  cases hb : b sq <;>
    simp only [reduceCtorEq, if_true, if_false, isWhite, Piece.code, decide_True, decide_False,
      Bool.and_true, Bool.and_false, Bool.true_and, Bool.false_and, Nat.reduceLeDiff,
      Bool.false_eq_true, Bool.and_self]
  · exact ⟨z, rfl, rfl, by omega, by omega⟩
  · refine ⟨z + (zm + zp), ?_, by simp only [Int.cast_add], by omega, by omega⟩
    rw [fadd_intCast zm zp (by omega) (by omega), fadd_intCast z _ (by omega) (by omega)]
  · refine ⟨z + (zm + zn), ?_, by simp only [Int.cast_add], by omega, by omega⟩
    rw [fadd_intCast zm zn (by omega) (by omega), fadd_intCast z _ (by omega) (by omega)]
  · exact ⟨z + zm, fadd_intCast z zm (by omega) (by omega), by simp only [Int.cast_add],
      by omega, by omega⟩
  · exact ⟨z + zm, fadd_intCast z zm (by omega) (by omega), by simp only [Int.cast_add],
      by omega, by omega⟩
  · exact ⟨z + zm, fadd_intCast z zm (by omega) (by omega), by simp only [Int.cast_add],
      by omega, by omega⟩
  · exact ⟨z + zm, fadd_intCast z zm (by omega) (by omega), by simp only [Int.cast_add],
      by omega, by omega⟩
  · refine ⟨z - (zm + zp1), ?_, by simp only [Int.cast_add, Int.cast_sub], by omega, by omega⟩
    rw [fadd_intCast zm zp1 (by omega) (by omega), fsub_intCast z _ (by omega) (by omega)]
  · refine ⟨z - (zm + zn1), ?_, by simp only [Int.cast_add, Int.cast_sub], by omega, by omega⟩
    rw [fadd_intCast zm zn1 (by omega) (by omega), fsub_intCast z _ (by omega) (by omega)]
  · exact ⟨z - zm, fsub_intCast z zm (by omega) (by omega), by simp only [Int.cast_sub],
      by omega, by omega⟩
  · exact ⟨z - zm, fsub_intCast z zm (by omega) (by omega), by simp only [Int.cast_sub],
      by omega, by omega⟩
  · exact ⟨z - zm, fsub_intCast z zm (by omega) (by omega), by simp only [Int.cast_sub],
      by omega, by omega⟩
  · exact ⟨z - zm, fsub_intCast z zm (by omega) (by omega), by simp only [Int.cast_sub],
      by omega, by omega⟩

theorem foldl_evalSquare_intCast (w : Weights) (hw : IntegerWeights w) (b : Board)
    (l : List (Fin 64)) :
    ∀ z B : Int, B + 20000000 * (l.length : Int) ≤ 2000000000 → -B ≤ z ∧ z ≤ B →
      ∃ z1 : Int, l.foldl (evalSquare w b) (some (z : ℚ)) = some (z1 : ℚ) ∧
        l.foldl (evalSquareExact w b) (z : ℚ) = (z1 : ℚ) ∧
        -(B + 20000000 * (l.length : Int)) ≤ z1 ∧ z1 ≤ B + 20000000 * (l.length : Int) := by
  induction l with
  | nil => intro z B _ hz; exact ⟨z, rfl, rfl, by simpa using hz.1, by simpa using hz.2⟩
  | cons a l ih =>
    intro z B hB hz
    simp only [List.length_cons, Nat.cast_add, Nat.cast_one] at hB ⊢
    obtain ⟨z1, h1, h2, h3⟩ := evalSquare_intCast w hw b a z B (by omega) hz
    obtain ⟨z2, h4, h5, h6⟩ := ih z1 (B + 20000000) (by omega) h3
    refine ⟨z2, ?_, ?_, by omega, by omega⟩
    · rw [List.foldl_cons, h1, h4]
    · rw [List.foldl_cons, h2, h5]

theorem llround_intCast (z : Int) : llround (z : ℚ) = z := by
  unfold llround
  split_ifs with h
  · show ⌊(z : ℚ) + 1 / 2⌋ = z
    rw [Int.floor_eq_iff]
    constructor <;> norm_num
  · have : ⌊-(z : ℚ) + 1 / 2⌋ = -z := by
      rw [Int.floor_eq_iff]
      constructor <;> push_cast <;> norm_num
    show -⌊-(z : ℚ) + 1 / 2⌋ = z
    rw [this, neg_neg]

/-- For weights that are whole numbers of absolute value at most `10000000` no `double`
operation of `eval` rounds and the result fits an `int`: `eval` returns the exact score. -/
theorem eval_eq_evalExact (w : Weights) (P : Position) (h : IntegerWeights w) :
    eval w P = evalExact w P := by
  obtain ⟨z, h1, h2, h3⟩ := foldl_evalSquare_intCast w h P.b (List.finRange 64) 0 0
    (by simp) (by simp)
  unfold eval evalExact
  have e0 : (some 0 : Double) = some ((0 : Int) : ℚ) := by simp
  have e1 : (0 : ℚ) = ((0 : Int) : ℚ) := by simp
  rw [e0, h1]
  rw [e1, h2]
  simp only [List.length_finRange] at h3
  unfold llroundDouble
  simp only [llround_intCast]
  have hr : -9223372036854775808 ≤ z ∧ z < 9223372036854775808 := by omega
  rw [if_pos hr]
  exact wrapInt32_of_range z (by omega) (by omega)

set_option maxRecDepth 100000 in
/-- C16, refuted as stated, twice. With the pawn-table entry of `a2` set to 10 (a table that is
not symmetric under the file mirroring), `pawnA2Pos` evaluates to 110 and its colour mirror to
-100. With the file-symmetric tables of `weightsTenths`, whose entries are not whole numbers,
`fourPawnsPos` evaluates to 400 and its colour mirror to -401: the two `double` summations
round differently. -/
theorem eval_colorMirror_refuted :
    (eval weightsA2 pawnA2Pos = 110 ∧ eval weightsA2 (colorMirror pawnA2Pos) = -100) ∧
    ((∀ i, weightsTenths.pstPawn (fileFlip i) = weightsTenths.pstPawn i) ∧
      (∀ i, weightsTenths.pstKnight (fileFlip i) = weightsTenths.pstKnight i) ∧
      eval weightsTenths fourPawnsPos = 400 ∧
      eval weightsTenths (colorMirror fourPawnsPos) = -401) := by
  decide!

/-- C16, amended. When the pawn and knight tables are symmetric under the file mirroring
`f ↦ 7 - f` and every weight is a whole number of absolute value at most `10000000`, the
colour-mirrored position evaluates to the negated score. -/
theorem eval_colorMirror (w : Weights) (P : Position)
    (hp : ∀ i, w.pstPawn (fileFlip i) = w.pstPawn i)
    (hn : ∀ i, w.pstKnight (fileFlip i) = w.pstKnight i)
    (hi : IntegerWeights w) :
    eval w (colorMirror P) = -eval w P := by
  rw [eval_eq_evalExact _ _ hi, eval_eq_evalExact _ _ hi, evalExact_colorMirror w P hp hn]

set_option maxRecDepth 100000 in
/-- C16, amended, at `pawnA2Pos` under the default weights (both tables zero): the scores are
100 and -100. -/
theorem eval_colorMirror_pawnA2 :
    (∀ i, defaultWeights.pstPawn (fileFlip i) = defaultWeights.pstPawn i) ∧
    (∀ i, defaultWeights.pstKnight (fileFlip i) = defaultWeights.pstKnight i) ∧
    IntegerWeights defaultWeights ∧
    eval defaultWeights pawnA2Pos = 100 ∧
    eval defaultWeights (colorMirror pawnA2Pos) = -eval defaultWeights pawnA2Pos :=
  ⟨fun _ => rfl, fun _ => rfl, by decide!, by decide!,
    eval_colorMirror defaultWeights pawnA2Pos (fun _ => rfl) (fun _ => rfl) (by decide!)⟩

theorem squareTerm_colorRotate (w : Weights) (b : Board) (i : Fin 64) :
    squareTerm w (fun j => swapColor (b (Fin.rev j))) i = -squareTerm w b (Fin.rev i) := by
  unfold squareTerm evalSquareExact
  simp only
  cases hb : b (Fin.rev i) <;> simp [swapColor, idxPiece, Fin.rev_rev]

/-- In exact arithmetic the score is antisymmetric under the half-turn `sq ↦ 63 - sq` with the
colours swapped, for every weight vector. -/
theorem evalExact_colorRotate (w : Weights) (P : Position) :
    evalExact w (colorRotate P) = -evalExact w P := by
  rw [evalExact_eq_sum, evalExact_eq_sum, ← llround_neg]
  congr 1
  have h1 : ∀ i, squareTerm w (colorRotate P).b i = -squareTerm w P.b (Fin.rev i) :=
    fun i => squareTerm_colorRotate w P.b i
  simp only [h1, Finset.sum_neg_distrib, neg_inj]
  exact Equiv.sum_comp Fin.revPerm (squareTerm w P.b)

/-- For weights that are whole numbers of absolute value at most `10000000` the score is
antisymmetric under the half-turn `sq ↦ 63 - sq` with the colours swapped. -/
theorem eval_colorRotate (w : Weights) (P : Position) (h : IntegerWeights w) :
    eval w (colorRotate P) = -eval w P := by
  rw [eval_eq_evalExact _ _ h, eval_eq_evalExact _ _ h, evalExact_colorRotate]

/-! ## En-passant capture -/

theorem mem_genPseudoLegalMoves_of_movesFrom (P : Position) (sq : Int) (m : Move)
    (hsq : 0 ≤ sq ∧ sq < 64) (h : m ∈ movesFrom P sq) : m ∈ genPseudoLegalMoves P := by
  simp only [genPseudoLegalMoves, List.mem_flatMap, List.mem_range]
  refine ⟨sq.toNat, by omega, ?_⟩
  have : ((sq.toNat : Nat) : Int) = sq := by omega
  rw [this]
  exact h

theorem enPassant_mem_white (P : Position) (sq : Int)
    (ht : 0 ≤ P.epSq ∧ P.epSq < 64) (hsq : 0 ≤ sq ∧ sq < 64)
    (hfile : iabs (fileOf sq - fileOf P.epSq) = 1)
    (hw : P.whiteToMove = true) (hp : getSq P.b sq = WP)
    (hd : sq = P.epSq - 9 ∨ sq = P.epSq - 7) :
    ({ from_ := sq, to_ := P.epSq, promo := EMPTY, captured := EMPTY } : Move) ∈
      genPseudoLegalMoves P := by
  apply mem_genPseudoLegalMoves_of_movesFrom P sq _ hsq
  unfold movesFrom
  simp only [hp, hw, reduceCtorEq, if_false, isWhite_WP, and_false, Bool.true_eq_false,
    false_and, true_or, if_true]
  unfold pawnMoves
  simp only [List.mem_append, List.mem_flatMap, List.mem_cons, List.mem_singleton,
    List.not_mem_nil, or_false, if_true, exists_eq_or_imp, exists_eq_left, one_mul]
  right
  have hob : onBoard P.epSq = true := by rw [onBoard_iff]; exact ht
  simp only [iabs, fileOf] at hfile
  rcases hd with hd | hd
  · right
    have h1 : ¬ (fileOf sq + 1 < 0 ∨ fileOf sq + 1 ≥ 8) := by
      simp only [fileOf]; split_ifs at hfile <;> omega
    have h3 : sq + 8 + 1 = P.epSq := by omega
    rw [if_neg h1, h3]
    simp [hob]
  · left
    have h1 : ¬ (fileOf sq + -1 < 0 ∨ fileOf sq + -1 ≥ 8) := by
      simp only [fileOf]; split_ifs at hfile <;> omega
    have h3 : sq + 8 + -1 = P.epSq := by omega
    rw [if_neg h1, h3]
    simp [hob]

theorem enPassant_mem_black (P : Position) (sq : Int)
    (ht : 0 ≤ P.epSq ∧ P.epSq < 64) (hsq : 0 ≤ sq ∧ sq < 64)
    (hfile : iabs (fileOf sq - fileOf P.epSq) = 1)
    (hw : P.whiteToMove = false) (hp : getSq P.b sq = BP)
    (hd : sq = P.epSq + 9 ∨ sq = P.epSq + 7) :
    ({ from_ := sq, to_ := P.epSq, promo := EMPTY, captured := EMPTY } : Move) ∈
      genPseudoLegalMoves P := by
  apply mem_genPseudoLegalMoves_of_movesFrom P sq _ hsq
  unfold movesFrom
  have hb : isBlack BP = true := by decide
  simp only [hp, hw, hb, reduceCtorEq, if_false, and_false, Bool.true_eq_false,
    false_and, or_true, if_true, Bool.false_eq_true]
  unfold pawnMoves
  simp only [List.mem_append, List.mem_flatMap, List.mem_cons, List.mem_singleton,
    List.not_mem_nil, or_false, if_true, exists_eq_or_imp, exists_eq_left, reduceCtorEq, if_false]
  right
  have hob : onBoard P.epSq = true := by rw [onBoard_iff]; exact ht
  simp only [iabs, fileOf] at hfile
  rcases hd with hd | hd
  · left
    have h1 : ¬ (fileOf sq + -1 < 0 ∨ fileOf sq + -1 ≥ 8) := by
      simp only [fileOf]; split_ifs at hfile <;> omega
    have h3 : sq + -1 * 8 + -1 = P.epSq := by omega
    rw [if_neg h1, h3]
    simp [hob]
  · right
    have h1 : ¬ (fileOf sq + 1 < 0 ∨ fileOf sq + 1 ≥ 8) := by
      simp only [fileOf]; split_ifs at hfile <;> omega
    have h3 : sq + -1 * 8 + 1 = P.epSq := by omega
    rw [if_neg h1, h3]
    simp [hob]

theorem enPassant_board (P : Position) (sq : Int)
    (hempty : getSq P.b P.epSq = EMPTY)
    (hp : getSq P.b sq = WP ∨ getSq P.b sq = BP) :
    (makeMove P { from_ := sq, to_ := P.epSq, promo := EMPTY, captured := EMPTY }).1.b =
      setSq (setSq (setSq P.b (if getSq P.b sq = WP then P.epSq - 8 else P.epSq + 8) EMPTY)
        sq EMPTY) P.epSq (getSq P.b sq) := by
  have hnr : ¬ defensiveReturn P
      { from_ := sq, to_ := P.epSq, promo := EMPTY, captured := EMPTY } := by
    rintro ⟨-, -, h3, -⟩
    exact h3 ⟨rfl, hempty⟩
  rw [makeMove_board P _ hnr]
  have hk : ¬ (getSq P.b sq = WK) := by rcases hp with h | h <;> rw [h] <;> decide
  have hk2 : ¬ (getSq P.b sq = BK) := by rcases hp with h | h <;> rw [h] <;> decide
  simp only [hempty, hp, hk, hk2, and_self, if_true, false_and, if_false, ne_eq,
    not_true_eq_false, true_and]

/-- C17. When the en-passant target `t` is an empty square of the board and the side to move has
a pawn on `t-8±1` (White) or `t+8±1` (Black) on a file adjacent to that of `t`, the generator
emits the move onto `t`; after `makeMove` the pawn stands on `t`, its origin and the square of the
passed-over pawn (`t-8` for White, `t+8` for Black) are empty, and every other square is as
before. -/
theorem enPassant_capture (P : Position) (sq : Int)
    (ht : 0 ≤ P.epSq ∧ P.epSq < 64) (hempty : getSq P.b P.epSq = EMPTY)
    (hsq : 0 ≤ sq ∧ sq < 64) (hfile : iabs (fileOf sq - fileOf P.epSq) = 1)
    (hside : (P.whiteToMove = true ∧ getSq P.b sq = WP ∧
                (sq = P.epSq - 9 ∨ sq = P.epSq - 7)) ∨
             (P.whiteToMove = false ∧ getSq P.b sq = BP ∧
                (sq = P.epSq + 9 ∨ sq = P.epSq + 7))) :
    ({ from_ := sq, to_ := P.epSq, promo := EMPTY, captured := EMPTY } : Move) ∈
        genPseudoLegalMoves P ∧
    getSq (makeMove P { from_ := sq, to_ := P.epSq, promo := EMPTY, captured := EMPTY }).1.b
        P.epSq = getSq P.b sq ∧
    getSq (makeMove P { from_ := sq, to_ := P.epSq, promo := EMPTY, captured := EMPTY }).1.b
        sq = EMPTY ∧
    getSq (makeMove P { from_ := sq, to_ := P.epSq, promo := EMPTY, captured := EMPTY }).1.b
        (if P.whiteToMove then P.epSq - 8 else P.epSq + 8) = EMPTY ∧
    ∀ k : Int, k ≠ P.epSq → k ≠ sq → k ≠ (if P.whiteToMove then P.epSq - 8 else P.epSq + 8) →
      getSq (makeMove P { from_ := sq, to_ := P.epSq, promo := EMPTY, captured := EMPTY }).1.b k
        = getSq P.b k := by
  have hp : getSq P.b sq = WP ∨ getSq P.b sq = BP := by
    rcases hside with ⟨-, h, -⟩ | ⟨-, h, -⟩
    · exact Or.inl h
    · exact Or.inr h
  have hcap : (if getSq P.b sq = WP then P.epSq - 8 else P.epSq + 8) =
      (if P.whiteToMove then P.epSq - 8 else P.epSq + 8) := by
    rcases hside with ⟨hw, h, -⟩ | ⟨hw, h, -⟩ <;> simp [hw, h]
  have hne : sq ≠ P.epSq ∧ sq ≠ (if P.whiteToMove then P.epSq - 8 else P.epSq + 8) := by
    rcases hside with ⟨hw, -, h⟩ | ⟨hw, -, h⟩ <;> simp only [hw, if_true, Bool.false_eq_true,
      if_false] <;> omega
  have hne2 : (if P.whiteToMove then P.epSq - 8 else P.epSq + 8) ≠ P.epSq := by
    split_ifs <;> omega
  rw [enPassant_board P sq hempty hp, hcap]
  refine ⟨?_, ?_, ?_, ?_, ?_⟩
  · rcases hside with ⟨hw, h, hd⟩ | ⟨hw, h, hd⟩
    · exact enPassant_mem_white P sq ht hsq hfile hw h hd
    · exact enPassant_mem_black P sq ht hsq hfile hw h hd
  · simp only [getSq_setSq, ht, and_self, if_true]
  · simp only [getSq_setSq, hne.1, hsq, and_self, false_and, if_false, if_true]
  · have hon : 0 ≤ (if P.whiteToMove then P.epSq - 8 else P.epSq + 8) ∧
        (if P.whiteToMove then P.epSq - 8 else P.epSq + 8) < 64 := by
      simp only [iabs, fileOf] at hfile
      rcases hside with ⟨hw, -, h⟩ | ⟨hw, -, h⟩ <;> simp only [hw, if_true, Bool.false_eq_true,
        if_false] <;> split_ifs at hfile <;> omega
    simp only [getSq_setSq, hne2, hne.2.symm, false_and, if_false, hon, and_self, if_true]
  · intro k h1 h2 h3
    simp only [getSq_setSq, h1, h2, h3, false_and, if_false]

set_option maxRecDepth 100000 in
/-- C17, at `epWhitePos`: the pawn `e5` (36) takes en passant on `d6` (43). -/
theorem enPassant_capture_e5d6 :
    ({ from_ := 36, to_ := epWhitePos.epSq, promo := EMPTY, captured := EMPTY } : Move) ∈
        genPseudoLegalMoves epWhitePos ∧
    getSq (makeMove epWhitePos
        { from_ := 36, to_ := epWhitePos.epSq, promo := EMPTY, captured := EMPTY }).1.b
        epWhitePos.epSq = getSq epWhitePos.b 36 ∧
    getSq (makeMove epWhitePos
        { from_ := 36, to_ := epWhitePos.epSq, promo := EMPTY, captured := EMPTY }).1.b
        36 = EMPTY ∧
    getSq (makeMove epWhitePos
        { from_ := 36, to_ := epWhitePos.epSq, promo := EMPTY, captured := EMPTY }).1.b
        (if epWhitePos.whiteToMove then epWhitePos.epSq - 8 else epWhitePos.epSq + 8) = EMPTY ∧
    ∀ k : Int, k ≠ epWhitePos.epSq → k ≠ 36 →
      k ≠ (if epWhitePos.whiteToMove then epWhitePos.epSq - 8 else epWhitePos.epSq + 8) →
      getSq (makeMove epWhitePos
        { from_ := 36, to_ := epWhitePos.epSq, promo := EMPTY, captured := EMPTY }).1.b k
        = getSq epWhitePos.b k :=
  enPassant_capture epWhitePos 36 (by decide!) (by decide!) (by decide) (by decide!)
    (Or.inl (by decide!))

/-! ## White kingside castling -/

theorem squareAttacked_g1_castled (b : Board) (h4 : getSq b 4 = WK) (h5 : getSq b 5 = EMPTY)
    (h7 : getSq b 7 = WR) :
    squareAttacked (setSq (setSq (setSq (setSq b 4 EMPTY) 6 WK) 5 WR) 7 EMPTY) 6 false =
      squareAttacked b 6 false := by
  simp [squareAttacked, pawnAttacked, knightAttacked, kingAttacked, knightDeltas, kingDeltas,
    bishopDirs, rookDirs, diagRayAttacked, straightRayAttacked, onBoard, fileOf, rankOf, xyToSq,
    iabs, getSq_setSq, h4, h5, h7]

theorem findKingSq_g1 (P : Position) (h0 : getSq P.b 0 ≠ WK) (h1 : getSq P.b 1 ≠ WK)
    (h2 : getSq P.b 2 ≠ WK) (h3 : getSq P.b 3 ≠ WK) (h4 : getSq P.b 4 ≠ WK)
    (h5 : getSq P.b 5 ≠ WK) (h6 : getSq P.b 6 = WK) : findKingSq P true = 6 := by
  unfold findKingSq
  have hr : List.range 64 = [0, 1, 2, 3, 4, 5, 6] ++ (List.range 64).drop 7 := by decide
  rw [hr]
  simp [List.find?_cons, h0, h1, h2, h3, h4, h5, h6]

theorem castle_kingside_board (P : Position) (hk : getSq P.b 4 = WK) :
    (makeMove P { from_ := 4, to_ := 6, promo := EMPTY, captured := EMPTY }).1.b =
      setSq (setSq (setSq (setSq P.b 4 EMPTY) 6 WK) 5 WR) 7 EMPTY := by
  have hnr : ¬ defensiveReturn P { from_ := 4, to_ := 6, promo := EMPTY, captured := EMPTY } := by
    rintro ⟨h | h, -⟩ <;> rw [hk] at h <;> cases h
  rw [makeMove_board P _ hnr]
  simp [hk]

/-- C18. With White to move, the white king on `e1` (the one white king of the position: none
stands on `b1`, `c1` or `d1`), white rooks on `a1` and `h1`, `f1` and `g1` empty, the kingside
right held and none of `e1`, `f1`, `g1` attacked by Black, both generators emit the move
`e1g1`; after `makeMove` the king is on `g1`, a white rook on `f1`, `e1` and `h1` are empty, both
White rights are cleared and the Black rights are as before. -/
theorem castle_kingside_white (P : Position) (hw : P.whiteToMove = true)
    (hk : getSq P.b 4 = WK) (ha : getSq P.b 0 = WR) (hh : getSq P.b 7 = WR)
    (hf : getSq P.b 5 = EMPTY) (hg : getSq P.b 6 = EMPTY) (hr : P.castle &&& 1 ≠ 0)
    (h4 : squareAttacked P.b 4 false = false) (h5 : squareAttacked P.b 5 false = false)
    (h6 : squareAttacked P.b 6 false = false)
    (hone : getSq P.b 1 ≠ WK ∧ getSq P.b 2 ≠ WK ∧ getSq P.b 3 ≠ WK) :
    ({ from_ := 4, to_ := 6, promo := EMPTY, captured := EMPTY } : Move) ∈
      genPseudoLegalMoves P ∧
    ({ from_ := 4, to_ := 6, promo := EMPTY, captured := EMPTY } : Move) ∈ genLegalMoves P ∧
    getSq (makeMove P { from_ := 4, to_ := 6, promo := EMPTY, captured := EMPTY }).1.b 6 = WK ∧
    getSq (makeMove P { from_ := 4, to_ := 6, promo := EMPTY, captured := EMPTY }).1.b 5 = WR ∧
    getSq (makeMove P { from_ := 4, to_ := 6, promo := EMPTY, captured := EMPTY }).1.b 4 = EMPTY ∧
    getSq (makeMove P { from_ := 4, to_ := 6, promo := EMPTY, captured := EMPTY }).1.b 7 = EMPTY ∧
    (makeMove P { from_ := 4, to_ := 6, promo := EMPTY, captured := EMPTY }).1.castle &&& 1 = 0 ∧
    (makeMove P { from_ := 4, to_ := 6, promo := EMPTY, captured := EMPTY }).1.castle &&& 2 = 0 ∧
    (makeMove P { from_ := 4, to_ := 6, promo := EMPTY, captured := EMPTY }).1.castle &&& 4 =
      P.castle &&& 4 ∧
    (makeMove P { from_ := 4, to_ := 6, promo := EMPTY, captured := EMPTY }).1.castle &&& 8 =
      P.castle &&& 8 := by
  have hnr : ¬ defensiveReturn P { from_ := 4, to_ := 6, promo := EMPTY, captured := EMPTY } := by
    rintro ⟨h | h, -⟩ <;> rw [hk] at h <;> cases h
  have hmem : ({ from_ := 4, to_ := 6, promo := EMPTY, captured := EMPTY } : Move) ∈
      genPseudoLegalMoves P := by
    apply mem_genPseudoLegalMoves_of_movesFrom P 4 _ (by decide)
    unfold movesFrom
    simp only [hk, hw, reduceCtorEq, if_false, isWhite_WK, and_false, Bool.true_eq_false,
      false_and, false_or, true_or, if_true]
    unfold kingMoves
    simp only [List.mem_append]
    left; right
    have hr2 : P.castle % 2 = 1 := by simpa using hr
    simp [hr2, h4, h5, h6, hf, hg, addMove]
  have hb := castle_kingside_board P hk
  have hcas := makeMove_castle P _ hnr
  have hcap : (makeMove P { from_ := 4, to_ := 6, promo := EMPTY, captured := EMPTY }).2.captured
      = EMPTY := by
    rw [(makeMove_undo_basic P _).2.2.2.2.2.1]
    simp [hk, hg]
  rw [hcap] at hcas
  obtain ⟨b1, b2, b4, b8⟩ := castleAfter_bits P.castle WK EMPTY 4 6
  simp only [hk] at hcas
  refine ⟨hmem, ?_, ?_, ?_, ?_, ?_, ?_, ?_, ?_, ?_⟩
  · simp only [genLegalMoves, List.mem_filter]
    refine ⟨hmem, ?_⟩
    have hwm := makeMove_whiteToMove P _ hnr
    simp only [hwm, hw, Bool.not_true, Bool.not_false]
    have hking : findKingSq
        (makeMove P { from_ := 4, to_ := 6, promo := EMPTY, captured := EMPTY }).1 true = 6 := by
      apply findKingSq_g1 <;> rw [hb] <;>
        simp [getSq_setSq, ha, hone.1, hone.2.1, hone.2.2]
    unfold isInCheck
    simp only [hking, Bool.not_true]
    rw [hb, squareAttacked_g1_castled P.b hk hf hh]
    simp [h6]
  · rw [hb]; simp [getSq_setSq]
  · rw [hb]; simp [getSq_setSq]
  · rw [hb]; simp [getSq_setSq]
  · rw [hb]; simp [getSq_setSq]
  · rw [hcas, b1]; simp
  · rw [hcas, b2]; simp
  · rw [hcas, b4]; simp
  · rw [hcas, b8]; simp

set_option maxRecDepth 100000 in
/-- C18, at `castleAllPos` (the Black rights 4 and 8 stay, the White rights go). -/
theorem castle_kingside_white_castleAll :
    castleAllPos.castle = 15 ∧
    ({ from_ := 4, to_ := 6, promo := EMPTY, captured := EMPTY } : Move) ∈
      genLegalMoves castleAllPos ∧
    (makeMove castleAllPos
      { from_ := 4, to_ := 6, promo := EMPTY, captured := EMPTY }).1.castle = 12 :=
  ⟨by decide!,
   (castle_kingside_white castleAllPos (by decide!) (by decide!) (by decide!) (by decide!)
      (by decide!) (by decide!) (by decide!) (by decide!) (by decide!) (by decide!)
      (by decide!)).2.1,
   by decide!⟩

/-! ## King count under legal play -/

theorem getSq_onBoard (b : Board) (i : Int) (h : getSq b i ≠ EMPTY) : 0 ≤ i ∧ i < 64 := by
  by_contra hc
  apply h
  unfold getSq
  rw [dif_neg hc]

theorem countPiece_le_one (b : Board) (k : Piece) (h : OnePiece b k) : countPiece b k ≤ 1 := by
  unfold countPiece
  have hnd : ((List.finRange 64).filter fun i => decide (b i = k)).Nodup :=
    (List.nodup_finRange 64).filter _
  have hmem : ∀ x ∈ (List.finRange 64).filter (fun i => decide (b i = k)), b x = k := by
    intro x hx
    simpa using (List.mem_filter.1 hx).2
  generalize (List.finRange 64).filter (fun i => decide (b i = k)) = l at hnd hmem
  match l, hnd, hmem with
  | [], _, _ => simp
  | [a], _, _ => simp
  | a :: c :: t, hnd, hmem =>
    exfalso
    have ha : getSq b (a.val : Int) = k := by rw [getSq_coe]; exact hmem a (by simp)
    have hc : getSq b (c.val : Int) = k := by rw [getSq_coe]; exact hmem c (by simp)
    have hac : a = c := by
      apply Fin.ext
      have := h _ _ ha hc
      omega
    subst hac
    simp at hnd

/-- Where a king can stand after `makeMove` of a generated move: on the destination when the
moved piece is that king, or on a square other than the origin where it stood before. -/
theorem makeMove_king_squares (P : Position) (m : Move) (hm : m ∈ genPseudoLegalMoves P)
    (k : Piece) (hk : k = WK ∨ k = BK) (i : Int)
    (h : getSq (makeMove P m).1.b i = k) :
    (i = m.to_ ∧ getSq P.b m.from_ = k) ∨ (i ≠ m.from_ ∧ getSq P.b i = k) := by
  have hs := genPseudoLegalMoves_shape P m hm
  have hpr := genPseudoLegalMoves_promo P m hm
  have hf0 := hs.from_lo
  have hf1 := hs.from_hi
  by_cases hr : defensiveReturn P m
  · rw [makeMove_defensive_return P m hr] at h
    right
    refine ⟨?_, h⟩
    rintro rfl
    obtain ⟨hp, -⟩ := hr
    rw [h] at hp
    rcases hk with rfl | rfl <;> rcases hp with hp | hp <;> cases hp
  · rw [makeMove_board P m hr] at h
    have hput : (if m.promo ≠ EMPTY then m.promo else getSq P.b m.from_) = k →
        getSq P.b m.from_ = k := by
      intro hp
      rcases hpr with h0 | ⟨-, -, h1⟩ | ⟨-, -, h1⟩
      · simpa [h0] using hp
      · exfalso
        rcases h1 with h1 | h1 | h1 | h1 <;> rw [h1] at hp <;>
          rcases hk with rfl | rfl <;> simp at hp
      · exfalso
        rcases h1 with h1 | h1 | h1 | h1 <;> rw [h1] at hp <;>
          rcases hk with rfl | rfl <;> simp at hp
    have hE : EMPTY ≠ k := by rcases hk with rfl | rfl <;> decide
    have hWR : WR ≠ k := by rcases hk with rfl | rfl <;> decide
    have hBR : BR ≠ k := by rcases hk with rfl | rfl <;> decide
    have peel : ∀ (b : Board) (s : Int) (v : Piece), v ≠ k → getSq (setSq b s v) i = k →
        getSq b i = k := by
      intro b s v hv hh
      rw [getSq_setSq] at hh
      split_ifs at hh with hc
      · exact absurd hh hv
      · exact hh
    revert h
    lift_lets
    intro p b1 b2 b3 h
    have h3 : getSq b3 i = k := by
      split_ifs at h
      · exact peel _ _ _ hBR (peel _ _ _ hE h)
      · exact peel _ _ _ hBR (peel _ _ _ hE h)
      · exact h
    have h2 : getSq b2 i = k := by
      simp only [b3] at h3
      split_ifs at h3
      · exact peel _ _ _ hWR (peel _ _ _ hE h3)
      · exact peel _ _ _ hWR (peel _ _ _ hE h3)
      · exact h3
    simp only [b2] at h2
    rw [getSq_setSq] at h2
    by_cases hc : i = m.to_ ∧ 0 ≤ i ∧ i < 64
    · rw [if_pos hc] at h2
      exact Or.inl ⟨hc.1, hput h2⟩
    · rw [if_neg hc, getSq_setSq] at h2
      right
      by_cases hc2 : i = m.from_ ∧ 0 ≤ i ∧ i < 64
      · rw [if_pos hc2] at h2
        exact absurd h2 hE
      · rw [if_neg hc2] at h2
        refine ⟨fun hi => hc2 ⟨hi, by omega, by omega⟩, ?_⟩
        simp only [b1] at h2
        by_cases hc3 : (p = WP ∨ p = BP) ∧ m.to_ = P.epSq ∧ getSq P.b m.to_ = EMPTY
        · rw [if_pos hc3] at h2
          exact peel _ _ _ hE h2
        · rw [if_neg hc3] at h2
          exact h2

theorem makeMove_onePiece (P : Position) (m : Move) (hm : m ∈ genPseudoLegalMoves P)
    (k : Piece) (hk : k = WK ∨ k = BK) (h : OnePiece P.b k) :
    OnePiece (makeMove P m).1.b k := by
  intro i j hi hj
  rcases makeMove_king_squares P m hm k hk i hi with ⟨a1, a2⟩ | ⟨a1, a2⟩ <;>
    rcases makeMove_king_squares P m hm k hk j hj with ⟨c1, c2⟩ | ⟨c1, c2⟩
  · rw [a1, c1]
  · exact absurd (h _ _ c2 a2) c1
  · exact absurd (h _ _ a2 c2) a1
  · exact h _ _ a2 c2

theorem onePiece_of_forall (b : Board) (k : Piece) (s : Fin 64) (hk : k ≠ EMPTY)
    (h : ∀ i : Fin 64, b i = k → i = s) : OnePiece b k := by
  intro i j hi hj
  have oi := getSq_onBoard b i (by rw [hi]; exact hk)
  have oj := getSq_onBoard b j (by rw [hj]; exact hk)
  have hi2 : b ⟨i.toNat, by omega⟩ = k := by
    have e : (((⟨i.toNat, by omega⟩ : Fin 64).val : Nat) : Int) = i := by
      show ((i.toNat : Nat) : Int) = i
      omega
    have h1 := getSq_coe b ⟨i.toNat, by omega⟩
    exact h1.symm.trans ((congrArg (getSq b) e).trans hi)
  have hj2 : b ⟨j.toNat, by omega⟩ = k := by
    have e : (((⟨j.toNat, by omega⟩ : Fin 64).val : Nat) : Int) = j := by
      show ((j.toNat : Nat) : Int) = j
      omega
    have h1 := getSq_coe b ⟨j.toNat, by omega⟩
    exact h1.symm.trans ((congrArg (getSq b) e).trans hj)
  have a1 : i.toNat = s.val := congrArg Fin.val (h _ hi2)
  have a2 : j.toNat = s.val := congrArg Fin.val (h _ hj2)
  omega

set_option maxRecDepth 100000 in
theorem setStartPos_onePiece : OnePiece setStartPos.b WK ∧ OnePiece setStartPos.b BK :=
  ⟨onePiece_of_forall _ _ 4 (by decide) (by decide!),
   onePiece_of_forall _ _ 60 (by decide) (by decide!)⟩

theorem reachable_onePiece (P : Position) (h : Reachable P) :
    OnePiece P.b WK ∧ OnePiece P.b BK := by
  induction h with
  | start => exact setStartPos_onePiece
  | step P m _ hm ih =>
    have hp := genLegalMoves_subset P m hm
    exact ⟨makeMove_onePiece P m hp WK (Or.inl rfl) ih.1,
      makeMove_onePiece P m hp BK (Or.inr rfl) ih.2⟩

set_option maxRecDepth 100000 in
theorem reachable_afterNf3 : Reachable afterNf3Pos :=
  Reachable.step _ _ Reachable.start (by decide!)

/-- C20. In every position reachable from the start position by `makeMove` of moves taken from
`genLegalMoves`, the board holds at most one white king and at most one black king. -/
theorem reachable_king_count (P : Position) (h : Reachable P) :
    countPiece P.b WK ≤ 1 ∧ countPiece P.b BK ≤ 1 :=
  ⟨countPiece_le_one _ _ (reachable_onePiece P h).1,
   countPiece_le_one _ _ (reachable_onePiece P h).2⟩

/-- C20, at the position after `g1f3` from the start position. -/
theorem reachable_king_count_afterNf3 :
    Reachable afterNf3Pos ∧ countPiece afterNf3Pos.b WK ≤ 1 ∧ countPiece afterNf3Pos.b BK ≤ 1 :=
  ⟨reachable_afterNf3, reachable_king_count afterNf3Pos reachable_afterNf3⟩

/-! ## Legal generation as a filter -/

theorem movesFrom_from (P : Position) (sq : Int) (m : Move) (hsq : 0 ≤ sq ∧ sq < 64)
    (h : m ∈ movesFrom P sq) : m.from_ = sq := by
  unfold movesFrom at h
  simp only at h
  split_ifs at h with c0 c1 c2 cp cn cb cr cq ck
  · simp at h
  · simp at h
  · simp at h
  · rcases cp with cp | cp
    · rw [cp] at h; exact (pawnMoves_shape_white P sq m hsq h).1
    · rw [cp] at h; exact (pawnMoves_shape_black P sq m hsq h).1
  · exact (knightMoves_shape _ _ _ m h).1
  · simp only [slide, List.mem_flatMap] at h
    obtain ⟨dv, _, h⟩ := h
    exact (slideRay_shape _ _ _ dv m 8 _ h).1
  · simp only [slide, List.mem_flatMap] at h
    obtain ⟨dv, _, h⟩ := h
    exact (slideRay_shape _ _ _ dv m 8 _ h).1
  · simp only [slide, List.mem_flatMap] at h
    obtain ⟨dv, _, h⟩ := h
    exact (slideRay_shape _ _ _ dv m 8 _ h).1
  · exact (kingMoves_shape P _ _ m h).1
  · simp at h

theorem genPseudoLegalMoves_scan_order (P : Position) :
    (genPseudoLegalMoves P).Pairwise (fun a b => a.from_ ≤ b.from_) := by
  unfold genPseudoLegalMoves
  rw [List.pairwise_flatMap]
  constructor
  · intro i hi
    rw [List.mem_range] at hi
    have hsq : 0 ≤ (i : Int) ∧ (i : Int) < 64 := ⟨by omega, by omega⟩
    rw [List.pairwise_iff_forall_sublist]
    intro a b hab
    have ha := movesFrom_from P _ a hsq (hab.subset (by simp))
    have hb := movesFrom_from P _ b hsq (hab.subset (by simp))
    omega
  · refine List.Pairwise.imp_of_mem ?_ (List.pairwise_lt_range 64)
    intro i j hi hj hij a ha b hb
    rw [List.mem_range] at hi hj
    have h1 := movesFrom_from P _ a ⟨by omega, by omega⟩ ha
    have h2 := movesFrom_from P _ b ⟨by omega, by omega⟩ hb
    omega

/-- C21. In a position whose en-passant target is none or an empty square, `genLegalMoves` is
the pseudo-legal list filtered, in its order, by "after `makeMove` the king of the side to move
of `P` is not in check"; it is a sublist of the pseudo-legal list, and its moves come with
non-decreasing origin square. -/
theorem genLegalMoves_eq_filter (P : Position) (hep : EpTargetEmpty P) :
    genLegalMoves P =
      (genPseudoLegalMoves P).filter (fun m => !isInCheck (makeMove P m).1 P.whiteToMove) ∧
    List.Sublist (genLegalMoves P) (genPseudoLegalMoves P) ∧
    (genLegalMoves P).Pairwise (fun a b => a.from_ ≤ b.from_) := by
  refine ⟨?_, ?_, ?_⟩
  · unfold genLegalMoves
    apply List.filter_congr
    intro m hm
    have hs := genPseudoLegalMoves_shape P m hm
    have hw := makeMove_whiteToMove P m (not_defensiveReturn_of_shape P m hs hep)
    simp only [hw, Bool.not_not]
  · exact List.filter_sublist _
  · exact (genPseudoLegalMoves_scan_order P).filter _

set_option maxRecDepth 100000 in
/-- C21, at the start position. -/
theorem genLegalMoves_eq_filter_startpos :
    EpTargetEmpty setStartPos ∧
    genLegalMoves setStartPos =
      (genPseudoLegalMoves setStartPos).filter
        (fun m => !isInCheck (makeMove setStartPos m).1 setStartPos.whiteToMove) :=
  ⟨by decide!, (genLegalMoves_eq_filter setStartPos (by decide!)).1⟩

/-! ## FEN fallback -/

theorem stringBytes_eq (s : String) :
    stringBytes s =
      s.toList.flatMap fun c => (String.utf8EncodeChar c).map fun b => Char.ofNat b.toNat := by
  unfold stringBytes
  show List.map _ (s.data.flatMap String.utf8EncodeChar) = _
  rw [List.map_flatMap]
  rfl

set_option maxRecDepth 100000 in
theorem isSpace_ofNat_high : ∀ n, n < 256 → 128 ≤ n → isSpace (Char.ofNat n) = false := by
  decide

set_option maxRecDepth 100000 in
theorem lor_high : ∀ n, n < 256 → (128 ≤ n ||| 128 ∧ 128 ≤ n ||| 192 ∧ 128 ≤ n ||| 224 ∧
    128 ≤ n ||| 240) := by
  decide

theorem isSpace_byte_lor (a k : UInt8) (hk : k = 128 ∨ k = 192 ∨ k = 224 ∨ k = 240) :
    isSpace (Char.ofNat (a ||| k).toNat) = false := by
  have h1 : (a ||| k).toNat = a.toNat ||| k.toNat := by
    show (a.toBitVec ||| k.toBitVec).toNat = _
    rw [BitVec.toNat_or]
    rfl
  have h2 : (a ||| k).toNat < 256 := (a ||| k).toBitVec.isLt
  have h3 : a.toNat < 256 := a.toBitVec.isLt
  have h4 := lor_high a.toNat h3
  apply isSpace_ofNat_high _ h2
  rw [h1]
  rcases hk with hk | hk | hk | hk <;> subst hk
  · exact h4.1
  · exact h4.2.1
  · exact h4.2.2.1
  · exact h4.2.2.2

theorem charBytes_cases (c : Char) :
    ((String.utf8EncodeChar c).map fun b => Char.ofNat b.toNat) = [c] ∨
    (isSpace c = false ∧ (String.utf8EncodeChar c) ≠ [] ∧
      ∀ x ∈ ((String.utf8EncodeChar c).map fun b => Char.ofNat b.toNat), isSpace x = false) := by
  unfold String.utf8EncodeChar
  simp only
  by_cases h1 : c.val ≤ 127
  · left
    rw [if_pos h1]
    have h2 : c.val.toNat ≤ 127 := h1
    have h3 : c.val.toUInt8.toNat = c.val.toNat := by
      show (c.val.toNat.toUInt8).toNat = _
      show c.val.toNat % 2 ^ 8 = _
      omega
    simp only [List.map_cons, List.map_nil, h3]
    show [Char.ofNat c.toNat] = [c]
    rw [Char.ofNat_toNat]
  · right
    have hc : isSpace c = false := by
      have h2 : ¬ c.val.toNat ≤ 127 := h1
      have h3 : c.toNat = c.val.toNat := rfl
      unfold isSpace
      rw [h3]
      simp only [Bool.or_eq_false_iff, decide_eq_false_iff_not, Bool.and_eq_false_iff]
      omega
    refine ⟨hc, ?_, ?_⟩
    · rw [if_neg h1]; split_ifs <;> simp
    · rw [if_neg h1]
      intro x hx
      split_ifs at hx <;> simp only [List.map_cons, List.map_nil, List.mem_cons,
        List.mem_singleton, List.not_mem_nil, or_false] at hx <;>
        (repeat' (rcases hx with hx | hx)) <;>
        exact isSpace_byte_lor _ _ (by simp)

theorem splitWS_append_nonspace (bs : List Char) (h : ∀ x ∈ bs, isSpace x = false) :
    ∀ (rest cur : List Char), splitWS (bs ++ rest) cur = splitWS rest (bs.reverse ++ cur) := by
  induction bs with
  | nil => intro rest cur; rfl
  | cons b bs ih =>
    intro rest cur
    have hb : isSpace b = false := h b (List.mem_cons_self _ _)
    rw [List.cons_append, splitWS]
    simp only [hb, Bool.false_eq_true, if_false]
    rw [ih (fun x hx => h x (List.mem_cons_of_mem _ hx))]
    simp

theorem splitWS_flatMap_length (l : List Char) :
    ∀ (cur cur1 : List Char), (cur = [] ↔ cur1 = []) →
      (splitWS (l.flatMap fun c => (String.utf8EncodeChar c).map fun b => Char.ofNat b.toNat)
        cur1).length = (splitWS l cur).length := by
  induction l with
  | nil =>
    intro cur cur1 h
    simp only [List.flatMap_nil, splitWS]
    by_cases hc : cur = []
    · rw [if_pos hc, if_pos (h.1 hc)]
    · rw [if_neg hc, if_neg (fun h1 => hc (h.2 h1))]; rfl
  | cons c cs ih =>
    intro cur cur1 h
    rw [List.flatMap_cons]
    rcases charBytes_cases c with h1 | ⟨h1, h2, h3⟩
    · rw [h1, List.singleton_append, splitWS, splitWS]
      by_cases hs : isSpace c = true
      · rw [if_pos hs, if_pos hs]
        by_cases hc : cur = []
        · rw [if_pos hc, if_pos (h.1 hc)]; exact ih [] [] Iff.rfl
        · rw [if_neg hc, if_neg (fun h1 => hc (h.2 h1))]
          simp only [List.length_cons]
          rw [ih [] [] Iff.rfl]
      · rw [if_neg hs, if_neg hs]
        exact ih _ _ (by simp)
    · rw [splitWS_append_nonspace _ h3, splitWS]
      simp only [h1, Bool.false_eq_true, if_false]
      apply ih
      constructor
      · intro h4; cases h4
      · intro h4
        exfalso
        apply h2
        have h5 : String.utf8EncodeChar c = [] ∧ cur1 = [] := by simpa using h4
        exact h5.1

/-- The bytes of a text have as many white-space separated fields as its characters: a byte of
a character above 127 is never a white-space character. -/
theorem splitWS_stringBytes_length (fen : String) :
    (splitWS (stringBytes fen) []).length = (splitWS fen.toList []).length := by
  rw [stringBytes_eq]
  exact splitWS_flatMap_length _ [] [] Iff.rfl

/-- C22. A string with fewer than six white-space separated fields (the empty string included)
makes `setFEN` produce the position of `setStartPos`; the result does not depend on what the
position held before, every field being overwritten. -/
theorem setFEN_fallback (fen : String) (h : (splitWS fen.toList []).length < 6) :
    setFEN fen = setStartPos := by
  rw [← splitWS_stringBytes_length] at h
  unfold setFEN
  rcases hl : splitWS (stringBytes fen) [] with
    _ | ⟨a, _ | ⟨b, _ | ⟨c, _ | ⟨d, _ | ⟨e, _ | ⟨f, l⟩⟩⟩⟩⟩⟩
  all_goals first | rfl | (exfalso; rw [hl] at h; simp only [List.length_cons] at h; omega)

set_option maxRecDepth 100000 in
/-- C22, at a string of five fields. -/
theorem setFEN_fallback_five_fields :
    (splitWS "8/8/8/8/8/8/8/8 b - - 0".toList []).length < 6 ∧
    setFEN "8/8/8/8/8/8/8/8 b - - 0" = setStartPos :=
  ⟨by decide!, setFEN_fallback _ (by decide!)⟩

/-! ## Evaluation under the half-turn -/

set_option maxRecDepth 100000 in
/-- C28, refuted as stated: with the weights `weightsTenths`, whose pawn-table entries are not
whole numbers, `fourPawnsPos` evaluates to 400 and the position with the opposite-colour
pieces on the squares `63 - s` to -401: the two `double` summations round differently. -/
theorem eval_rotate_rounding :
    (∀ s : Fin 64, (colorRotate fourPawnsPos).b (Fin.rev s) = swapColor (fourPawnsPos.b s)) ∧
    eval weightsTenths fourPawnsPos = 400 ∧
    eval weightsTenths (colorRotate fourPawnsPos) = -401 :=
  ⟨fun s => by show swapColor (fourPawnsPos.b (Fin.rev (Fin.rev s))) = _; rw [Fin.rev_rev],
   by decide!, by decide!⟩

/-- C28, amended. For every weight vector of whole numbers of absolute value at most `10000000`
and all positions `P`, `Q` such that `Q` has on each square `63 - s` the opposite-colour piece of
the piece `P` has on `s`, the evaluation of `Q` is the negated evaluation of `P`, whatever the
other fields of `P` and `Q`. -/
theorem eval_rotate_antisymmetric (w : Weights) (P Q : Position) (hi : IntegerWeights w)
    (h : ∀ s : Fin 64, Q.b (Fin.rev s) = swapColor (P.b s)) : eval w Q = -eval w P := by
  have hb : Q.b = (colorRotate P).b := by
    funext i
    have := h (Fin.rev i)
    rw [Fin.rev_rev] at this
    exact this
  have he : eval w Q = eval w (colorRotate P) := by
    unfold eval
    rw [hb]
  rw [he, eval_colorRotate w P hi]

set_option maxRecDepth 100000 in
/-- C28, amended, at `pawnA2Pos` and `rotatedA2Pos` with the pawn-table entry of `a2` set to
10: the scores are 110 and -110. -/
theorem eval_rotate_antisymmetric_pawnA2 :
    IntegerWeights weightsA2 ∧
    (∀ s : Fin 64, rotatedA2Pos.b (Fin.rev s) = swapColor (pawnA2Pos.b s)) ∧
    eval weightsA2 pawnA2Pos = 110 ∧
    eval weightsA2 rotatedA2Pos = -eval weightsA2 pawnA2Pos :=
  ⟨by decide!,
   fun s => by show swapColor (pawnA2Pos.b (Fin.rev (Fin.rev s))) = _; rw [Fin.rev_rev],
   by decide!,
   eval_rotate_antisymmetric weightsA2 pawnA2Pos rotatedA2Pos (by decide!)
     (fun s => by show swapColor (pawnA2Pos.b (Fin.rev (Fin.rev s))) = _; rw [Fin.rev_rev])⟩

/-! ## Castling generation -/

theorem mem_movesFrom_of_mem (P : Position) (m : Move) (h : m ∈ genPseudoLegalMoves P) :
    m ∈ movesFrom P m.from_ := by
  simp only [genPseudoLegalMoves, List.mem_flatMap, List.mem_range] at h
  obtain ⟨i, hi, h⟩ := h
  have := movesFrom_from P _ m ⟨by omega, by omega⟩ h
  rw [this]
  exact h

theorem movesFrom_king (P : Position) (sq : Int) (k : Piece) (hk : k = WK ∨ k = BK)
    (hp : getSq P.b sq = k) (m : Move) :
    m ∈ movesFrom P sq ↔ (P.whiteToMove = decide (k = WK) ∧ m ∈ kingMoves P sq k) := by
  unfold movesFrom
  rcases hk with rfl | rfl
  · cases hw : P.whiteToMove <;> simp [hp, isBlack, Piece.code]
  · cases hw : P.whiteToMove <;> simp [hp, isBlack, Piece.code]

theorem kingMoves_white_to_g1 (P : Position) (m : Move) :
    (m ∈ kingMoves P 4 WK ∧ m.to_ = 6) ↔
      (m = addMove P.b 4 6 ∧ P.castle &&& 1 ≠ 0 ∧ getSq P.b 5 = EMPTY ∧ getSq P.b 6 = EMPTY ∧
        squareAttacked P.b 4 false = false ∧ squareAttacked P.b 5 false = false ∧
        squareAttacked P.b 6 false = false) := by
  constructor
  · rintro ⟨h, hto⟩
    unfold kingMoves at h
    simp only [List.mem_append] at h
    rcases h with (h | h) | h
    · exact absurd hto ((kingSteps_shape P.b 4 WK m h).2.2.2.1 rfl).1
    · simp only [and_self, if_true, List.mem_append] at h
      rcases h with h | h
      · split_ifs at h with hc
        · simp only [List.mem_singleton] at h
          obtain ⟨c1, c2, c3, c4, c5, c6⟩ := hc
          exact ⟨h, c1, c3, c4, c2, c5, c6⟩
        · simp at h
      · split_ifs at h with hc
        · simp only [List.mem_singleton] at h
          rw [h] at hto
          simp [addMove] at hto
        · simp at h
    · simp at h
  · rintro ⟨rfl, c1, c3, c4, c2, c5, c6⟩
    refine ⟨?_, rfl⟩
    unfold kingMoves
    simp only [List.mem_append]
    left; right
    simp only [and_self, if_true, List.mem_append]
    left
    rw [if_pos ⟨c1, c2, c3, c4, c5, c6⟩]
    simp

theorem kingMoves_white_to_c1 (P : Position) (m : Move) :
    (m ∈ kingMoves P 4 WK ∧ m.to_ = 2) ↔
      (m = addMove P.b 4 2 ∧ P.castle &&& 2 ≠ 0 ∧ getSq P.b 3 = EMPTY ∧ getSq P.b 2 = EMPTY ∧
        getSq P.b 1 = EMPTY ∧
        squareAttacked P.b 4 false = false ∧ squareAttacked P.b 3 false = false ∧
        squareAttacked P.b 2 false = false) := by
  constructor
  · rintro ⟨h, hto⟩
    unfold kingMoves at h
    simp only [List.mem_append] at h
    rcases h with (h | h) | h
    · exact absurd hto ((kingSteps_shape P.b 4 WK m h).2.2.2.1 rfl).2
    · simp only [and_self, if_true, List.mem_append] at h
      rcases h with h | h
      · split_ifs at h with hc
        · simp only [List.mem_singleton] at h
          rw [h] at hto
          simp [addMove] at hto
        · simp at h
      · split_ifs at h with hc
        · simp only [List.mem_singleton] at h
          obtain ⟨c1, c2, c3, c4, c5, c6, c7⟩ := hc
          exact ⟨h, c1, c3, c4, c5, c2, c6, c7⟩
        · simp at h
    · simp at h
  · rintro ⟨rfl, c1, c3, c4, c5, c2, c6, c7⟩
    refine ⟨?_, rfl⟩
    unfold kingMoves
    simp only [List.mem_append]
    left; right
    simp only [and_self, if_true, List.mem_append]
    right
    rw [if_pos ⟨c1, c2, c3, c4, c5, c6, c7⟩]
    simp

theorem kingMoves_black_to_g8 (P : Position) (m : Move) :
    (m ∈ kingMoves P 60 BK ∧ m.to_ = 62) ↔
      (m = addMove P.b 60 62 ∧ P.castle &&& 4 ≠ 0 ∧ getSq P.b 61 = EMPTY ∧
        getSq P.b 62 = EMPTY ∧
        squareAttacked P.b 60 true = false ∧ squareAttacked P.b 61 true = false ∧
        squareAttacked P.b 62 true = false) := by
  constructor
  · rintro ⟨h, hto⟩
    unfold kingMoves at h
    simp only [List.mem_append] at h
    rcases h with (h | h) | h
    · exact absurd hto ((kingSteps_shape P.b 60 BK m h).2.2.2.2 rfl).1
    · simp at h
    · simp only [and_self, if_true, List.mem_append] at h
      rcases h with h | h
      · split_ifs at h with hc
        · simp only [List.mem_singleton] at h
          obtain ⟨c1, c2, c3, c4, c5, c6⟩ := hc
          exact ⟨h, c1, c3, c4, c2, c5, c6⟩
        · simp at h
      · split_ifs at h with hc
        · simp only [List.mem_singleton] at h
          rw [h] at hto
          simp [addMove] at hto
        · simp at h
  · rintro ⟨rfl, c1, c3, c4, c2, c5, c6⟩
    refine ⟨?_, rfl⟩
    unfold kingMoves
    simp only [List.mem_append]
    right
    simp only [and_self, if_true, List.mem_append]
    left
    rw [if_pos ⟨c1, c2, c3, c4, c5, c6⟩]
    simp

theorem kingMoves_black_to_c8 (P : Position) (m : Move) :
    (m ∈ kingMoves P 60 BK ∧ m.to_ = 58) ↔
      (m = addMove P.b 60 58 ∧ P.castle &&& 8 ≠ 0 ∧ getSq P.b 59 = EMPTY ∧
        getSq P.b 58 = EMPTY ∧ getSq P.b 57 = EMPTY ∧
        squareAttacked P.b 60 true = false ∧ squareAttacked P.b 59 true = false ∧
        squareAttacked P.b 58 true = false) := by
  constructor
  · rintro ⟨h, hto⟩
    unfold kingMoves at h
    simp only [List.mem_append] at h
    rcases h with (h | h) | h
    · exact absurd hto ((kingSteps_shape P.b 60 BK m h).2.2.2.2 rfl).2
    · simp at h
    · simp only [and_self, if_true, List.mem_append] at h
      rcases h with h | h
      · split_ifs at h with hc
        · simp only [List.mem_singleton] at h
          rw [h] at hto
          simp [addMove] at hto
        · simp at h
      · split_ifs at h with hc
        · simp only [List.mem_singleton] at h
          obtain ⟨c1, c2, c3, c4, c5, c6, c7⟩ := hc
          exact ⟨h, c1, c3, c4, c5, c2, c6, c7⟩
        · simp at h
  · rintro ⟨rfl, c1, c3, c4, c5, c2, c6, c7⟩
    refine ⟨?_, rfl⟩
    unfold kingMoves
    simp only [List.mem_append]
    right
    simp only [and_self, if_true, List.mem_append]
    right
    rw [if_pos ⟨c1, c2, c3, c4, c5, c6, c7⟩]
    simp

theorem kingMoves_no_castle_off_home (P : Position) (m : Move) :
    (m ∈ kingMoves P 4 BK → m.to_ ≠ 6 ∧ m.to_ ≠ 2) ∧
    (m ∈ kingMoves P 60 WK → m.to_ ≠ 62 ∧ m.to_ ≠ 58) := by
  constructor
  · intro h
    unfold kingMoves at h
    simp only [List.mem_append] at h
    rcases h with (h | h) | h
    · exact (kingSteps_shape P.b 4 BK m h).2.2.2.1 rfl
    · simp at h
    · simp at h
  · intro h
    unfold kingMoves at h
    simp only [List.mem_append] at h
    rcases h with (h | h) | h
    · exact (kingSteps_shape P.b 60 WK m h).2.2.2.2 rfl
    · simp at h
    · simp at h

theorem castle_move_iff (P : Position) (sq to_ : Int) (k : Piece) (hk : k = WK ∨ k = BK)
    (hsq : 0 ≤ sq ∧ sq < 64) (C : Prop)
    (hC : ∀ m : Move, (m ∈ kingMoves P sq k ∧ m.to_ = to_) ↔ (m = addMove P.b sq to_ ∧ C)) :
    (∃ m ∈ genPseudoLegalMoves P, m.from_ = sq ∧ m.to_ = to_ ∧ getSq P.b sq = k) ↔
      (P.whiteToMove = decide (k = WK) ∧ getSq P.b sq = k ∧ C) := by
  constructor
  · rintro ⟨m, hm, hf, ht, hp⟩
    have h1 := mem_movesFrom_of_mem P m hm
    rw [hf, movesFrom_king P sq k hk hp] at h1
    exact ⟨h1.1, hp, ((hC m).1 ⟨h1.2, ht⟩).2⟩
  · rintro ⟨hw, hp, hc⟩
    have h2 := (hC (addMove P.b sq to_)).2 ⟨rfl, hc⟩
    refine ⟨addMove P.b sq to_, ?_, rfl, rfl, hp⟩
    apply mem_genPseudoLegalMoves_of_movesFrom P sq _ hsq
    rw [movesFrom_king P sq k hk hp]
    exact ⟨hw, h2.1⟩

/-- C25. For every position, `genPseudoLegalMoves` has a king move `e1g1`, `e1c1`, `e8g8` or
`e8c8` exactly when the king of the side to move stands on its home square, the matching right
is held, the squares between king and rook corner are empty, and the king's square, the square
it crosses and its destination are not attacked by the opponent. -/
theorem castling_generated_iff (P : Position) :
    ((∃ m ∈ genPseudoLegalMoves P, m.from_ = 4 ∧ m.to_ = 6 ∧
        (getSq P.b 4 = WK ∨ getSq P.b 4 = BK)) ↔
      (P.whiteToMove = true ∧ getSq P.b 4 = WK ∧ P.castle &&& 1 ≠ 0 ∧
        getSq P.b 5 = EMPTY ∧ getSq P.b 6 = EMPTY ∧
        squareAttacked P.b 4 false = false ∧ squareAttacked P.b 5 false = false ∧
        squareAttacked P.b 6 false = false)) ∧
    ((∃ m ∈ genPseudoLegalMoves P, m.from_ = 4 ∧ m.to_ = 2 ∧
        (getSq P.b 4 = WK ∨ getSq P.b 4 = BK)) ↔
      (P.whiteToMove = true ∧ getSq P.b 4 = WK ∧ P.castle &&& 2 ≠ 0 ∧
        getSq P.b 3 = EMPTY ∧ getSq P.b 2 = EMPTY ∧ getSq P.b 1 = EMPTY ∧
        squareAttacked P.b 4 false = false ∧ squareAttacked P.b 3 false = false ∧
        squareAttacked P.b 2 false = false)) ∧
    ((∃ m ∈ genPseudoLegalMoves P, m.from_ = 60 ∧ m.to_ = 62 ∧
        (getSq P.b 60 = WK ∨ getSq P.b 60 = BK)) ↔
      (P.whiteToMove = false ∧ getSq P.b 60 = BK ∧ P.castle &&& 4 ≠ 0 ∧
        getSq P.b 61 = EMPTY ∧ getSq P.b 62 = EMPTY ∧
        squareAttacked P.b 60 true = false ∧ squareAttacked P.b 61 true = false ∧
        squareAttacked P.b 62 true = false)) ∧
    ((∃ m ∈ genPseudoLegalMoves P, m.from_ = 60 ∧ m.to_ = 58 ∧
        (getSq P.b 60 = WK ∨ getSq P.b 60 = BK)) ↔
      (P.whiteToMove = false ∧ getSq P.b 60 = BK ∧ P.castle &&& 8 ≠ 0 ∧
        getSq P.b 59 = EMPTY ∧ getSq P.b 58 = EMPTY ∧ getSq P.b 57 = EMPTY ∧
        squareAttacked P.b 60 true = false ∧ squareAttacked P.b 59 true = false ∧
        squareAttacked P.b 58 true = false)) := by
  have w6 := castle_move_iff P 4 6 WK (Or.inl rfl) (by decide) _ (kingMoves_white_to_g1 P)
  have w2 := castle_move_iff P 4 2 WK (Or.inl rfl) (by decide) _ (kingMoves_white_to_c1 P)
  have b62 := castle_move_iff P 60 62 BK (Or.inr rfl) (by decide) _ (kingMoves_black_to_g8 P)
  have b58 := castle_move_iff P 60 58 BK (Or.inr rfl) (by decide) _ (kingMoves_black_to_c8 P)
  have nb : ∀ m ∈ genPseudoLegalMoves P, m.from_ = 4 → getSq P.b 4 = BK →
      m.to_ ≠ 6 ∧ m.to_ ≠ 2 := by
    intro m hm hf hp
    have h1 := mem_movesFrom_of_mem P m hm
    rw [hf, movesFrom_king P 4 BK (Or.inr rfl) hp] at h1
    exact (kingMoves_no_castle_off_home P m).1 h1.2
  have nw : ∀ m ∈ genPseudoLegalMoves P, m.from_ = 60 → getSq P.b 60 = WK →
      m.to_ ≠ 62 ∧ m.to_ ≠ 58 := by
    intro m hm hf hp
    have h1 := mem_movesFrom_of_mem P m hm
    rw [hf, movesFrom_king P 60 WK (Or.inl rfl) hp] at h1
    exact (kingMoves_no_castle_off_home P m).2 h1.2
  simp only [decide_True, decide_False, reduceCtorEq] at w6 w2 b62 b58
  refine ⟨?_, ?_, ?_, ?_⟩
  · rw [← w6]
    constructor
    · rintro ⟨m, hm, hf, ht, hp | hp⟩
      · exact ⟨m, hm, hf, ht, hp⟩
      · exact absurd ht (nb m hm hf hp).1
    · rintro ⟨m, hm, hf, ht, hp⟩
      exact ⟨m, hm, hf, ht, Or.inl hp⟩
  · rw [← w2]
    constructor
    · rintro ⟨m, hm, hf, ht, hp | hp⟩
      · exact ⟨m, hm, hf, ht, hp⟩
      · exact absurd ht (nb m hm hf hp).2
    · rintro ⟨m, hm, hf, ht, hp⟩
      exact ⟨m, hm, hf, ht, Or.inl hp⟩
  · rw [← b62]
    constructor
    · rintro ⟨m, hm, hf, ht, hp | hp⟩
      · exact absurd ht (nw m hm hf hp).1
      · exact ⟨m, hm, hf, ht, hp⟩
    · rintro ⟨m, hm, hf, ht, hp⟩
      exact ⟨m, hm, hf, ht, Or.inr hp⟩
  · rw [← b58]
    constructor
    · rintro ⟨m, hm, hf, ht, hp | hp⟩
      · exact absurd ht (nw m hm hf hp).2
      · exact ⟨m, hm, hf, ht, hp⟩
    · rintro ⟨m, hm, hf, ht, hp⟩
      exact ⟨m, hm, hf, ht, Or.inr hp⟩

/-! ## Rays by coordinates -/

theorem diagRayAttacked_eq (b : Board) (c : Bool) (dv dx dy : Int)
    (hd : (dv = 9 ∧ dx = 1 ∧ dy = 1) ∨ (dv = 7 ∧ dx = -1 ∧ dy = 1) ∨
      (dv = -7 ∧ dx = 1 ∧ dy = -1) ∨ (dv = -9 ∧ dx = -1 ∧ dy = -1)) :
    ∀ (n : Nat) (prev : Int), 0 ≤ prev → prev < 64 →
      diagRayAttacked b c dv n prev =
        (rayPath b dx dy n (prev % 8) (prev / 8)).any fun s =>
          if c then decide (getSq b s = WB) || decide (getSq b s = WQ)
          else decide (getSq b s = BB) || decide (getSq b s = BQ) := by
  intro n
  induction n with
  | zero => intro prev _ _; rfl
  | succ n ih =>
    intro prev h0 h1
    have hxy : xyToSq (prev % 8 + dx) (prev / 8 + dy) = prev + dv := by
      unfold xyToSq; omega
    have hxi : inside (prev % 8 + dx) (prev / 8 + dy) → (prev + dv) % 8 = prev % 8 + dx := by
      intro hi; unfold inside at hi; omega
    have hyi : inside (prev % 8 + dx) (prev / 8 + dy) → (prev + dv) / 8 = prev / 8 + dy := by
      intro hi; unfold inside at hi; omega
    have hin : inside (prev % 8 + dx) (prev / 8 + dy) ↔
        (onBoard (prev + dv) = true ∧ ¬ iabs (fileOf (prev + dv) - fileOf prev) > 1) := by
      rw [onBoard_iff]
      unfold inside iabs fileOf
      split_ifs <;> omega
    simp only [diagRayAttacked, rayPath, hxy]
    by_cases hi : inside (prev % 8 + dx) (prev / 8 + dy)
    · have hi2 := hin.1 hi
      have hx := hxi hi
      have hy := hyi hi
      rw [onBoard_iff] at hi2
      have ihn := ih (prev + dv) hi2.1.1 hi2.1.2
      rw [hx, hy] at ihn
      rw [if_pos hi, if_neg (by simp [onBoard_iff, hi2.1]), if_neg hi2.2]
      by_cases he : getSq b (prev + dv) = EMPTY
      · rw [if_pos he, if_pos he, List.any_cons, ← ihn]
        cases c <;> simp [he]
      · rw [if_neg he, if_neg he]
        cases c <;> simp
    · rw [if_neg hi]
      have hi3 : ¬ (onBoard (prev + dv) = true ∧ ¬ iabs (fileOf (prev + dv) - fileOf prev) > 1) :=
        fun h => hi (hin.2 h)
      by_cases ho : onBoard (prev + dv) = true
      · have hw : iabs (fileOf (prev + dv) - fileOf prev) > 1 := by
          by_contra hw; exact hi3 ⟨ho, hw⟩
        simp [ho, hw]
      · simp [ho]

theorem straightRayAttacked_eq (b : Board) (c : Bool) (dv dx dy : Int)
    (hd : (dv = 8 ∧ dx = 0 ∧ dy = 1) ∨ (dv = -8 ∧ dx = 0 ∧ dy = -1) ∨
      (dv = 1 ∧ dx = 1 ∧ dy = 0) ∨ (dv = -1 ∧ dx = -1 ∧ dy = 0)) :
    ∀ (n : Nat) (prev : Int), 0 ≤ prev → prev < 64 →
      straightRayAttacked b c dv n prev =
        (rayPath b dx dy n (prev % 8) (prev / 8)).any fun s =>
          if c then decide (getSq b s = WR) || decide (getSq b s = WQ)
          else decide (getSq b s = BR) || decide (getSq b s = BQ) := by
  intro n
  induction n with
  | zero => intro prev _ _; rfl
  | succ n ih =>
    intro prev h0 h1
    have hxy : xyToSq (prev % 8 + dx) (prev / 8 + dy) = prev + dv := by
      unfold xyToSq; omega
    have hxi : inside (prev % 8 + dx) (prev / 8 + dy) → (prev + dv) % 8 = prev % 8 + dx := by
      intro hi; unfold inside at hi; omega
    have hyi : inside (prev % 8 + dx) (prev / 8 + dy) → (prev + dv) / 8 = prev / 8 + dy := by
      intro hi; unfold inside at hi; omega
    have hin : inside (prev % 8 + dx) (prev / 8 + dy) ↔
        (onBoard (prev + dv) = true ∧
          ¬ ((dv = 1 ∨ dv = -1) ∧ iabs (fileOf (prev + dv) - fileOf prev) > 1)) := by
      rw [onBoard_iff]
      unfold inside iabs fileOf
      split_ifs <;> omega
    simp only [straightRayAttacked, rayPath, hxy]
    by_cases hi : inside (prev % 8 + dx) (prev / 8 + dy)
    · have hi2 := hin.1 hi
      have hx := hxi hi
      have hy := hyi hi
      rw [onBoard_iff] at hi2
      have ihn := ih (prev + dv) hi2.1.1 hi2.1.2
      rw [hx, hy] at ihn
      rw [if_pos hi, if_neg (by simp [onBoard_iff, hi2.1]), if_neg hi2.2]
      by_cases he : getSq b (prev + dv) = EMPTY
      · rw [if_pos he, if_pos he, List.any_cons, ← ihn]
        cases c <;> simp [he]
      · rw [if_neg he, if_neg he]
        cases c <;> simp
    · rw [if_neg hi]
      have hi3 := fun h => hi (hin.2 h)
      by_cases ho : onBoard (prev + dv) = true
      · have hw : (dv = 1 ∨ dv = -1) ∧ iabs (fileOf (prev + dv) - fileOf prev) > 1 := by
          by_contra hw; exact hi3 ⟨ho, hw⟩
        simp [ho, hw]
      · simp [ho]

theorem slideRay_eq_straight (b : Board) (sq : Int) (p : Piece) (dv dx dy : Int)
    (hd : (dv = 8 ∧ dx = 0 ∧ dy = 1) ∨ (dv = -8 ∧ dx = 0 ∧ dy = -1) ∨
      (dv = 1 ∧ dx = 1 ∧ dy = 0) ∨ (dv = -1 ∧ dx = -1 ∧ dy = 0)) :
    ∀ (n : Nat) (prev : Int), 0 ≤ prev → prev < 64 →
      slideRay b sq p dv n prev =
        ((rayPath b dx dy n (prev % 8) (prev / 8)).filter fun s =>
          decide (getSq b s = EMPTY ∨ isWhite (getSq b s) ≠ isWhite p)).map (addMove b sq) := by
  intro n
  induction n with
  | zero => intro prev _ _; rfl
  | succ n ih =>
    intro prev h0 h1
    have hxy : xyToSq (prev % 8 + dx) (prev / 8 + dy) = prev + dv := by
      unfold xyToSq; omega
    have hxi : inside (prev % 8 + dx) (prev / 8 + dy) → (prev + dv) % 8 = prev % 8 + dx := by
      intro hi; unfold inside at hi; omega
    have hyi : inside (prev % 8 + dx) (prev / 8 + dy) → (prev + dv) / 8 = prev / 8 + dy := by
      intro hi; unfold inside at hi; omega
    have hin : inside (prev % 8 + dx) (prev / 8 + dy) ↔
        (onBoard (prev + dv) = true ∧
          ¬ ((dv = 1 ∨ dv = -1) ∧ iabs (fileOf (prev + dv) - fileOf prev) ≠ 1) ∧
          ¬ ((dv = 7 ∨ dv = -7 ∨ dv = 9 ∨ dv = -9) ∧
            iabs (fileOf (prev + dv) - fileOf prev) ≠ 1)) := by
      rw [onBoard_iff]
      unfold inside iabs fileOf
      split_ifs <;> omega
    simp only [slideRay, rayPath, hxy]
    by_cases hi : inside (prev % 8 + dx) (prev / 8 + dy)
    · have hi2 := hin.1 hi
      have hx := hxi hi
      have hy := hyi hi
      rw [onBoard_iff] at hi2
      have ihn := ih (prev + dv) hi2.1.1 hi2.1.2
      rw [hx, hy] at ihn
      rw [if_pos hi, if_neg (by simp [onBoard_iff, hi2.1]), if_neg hi2.2.1, if_neg hi2.2.2]
      by_cases he : getSq b (prev + dv) = EMPTY
      · rw [if_pos he, if_pos he, ihn]
        simp [he]
      · rw [if_neg he, if_neg he]
        by_cases hw : isWhite (getSq b (prev + dv)) ≠ isWhite p
        · rw [if_pos hw]; simp [he, hw]
        · rw [if_neg hw]; simp [he, hw]
    · rw [if_neg hi]
      have hi3 := fun h => hi (hin.2 h)
      by_cases ho : onBoard (prev + dv) = true
      · by_cases hw1 : (dv = 1 ∨ dv = -1) ∧ iabs (fileOf (prev + dv) - fileOf prev) ≠ 1
        · simp [ho, hw1]
        · have hw2 : (dv = 7 ∨ dv = -7 ∨ dv = 9 ∨ dv = -9) ∧
              iabs (fileOf (prev + dv) - fileOf prev) ≠ 1 := by
            by_contra hw2; exact hi3 ⟨ho, hw1, hw2⟩
          rw [if_neg (by simp [ho]), if_neg hw1, if_pos hw2]
          rfl
      · simp [ho]

theorem slideRay_eq_diag (b : Board) (sq : Int) (p : Piece) (dv dx dy : Int)
    (hd : (dv = 9 ∧ dx = 1 ∧ dy = 1) ∨ (dv = 7 ∧ dx = -1 ∧ dy = 1) ∨
      (dv = -7 ∧ dx = 1 ∧ dy = -1) ∨ (dv = -9 ∧ dx = -1 ∧ dy = -1)) :
    ∀ (n : Nat) (prev : Int), 0 ≤ prev → prev < 64 →
      slideRay b sq p dv n prev =
        ((rayPath b dx dy n (prev % 8) (prev / 8)).filter fun s =>
          decide (getSq b s = EMPTY ∨ isWhite (getSq b s) ≠ isWhite p)).map (addMove b sq) := by
  intro n
  induction n with
  | zero => intro prev _ _; rfl
  | succ n ih =>
    intro prev h0 h1
    have hxy : xyToSq (prev % 8 + dx) (prev / 8 + dy) = prev + dv := by
      unfold xyToSq; omega
    have hxi : inside (prev % 8 + dx) (prev / 8 + dy) → (prev + dv) % 8 = prev % 8 + dx := by
      intro hi; unfold inside at hi; omega
    have hyi : inside (prev % 8 + dx) (prev / 8 + dy) → (prev + dv) / 8 = prev / 8 + dy := by
      intro hi; unfold inside at hi; omega
    have hin : inside (prev % 8 + dx) (prev / 8 + dy) ↔
        (onBoard (prev + dv) = true ∧
          ¬ ((dv = 1 ∨ dv = -1) ∧ iabs (fileOf (prev + dv) - fileOf prev) ≠ 1) ∧
          ¬ ((dv = 7 ∨ dv = -7 ∨ dv = 9 ∨ dv = -9) ∧
            iabs (fileOf (prev + dv) - fileOf prev) ≠ 1)) := by
      rw [onBoard_iff]
      unfold inside iabs fileOf
      split_ifs <;> omega
    simp only [slideRay, rayPath, hxy]
    by_cases hi : inside (prev % 8 + dx) (prev / 8 + dy)
    · have hi2 := hin.1 hi
      have hx := hxi hi
      have hy := hyi hi
      rw [onBoard_iff] at hi2
      have ihn := ih (prev + dv) hi2.1.1 hi2.1.2
      rw [hx, hy] at ihn
      rw [if_pos hi, if_neg (by simp [onBoard_iff, hi2.1]), if_neg hi2.2.1, if_neg hi2.2.2]
      by_cases he : getSq b (prev + dv) = EMPTY
      · rw [if_pos he, if_pos he, ihn]
        simp [he]
      · rw [if_neg he, if_neg he]
        by_cases hw : isWhite (getSq b (prev + dv)) ≠ isWhite p
        · rw [if_pos hw]; simp [he, hw]
        · rw [if_neg hw]; simp [he, hw]
    · rw [if_neg hi]
      have hi3 := fun h => hi (hin.2 h)
      by_cases ho : onBoard (prev + dv) = true
      · by_cases hw1 : (dv = 1 ∨ dv = -1) ∧ iabs (fileOf (prev + dv) - fileOf prev) ≠ 1
        · simp [ho, hw1]
        · have hw2 : (dv = 7 ∨ dv = -7 ∨ dv = 9 ∨ dv = -9) ∧
              iabs (fileOf (prev + dv) - fileOf prev) ≠ 1 := by
            by_contra hw2; exact hi3 ⟨ho, hw1, hw2⟩
          rw [if_neg (by simp [ho]), if_neg hw1, if_pos hw2]
          rfl
      · simp [ho]

theorem slideRay_eq (b : Board) (sq : Int) (p : Piece) (dv dx dy : Int) (hd : IsDir dv dx dy) :
    ∀ (n : Nat) (prev : Int), 0 ≤ prev → prev < 64 →
      slideRay b sq p dv n prev =
        ((rayPath b dx dy n (prev % 8) (prev / 8)).filter fun s =>
          decide (getSq b s = EMPTY ∨ isWhite (getSq b s) ≠ isWhite p)).map (addMove b sq) := by
  rcases hd with h | h | h | h | h | h | h | h
  · exact slideRay_eq_straight b sq p dv dx dy (Or.inl h)
  · exact slideRay_eq_straight b sq p dv dx dy (Or.inr (Or.inl h))
  · exact slideRay_eq_straight b sq p dv dx dy (Or.inr (Or.inr (Or.inl h)))
  · exact slideRay_eq_straight b sq p dv dx dy (Or.inr (Or.inr (Or.inr h)))
  · exact slideRay_eq_diag b sq p dv dx dy (Or.inl h)
  · exact slideRay_eq_diag b sq p dv dx dy (Or.inr (Or.inl h))
  · exact slideRay_eq_diag b sq p dv dx dy (Or.inr (Or.inr (Or.inl h)))
  · exact slideRay_eq_diag b sq p dv dx dy (Or.inr (Or.inr (Or.inr h)))

/-- The squares of `rayPath`, by coordinates: the `k`-th square in the direction, for every `k`
such that the squares 1 to `k` are on the board and the squares 1 to `k-1` are empty. -/
theorem mem_rayPath (b : Board) (dx dy : Int) (s : Int) :
    ∀ (n : Nat) (x y : Int), s ∈ rayPath b dx dy n x y ↔
      ∃ k : Nat, 1 ≤ k ∧ k ≤ n ∧ s = xyToSq (x + k * dx) (y + k * dy) ∧
        (∀ j : Nat, 1 ≤ j → j ≤ k → inside (x + j * dx) (y + j * dy)) ∧
        (∀ j : Nat, 1 ≤ j → j < k → getSq b (xyToSq (x + j * dx) (y + j * dy)) = EMPTY) := by
  intro n
  induction n with
  | zero =>
    intro x y
    simp only [rayPath, List.not_mem_nil, false_iff]
    rintro ⟨k, h1, h2, -⟩
    omega
  | succ n ih =>
    intro x y
    have hone : ∀ (P : Nat → Prop), (∀ j : Nat, 1 ≤ j → j ≤ 1 → P j) ↔ P 1 := by
      intro P
      constructor
      · intro h; exact h 1 (le_refl 1) (le_refl 1)
      · intro h j h1 h2
        have : j = 1 := by omega
        rw [this]; exact h
    simp only [rayPath]
    by_cases hi : inside (x + dx) (y + dy)
    · rw [if_pos hi]
      by_cases he : getSq b (xyToSq (x + dx) (y + dy)) = EMPTY
      · rw [if_pos he, List.mem_cons, ih]
        constructor
        · rintro (rfl | ⟨k, h1, h2, h3, h4, h5⟩)
          · refine ⟨1, le_refl 1, by omega, by simp, ?_, ?_⟩
            · intro j h1 h2
              have : j = 1 := by omega
              subst this
              simpa using hi
            · intro j h1 h2; omega
          · refine ⟨k + 1, by omega, by omega, ?_, ?_, ?_⟩
            · rw [h3]; push_cast; ring_nf
            · intro j h1 h2
              rcases Nat.eq_or_lt_of_le h1 with rfl | hj
              · simpa using hi
              · have := h4 (j - 1) (by omega) (by omega)
                have e : ((j - 1 : Nat) : Int) = (j : Int) - 1 := by omega
                rw [e] at this
                have e1 : x + dx + ((j : Int) - 1) * dx = x + j * dx := by ring
                have e2 : y + dy + ((j : Int) - 1) * dy = y + j * dy := by ring
                rwa [e1, e2] at this
            · intro j h1 h2
              rcases Nat.eq_or_lt_of_le h1 with rfl | hj
              · simpa using he
              · have := h5 (j - 1) (by omega) (by omega)
                have e : ((j - 1 : Nat) : Int) = (j : Int) - 1 := by omega
                rw [e] at this
                have e1 : x + dx + ((j : Int) - 1) * dx = x + j * dx := by ring
                have e2 : y + dy + ((j : Int) - 1) * dy = y + j * dy := by ring
                rwa [e1, e2] at this
        · rintro ⟨k, h1, h2, h3, h4, h5⟩
          rcases Nat.eq_or_lt_of_le h1 with rfl | hk
          · left; rw [h3]; simp
          · right
            refine ⟨k - 1, by omega, by omega, ?_, ?_, ?_⟩
            · have e : ((k - 1 : Nat) : Int) = (k : Int) - 1 := by omega
              rw [h3, e]; ring_nf
            · intro j hj1 hj2
              have := h4 (j + 1) (by omega) (by omega)
              have e1 : x + ((j + 1 : Nat) : Int) * dx = x + dx + j * dx := by push_cast; ring
              have e2 : y + ((j + 1 : Nat) : Int) * dy = y + dy + j * dy := by push_cast; ring
              rwa [e1, e2] at this
            · intro j hj1 hj2
              have := h5 (j + 1) (by omega) (by omega)
              have e1 : x + ((j + 1 : Nat) : Int) * dx = x + dx + j * dx := by push_cast; ring
              have e2 : y + ((j + 1 : Nat) : Int) * dy = y + dy + j * dy := by push_cast; ring
              rwa [e1, e2] at this
      · rw [if_neg he, List.mem_singleton]
        constructor
        · rintro rfl
          refine ⟨1, le_refl 1, by omega, by simp, ?_, ?_⟩
          · intro j h1 h2
            have : j = 1 := by omega
            subst this
            simpa using hi
          · intro j h1 h2; omega
        · rintro ⟨k, h1, h2, h3, h4, h5⟩
          rcases Nat.eq_or_lt_of_le h1 with rfl | hk
          · rw [h3]; simp
          · exfalso
            have := h5 1 (le_refl 1) hk
            simp at this
            exact he this
    · rw [if_neg hi]
      simp only [List.not_mem_nil, false_iff]
      rintro ⟨k, h1, h2, h3, h4, h5⟩
      have := h4 1 (le_refl 1) h1
      simp at this
      exact hi this

theorem mem_rayPath_geom (b : Board) (dx dy : Int)
    (hdx : dx = -1 ∨ dx = 0 ∨ dx = 1) (hdy : dy = -1 ∨ dy = 0 ∨ dy = 1)
    (hne : dx ≠ 0 ∨ dy ≠ 0) (s t : Int) (hs : 0 ≤ s ∧ s < 64) :
    t ∈ rayPath b dx dy 8 (fileOf s) (rankOf s) ↔
      (0 ≤ t ∧ t < 64 ∧
        (∃ k : Int, 1 ≤ k ∧ fileOf t - fileOf s = k * dx ∧ rankOf t - rankOf s = k * dy) ∧
        clearBetween b s t) := by
  rw [mem_rayPath]
  have efs : fileOf s = s % 8 := rfl
  have ers : rankOf s = s / 8 := rfl
  have eft : fileOf t = t % 8 := rfl
  have ert : rankOf t = t / 8 := rfl
  constructor
  · rintro ⟨k, h1, h2, h3, h4, h5⟩
    have hin := h4 k h1 (le_refl k)
    unfold inside at hin
    unfold xyToSq at h3
    have ht : 0 ≤ t ∧ t < 64 := by omega
    have hft : fileOf t = fileOf s + k * dx := by omega
    have hrt : rankOf t = rankOf s + k * dy := by omega
    refine ⟨ht.1, ht.2, ⟨k, by omega, by omega, by omega⟩, ?_⟩
    intro j hj1 hj2
    have hsx : sgn (fileOf t - fileOf s) = dx := by
      rw [hft]; unfold sgn
      rcases hdx with rfl | rfl | rfl <;> split_ifs <;> omega
    have hsy : sgn (rankOf t - rankOf s) = dy := by
      rw [hrt]; unfold sgn
      rcases hdy with rfl | rfl | rfl <;> split_ifs <;> omega
    rw [hsx, hsy]
    apply h5 j (by omega)
    rw [hft, hrt] at hj1
    unfold iabs at hj1
    rcases hdx with rfl | rfl | rfl <;> rcases hdy with rfl | rfl | rfl <;>
      split_ifs at hj1 <;> omega
  · rintro ⟨ht0, ht1, ⟨k, hk1, hkx, hky⟩, hc⟩
    have hfs : 0 ≤ fileOf s ∧ fileOf s < 8 := by omega
    have hrs : 0 ≤ rankOf s ∧ rankOf s < 8 := by omega
    have hft : 0 ≤ fileOf t ∧ fileOf t < 8 := by omega
    have hrt : 0 ≤ rankOf t ∧ rankOf t < 8 := by omega
    have hk7 : k ≤ 7 := by
      rcases hdx with rfl | rfl | rfl <;> rcases hdy with rfl | rfl | rfl <;> omega
    have hsx : sgn (fileOf t - fileOf s) = dx := by
      rw [hkx]; unfold sgn
      rcases hdx with rfl | rfl | rfl <;> split_ifs <;> omega
    have hsy : sgn (rankOf t - rankOf s) = dy := by
      rw [hky]; unfold sgn
      rcases hdy with rfl | rfl | rfl <;> split_ifs <;> omega
    have hmax : max (iabs (fileOf t - fileOf s)) (iabs (rankOf t - rankOf s)) = k := by
      rw [hkx, hky]
      unfold iabs
      rcases hdx with rfl | rfl | rfl <;> rcases hdy with rfl | rfl | rfl <;>
        split_ifs <;> omega
    have hkn : ((k.toNat : Nat) : Int) = k := by omega
    refine ⟨k.toNat, by omega, by omega, ?_, ?_, ?_⟩
    · rw [hkn, ← hkx, ← hky]
      unfold xyToSq
      omega
    · intro j hj1 hj2
      unfold inside
      have hj : (j : Int) ≤ k := by omega
      have hj0 : (1 : Int) ≤ j := by omega
      rcases hdx with rfl | rfl | rfl <;> rcases hdy with rfl | rfl | rfl <;> omega
    · intro j hj1 hj2
      have := hc j (by rw [hmax]; omega) (by omega)
      rwa [hsx, hsy] at this

/-! ## `squareAttacked` and geometry -/

theorem pawnAttacked_iff (b : Board) (t : Int) (c : Bool) (ht : 0 ≤ t ∧ t < 64) :
    pawnAttacked b t c = true ↔
      ∃ s : Int, 0 ≤ s ∧ s < 64 ∧ getSq b s = (if c then WP else BP) ∧
        iabs (fileOf s - fileOf t) = 1 ∧ rankOf s - rankOf t = (if c then -1 else 1) := by
  have eft : fileOf t = t % 8 := rfl
  have ert : rankOf t = t / 8 := rfl
  cases c
  · simp only [pawnAttacked, Bool.false_eq_true, if_false, Bool.and_eq_true, Bool.or_eq_true,
      decide_eq_true_eq, xyToSq]
    constructor
    · rintro ⟨h1, ⟨h2, h3⟩ | ⟨h2, h3⟩⟩
      · refine ⟨_, ?_, ?_, h3, ?_, ?_⟩ <;> simp only [iabs, fileOf, rankOf] <;>
          (try split_ifs) <;> omega
      · refine ⟨_, ?_, ?_, h3, ?_, ?_⟩ <;> simp only [iabs, fileOf, rankOf] <;>
          (try split_ifs) <;> omega
    · rintro ⟨s, h0, h1, hp, hf, hr⟩
      have efs : fileOf s = s % 8 := rfl
      have ers : rankOf s = s / 8 := rfl
      simp only [iabs] at hf
      refine ⟨by omega, ?_⟩
      by_cases hl : fileOf s - fileOf t = -1
      · left
        refine ⟨by omega, ?_⟩
        have : (rankOf t + 1) * 8 + (fileOf t - 1) = s := by omega
        rw [this]; exact hp
      · right
        have hf1 : fileOf s - fileOf t = 1 := by split_ifs at hf <;> omega
        refine ⟨by omega, ?_⟩
        have : (rankOf t + 1) * 8 + (fileOf t + 1) = s := by omega
        rw [this]; exact hp
  · simp only [pawnAttacked, if_true, Bool.and_eq_true, Bool.or_eq_true,
      decide_eq_true_eq, xyToSq]
    constructor
    · rintro ⟨h1, ⟨h2, h3⟩ | ⟨h2, h3⟩⟩
      · refine ⟨_, ?_, ?_, h3, ?_, ?_⟩ <;> simp only [iabs, fileOf, rankOf] <;>
          (try split_ifs) <;> omega
      · refine ⟨_, ?_, ?_, h3, ?_, ?_⟩ <;> simp only [iabs, fileOf, rankOf] <;>
          (try split_ifs) <;> omega
    · rintro ⟨s, h0, h1, hp, hf, hr⟩
      have efs : fileOf s = s % 8 := rfl
      have ers : rankOf s = s / 8 := rfl
      simp only [iabs] at hf
      refine ⟨by omega, ?_⟩
      by_cases hl : fileOf s - fileOf t = -1
      · left
        refine ⟨by omega, ?_⟩
        have : (rankOf t - 1) * 8 + (fileOf t - 1) = s := by omega
        rw [this]; exact hp
      · right
        have hf1 : fileOf s - fileOf t = 1 := by split_ifs at hf <;> omega
        refine ⟨by omega, ?_⟩
        have : (rankOf t - 1) * 8 + (fileOf t + 1) = s := by omega
        rw [this]; exact hp

theorem iabs_cases (x : Int) : (x < 0 ∧ iabs x = -x) ∨ (0 ≤ x ∧ iabs x = x) := by
  unfold iabs
  split_ifs <;> omega

theorem knightAttacked_iff (b : Board) (t : Int) (c : Bool) :
    knightAttacked b t c = true ↔
      ∃ s : Int, 0 ≤ s ∧ s < 64 ∧ getSq b s = (if c then WN else BN) ∧
        ((iabs (fileOf s - fileOf t) = 1 ∧ iabs (rankOf s - rankOf t) = 2) ∨
         (iabs (fileOf s - fileOf t) = 2 ∧ iabs (rankOf s - rankOf t) = 1)) := by
  have eft : fileOf t = t % 8 := rfl
  have ert : rankOf t = t / 8 := rfl
  unfold knightAttacked
  rw [List.any_eq_true]
  constructor
  · rintro ⟨dv, hdv, h⟩
    simp only [Bool.and_eq_true, decide_eq_true_eq, onBoard_iff] at h
    obtain ⟨⟨hon, hmax⟩, hp⟩ := h
    have hp2 : getSq b (t + dv) = (if c then WN else BN) := by
      cases c
      · simpa using hp
      · simpa using hp
    refine ⟨t + dv, hon.1, hon.2, hp2, ?_⟩
    have efs : fileOf (t + dv) = (t + dv) % 8 := rfl
    have ers : rankOf (t + dv) = (t + dv) / 8 := rfl
    have a1 := iabs_cases (fileOf t - fileOf (t + dv))
    have a2 := iabs_cases (rankOf t - rankOf (t + dv))
    have a3 := iabs_cases (fileOf (t + dv) - fileOf t)
    have a4 := iabs_cases (rankOf (t + dv) - rankOf t)
    simp only [knightDeltas, List.mem_cons, List.mem_singleton, List.not_mem_nil, or_false] at hdv
    omega
  · rintro ⟨s, h0, h1, hp, hl⟩
    have efs : fileOf s = s % 8 := rfl
    have ers : rankOf s = s / 8 := rfl
    have a1 := iabs_cases (fileOf t - fileOf s)
    have a2 := iabs_cases (rankOf t - rankOf s)
    have a3 := iabs_cases (fileOf s - fileOf t)
    have a4 := iabs_cases (rankOf s - rankOf t)
    refine ⟨s - t, ?_, ?_⟩
    · simp only [knightDeltas, List.mem_cons, List.mem_singleton, List.not_mem_nil, or_false]
      omega
    · have e : t + (s - t) = s := by omega
      simp only [e, Bool.and_eq_true, decide_eq_true_eq, onBoard_iff]
      refine ⟨⟨⟨h0, h1⟩, by omega⟩, ?_⟩
      cases c
      · simpa using hp
      · simpa using hp

theorem kingAttacked_iff (b : Board) (t : Int) (c : Bool) :
    kingAttacked b t c = true ↔
      ∃ s : Int, 0 ≤ s ∧ s < 64 ∧ getSq b s = (if c then WK else BK) ∧
        max (iabs (fileOf s - fileOf t)) (iabs (rankOf s - rankOf t)) = 1 := by
  have eft : fileOf t = t % 8 := rfl
  have ert : rankOf t = t / 8 := rfl
  unfold kingAttacked
  rw [List.any_eq_true]
  constructor
  · rintro ⟨dv, hdv, h⟩
    simp only [Bool.and_eq_true, decide_eq_true_eq, onBoard_iff, Bool.not_eq_true',
      decide_eq_false_iff_not] at h
    obtain ⟨⟨hon, hmax⟩, hp⟩ := h
    have hp2 : getSq b (t + dv) = (if c then WK else BK) := by
      cases c
      · simpa using hp
      · simpa using hp
    refine ⟨t + dv, hon.1, hon.2, hp2, ?_⟩
    have efs : fileOf (t + dv) = (t + dv) % 8 := rfl
    have ers : rankOf (t + dv) = (t + dv) / 8 := rfl
    have a1 := iabs_cases (fileOf t - fileOf (t + dv))
    have a3 := iabs_cases (fileOf (t + dv) - fileOf t)
    have a4 := iabs_cases (rankOf (t + dv) - rankOf t)
    simp only [kingDeltas, List.mem_cons, List.mem_singleton, List.not_mem_nil, or_false] at hdv
    omega
  · rintro ⟨s, h0, h1, hp, hl⟩
    have efs : fileOf s = s % 8 := rfl
    have ers : rankOf s = s / 8 := rfl
    have a1 := iabs_cases (fileOf t - fileOf s)
    have a3 := iabs_cases (fileOf s - fileOf t)
    have a4 := iabs_cases (rankOf s - rankOf t)
    refine ⟨s - t, ?_, ?_⟩
    · simp only [kingDeltas, List.mem_cons, List.mem_singleton, List.not_mem_nil, or_false]
      omega
    · have e : t + (s - t) = s := by omega
      simp only [e, Bool.and_eq_true, decide_eq_true_eq, onBoard_iff, Bool.not_eq_true',
        decide_eq_false_iff_not]
      refine ⟨⟨⟨h0, h1⟩, by omega⟩, ?_⟩
      cases c
      · simpa using hp
      · simpa using hp

theorem rayPath_any_iff (b : Board) (dx dy : Int)
    (hdx : dx = -1 ∨ dx = 0 ∨ dx = 1) (hdy : dy = -1 ∨ dy = 0 ∨ dy = 1)
    (hne : dx ≠ 0 ∨ dy ≠ 0) (t : Int) (ht : 0 ≤ t ∧ t < 64) (f : Int → Bool) :
    (rayPath b dx dy 8 (t % 8) (t / 8)).any f = true ↔
      ∃ s : Int, 0 ≤ s ∧ s < 64 ∧ f s = true ∧
        (∃ k : Int, 1 ≤ k ∧ fileOf s - fileOf t = k * dx ∧ rankOf s - rankOf t = k * dy) ∧
        clearBetween b t s := by
  rw [List.any_eq_true]
  constructor
  · rintro ⟨s, hs, hf⟩
    have := (mem_rayPath_geom b dx dy hdx hdy hne t s ht).1 hs
    exact ⟨s, this.1, this.2.1, hf, this.2.2.1, this.2.2.2⟩
  · rintro ⟨s, h0, h1, hf, hk, hc⟩
    exact ⟨s, (mem_rayPath_geom b dx dy hdx hdy hne t s ht).2 ⟨h0, h1, hk, hc⟩, hf⟩

theorem diag_geom (df dr : Int) :
    ((∃ k : Int, 1 ≤ k ∧ df = k * 1 ∧ dr = k * 1) ∨ (∃ k : Int, 1 ≤ k ∧ df = k * -1 ∧ dr = k * 1) ∨
     (∃ k : Int, 1 ≤ k ∧ df = k * 1 ∧ dr = k * -1) ∨
     (∃ k : Int, 1 ≤ k ∧ df = k * -1 ∧ dr = k * -1)) ↔ (iabs df = iabs dr ∧ df ≠ 0) := by
  have a1 := iabs_cases df
  have a2 := iabs_cases dr
  constructor
  · rintro (⟨k, h⟩ | ⟨k, h⟩ | ⟨k, h⟩ | ⟨k, h⟩) <;> omega
  · rintro ⟨h1, h2⟩
    by_cases hf : 0 < df
    · by_cases hr : 0 < dr
      · exact Or.inl ⟨df, by omega, by omega, by omega⟩
      · exact Or.inr (Or.inr (Or.inl ⟨df, by omega, by omega, by omega⟩))
    · by_cases hr : 0 < dr
      · exact Or.inr (Or.inl ⟨-df, by omega, by omega, by omega⟩)
      · exact Or.inr (Or.inr (Or.inr ⟨-df, by omega, by omega, by omega⟩))

theorem straight_geom (df dr : Int) :
    ((∃ k : Int, 1 ≤ k ∧ df = k * 0 ∧ dr = k * 1) ∨ (∃ k : Int, 1 ≤ k ∧ df = k * 0 ∧ dr = k * -1) ∨
     (∃ k : Int, 1 ≤ k ∧ df = k * 1 ∧ dr = k * 0) ∨
     (∃ k : Int, 1 ≤ k ∧ df = k * -1 ∧ dr = k * 0)) ↔
      ((df = 0 ∧ dr ≠ 0) ∨ (dr = 0 ∧ df ≠ 0)) := by
  constructor
  · rintro (⟨k, h⟩ | ⟨k, h⟩ | ⟨k, h⟩ | ⟨k, h⟩) <;> omega
  · rintro (⟨h1, h2⟩ | ⟨h1, h2⟩)
    · by_cases hr : 0 < dr
      · exact Or.inl ⟨dr, by omega, by omega, by omega⟩
      · exact Or.inr (Or.inl ⟨-dr, by omega, by omega, by omega⟩)
    · by_cases hf : 0 < df
      · exact Or.inr (Or.inr (Or.inl ⟨df, by omega, by omega, by omega⟩))
      · exact Or.inr (Or.inr (Or.inr ⟨-df, by omega, by omega, by omega⟩))

theorem diagAttacked_iff (b : Board) (t : Int) (c : Bool) (ht : 0 ≤ t ∧ t < 64) :
    (bishopDirs.any fun dv => diagRayAttacked b c dv 8 t) = true ↔
      ∃ s : Int, 0 ≤ s ∧ s < 64 ∧
        (getSq b s = (if c then WB else BB) ∨ getSq b s = (if c then WQ else BQ)) ∧
        iabs (fileOf s - fileOf t) = iabs (rankOf s - rankOf t) ∧ fileOf s - fileOf t ≠ 0 ∧
        clearBetween b t s := by
  have hit : ∀ s : Int, (if c then decide (getSq b s = WB) || decide (getSq b s = WQ)
      else decide (getSq b s = BB) || decide (getSq b s = BQ)) = true ↔
      (getSq b s = (if c then WB else BB) ∨ getSq b s = (if c then WQ else BQ)) := by
    intro s; cases c <;> simp
  have r1 := rayPath_any_iff b 1 1 (by decide) (by decide) (by decide) t ht
    (fun s => if c then decide (getSq b s = WB) || decide (getSq b s = WQ)
      else decide (getSq b s = BB) || decide (getSq b s = BQ))
  have r2 := rayPath_any_iff b (-1) 1 (by decide) (by decide) (by decide) t ht
    (fun s => if c then decide (getSq b s = WB) || decide (getSq b s = WQ)
      else decide (getSq b s = BB) || decide (getSq b s = BQ))
  have r3 := rayPath_any_iff b 1 (-1) (by decide) (by decide) (by decide) t ht
    (fun s => if c then decide (getSq b s = WB) || decide (getSq b s = WQ)
      else decide (getSq b s = BB) || decide (getSq b s = BQ))
  have r4 := rayPath_any_iff b (-1) (-1) (by decide) (by decide) (by decide) t ht
    (fun s => if c then decide (getSq b s = WB) || decide (getSq b s = WQ)
      else decide (getSq b s = BB) || decide (getSq b s = BQ))
  simp only [hit] at r1 r2 r3 r4
  simp only [bishopDirs, List.any_cons, List.any_nil, Bool.or_false, Bool.or_eq_true,
    diagRayAttacked_eq b c 9 1 1 (by decide) 8 t ht.1 ht.2,
    diagRayAttacked_eq b c 7 (-1) 1 (by decide) 8 t ht.1 ht.2,
    diagRayAttacked_eq b c (-7) 1 (-1) (by decide) 8 t ht.1 ht.2,
    diagRayAttacked_eq b c (-9) (-1) (-1) (by decide) 8 t ht.1 ht.2, r1, r2, r3, r4]
  constructor
  · rintro (⟨s, h0, h1, hp, hk, hc⟩ | ⟨s, h0, h1, hp, hk, hc⟩ | ⟨s, h0, h1, hp, hk, hc⟩ |
      ⟨s, h0, h1, hp, hk, hc⟩)
    · have := (diag_geom _ _).1 (Or.inl hk)
      exact ⟨s, h0, h1, hp, this.1, this.2, hc⟩
    · have := (diag_geom _ _).1 (Or.inr (Or.inl hk))
      exact ⟨s, h0, h1, hp, this.1, this.2, hc⟩
    · have := (diag_geom _ _).1 (Or.inr (Or.inr (Or.inl hk)))
      exact ⟨s, h0, h1, hp, this.1, this.2, hc⟩
    · have := (diag_geom _ _).1 (Or.inr (Or.inr (Or.inr hk)))
      exact ⟨s, h0, h1, hp, this.1, this.2, hc⟩
  · rintro ⟨s, h0, h1, hp, hg1, hg2, hc⟩
    rcases (diag_geom _ _).2 ⟨hg1, hg2⟩ with hk | hk | hk | hk
    · exact Or.inl ⟨s, h0, h1, hp, hk, hc⟩
    · exact Or.inr (Or.inl ⟨s, h0, h1, hp, hk, hc⟩)
    · exact Or.inr (Or.inr (Or.inl ⟨s, h0, h1, hp, hk, hc⟩))
    · exact Or.inr (Or.inr (Or.inr ⟨s, h0, h1, hp, hk, hc⟩))

theorem straightAttacked_iff (b : Board) (t : Int) (c : Bool) (ht : 0 ≤ t ∧ t < 64) :
    (rookDirs.any fun dv => straightRayAttacked b c dv 8 t) = true ↔
      ∃ s : Int, 0 ≤ s ∧ s < 64 ∧
        (getSq b s = (if c then WR else BR) ∨ getSq b s = (if c then WQ else BQ)) ∧
        ((fileOf s - fileOf t = 0 ∧ rankOf s - rankOf t ≠ 0) ∨
          (rankOf s - rankOf t = 0 ∧ fileOf s - fileOf t ≠ 0)) ∧
        clearBetween b t s := by
  have hit : ∀ s : Int, (if c then decide (getSq b s = WR) || decide (getSq b s = WQ)
      else decide (getSq b s = BR) || decide (getSq b s = BQ)) = true ↔
      (getSq b s = (if c then WR else BR) ∨ getSq b s = (if c then WQ else BQ)) := by
    intro s; cases c <;> simp
  have r1 := rayPath_any_iff b 0 1 (by decide) (by decide) (by decide) t ht
    (fun s => if c then decide (getSq b s = WR) || decide (getSq b s = WQ)
      else decide (getSq b s = BR) || decide (getSq b s = BQ))
  have r2 := rayPath_any_iff b 0 (-1) (by decide) (by decide) (by decide) t ht
    (fun s => if c then decide (getSq b s = WR) || decide (getSq b s = WQ)
      else decide (getSq b s = BR) || decide (getSq b s = BQ))
  have r3 := rayPath_any_iff b 1 0 (by decide) (by decide) (by decide) t ht
    (fun s => if c then decide (getSq b s = WR) || decide (getSq b s = WQ)
      else decide (getSq b s = BR) || decide (getSq b s = BQ))
  have r4 := rayPath_any_iff b (-1) 0 (by decide) (by decide) (by decide) t ht
    (fun s => if c then decide (getSq b s = WR) || decide (getSq b s = WQ)
      else decide (getSq b s = BR) || decide (getSq b s = BQ))
  simp only [hit] at r1 r2 r3 r4
  simp only [rookDirs, List.any_cons, List.any_nil, Bool.or_false, Bool.or_eq_true,
    straightRayAttacked_eq b c 8 0 1 (by decide) 8 t ht.1 ht.2,
    straightRayAttacked_eq b c (-8) 0 (-1) (by decide) 8 t ht.1 ht.2,
    straightRayAttacked_eq b c 1 1 0 (by decide) 8 t ht.1 ht.2,
    straightRayAttacked_eq b c (-1) (-1) 0 (by decide) 8 t ht.1 ht.2, r1, r2, r3, r4]
  constructor
  · rintro (⟨s, h0, h1, hp, hk, hc⟩ | ⟨s, h0, h1, hp, hk, hc⟩ | ⟨s, h0, h1, hp, hk, hc⟩ |
      ⟨s, h0, h1, hp, hk, hc⟩)
    · exact ⟨s, h0, h1, hp, (straight_geom _ _).1 (Or.inl hk), hc⟩
    · exact ⟨s, h0, h1, hp, (straight_geom _ _).1 (Or.inr (Or.inl hk)), hc⟩
    · exact ⟨s, h0, h1, hp, (straight_geom _ _).1 (Or.inr (Or.inr (Or.inl hk))), hc⟩
    · exact ⟨s, h0, h1, hp, (straight_geom _ _).1 (Or.inr (Or.inr (Or.inr hk))), hc⟩
  · rintro ⟨s, h0, h1, hp, hg, hc⟩
    rcases (straight_geom _ _).2 hg with hk | hk | hk | hk
    · exact Or.inl ⟨s, h0, h1, hp, hk, hc⟩
    · exact Or.inr (Or.inl ⟨s, h0, h1, hp, hk, hc⟩)
    · exact Or.inr (Or.inr (Or.inl ⟨s, h0, h1, hp, hk, hc⟩))
    · exact Or.inr (Or.inr (Or.inr ⟨s, h0, h1, hp, hk, hc⟩))

/-- C24. For every board, every target square `t` of the board and every colour,
`squareAttacked` is true exactly when some square `s` of the board holds a piece of that colour
that attacks `t` by coordinates (`attacksGeom`): no ray or offset wraps around the board edge. -/
theorem squareAttacked_iff_geom (b : Board) (t : Int) (c : Bool) (ht : 0 ≤ t ∧ t < 64) :
    squareAttacked b t c = true ↔ ∃ s : Int, 0 ≤ s ∧ s < 64 ∧ attacksGeom b s t c := by
  unfold squareAttacked attacksGeom
  simp only [Bool.or_eq_true, pawnAttacked_iff b t c ht, knightAttacked_iff b t c,
    diagAttacked_iff b t c ht, straightAttacked_iff b t c ht, kingAttacked_iff b t c]
  constructor
  · rintro ((((⟨s, h0, h1, h⟩ | ⟨s, h0, h1, h⟩) | ⟨s, h0, h1, h⟩) | ⟨s, h0, h1, h⟩) |
      ⟨s, h0, h1, h⟩)
    · exact ⟨s, h0, h1, Or.inl h⟩
    · exact ⟨s, h0, h1, Or.inr (Or.inl h)⟩
    · exact ⟨s, h0, h1, Or.inr (Or.inr (Or.inl h))⟩
    · exact ⟨s, h0, h1, Or.inr (Or.inr (Or.inr (Or.inl h)))⟩
    · exact ⟨s, h0, h1, Or.inr (Or.inr (Or.inr (Or.inr h)))⟩
  · rintro ⟨s, h0, h1, h | h | h | h | h⟩
    · exact Or.inl (Or.inl (Or.inl (Or.inl ⟨s, h0, h1, h⟩)))
    · exact Or.inl (Or.inl (Or.inl (Or.inr ⟨s, h0, h1, h⟩)))
    · exact Or.inl (Or.inl (Or.inr ⟨s, h0, h1, h⟩))
    · exact Or.inl (Or.inr ⟨s, h0, h1, h⟩)
    · exact Or.inr ⟨s, h0, h1, h⟩

set_option maxRecDepth 100000 in
/-- C24, at `wrapProbePos` and the square `a2` (8): the black rook on `h1` (7) is one index
step away but on no common line, and the square is not attacked. -/
theorem squareAttacked_iff_geom_a2 :
    ((0 : Int) ≤ 8 ∧ (8 : Int) < 64) ∧
    squareAttacked wrapProbePos.b 8 false = false ∧
    (squareAttacked wrapProbePos.b 8 false = true ↔
      ∃ s : Int, 0 ≤ s ∧ s < 64 ∧ attacksGeom wrapProbePos.b s 8 false) :=
  ⟨by decide, by decide!, squareAttacked_iff_geom wrapProbePos.b 8 false (by decide)⟩

/-! ## Destinations of knights, sliders and kings -/

theorem slideRay_dest_iff (b : Board) (s : Int) (p : Piece) (dv dx dy : Int)
    (hd : IsDir dv dx dy) (hs : 0 ≤ s ∧ s < 64) (d : Int) :
    (∃ m ∈ slideRay b s p dv 8 s, m.to_ = d) ↔
      (0 ≤ d ∧ d < 64 ∧ (getSq b d = EMPTY ∨ isWhite (getSq b d) ≠ isWhite p) ∧
        (∃ k : Int, 1 ≤ k ∧ fileOf d - fileOf s = k * dx ∧ rankOf d - rankOf s = k * dy) ∧
        clearBetween b s d) := by
  have hdx : dx = -1 ∨ dx = 0 ∨ dx = 1 := by unfold IsDir at hd; omega
  have hdy : dy = -1 ∨ dy = 0 ∨ dy = 1 := by unfold IsDir at hd; omega
  have hne : dx ≠ 0 ∨ dy ≠ 0 := by unfold IsDir at hd; omega
  rw [slideRay_eq b s p dv dx dy hd 8 s hs.1 hs.2]
  have hg := mem_rayPath_geom b dx dy hdx hdy hne s
  constructor
  · rintro ⟨m, hm, hto⟩
    simp only [List.mem_map, List.mem_filter, decide_eq_true_eq] at hm
    obtain ⟨t, ⟨ht, hf⟩, rfl⟩ := hm
    simp only [addMove] at hto
    subst hto
    have := (hg t hs).1 ht
    exact ⟨this.1, this.2.1, hf, this.2.2.1, this.2.2.2⟩
  · rintro ⟨h0, h1, hf, hk, hc⟩
    refine ⟨addMove b s d, ?_, rfl⟩
    simp only [List.mem_map, List.mem_filter, decide_eq_true_eq]
    exact ⟨d, ⟨(hg d hs).2 ⟨h0, h1, hk, hc⟩, hf⟩, rfl⟩

theorem knightMoves_dest_iff (b : Board) (s : Int) (p : Piece) (d : Int) :
    (∃ m ∈ knightMoves b s p, m.to_ = d) ↔
      (0 ≤ d ∧ d < 64 ∧ (getSq b d = EMPTY ∨ isWhite (getSq b d) ≠ isWhite p) ∧
        ((iabs (fileOf d - fileOf s) = 1 ∧ iabs (rankOf d - rankOf s) = 2) ∨
         (iabs (fileOf d - fileOf s) = 2 ∧ iabs (rankOf d - rankOf s) = 1))) := by
  have efs : fileOf s = s % 8 := rfl
  have ers : rankOf s = s / 8 := rfl
  have efd : fileOf d = d % 8 := rfl
  have erd : rankOf d = d / 8 := rfl
  unfold knightMoves
  simp only [List.mem_flatMap]
  constructor
  · rintro ⟨m, ⟨dv, hdv, hm⟩, hto⟩
    split_ifs at hm with h1 h2 h3
    · simp at hm
    · simp at hm
    · simp only [List.mem_singleton] at hm
      subst hm
      simp only [addMove] at hto
      subst hto
      have hon : onBoard (s + dv) = true := by simpa using h1
      rw [onBoard_iff] at hon
      refine ⟨hon.1, hon.2, h3, ?_⟩
      have efs2 : fileOf (s + dv) = (s + dv) % 8 := rfl
      have ers2 : rankOf (s + dv) = (s + dv) / 8 := rfl
      have a3 := iabs_cases (fileOf (s + dv) - fileOf s)
      have a4 := iabs_cases (rankOf (s + dv) - rankOf s)
      simp only [knightDeltas, List.mem_cons, List.mem_singleton, List.not_mem_nil, or_false]
        at hdv
      simp only [ne_eq, not_not] at h2
      omega
    · simp at hm
  · rintro ⟨h0, h1, hf, hl⟩
    have a3 := iabs_cases (fileOf d - fileOf s)
    have a4 := iabs_cases (rankOf d - rankOf s)
    refine ⟨addMove b s d, ⟨d - s, ?_, ?_⟩, rfl⟩
    · simp only [knightDeltas, List.mem_cons, List.mem_singleton, List.not_mem_nil, or_false]
      omega
    · have e : s + (d - s) = d := by omega
      simp only [e]
      have hon : onBoard d = true := by rw [onBoard_iff]; exact ⟨h0, h1⟩
      have hmax : max (iabs (fileOf d - fileOf s)) (iabs (rankOf d - rankOf s)) = 2 := by omega
      simp [hon, hmax, hf]

theorem kingSteps_dest_iff (b : Board) (s : Int) (p : Piece) (d : Int) :
    (∃ m ∈ (kingDeltas.flatMap fun dv =>
        let to_ := s + dv
        if !onBoard to_ then []
        else if iabs (fileOf to_ - fileOf s) > 1 then []
        else if getSq b to_ = EMPTY ∨ isWhite (getSq b to_) ≠ isWhite p then [addMove b s to_]
        else []), m.to_ = d) ↔
      (0 ≤ d ∧ d < 64 ∧ (getSq b d = EMPTY ∨ isWhite (getSq b d) ≠ isWhite p) ∧
        max (iabs (fileOf d - fileOf s)) (iabs (rankOf d - rankOf s)) = 1) := by
  have efs : fileOf s = s % 8 := rfl
  have ers : rankOf s = s / 8 := rfl
  have efd : fileOf d = d % 8 := rfl
  have erd : rankOf d = d / 8 := rfl
  simp only [List.mem_flatMap]
  constructor
  · rintro ⟨m, ⟨dv, hdv, hm⟩, hto⟩
    split_ifs at hm with h1 h2 h3
    · simp at hm
    · simp at hm
    · simp only [List.mem_singleton] at hm
      subst hm
      simp only [addMove] at hto
      subst hto
      have hon : onBoard (s + dv) = true := by simpa using h1
      rw [onBoard_iff] at hon
      refine ⟨hon.1, hon.2, h3, ?_⟩
      have efs2 : fileOf (s + dv) = (s + dv) % 8 := rfl
      have ers2 : rankOf (s + dv) = (s + dv) / 8 := rfl
      have a3 := iabs_cases (fileOf (s + dv) - fileOf s)
      have a4 := iabs_cases (rankOf (s + dv) - rankOf s)
      simp only [kingDeltas, List.mem_cons, List.mem_singleton, List.not_mem_nil, or_false]
        at hdv
      omega
    · simp at hm
  · rintro ⟨h0, h1, hf, hl⟩
    have a3 := iabs_cases (fileOf d - fileOf s)
    have a4 := iabs_cases (rankOf d - rankOf s)
    refine ⟨addMove b s d, ⟨d - s, ?_, ?_⟩, rfl⟩
    · simp only [kingDeltas, List.mem_cons, List.mem_singleton, List.not_mem_nil, or_false]
      omega
    · have e : s + (d - s) = d := by omega
      simp only [e]
      have hon : onBoard d = true := by rw [onBoard_iff]; exact ⟨h0, h1⟩
      have hmax : ¬ iabs (fileOf d - fileOf s) > 1 := by omega
      simp [hon, hmax, hf]

theorem or4_factor (A B C D K1 K2 K3 K4 : Prop) :
    ((A ∧ B ∧ C ∧ K1 ∧ D) ∨ (A ∧ B ∧ C ∧ K2 ∧ D) ∨ (A ∧ B ∧ C ∧ K3 ∧ D) ∨
      (A ∧ B ∧ C ∧ K4 ∧ D)) ↔ (A ∧ B ∧ C ∧ (K1 ∨ K2 ∨ K3 ∨ K4) ∧ D) := by
  tauto

theorem slide_dest_iff (b : Board) (s : Int) (p : Piece) (hs : 0 ≤ s ∧ s < 64) (d : Int) :
    ((∃ m ∈ slide b s p bishopDirs, m.to_ = d) ↔
      (0 ≤ d ∧ d < 64 ∧ (getSq b d = EMPTY ∨ isWhite (getSq b d) ≠ isWhite p) ∧
        (iabs (fileOf d - fileOf s) = iabs (rankOf d - rankOf s) ∧ fileOf d - fileOf s ≠ 0) ∧
        clearBetween b s d)) ∧
    ((∃ m ∈ slide b s p rookDirs, m.to_ = d) ↔
      (0 ≤ d ∧ d < 64 ∧ (getSq b d = EMPTY ∨ isWhite (getSq b d) ≠ isWhite p) ∧
        ((fileOf d - fileOf s = 0 ∧ rankOf d - rankOf s ≠ 0) ∨
          (rankOf d - rankOf s = 0 ∧ fileOf d - fileOf s ≠ 0)) ∧
        clearBetween b s d)) := by
  have r := fun dv dx dy (hd : IsDir dv dx dy) => slideRay_dest_iff b s p dv dx dy hd hs d
  have r8 := r 8 0 1 (by unfold IsDir; decide)
  have r8n := r (-8) 0 (-1) (by unfold IsDir; decide)
  have r1 := r 1 1 0 (by unfold IsDir; decide)
  have r1n := r (-1) (-1) 0 (by unfold IsDir; decide)
  have r9 := r 9 1 1 (by unfold IsDir; decide)
  have r7 := r 7 (-1) 1 (by unfold IsDir; decide)
  have r7n := r (-7) 1 (-1) (by unfold IsDir; decide)
  have r9n := r (-9) (-1) (-1) (by unfold IsDir; decide)
  have ex : ∀ (l : List Int), (∃ m ∈ slide b s p l, m.to_ = d) ↔
      ∃ dv ∈ l, ∃ m ∈ slideRay b s p dv 8 s, m.to_ = d := by
    intro l
    simp only [slide, List.mem_flatMap]
    constructor
    · rintro ⟨m, ⟨dv, h1, h2⟩, h3⟩; exact ⟨dv, h1, m, h2, h3⟩
    · rintro ⟨dv, h1, m, h2, h3⟩; exact ⟨m, ⟨dv, h1, h2⟩, h3⟩
  have four : ∀ (Q : Int → Prop) (a1 a2 a3 a4 : Int),
      (∃ x ∈ [a1, a2, a3, a4], Q x) ↔ (Q a1 ∨ Q a2 ∨ Q a3 ∨ Q a4) := by
    intro Q a1 a2 a3 a4
    simp
  constructor
  · refine (ex bishopDirs).trans ((four _ 9 7 (-7) (-9)).trans ?_)
    refine (or_congr r9 (or_congr r7 (or_congr r7n r9n))).trans ?_
    refine (or4_factor _ _ _ _ _ _ _ _).trans ?_
    exact and_congr_right fun _ => and_congr_right fun _ => and_congr_right fun _ =>
      and_congr_left' (diag_geom _ _)
  · refine (ex rookDirs).trans ((four _ 8 (-8) 1 (-1)).trans ?_)
    refine (or_congr r8 (or_congr r8n (or_congr r1 r1n))).trans ?_
    refine (or4_factor _ _ _ _ _ _ _ _).trans ?_
    exact and_congr_right fun _ => and_congr_right fun _ => and_congr_right fun _ =>
      and_congr_left' (straight_geom _ _)

theorem movesFrom_nonPawn (P : Position) (s : Int)
    (hside : isWhite (getSq P.b s) = P.whiteToMove) :
    (getSq P.b s = WN → movesFrom P s = knightMoves P.b s WN) ∧
    (getSq P.b s = BN → movesFrom P s = knightMoves P.b s BN) ∧
    (getSq P.b s = WB → movesFrom P s = slide P.b s WB bishopDirs) ∧
    (getSq P.b s = BB → movesFrom P s = slide P.b s BB bishopDirs) ∧
    (getSq P.b s = WR → movesFrom P s = slide P.b s WR rookDirs) ∧
    (getSq P.b s = BR → movesFrom P s = slide P.b s BR rookDirs) ∧
    (getSq P.b s = WQ → movesFrom P s = slide P.b s WQ queenDirs) ∧
    (getSq P.b s = BQ → movesFrom P s = slide P.b s BQ queenDirs) ∧
    (getSq P.b s = WK → movesFrom P s = kingMoves P s WK) ∧
    (getSq P.b s = BK → movesFrom P s = kingMoves P s BK) := by
  refine ⟨?_, ?_, ?_, ?_, ?_, ?_, ?_, ?_, ?_, ?_⟩ <;> intro h <;> rw [h] at hside <;>
    unfold movesFrom <;> simp [h, ← hside, isBlack, isWhite, Piece.code]

theorem mem_gen_from_iff (P : Position) (s : Int) (hs : 0 ≤ s ∧ s < 64) (m : Move) :
    (m ∈ genPseudoLegalMoves P ∧ m.from_ = s) ↔ m ∈ movesFrom P s := by
  constructor
  · rintro ⟨hm, rfl⟩
    exact mem_movesFrom_of_mem P m hm
  · intro h
    exact ⟨mem_genPseudoLegalMoves_of_movesFrom P s m hs h, movesFrom_from P s m hs h⟩

theorem slide_queen_dest_iff (b : Board) (s : Int) (p : Piece) (d : Int) :
    (∃ m ∈ slide b s p queenDirs, m.to_ = d) ↔
      ((∃ m ∈ slide b s p rookDirs, m.to_ = d) ∨ (∃ m ∈ slide b s p bishopDirs, m.to_ = d)) := by
  have e : slide b s p queenDirs = slide b s p rookDirs ++ slide b s p bishopDirs := by
    unfold slide
    rw [← List.flatMap_append]
    rfl
  rw [e]
  simp only [List.mem_append]
  constructor
  · rintro ⟨m, h | h, ht⟩
    · exact Or.inl ⟨m, h, ht⟩
    · exact Or.inr ⟨m, h, ht⟩
  · rintro (⟨m, h, ht⟩ | ⟨m, h, ht⟩)
    · exact ⟨m, Or.inl h, ht⟩
    · exact ⟨m, Or.inr h, ht⟩

theorem kingMoves_nonCastling_iff (P : Position) (s : Int) (k : Piece)
    (hk : k = WK ∨ k = BK) (hp : getSq P.b s = k) (d : Int) :
    (∃ m ∈ kingMoves P s k, m.to_ = d ∧ ¬ isCastling P m) ↔
      (0 ≤ d ∧ d < 64 ∧ (getSq P.b d = EMPTY ∨ isWhite (getSq P.b d) ≠ isWhite k) ∧
        max (iabs (fileOf d - fileOf s)) (iabs (rankOf d - rankOf s)) = 1) := by
  rw [← kingSteps_dest_iff]
  constructor
  · rintro ⟨m, hm, ht, hnc⟩
    have hfrom := (kingMoves_shape P s k m hm).1
    unfold kingMoves at hm
    simp only [List.mem_append] at hm
    rcases hm with (hm | hm) | hm
    · exact ⟨m, hm, ht⟩
    · exfalso
      apply hnc
      have hw : (k = WK ∧ s = 4) ∧ (m = addMove P.b 4 6 ∨ m = addMove P.b 4 2) := by
        split_ifs at hm with hc <;>
          simp only [List.mem_append, List.mem_singleton, List.not_mem_nil, or_false,
            false_or, or_self] at hm
        all_goals first | exact ⟨hc, hm⟩ | exact ⟨hc, Or.inl hm⟩ | exact ⟨hc, Or.inr hm⟩
      clear hm
      obtain ⟨⟨rfl, rfl⟩, hm⟩ := hw
      left
      rw [hfrom]
      refine ⟨hp, rfl, ?_⟩
      rcases hm with rfl | rfl
      · left; rfl
      · right; rfl
    · exfalso
      apply hnc
      have hw : (k = BK ∧ s = 60) ∧ (m = addMove P.b 60 62 ∨ m = addMove P.b 60 58) := by
        split_ifs at hm with hc <;>
          simp only [List.mem_append, List.mem_singleton, List.not_mem_nil, or_false,
            false_or, or_self] at hm
        all_goals first | exact ⟨hc, hm⟩ | exact ⟨hc, Or.inl hm⟩ | exact ⟨hc, Or.inr hm⟩
      clear hm
      obtain ⟨⟨rfl, rfl⟩, hm⟩ := hw
      right
      rw [hfrom]
      refine ⟨hp, rfl, ?_⟩
      rcases hm with rfl | rfl
      · left; rfl
      · right; rfl
  · rintro ⟨m, hm, ht⟩
    have hsh := kingSteps_shape P.b s k m hm
    refine ⟨m, ?_, ht, ?_⟩
    · unfold kingMoves
      simp only [List.mem_append]
      exact Or.inl (Or.inl hm)
    · rintro (⟨-, h4, h6⟩ | ⟨-, h4, h6⟩)
      · rw [hsh.1] at h4
        have := hsh.2.2.2.1 h4
        rcases h6 with h6 | h6
        · exact this.1 h6
        · exact this.2 h6
      · rw [hsh.1] at h4
        have := hsh.2.2.2.2 h4
        rcases h6 with h6 | h6
        · exact this.1 h6
        · exact this.2 h6

theorem notFriendly_iff (b : Board) (p : Piece) (d : Int) :
    ¬ (getSq b d ≠ EMPTY ∧ isWhite (getSq b d) = isWhite p) ↔
      (getSq b d = EMPTY ∨ isWhite (getSq b d) ≠ isWhite p) := by
  by_cases h : getSq b d = EMPTY <;> simp [h]

theorem reachesGeom_knight (b : Board) (p : Piece) (hp : p = WN ∨ p = BN) (s d : Int) :
    reachesGeom b p s d ↔
      ((getSq b d = EMPTY ∨ isWhite (getSq b d) ≠ isWhite p) ∧
        ((iabs (fileOf d - fileOf s) = 1 ∧ iabs (rankOf d - rankOf s) = 2) ∨
         (iabs (fileOf d - fileOf s) = 2 ∧ iabs (rankOf d - rankOf s) = 1))) := by
  unfold reachesGeom
  simp only [notFriendly_iff]
  rcases hp with rfl | rfl <;> simp

theorem reachesGeom_bishop (b : Board) (p : Piece) (hp : p = WB ∨ p = BB) (s d : Int) :
    reachesGeom b p s d ↔
      ((getSq b d = EMPTY ∨ isWhite (getSq b d) ≠ isWhite p) ∧
        (iabs (fileOf d - fileOf s) = iabs (rankOf d - rankOf s) ∧ fileOf d - fileOf s ≠ 0) ∧
        clearBetween b s d) := by
  unfold reachesGeom
  simp only [notFriendly_iff]
  rcases hp with rfl | rfl <;> simp [and_assoc]

theorem reachesGeom_rook (b : Board) (p : Piece) (hp : p = WR ∨ p = BR) (s d : Int) :
    reachesGeom b p s d ↔
      ((getSq b d = EMPTY ∨ isWhite (getSq b d) ≠ isWhite p) ∧
        ((fileOf d - fileOf s = 0 ∧ rankOf d - rankOf s ≠ 0) ∨
          (rankOf d - rankOf s = 0 ∧ fileOf d - fileOf s ≠ 0)) ∧
        clearBetween b s d) := by
  unfold reachesGeom
  simp only [notFriendly_iff]
  rcases hp with rfl | rfl <;> simp

theorem reachesGeom_queen (b : Board) (p : Piece) (hp : p = WQ ∨ p = BQ) (s d : Int) :
    reachesGeom b p s d ↔
      (((getSq b d = EMPTY ∨ isWhite (getSq b d) ≠ isWhite p) ∧
        ((fileOf d - fileOf s = 0 ∧ rankOf d - rankOf s ≠ 0) ∨
          (rankOf d - rankOf s = 0 ∧ fileOf d - fileOf s ≠ 0)) ∧
        clearBetween b s d) ∨
       ((getSq b d = EMPTY ∨ isWhite (getSq b d) ≠ isWhite p) ∧
        (iabs (fileOf d - fileOf s) = iabs (rankOf d - rankOf s) ∧ fileOf d - fileOf s ≠ 0) ∧
        clearBetween b s d)) := by
  unfold reachesGeom
  simp only [notFriendly_iff]
  rcases hp with rfl | rfl <;> simp [and_assoc] <;> tauto

theorem reachesGeom_king (b : Board) (p : Piece) (hp : p = WK ∨ p = BK) (s d : Int) :
    reachesGeom b p s d ↔
      ((getSq b d = EMPTY ∨ isWhite (getSq b d) ≠ isWhite p) ∧
        max (iabs (fileOf d - fileOf s)) (iabs (rankOf d - rankOf s)) = 1) := by
  unfold reachesGeom
  simp only [notFriendly_iff]
  rcases hp with rfl | rfl <;> simp

theorem exists_drop_nonCastling (P : Position) (s d : Int) (hs : 0 ≤ s ∧ s < 64)
    (hk : getSq P.b s ≠ WK ∧ getSq P.b s ≠ BK) (L : List Move) (hL : movesFrom P s = L) :
    (∃ m ∈ L, m.to_ = d ∧ ¬ isCastling P m) ↔ (∃ m ∈ L, m.to_ = d) := by
  constructor
  · rintro ⟨m, hm, ht, -⟩; exact ⟨m, hm, ht⟩
  · rintro ⟨m, hm, ht⟩
    refine ⟨m, hm, ht, ?_⟩
    rw [← hL] at hm
    have hf := movesFrom_from P s m hs hm
    rintro (⟨h1, -⟩ | ⟨h1, -⟩)
    · rw [hf] at h1; exact hk.1 h1
    · rw [hf] at h1; exact hk.2 h1

theorem and2_or (A B X Y : Prop) :
    ((A ∧ B ∧ X) ∨ (A ∧ B ∧ Y)) ↔ (A ∧ B ∧ (X ∨ Y)) := by
  tauto

theorem movesFrom_dest_iff (P : Position) (s d : Int) (hs : 0 ≤ s ∧ s < 64)
    (hp : getSq P.b s ≠ EMPTY ∧ getSq P.b s ≠ WP ∧ getSq P.b s ≠ BP)
    (hside : isWhite (getSq P.b s) = P.whiteToMove) :
    (∃ m ∈ movesFrom P s, m.to_ = d ∧ ¬ isCastling P m) ↔
      (0 ≤ d ∧ d < 64 ∧ reachesGeom P.b (getSq P.b s) s d) := by
  obtain ⟨mWN, mBN, mWB, mBB, mWR, mBR, mWQ, mBQ, mWK, mBK⟩ := movesFrom_nonPawn P s hside
  have sl := fun p => slide_dest_iff P.b s p hs d
  cases hpc : getSq P.b s with
  | EMPTY => exact absurd hpc hp.1
  | WP => exact absurd hpc hp.2.1
  | BP => exact absurd hpc hp.2.2
  | WN =>
    rw [mWN hpc, exists_drop_nonCastling P s d hs (by rw [hpc]; decide) _ (mWN hpc),
      knightMoves_dest_iff, reachesGeom_knight _ _ (Or.inl rfl)]
  | BN =>
    rw [mBN hpc, exists_drop_nonCastling P s d hs (by rw [hpc]; decide) _ (mBN hpc),
      knightMoves_dest_iff, reachesGeom_knight _ _ (Or.inr rfl)]
  | WB =>
    rw [mWB hpc, exists_drop_nonCastling P s d hs (by rw [hpc]; decide) _ (mWB hpc),
      (sl WB).1, reachesGeom_bishop _ _ (Or.inl rfl)]
  | BB =>
    rw [mBB hpc, exists_drop_nonCastling P s d hs (by rw [hpc]; decide) _ (mBB hpc),
      (sl BB).1, reachesGeom_bishop _ _ (Or.inr rfl)]
  | WR =>
    rw [mWR hpc, exists_drop_nonCastling P s d hs (by rw [hpc]; decide) _ (mWR hpc),
      (sl WR).2, reachesGeom_rook _ _ (Or.inl rfl)]
  | BR =>
    rw [mBR hpc, exists_drop_nonCastling P s d hs (by rw [hpc]; decide) _ (mBR hpc),
      (sl BR).2, reachesGeom_rook _ _ (Or.inr rfl)]
  | WQ =>
    rw [mWQ hpc, exists_drop_nonCastling P s d hs (by rw [hpc]; decide) _ (mWQ hpc),
      slide_queen_dest_iff, (sl WQ).1, (sl WQ).2, reachesGeom_queen _ _ (Or.inl rfl)]
    exact and2_or _ _ _ _
  | BQ =>
    rw [mBQ hpc, exists_drop_nonCastling P s d hs (by rw [hpc]; decide) _ (mBQ hpc),
      slide_queen_dest_iff, (sl BQ).1, (sl BQ).2, reachesGeom_queen _ _ (Or.inr rfl)]
    exact and2_or _ _ _ _
  | WK =>
    rw [mWK hpc, kingMoves_nonCastling_iff P s WK (Or.inl rfl) hpc,
      reachesGeom_king _ _ (Or.inl rfl)]
  | BK =>
    rw [mBK hpc, kingMoves_nonCastling_iff P s BK (Or.inr rfl) hpc,
      reachesGeom_king _ _ (Or.inr rfl)]

theorem reachesGeom_ne (b : Board) (p : Piece) (s d : Int) (h : reachesGeom b p s d) :
    d ≠ s := by
  rintro rfl
  unfold reachesGeom at h
  have a := iabs_cases (fileOf d - fileOf d)
  have c := iabs_cases (rankOf d - rankOf d)
  obtain ⟨-, h | h | h | h⟩ := h
  · omega
  · omega
  · omega
  · omega

theorem genPseudoLegalMoves_from_ne_to (P : Position) (m : Move)
    (hm : m ∈ genPseudoLegalMoves P) : m.to_ ≠ m.from_ := by
  have hs := genPseudoLegalMoves_shape P m hm
  have hmf := mem_movesFrom_of_mem P m hm
  by_cases hw : getSq P.b m.from_ = WP
  · have efs : fileOf m.from_ = m.from_ % 8 := rfl
    have eft : fileOf m.to_ = m.to_ % 8 := rfl
    rcases hs.wp hw with h | h | h <;> omega
  by_cases hb : getSq P.b m.from_ = BP
  · rcases hs.bp hb with h | h | h <;> omega
  by_cases hc : isCastling P m
  · rcases hc with ⟨-, h1, h2⟩ | ⟨-, h1, h2⟩ <;> omega
  · have := (movesFrom_dest_iff P m.from_ m.to_ ⟨hs.from_lo, hs.from_hi⟩ ⟨hs.nonempty, hw, hb⟩
      hs.side).1 ⟨m, hmf, rfl, hc⟩
    exact reachesGeom_ne _ _ _ _ this.2.2

/-- C26. For every position and every knight, bishop, rook, queen or king of the side to move
on a square `s`, the destinations of the non-castling moves with origin `s` in
`genPseudoLegalMoves` are exactly the squares of the board given by the geometric reference
`reachesGeom`; in particular no such move wraps around the board edge. -/
theorem nonPawn_destinations (P : Position) (s d : Int) (hs : 0 ≤ s ∧ s < 64)
    (hp : getSq P.b s ≠ EMPTY ∧ getSq P.b s ≠ WP ∧ getSq P.b s ≠ BP)
    (hside : isWhite (getSq P.b s) = P.whiteToMove) :
    (∃ m ∈ genPseudoLegalMoves P, m.from_ = s ∧ m.to_ = d ∧ ¬ isCastling P m) ↔
      (0 ≤ d ∧ d < 64 ∧ reachesGeom P.b (getSq P.b s) s d) := by
  refine Iff.trans ?_ (movesFrom_dest_iff P s d hs hp hside)
  constructor
  · rintro ⟨m, hm, hf, h⟩
    exact ⟨m, (mem_gen_from_iff P s hs m).1 ⟨hm, hf⟩, h⟩
  · rintro ⟨m, hm, h⟩
    have := (mem_gen_from_iff P s hs m).2 hm
    exact ⟨m, this.1, this.2, h⟩

set_option maxRecDepth 100000 in
/-- C26, at `minorPiecesPos` for the bishop on `c1` (2): it reaches `a3` (16), where a black
pawn stands, and does not reach `d2` (11), which holds a white pawn. -/
theorem nonPawn_destinations_bishop_c1 :
    getSq minorPiecesPos.b 2 = WB ∧
    reachesGeom minorPiecesPos.b WB 2 16 ∧ ¬ reachesGeom minorPiecesPos.b WB 2 11 ∧
    ((∃ m ∈ genPseudoLegalMoves minorPiecesPos,
        m.from_ = 2 ∧ m.to_ = 16 ∧ ¬ isCastling minorPiecesPos m) ↔
      ((0 : Int) ≤ 16 ∧ (16 : Int) < 64 ∧
        reachesGeom minorPiecesPos.b (getSq minorPiecesPos.b 2) 2 16)) :=
  ⟨by decide!, by decide!, by decide!,
    nonPawn_destinations minorPiecesPos 2 16 (by decide) (by decide!) (by decide!)⟩

/-! ## Frame of an ordinary move -/

theorem not_defensiveReturn_of_not_enPassant (P : Position) (m : Move)
    (hs : GenShape P m) (hne : ¬ isEnPassant P m) : ¬ defensiveReturn P m := by
  rintro ⟨hp, hd, -, hnc⟩
  have efs : fileOf m.from_ = m.from_ % 8 := rfl
  have eft : fileOf m.to_ = m.to_ % 8 := rfl
  have a := iabs_cases (fileOf m.from_ - fileOf m.to_)
  have hf0 := hs.from_lo
  have hf1 := hs.from_hi
  rcases hp with hp | hp
  · rcases hs.wp hp with ⟨h1, -⟩ | ⟨h1, -⟩ | ⟨-, -, h3 | h3⟩
    · omega
    · omega
    · apply hnc; rw [hp]; simp [h3.1, h3.2]
    · exact hne ⟨Or.inl hp, hd, h3⟩
  · rcases hs.bp hp with ⟨h1, -⟩ | ⟨h1, -⟩ | ⟨-, -, h3 | h3⟩
    · omega
    · omega
    · apply hnc; rw [hp]; simp [h3.1, h3.2]
    · exact hne ⟨Or.inr hp, hd, h3⟩

/-- C30. For every position and every generated move that is neither a castling move nor an
en-passant capture, `makeMove` empties the origin, puts the moved piece (or the promotion piece
when one is set) on the destination, leaves the other 62 squares as they were and flips the side
to move. -/
theorem makeMove_frame (P : Position) (m : Move) (hm : m ∈ genPseudoLegalMoves P)
    (hnc : ¬ isCastling P m) (hne : ¬ isEnPassant P m) :
    getSq (makeMove P m).1.b m.from_ = EMPTY ∧
    getSq (makeMove P m).1.b m.to_ = (if m.promo ≠ EMPTY then m.promo else getSq P.b m.from_) ∧
    (∀ k : Int, k ≠ m.from_ → k ≠ m.to_ → getSq (makeMove P m).1.b k = getSq P.b k) ∧
    (makeMove P m).1.whiteToMove = !P.whiteToMove := by
  have hs := genPseudoLegalMoves_shape P m hm
  have hft := genPseudoLegalMoves_from_ne_to P m hm
  have hnr := not_defensiveReturn_of_not_enPassant P m hs hne
  have hf0 := hs.from_lo
  have hf1 := hs.from_hi
  have ht0 := hs.to_lo
  have ht1 := hs.to_hi
  have hb := makeMove_board P m hnr
  have hw : ¬ (getSq P.b m.from_ = WK ∧ m.from_ = 4 ∧ (m.to_ = 6 ∨ m.to_ = 2)) :=
    fun h => hnc (Or.inl h)
  have hk : ¬ (getSq P.b m.from_ = BK ∧ m.from_ = 60 ∧ (m.to_ = 62 ∨ m.to_ = 58)) :=
    fun h => hnc (Or.inr h)
  simp only [hw, hk, if_false] at hb
  -- the board after the en-passant removal agrees with the board before, away from the origin
  have hb1 : ∀ k : Int, k ≠ m.from_ →
      getSq (if (getSq P.b m.from_ = WP ∨ getSq P.b m.from_ = BP) ∧ m.to_ = P.epSq ∧
          getSq P.b m.to_ = EMPTY
        then setSq P.b (if getSq P.b m.from_ = WP then m.to_ - 8 else m.to_ + 8) EMPTY
        else P.b) k = getSq P.b k := by
    intro k hk
    split_ifs with hc hwp
    · -- white pawn moving onto the target without changing file
      rw [getSq_setSq]
      split_ifs with hq
      · have efs : fileOf m.from_ = m.from_ % 8 := rfl
        have eft : fileOf m.to_ = m.to_ % 8 := rfl
        have a := iabs_cases (fileOf m.from_ - fileOf m.to_)
        rcases hs.wp hwp with ⟨h1, -⟩ | ⟨h1, -, h3, -⟩ | ⟨-, h2, -⟩
        · omega
        · have : k = m.from_ + 8 := by omega
          rw [this, h3]
        · exact absurd ⟨Or.inl hwp, h2, hc.2.1⟩ hne
      · rfl
    · have hbp : getSq P.b m.from_ = BP := by
        rcases hc.1 with h | h
        · exact absurd h hwp
        · exact h
      rw [getSq_setSq]
      split_ifs with hq
      · have efs : fileOf m.from_ = m.from_ % 8 := rfl
        have eft : fileOf m.to_ = m.to_ % 8 := rfl
        have a := iabs_cases (fileOf m.from_ - fileOf m.to_)
        rcases hs.bp hbp with ⟨h1, -⟩ | ⟨h1, -, h3, -⟩ | ⟨-, h2, -⟩
        · omega
        · have : k = m.from_ - 8 := by omega
          rw [this, h3]
        · exact absurd ⟨Or.inr hbp, h2, hc.2.1⟩ hne
      · rfl
    · rfl
  refine ⟨?_, ?_, ?_, makeMove_whiteToMove P m hnr⟩
  · rw [hb, getSq_setSq, if_neg (fun h => hft h.1.symm), getSq_setSq, if_pos ⟨rfl, hf0, hf1⟩]
  · rw [hb, getSq_setSq, if_pos ⟨rfl, ht0, ht1⟩]
  · intro k hk1 hk2
    rw [hb, getSq_setSq, if_neg (fun h => hk2 h.1), getSq_setSq, if_neg (fun h => hk1 h.1)]
    exact hb1 k hk1

set_option maxRecDepth 100000 in
/-- C30, at the start position and the move `g1f3`. -/
theorem makeMove_frame_g1f3 :
    ({ from_ := 6, to_ := 21, promo := EMPTY, captured := EMPTY } : Move) ∈
      genPseudoLegalMoves setStartPos ∧
    getSq (makeMove setStartPos { from_ := 6, to_ := 21, promo := EMPTY, captured := EMPTY }).1.b
      6 = EMPTY ∧
    getSq (makeMove setStartPos { from_ := 6, to_ := 21, promo := EMPTY, captured := EMPTY }).1.b
      21 = WN :=
  ⟨by decide!,
   (makeMove_frame setStartPos { from_ := 6, to_ := 21, promo := EMPTY, captured := EMPTY }
      (by decide!) (by decide!) (by decide!)).1,
   by decide!⟩

/-! ## Promotion moves -/

theorem filter_flatMap_single (f : Nat → List Move) (q : Move → Bool) (n : Nat) :
    ∀ (l : List Nat), l.Nodup → n ∈ l → (∀ i ∈ l, i ≠ n → ∀ x ∈ f i, q x = false) →
      (l.flatMap f).filter q = (f n).filter q := by
  have hnil : ∀ (l : List Nat), (∀ i ∈ l, ∀ x ∈ f i, q x = false) →
      (l.flatMap f).filter q = [] := by
    intro l h
    rw [List.filter_eq_nil_iff]
    intro x hx
    rw [List.mem_flatMap] at hx
    obtain ⟨i, hi, hxi⟩ := hx
    simp [h i hi x hxi]
  intro l
  induction l with
  | nil => intro _ h; simp at h
  | cons a l ih =>
    intro hnd hn hq
    rw [List.flatMap_cons, List.filter_append]
    rw [List.nodup_cons] at hnd
    by_cases ha : a = n
    · subst ha
      rw [hnil l, List.append_nil]
      intro i hi x hx
      exact hq i (List.mem_cons_of_mem _ hi) (fun h => hnd.1 (h ▸ hi)) x hx
    · have hn2 : n ∈ l := by
        rcases List.mem_cons.1 hn with h | h
        · exact absurd h.symm ha
        · exact h
      have h1 : (f a).filter q = [] := by
        rw [List.filter_eq_nil_iff]
        intro x hx
        simp [hq a (List.mem_cons_self _ _) ha x hx]
      rw [h1, List.nil_append]
      exact ih hnd.2 hn2 (fun i hi => hq i (List.mem_cons_of_mem _ hi))

theorem filter_gen_from_to (P : Position) (s t : Int) (hs : 0 ≤ s ∧ s < 64) :
    (genPseudoLegalMoves P).filter (fun x => decide (x.from_ = s ∧ x.to_ = t)) =
      (movesFrom P s).filter (fun x => decide (x.to_ = t)) := by
  unfold genPseudoLegalMoves
  rw [filter_flatMap_single (fun sq => movesFrom P (sq : Int)) _ s.toNat (List.range 64)
    (List.nodup_range 64) (by rw [List.mem_range]; omega)]
  · have e : ((s.toNat : Nat) : Int) = s := by omega
    simp only [e]
    apply List.filter_congr
    intro x hx
    have := movesFrom_from P s x hs hx
    simp [this]
  · intro i hi hne x hx
    rw [List.mem_range] at hi
    have := movesFrom_from P _ x ⟨by omega, by omega⟩ hx
    have : x.from_ ≠ s := by omega
    simp [this]

theorem filter_promoMoves (b : Board) (p : Piece) (s c t : Int) :
    (promoMoves b p s c).filter (fun x => decide (x.to_ = t)) =
      if c = t then promoMoves b p s c else [] := by
  by_cases h : c = t
  · simp [promoMoves, addMove, h]
  · simp [promoMoves, addMove, h]

theorem filter_promo_or_nil (b : Board) (p : Piece) (s c t : Int) (L : List Move)
    (h : L = [] ∨ L = promoMoves b p s c) :
    L.filter (fun x => decide (x.to_ = t)) = [] ∨
      (L.filter (fun x => decide (x.to_ = t)) = promoMoves b p s t ∧ c = t) := by
  rcases h with rfl | rfl
  · left; rfl
  · rw [filter_promoMoves]
    by_cases hc : c = t
    · right; rw [if_pos hc, hc]; exact ⟨rfl, rfl⟩
    · left; rw [if_neg hc]

theorem three_blocks (X0 X1 X2 R : List Move) (c0 c1 c2 t : Int)
    (h0 : X0 = [] ∨ (X0 = R ∧ c0 = t)) (h1 : X1 = [] ∨ (X1 = R ∧ c1 = t))
    (h2 : X2 = [] ∨ (X2 = R ∧ c2 = t)) (d01 : c0 ≠ c1) (d02 : c0 ≠ c2) (d12 : c1 ≠ c2) :
    X0 ++ (X1 ++ X2) = [] ∨ X0 ++ (X1 ++ X2) = R := by
  rcases h0 with rfl | ⟨rfl, e0⟩ <;> rcases h1 with rfl | ⟨rfl, e1⟩ <;>
    rcases h2 with rfl | ⟨rfl, e2⟩
  · left; rfl
  · right; simp
  · right; simp
  · exact absurd (e1.trans e2.symm) d12
  · right; simp
  · exact absurd (e0.trans e2.symm) d02
  · exact absurd (e0.trans e1.symm) d01
  · exact absurd (e0.trans e1.symm) d01

theorem pawnMoves_filter_white (P : Position) (s t : Int)
    (hr : rankOf s = 6) (hep : rankOf P.epSq ≠ 7) :
    (pawnMoves P s WP).filter (fun x => decide (x.to_ = t)) = [] ∨
    (pawnMoves P s WP).filter (fun x => decide (x.to_ = t)) = promoMoves P.b WP s t := by
  have ers : rankOf s = s / 8 := rfl
  have efs : fileOf s = s % 8 := rfl
  have ere : rankOf P.epSq = P.epSq / 8 := rfl
  have h7 : ¬ (fileOf s + -1 < 0 ∨ fileOf s + -1 ≥ 8) → s + 8 + -1 ≠ P.epSq := by omega
  have h9 : ¬ (fileOf s + 1 < 0 ∨ fileOf s + 1 ≥ 8) → s + 8 + 1 ≠ P.epSq := by omega
  unfold pawnMoves
  simp only [hr, if_true, one_mul, List.filter_append, reduceCtorEq, false_and, or_false,
    and_false, if_false, List.append_nil, true_and, show ((6 : Int) + 1 = 7) from rfl,
    decide_True, show ¬ ((6 : Int) = 1) from by decide, List.flatMap_cons, List.flatMap_nil]
  apply three_blocks _ _ _ _ (s + 8) (s + 8 + -1) (s + 8 + 1) t
  · apply filter_promo_or_nil
    split_ifs
    · right; rfl
    · left; rfl
  · apply filter_promo_or_nil
    split_ifs with c1 c2 c3 c4 c5
    all_goals first | (exfalso; exact h7 c1 ‹_›) | (left; rfl) | (right; simp)
  · apply filter_promo_or_nil
    split_ifs with c1 c2 c3 c4 c5
    all_goals first | (exfalso; exact h9 c1 ‹_›) | (left; rfl) | (right; simp)
  · omega
  · omega
  · omega

theorem pawnMoves_filter_black (P : Position) (s t : Int)
    (hr : rankOf s = 1) (hep : rankOf P.epSq ≠ 0) :
    (pawnMoves P s BP).filter (fun x => decide (x.to_ = t)) = [] ∨
    (pawnMoves P s BP).filter (fun x => decide (x.to_ = t)) = promoMoves P.b BP s t := by
  have ers : rankOf s = s / 8 := rfl
  have efs : fileOf s = s % 8 := rfl
  have ere : rankOf P.epSq = P.epSq / 8 := rfl
  have h7 : ¬ (fileOf s + -1 < 0 ∨ fileOf s + -1 ≥ 8) → s + -1 * 8 + -1 ≠ P.epSq := by omega
  have h9 : ¬ (fileOf s + 1 < 0 ∨ fileOf s + 1 ≥ 8) → s + -1 * 8 + 1 ≠ P.epSq := by omega
  unfold pawnMoves
  simp only [hr, if_true, List.filter_append, reduceCtorEq, false_and, false_or,
    and_false, if_false, List.append_nil, true_and, show ((1 : Int) + -1 = 0) from rfl,
    decide_True, show ¬ ((1 : Int) = 6) from by decide, List.flatMap_cons, List.flatMap_nil]
  apply three_blocks _ _ _ _ (s + -1 * 8) (s + -1 * 8 + -1) (s + -1 * 8 + 1) t
  · apply filter_promo_or_nil
    split_ifs
    · right; rfl
    · left; rfl
  · apply filter_promo_or_nil
    split_ifs with c1 c2 c3 c4 c5
    all_goals first | (exfalso; exact h7 c1 ‹_›) | (left; rfl) | (right; simp)
  · apply filter_promo_or_nil
    split_ifs with c1 c2 c3 c4 c5
    all_goals first | (exfalso; exact h9 c1 ‹_›) | (left; rfl) | (right; simp)
  · omega
  · omega
  · omega

theorem movesFrom_pawn (P : Position) (s : Int)
    (hside : isWhite (getSq P.b s) = P.whiteToMove) :
    (getSq P.b s = WP → movesFrom P s = pawnMoves P s WP) ∧
    (getSq P.b s = BP → movesFrom P s = pawnMoves P s BP) := by
  refine ⟨?_, ?_⟩ <;> intro h <;> rw [h] at hside <;>
    unfold movesFrom <;> simp [h, ← hside, isBlack, isWhite, Piece.code]

set_option maxRecDepth 100000 in
/-- C27, refuted as stated, at `epLastRankPos`: the en-passant field of the FEN names `d8`, and
the generator emits the pawn move `e7d8` onto the last rank without a promotion piece. -/
theorem promotion_missing_on_enPassant_target :
    getSq epLastRankPos.b 52 = WP ∧ rankOf 59 = 7 ∧ epLastRankPos.epSq = 59 ∧
    ({ from_ := 52, to_ := 59, promo := EMPTY, captured := EMPTY } : Move) ∈
      genPseudoLegalMoves epLastRankPos := by
  decide!

/-- C27, amended. When the en-passant target is not on the last rank of the side to move, a
generated pawn move to the mover's last rank carries the mover's queen, rook, bishop or knight
as promotion piece, and the generated moves with its origin and destination are exactly the four
promotions, in the order queen, rook, bishop, knight; a pawn move to any other rank carries no
promotion piece. -/
theorem promotion_moves (P : Position)
    (hep : rankOf P.epSq ≠ (if P.whiteToMove then 7 else 0))
    (m : Move) (hm : m ∈ genPseudoLegalMoves P) :
    (getSq P.b m.from_ = WP → rankOf m.to_ = 7 →
      (m.promo = WQ ∨ m.promo = WR ∨ m.promo = WB ∨ m.promo = WN) ∧
      (genPseudoLegalMoves P).filter (fun x => decide (x.from_ = m.from_ ∧ x.to_ = m.to_)) =
        [{ from_ := m.from_, to_ := m.to_, promo := WQ, captured := getSq P.b m.to_ },
         { from_ := m.from_, to_ := m.to_, promo := WR, captured := getSq P.b m.to_ },
         { from_ := m.from_, to_ := m.to_, promo := WB, captured := getSq P.b m.to_ },
         { from_ := m.from_, to_ := m.to_, promo := WN, captured := getSq P.b m.to_ }]) ∧
    (getSq P.b m.from_ = BP → rankOf m.to_ = 0 →
      (m.promo = BQ ∨ m.promo = BR ∨ m.promo = BB ∨ m.promo = BN) ∧
      (genPseudoLegalMoves P).filter (fun x => decide (x.from_ = m.from_ ∧ x.to_ = m.to_)) =
        [{ from_ := m.from_, to_ := m.to_, promo := BQ, captured := getSq P.b m.to_ },
         { from_ := m.from_, to_ := m.to_, promo := BR, captured := getSq P.b m.to_ },
         { from_ := m.from_, to_ := m.to_, promo := BB, captured := getSq P.b m.to_ },
         { from_ := m.from_, to_ := m.to_, promo := BN, captured := getSq P.b m.to_ }]) ∧
    ((getSq P.b m.from_ = WP ∨ getSq P.b m.from_ = BP) →
      rankOf m.to_ ≠ (if getSq P.b m.from_ = WP then 7 else 0) → m.promo = EMPTY) := by
  have hs := genPseudoLegalMoves_shape P m hm
  have hpr := genPseudoLegalMoves_promo P m hm
  have hmf := mem_movesFrom_of_mem P m hm
  have hf0 := hs.from_lo
  have hf1 := hs.from_hi
  have hfil := filter_gen_from_to P m.from_ m.to_ ⟨hf0, hf1⟩
  have hmem : m ∈ (movesFrom P m.from_).filter (fun x => decide (x.to_ = m.to_)) := by
    simp [List.mem_filter, hmf]
  have erf : rankOf m.from_ = m.from_ / 8 := rfl
  have ert : rankOf m.to_ = m.to_ / 8 := rfl
  have eff : fileOf m.from_ = m.from_ % 8 := rfl
  have eft : fileOf m.to_ = m.to_ % 8 := rfl
  have a := iabs_cases (fileOf m.from_ - fileOf m.to_)
  refine ⟨?_, ?_, ?_⟩
  · intro hw hr
    have hwtm : P.whiteToMove = true := by rw [← hs.side, hw]; rfl
    rw [hwtm] at hep
    have hr6 : rankOf m.from_ = 6 := by
      rcases hs.wp hw with h | h | h <;> omega
    rw [(movesFrom_pawn P m.from_ hs.side).1 hw] at hfil hmem
    rcases pawnMoves_filter_white P m.from_ m.to_ hr6 (by simpa using hep) with h | h
    · rw [h] at hmem; simp at hmem
    · rw [h] at hmem hfil
      rw [hfil]
      simp only [promoMoves, addMove, if_true, List.mem_cons, List.mem_singleton,
        List.not_mem_nil, or_false] at hmem ⊢
      refine ⟨?_, trivial⟩
      rcases hmem with h | h | h | h <;> rw [h] <;> simp
  · intro hb hr
    have hwtm : P.whiteToMove = false := by rw [← hs.side, hb]; rfl
    rw [hwtm] at hep
    have hr1 : rankOf m.from_ = 1 := by
      rcases hs.bp hb with h | h | h <;> omega
    rw [(movesFrom_pawn P m.from_ hs.side).2 hb] at hfil hmem
    rcases pawnMoves_filter_black P m.from_ m.to_ hr1 (by simpa using hep) with h | h
    · rw [h] at hmem; simp at hmem
    · rw [h] at hmem hfil
      rw [hfil]
      simp only [promoMoves, addMove, reduceCtorEq, if_false, List.mem_cons, List.mem_singleton,
        List.not_mem_nil, or_false] at hmem ⊢
      refine ⟨?_, trivial⟩
      rcases hmem with h | h | h | h <;> rw [h] <;> simp
  · intro hp hr
    rcases hpr with h | ⟨h1, h2, -⟩ | ⟨h1, h2, -⟩
    · exact h
    · rw [if_pos h1] at hr; exact absurd h2 hr
    · rw [if_neg (by rw [h1]; decide)] at hr; exact absurd h2 hr

set_option maxRecDepth 100000 in
/-- C27, amended, at `promoPos` and the push `a7a8`: the generated moves from `a7` to `a8` are
the four promotions. -/
theorem promotion_moves_a7a8 :
    rankOf promoPos.epSq ≠ (if promoPos.whiteToMove then 7 else 0) ∧
    ({ from_ := 48, to_ := 56, promo := WQ, captured := EMPTY } : Move) ∈
      genPseudoLegalMoves promoPos ∧
    (genPseudoLegalMoves promoPos).filter (fun x => decide (x.from_ = 48 ∧ x.to_ = 56)) =
      [{ from_ := 48, to_ := 56, promo := WQ, captured := getSq promoPos.b 56 },
       { from_ := 48, to_ := 56, promo := WR, captured := getSq promoPos.b 56 },
       { from_ := 48, to_ := 56, promo := WB, captured := getSq promoPos.b 56 },
       { from_ := 48, to_ := 56, promo := WN, captured := getSq promoPos.b 56 }] :=
  ⟨by decide!, by decide!,
   ((promotion_moves promoPos (by decide!)
      { from_ := 48, to_ := 56, promo := WQ, captured := EMPTY } (by decide!)).1
      (by decide!) (by decide!)).2⟩

/-! ## Invariants of reachable positions and the position after a search -/

theorem EpTargetRegular.empty {P : Position} (h : EpTargetRegular P) : EpTargetEmpty P := by
  rcases h with h | ⟨h, -⟩
  · exact Or.inl h
  · exact Or.inr h

theorem makeMove_epRegular (P : Position) (m : Move) (hep : EpTargetRegular P)
    (hm : m ∈ genPseudoLegalMoves P) : EpTargetRegular (makeMove P m).1 := by
  have hs := genPseudoLegalMoves_shape P m hm
  have hnr := not_defensiveReturn_of_shape P m hs hep.empty
  have hf0 := hs.from_lo
  have hf1 := hs.from_hi
  have ht0 := hs.to_lo
  have ht1 := hs.to_hi
  have hdf : Int.tdiv m.from_ 8 = m.from_ / 8 := Int.tdiv_eq_ediv hf0 (by decide)
  have hdt : Int.tdiv m.to_ 8 = m.to_ / 8 := Int.tdiv_eq_ediv ht0 (by decide)
  have heq := makeMove_epSq P m hnr ⟨ht0, ht1⟩
  have hb := makeMove_board P m hnr
  have erf : rankOf m.from_ = m.from_ / 8 := rfl
  have ert : rankOf m.to_ = m.to_ / 8 := rfl
  have eff : fileOf m.from_ = m.from_ % 8 := rfl
  have eft : fileOf m.to_ = m.to_ % 8 := rfl
  have ere : rankOf P.epSq = P.epSq / 8 := rfl
  have a := iabs_cases (fileOf m.from_ - fileOf m.to_)
  unfold EpTargetRegular
  rw [heq, hdf, hdt]
  by_cases hw : getSq P.b m.from_ = WP
  · rw [if_pos hw]
    by_cases hc : m.from_ / 8 = 1 ∧ m.to_ / 8 = 3 ∧
        (if m.promo ≠ EMPTY then m.promo else getSq P.b m.from_) = WP
    · rw [if_pos hc]
      right
      have hto : m.to_ = m.from_ + 16 ∧ getSq P.b (m.from_ + 8) = EMPTY := by
        rcases hs.wp hw with ⟨h1, -⟩ | ⟨h1, -, h3, -⟩ | ⟨h1, h2, -⟩
        · omega
        · exact ⟨h1, h3⟩
        · omega
      have hnep : ¬ ((getSq P.b m.from_ = WP ∨ getSq P.b m.from_ = BP) ∧ m.to_ = P.epSq ∧
          getSq P.b m.to_ = EMPTY) := by
        rintro ⟨-, h2, -⟩
        rcases hep with h | ⟨-, h⟩ <;> omega
      refine ⟨?_, ?_⟩
      · rw [hb]
        simp only [hnep, if_false]
        simp only [hw, reduceCtorEq, false_and, if_false, getSq_setSq]
        rw [if_neg (by omega), if_neg (by omega)]
        exact hto.2
      · left; show (m.from_ + 8) / 8 = 2; omega
    · rw [if_neg hc]; left; rfl
  · rw [if_neg hw]
    by_cases hbp : getSq P.b m.from_ = BP
    · rw [if_pos hbp]
      by_cases hc : m.from_ / 8 = 6 ∧ m.to_ / 8 = 4 ∧
          (if m.promo ≠ EMPTY then m.promo else getSq P.b m.from_) = BP
      · rw [if_pos hc]
        right
        have hto : m.to_ = m.from_ - 16 ∧ getSq P.b (m.from_ - 8) = EMPTY := by
          rcases hs.bp hbp with ⟨h1, -⟩ | ⟨h1, -, h3, -⟩ | ⟨h1, h2, -⟩
          · omega
          · exact ⟨h1, h3⟩
          · omega
        have hnep : ¬ ((getSq P.b m.from_ = WP ∨ getSq P.b m.from_ = BP) ∧ m.to_ = P.epSq ∧
            getSq P.b m.to_ = EMPTY) := by
          rintro ⟨-, h2, -⟩
          rcases hep with h | ⟨-, h⟩ <;> omega
        refine ⟨?_, ?_⟩
        · rw [hb]
          simp only [hnep, if_false]
          simp only [hbp, reduceCtorEq, false_and, if_false, getSq_setSq]
          rw [if_neg (by omega), if_neg (by omega)]
          exact hto.2
        · right; show (m.from_ - 8) / 8 = 5; omega
      · rw [if_neg hc]; left; rfl
    · rw [if_neg hbp]; left; rfl

theorem makeMove_corner_kept (P : Position) (m : Move) (hnr : ¬ defensiveReturn P m)
    (hep : EpTargetRegular P) (hto0 : 0 ≤ m.to_)
    (c : Int) (hc : c = 0 ∨ c = 7 ∨ c = 56 ∨ c = 63)
    (hfrom : m.from_ ≠ c) (hto : m.to_ ≠ c)
    (hwk : c = 0 ∨ c = 7 → getSq P.b m.from_ ≠ WK)
    (hbk : c = 56 ∨ c = 63 → getSq P.b m.from_ ≠ BK) :
    getSq (makeMove P m).1.b c = getSq P.b c := by
  have ere : rankOf P.epSq = P.epSq / 8 := rfl
  have hcap : ((getSq P.b m.from_ = WP ∨ getSq P.b m.from_ = BP) ∧ m.to_ = P.epSq ∧
      getSq P.b m.to_ = EMPTY) → m.to_ - 8 ≠ c ∧ m.to_ + 8 ≠ c := by
    rintro ⟨-, h2, -⟩
    rcases hep with h | ⟨-, h⟩ <;> omega
  rw [makeMove_board P m hnr]
  by_cases hw : getSq P.b m.from_ = WK
  · have hc2 : c = 56 ∨ c = 63 := by
      rcases hc with h | h | h | h
      · exact absurd hw (hwk (Or.inl h))
      · exact absurd hw (hwk (Or.inr h))
      · exact Or.inl h
      · exact Or.inr h
    simp only [hw, reduceCtorEq, false_or, false_and, if_false, true_and]
    split_ifs <;> simp only [getSq_setSq] <;> split_ifs <;> first | rfl | omega
  · by_cases hb : getSq P.b m.from_ = BK
    · have hc2 : c = 0 ∨ c = 7 := by
        rcases hc with h | h | h | h
        · exact Or.inl h
        · exact Or.inr h
        · exact absurd hb (hbk (Or.inl h))
        · exact absurd hb (hbk (Or.inr h))
      simp only [hb, reduceCtorEq, false_or, false_and, if_false, true_and]
      split_ifs <;> simp only [getSq_setSq] <;> split_ifs <;> first | rfl | omega
    · simp only [hw, hb, false_and, if_false]
      by_cases he : (getSq P.b m.from_ = WP ∨ getSq P.b m.from_ = BP) ∧ m.to_ = P.epSq ∧
          getSq P.b m.to_ = EMPTY
      · have hcp := hcap he
        rw [if_pos he]
        simp only [getSq_setSq]
        split_ifs <;> first | rfl | omega
      · rw [if_neg he]
        simp only [getSq_setSq]
        split_ifs <;> first | rfl | omega

theorem makeMove_castleRooksHome (P : Position) (m : Move) (hep : EpTargetRegular P)
    (hc : CastleRooksHome P) (hm : m ∈ genPseudoLegalMoves P) :
    CastleRooksHome (makeMove P m).1 := by
  have hs := genPseudoLegalMoves_shape P m hm
  have hnr := not_defensiveReturn_of_shape P m hs hep.empty
  have hcas := makeMove_castle P m hnr
  obtain ⟨b1, b2, b4, b8⟩ := castleAfter_bits P.castle (getSq P.b m.from_)
    (makeMove P m).2.captured m.from_ m.to_
  have hcc := captured_on_corner P m hep hs.to_lo
  obtain ⟨c1, c2, c4, c8⟩ := hc
  have keep := makeMove_corner_kept P m hnr hep hs.to_lo
  refine ⟨?_, ?_, ?_, ?_⟩
  · intro h
    rw [hcas, b1] at h
    split_ifs at h with hcond
    · exact absurd rfl h
    · have hr := c1 h
      rw [hcc WR 7 (by decide)] at hcond
      have hf : m.from_ ≠ 7 := fun e => hcond (Or.inr (Or.inl ⟨by rw [e]; exact hr, e⟩))
      have ht : m.to_ ≠ 7 := fun e => hcond (Or.inr (Or.inr ⟨by rw [e]; exact hr, e⟩))
      rw [keep 7 (by decide) hf ht (fun _ e => hcond (Or.inl e)) (fun e => by omega)]
      exact hr
  · intro h
    rw [hcas, b2] at h
    split_ifs at h with hcond
    · exact absurd rfl h
    · have hr := c2 h
      rw [hcc WR 0 (by decide)] at hcond
      have hf : m.from_ ≠ 0 := fun e => hcond (Or.inr (Or.inl ⟨by rw [e]; exact hr, e⟩))
      have ht : m.to_ ≠ 0 := fun e => hcond (Or.inr (Or.inr ⟨by rw [e]; exact hr, e⟩))
      rw [keep 0 (by decide) hf ht (fun _ e => hcond (Or.inl e)) (fun e => by omega)]
      exact hr
  · intro h
    rw [hcas, b4] at h
    split_ifs at h with hcond
    · exact absurd rfl h
    · have hr := c4 h
      rw [hcc BR 63 (by decide)] at hcond
      have hf : m.from_ ≠ 63 := fun e => hcond (Or.inr (Or.inl ⟨by rw [e]; exact hr, e⟩))
      have ht : m.to_ ≠ 63 := fun e => hcond (Or.inr (Or.inr ⟨by rw [e]; exact hr, e⟩))
      rw [keep 63 (by decide) hf ht (fun e => by omega) (fun _ e => hcond (Or.inl e))]
      exact hr
  · intro h
    rw [hcas, b8] at h
    split_ifs at h with hcond
    · exact absurd rfl h
    · have hr := c8 h
      rw [hcc BR 56 (by decide)] at hcond
      have hf : m.from_ ≠ 56 := fun e => hcond (Or.inr (Or.inl ⟨by rw [e]; exact hr, e⟩))
      have ht : m.to_ ≠ 56 := fun e => hcond (Or.inr (Or.inr ⟨by rw [e]; exact hr, e⟩))
      rw [keep 56 (by decide) hf ht (fun e => by omega) (fun _ e => hcond (Or.inl e))]
      exact hr

set_option maxRecDepth 100000 in
theorem setStartPos_regular : EpTargetRegular setStartPos ∧ CastleRooksHome setStartPos := by
  decide!

theorem reachable_regular (P : Position) (h : Reachable P) :
    EpTargetRegular P ∧ CastleRooksHome P := by
  induction h with
  | start => exact setStartPos_regular
  | step P m _ hm ih =>
    have hp := genLegalMoves_subset P m hm
    exact ⟨makeMove_epRegular P m ih.1 hp, makeMove_castleRooksHome P m ih.1 ih.2 hp⟩

/-- Making and unmaking a generated move restores the position when the en-passant target is
none or empty and every held right has its rook at home. -/
theorem roundtrip_generated (P : Position) (hep : EpTargetEmpty P) (hc : CastleRooksHome P)
    (m : Move) (hm : m ∈ genPseudoLegalMoves P) :
    unmakeMove (makeMove P m).1 m (makeMove P m).2 = P := by
  have hs := genPseudoLegalMoves_shape P m hm
  have hnr := not_defensiveReturn_of_shape P m hs hep
  obtain ⟨c1, c2, c4, c8⟩ := hc
  refine unmakeMove_makeMove P m hnr ?_ ?_ ?_ ?_
  · intro h1 h2 h3
    obtain ⟨a1, a2, _⟩ := (hs.wk h1 h2).1 h3
    exact ⟨a2, c1 a1⟩
  · intro h1 h2 h3
    obtain ⟨a1, a2, _⟩ := (hs.wk h1 h2).2 h3
    exact ⟨a2, c2 a1⟩
  · intro h1 h2 h3
    obtain ⟨a1, a2, _⟩ := (hs.bk h1 h2).1 h3
    exact ⟨a2, c4 a1⟩
  · intro h1 h2 h3
    obtain ⟨a1, a2, _⟩ := (hs.bk h1 h2).2 h3
    exact ⟨a2, c8 a1⟩

theorem mem_stableInsert (lt : Move → Move → Bool) (a x : Move) :
    ∀ l : List Move, x ∈ stableInsert lt a l ↔ (x = a ∨ x ∈ l) := by
  intro l
  induction l with
  | nil => simp [stableInsert]
  | cons b l ih =>
    unfold stableInsert
    split_ifs
    · simp only [List.mem_cons, ih]; tauto
    · simp only [List.mem_cons]

theorem mem_stableSort (lt : Move → Move → Bool) (x : Move) :
    ∀ l : List Move, x ∈ stableSort lt l ↔ x ∈ l := by
  intro l
  induction l with
  | nil => simp [stableSort]
  | cons a l ih =>
    unfold stableSort
    rw [mem_stableInsert, ih]
    simp

theorem abLoop_position (child : Position → Int → Int → Int × Position) (P : Position)
    (hep : EpTargetEmpty P) (hc : CastleRooksHome P)
    (hchild : ∀ m ∈ genLegalMoves P, ∀ a b : Int, (child (makeMove P m).1 a b).2 = (makeMove P m).1) :
    ∀ (ms : List Move), (∀ m ∈ ms, m ∈ genLegalMoves P) → ∀ alpha beta : Int,
      (abLoop child ms P alpha beta).2 = P := by
  intro ms
  induction ms with
  | nil => intro _ alpha beta; rfl
  | cons m ms ih =>
    intro hms alpha beta
    have hm := hms m (List.mem_cons_self _ _)
    have hr := roundtrip_generated P hep hc m (genLegalMoves_subset P m hm)
    have hch := hchild m hm (-beta) (-alpha)
    simp only [abLoop, hch, hr]
    split_ifs <;> first | rfl | exact ih (fun x hx => hms x (List.mem_cons_of_mem _ hx)) _ _

theorem alphabetaN_position (w : Weights) :
    ∀ (n : Nat) (P : Position), Reachable P → ∀ alpha beta : Int,
      (alphabetaN w n P alpha beta).2 = P := by
  intro n
  induction n with
  | zero => intro P _ alpha beta; rfl
  | succ n ih =>
    intro P hP alpha beta
    have hinv := reachable_regular P hP
    simp only [alphabetaN]
    split_ifs
    · rfl
    · apply abLoop_position (alphabetaN w n) P hinv.1.empty hinv.2
      · intro m hm a b
        exact ih _ (Reachable.step P m hP hm) a b
      · intro m hm
        exact (mem_stableSort _ _ _).1 hm

/-- C29. For every position reachable from the start position by legal moves, every depth and
every window, the position that `alphabeta` leaves in its reference argument when it returns
(also on a beta cutoff) is equal in every field to the position passed in. -/
theorem alphabeta_position_unchanged (w : Weights) (P : Position) (hP : Reachable P)
    (depth alpha beta : Int) : (alphabeta w P depth alpha beta).2 = P :=
  alphabetaN_position w depth.toNat P hP alpha beta

set_option maxRecDepth 100000 in
/-- C29, at the position after `g1f3`, depth 1 and the window `[-50, 50]`. -/
theorem alphabeta_position_unchanged_afterNf3 :
    Reachable afterNf3Pos ∧ (alphabeta defaultWeights afterNf3Pos 1 (-50) 50).2 = afterNf3Pos :=
  ⟨reachable_afterNf3, alphabeta_position_unchanged defaultWeights afterNf3Pos reachable_afterNf3
    1 (-50) 50⟩

/-! ## Alpha-beta and negamax -/

theorem foldl_max_spec (f : Move → Int) :
    ∀ (l : List Move) (a : Int),
      a ≤ l.foldl (fun acc x => max acc (f x)) a ∧
      (∀ x ∈ l, f x ≤ l.foldl (fun acc x => max acc (f x)) a) ∧
      (l.foldl (fun acc x => max acc (f x)) a = a ∨
        ∃ x ∈ l, l.foldl (fun acc x => max acc (f x)) a = f x) := by
  intro l
  induction l with
  | nil => intro a; simp
  | cons y l ih =>
    intro a
    obtain ⟨h1, h2, h3⟩ := ih (max a (f y))
    simp only [List.foldl_cons, List.mem_cons]
    refine ⟨le_trans (le_max_left _ _) h1, ?_, ?_⟩
    · rintro x (rfl | hx)
      · exact le_trans (le_max_right _ _) h1
      · exact h2 x hx
    · rcases h3 with h3 | ⟨x, hx, h3⟩
      · rcases le_total a (f y) with h | h
        · right; exact ⟨y, Or.inl rfl, by rw [h3, max_eq_right h]⟩
        · left; rw [h3, max_eq_left h]
      · right; exact ⟨x, Or.inr hx, h3⟩

theorem foldl_max_congr (f : Move → Int) (l1 l2 : List Move) (a : Int)
    (h : ∀ x, x ∈ l1 ↔ x ∈ l2) :
    l1.foldl (fun acc x => max acc (f x)) a = l2.foldl (fun acc x => max acc (f x)) a := by
  obtain ⟨a1, b1, c1⟩ := foldl_max_spec f l1 a
  obtain ⟨a2, b2, c2⟩ := foldl_max_spec f l2 a
  apply le_antisymm
  · rcases c1 with c | ⟨x, hx, c⟩
    · rw [c]; exact a2
    · rw [c]; exact b2 x ((h x).1 hx)
  · rcases c2 with c | ⟨x, hx, c⟩
    · rw [c]; exact a1
    · rw [c]; exact b1 x ((h x).2 hx)

/-- The value of the move loop of `alphabeta`: the maximum of `alpha` and the negated child
values, cut at `beta`, whenever every child call obeys the window contract. -/
theorem abLoop_value (child : Position → Int → Int → Int × Position) (P : Position)
    (g : Move → Int) (beta : Int) (L : List Move)
    (hround : ∀ m ∈ L, unmakeMove (makeMove P m).1 m (makeMove P m).2 = P)
    (hpos : ∀ m ∈ L, ∀ a b : Int, (child (makeMove P m).1 a b).2 = (makeMove P m).1)
    (hval : ∀ m ∈ L, ∀ a b : Int, a < b →
      (a < g m → g m < b → (child (makeMove P m).1 a b).1 = g m) ∧
      (g m ≤ a → (child (makeMove P m).1 a b).1 ≤ a) ∧
      (b ≤ g m → b ≤ (child (makeMove P m).1 a b).1)) :
    ∀ (ms : List Move), (∀ m ∈ ms, m ∈ L) → ∀ alpha : Int, alpha < beta →
      (abLoop child ms P alpha beta).1 =
        min beta (ms.foldl (fun acc x => max acc (-g x)) alpha) := by
  intro ms
  induction ms with
  | nil =>
    intro _ alpha hab
    simp only [abLoop, List.foldl_nil]
    omega
  | cons x ms ih =>
    intro hms alpha hab
    have hx := hms x (List.mem_cons_self _ _)
    have hr := hround x hx
    have hp := hpos x hx (-beta) (-alpha)
    obtain ⟨v1, v2, v3⟩ := hval x hx (-beta) (-alpha) (by omega)
    obtain ⟨s1, -, -⟩ := foldl_max_spec (fun y => -g y) ms (max alpha (-g x))
    have ihm := ih (fun y hy => hms y (List.mem_cons_of_mem _ hy))
    simp only [abLoop, hp, hr, List.foldl_cons]
    by_cases hc : beta ≤ -g x
    · have h1 := v2 (by omega)
      rw [if_pos (by omega)]
      simp only
      omega
    · by_cases ha : alpha < -g x
      · have h1 := v1 (by omega) (by omega)
        rw [h1, if_neg (by omega), if_pos (by omega), ihm (-g x) (by omega),
          max_eq_right (by omega)]
      · have h1 := v3 (by omega)
        rw [if_neg (by omega), if_neg (by omega), ihm alpha hab, max_eq_left (by omega)]

theorem negamax_succ_eq (w : Weights) (d : Nat) (P : Position) (m : Move) (ms : List Move)
    (h : genLegalMoves P = m :: ms) :
    negamax w (d + 1) P =
      ms.foldl (fun acc x => max acc (-negamax w d (makeMove P x).1))
        (-negamax w d (makeMove P m).1) := by
  simp only [negamax, h]

theorem alphabetaN_window (w : Weights) :
    ∀ (n : Nat) (P : Position), Reachable P → ∀ alpha beta : Int, alpha < beta →
      (alpha < negamax w n P → negamax w n P < beta →
        (alphabetaN w n P alpha beta).1 = negamax w n P) ∧
      (negamax w n P ≤ alpha → (alphabetaN w n P alpha beta).1 ≤ alpha) ∧
      (beta ≤ negamax w n P → beta ≤ (alphabetaN w n P alpha beta).1) := by
  intro n
  induction n with
  | zero =>
    intro P _ alpha beta _
    have e : (alphabetaN w 0 P alpha beta).1 = negamax w 0 P := by
      simp only [alphabetaN, negamax]
      cases P.whiteToMove <;> simp
    rw [e]
    exact ⟨fun _ _ => rfl, fun h => h, fun h => h⟩
  | succ n ih =>
    intro P hP alpha beta hab
    have hinv := reachable_regular P hP
    cases hL : genLegalMoves P with
    | nil =>
      have e1 : (alphabetaN w (n + 1) P alpha beta).1 = 0 := by
        simp [alphabetaN, hL]
      have e2 : negamax w (n + 1) P = 0 := by simp [negamax, hL]
      rw [e1, e2]
      exact ⟨fun _ _ => rfl, fun h => h, fun h => h⟩
    | cons m ms =>
      have hN := negamax_succ_eq w n P m ms hL
      have hloop := abLoop_value (alphabetaN w n) P (fun x => negamax w n (makeMove P x).1) beta
        (genLegalMoves P)
        (fun x hx => roundtrip_generated P hinv.1.empty hinv.2 x (genLegalMoves_subset P x hx))
        (fun x hx a b => alphabetaN_position w n _ (Reachable.step P x hP hx) a b)
        (fun x hx a b hab => ih _ (Reachable.step P x hP hx) a b hab)
        (stableSort captureFirst (genLegalMoves P))
        (fun x hx => (mem_stableSort _ _ _).1 hx) alpha hab
      have e1 : (alphabetaN w (n + 1) P alpha beta).1 =
          min beta ((m :: ms).foldl
            (fun acc x => max acc (-negamax w n (makeMove P x).1)) alpha) := by
        have hne : (genLegalMoves P).isEmpty = false := by rw [hL]; rfl
        simp only [alphabetaN, hne, Bool.false_eq_true, if_false]
        rw [hloop, ← hL]
        congr 1
        exact foldl_max_congr _ _ _ _ (fun x => mem_stableSort _ _ _)
      have e2 : (m :: ms).foldl (fun acc x => max acc (-negamax w n (makeMove P x).1)) alpha =
          max alpha (negamax w (n + 1) P) := by
        rw [hN]
        obtain ⟨a1, b1, c1⟩ := foldl_max_spec (fun x => -negamax w n (makeMove P x).1)
          (m :: ms) alpha
        obtain ⟨a2, b2, c2⟩ := foldl_max_spec (fun x => -negamax w n (makeMove P x).1)
          ms (-negamax w n (makeMove P m).1)
        apply le_antisymm
        · rcases c1 with c | ⟨x, hx, c⟩
          · rw [c]; exact le_max_left _ _
          · rw [c]
            refine le_trans ?_ (le_max_right _ _)
            rcases List.mem_cons.1 hx with rfl | hx
            · exact a2
            · exact b2 x hx
        · apply max_le a1
          rcases c2 with c | ⟨x, hx, c⟩
          · rw [c]; exact b1 m (List.mem_cons_self _ _)
          · rw [c]; exact b1 x (List.mem_cons_of_mem _ hx)
      rw [e1, e2]
      refine ⟨?_, ?_, ?_⟩ <;> intros <;> omega

theorem negamax_bound (w : Weights)
    (hb : ∀ Q : Position, -1000000000 < eval w Q ∧ eval w Q < 1000000000) :
    ∀ (n : Nat) (P : Position), -1000000000 < negamax w n P ∧ negamax w n P < 1000000000 := by
  intro n
  induction n with
  | zero =>
    intro P
    have := hb P
    simp only [negamax]
    split_ifs <;> omega
  | succ n ih =>
    intro P
    cases hL : genLegalMoves P with
    | nil =>
      have e2 : negamax w (n + 1) P = 0 := by simp [negamax, hL]
      rw [e2]; omega
    | cons m ms =>
      rw [negamax_succ_eq w n P m ms hL]
      obtain ⟨-, -, c2⟩ := foldl_max_spec (fun x => -negamax w n (makeMove P x).1)
        ms (-negamax w n (makeMove P m).1)
      rcases c2 with c | ⟨x, -, c⟩
      · rw [c]; have := ih (makeMove P m).1; omega
      · rw [c]; have := ih (makeMove P x).1; omega

/-- C23. For every position reachable from the start position by legal moves, every depth and
every weight vector, `alphabeta` with a window `alpha < beta` returns the plain negamax value
when that value lies strictly inside the window, a value `<= alpha` when it is `<= alpha` and a
value `>= beta` when it is `>= beta`; with the full window `(-10^9, 10^9)` and an evaluation
that stays strictly inside it, `alphabeta` equals negamax. The reference `negamax` has no move
ordering, so the result does not depend on the capture-first ordering. (Scores are unbounded
integers in the embedding.) -/
theorem alphabeta_eq_negamax (w : Weights) (P : Position) (hP : Reachable P) (depth : Int) :
    (∀ alpha beta : Int, alpha < beta →
      (alpha < negamax w depth.toNat P → negamax w depth.toNat P < beta →
        (alphabeta w P depth alpha beta).1 = negamax w depth.toNat P) ∧
      (negamax w depth.toNat P ≤ alpha → (alphabeta w P depth alpha beta).1 ≤ alpha) ∧
      (beta ≤ negamax w depth.toNat P → beta ≤ (alphabeta w P depth alpha beta).1)) ∧
    ((∀ Q : Position, -1000000000 < eval w Q ∧ eval w Q < 1000000000) →
      (alphabeta w P depth (-1000000000) 1000000000).1 = negamax w depth.toNat P) := by
  refine ⟨fun alpha beta hab => alphabetaN_window w depth.toNat P hP alpha beta hab, ?_⟩
  intro hb
  have hN := negamax_bound w hb depth.toNat P
  exact (alphabetaN_window w depth.toNat P hP (-1000000000) 1000000000 (by decide)).1 hN.1 hN.2

theorem material_default_bound (k : Fin 6) :
    -900 ≤ defaultWeights.material k ∧ defaultWeights.material k ≤ 900 := by
  have e : ∀ (j : Nat) (hj : j < 6), defaultWeights.material ⟨j, hj⟩ =
      [100, 320, 330, 500, 900, 0].getD j 0 := fun _ _ => rfl
  rcases k with ⟨k, hk⟩
  rw [e]
  interval_cases k <;> norm_num [List.getD]

theorem squareTerm_default_bound (b : Board) (i : Fin 64) :
    |squareTerm defaultWeights b i| ≤ 900 := by
  have hm := material_default_bound (idxPiece (b i))
  have hp : ∀ j, defaultWeights.pstPawn j = 0 := fun _ => rfl
  have hn : ∀ j, defaultWeights.pstKnight j = 0 := fun _ => rfl
  unfold squareTerm evalSquareExact
  simp only [hp, hn, add_zero, ite_self, zero_add, zero_sub]
  rw [abs_le]
  split_ifs <;> constructor <;> linarith [hm.1, hm.2]

theorem llround_bound (q : ℚ) (B : Int) (hB : 0 ≤ B) (h : |q| ≤ B) :
    -B - 1 < llround q ∧ llround q < B + 1 := by
  have h1 := abs_le.1 h
  unfold llround
  split_ifs with h0
  · constructor
    · have : (0 : Int) ≤ Rat.floor (q + 1 / 2) := by
        show (0 : Int) ≤ ⌊q + 1 / 2⌋
        rw [Int.le_floor]; push_cast; linarith
      omega
    · show ⌊q + 1 / 2⌋ < B + 1
      rw [Int.floor_lt]; push_cast; linarith [h1.2]
  · constructor
    · have : Rat.floor (-q + 1 / 2) < B + 1 := by
        show ⌊-q + 1 / 2⌋ < B + 1
        rw [Int.floor_lt]; push_cast; linarith [h1.1]
      omega
    · have : (0 : Int) ≤ Rat.floor (-q + 1 / 2) := by
        show (0 : Int) ≤ ⌊-q + 1 / 2⌋
        rw [Int.le_floor]; push_cast; linarith [not_le.1 h0]
      omega

theorem eval_default_bound (Q : Position) :
    -1000000000 < eval defaultWeights Q ∧ eval defaultWeights Q < 1000000000 := by
  rw [eval_eq_evalExact defaultWeights Q (by decide!), evalExact_eq_sum]
  have hs : |∑ i : Fin 64, squareTerm defaultWeights Q.b i| ≤ ((57600 : Int) : ℚ) := by
    refine le_trans (Finset.abs_sum_le_sum_abs _ _) ?_
    refine le_trans (Finset.sum_le_sum (fun i _ => squareTerm_default_bound Q.b i)) ?_
    simp
    norm_num
  have := llround_bound _ 57600 (by decide) hs
  omega

set_option maxRecDepth 100000 in
/-- C23, at the position after `g1f3` with the default weights and depth 1. -/
theorem alphabeta_eq_negamax_afterNf3 :
    Reachable afterNf3Pos ∧
    (alphabeta defaultWeights afterNf3Pos 1 (-1000000000) 1000000000).1 =
      negamax defaultWeights (1 : Int).toNat afterNf3Pos :=
  ⟨reachable_afterNf3,
   (alphabeta_eq_negamax defaultWeights afterNf3Pos reachable_afterNf3 1).2 eval_default_bound⟩

/-! ## Generator and attack query on captures -/

theorem sgn_cases (x : Int) : (x < 0 ∧ sgn x = -1) ∨ (x = 0 ∧ sgn x = 0) ∨ (0 < x ∧ sgn x = 1) := by
  unfold sgn
  split_ifs <;> omega

theorem clearBetween_symm (b : Board) (s t : Int)
    (hl : iabs (fileOf t - fileOf s) = iabs (rankOf t - rankOf s) ∨ fileOf t - fileOf s = 0 ∨
      rankOf t - rankOf s = 0)
    (h : clearBetween b s t) : clearBetween b t s := by
  intro k hk hk0
  have a1 := iabs_cases (fileOf t - fileOf s)
  have a2 := iabs_cases (rankOf t - rankOf s)
  have a3 := iabs_cases (fileOf s - fileOf t)
  have a4 := iabs_cases (rankOf s - rankOf t)
  have s1 := sgn_cases (fileOf t - fileOf s)
  have s2 := sgn_cases (rankOf t - rankOf s)
  have s3 := sgn_cases (fileOf s - fileOf t)
  have s4 := sgn_cases (rankOf s - rankOf t)
  have hn := h ((max (iabs (fileOf t - fileOf s)) (iabs (rankOf t - rankOf s))).toNat - k)
    (by omega) (by omega)
  have e1 : fileOf s + (((max (iabs (fileOf t - fileOf s)) (iabs (rankOf t - rankOf s))).toNat - k : Nat) : Int) *
      sgn (fileOf t - fileOf s) = fileOf t + (k : Int) * sgn (fileOf s - fileOf t) := by
    rcases s1 with ⟨c1, c2⟩ | ⟨c1, c2⟩ | ⟨c1, c2⟩ <;> rcases s3 with ⟨c3, c4⟩ | ⟨c3, c4⟩ | ⟨c3, c4⟩ <;>
      rw [c2, c4] <;> omega
  have e2 : rankOf s + (((max (iabs (fileOf t - fileOf s)) (iabs (rankOf t - rankOf s))).toNat - k : Nat) : Int) *
      sgn (rankOf t - rankOf s) = rankOf t + (k : Int) * sgn (rankOf s - rankOf t) := by
    rcases s2 with ⟨c1, c2⟩ | ⟨c1, c2⟩ | ⟨c1, c2⟩ <;> rcases s4 with ⟨c3, c4⟩ | ⟨c3, c4⟩ | ⟨c3, c4⟩ <;>
      rw [c2, c4] <;> omega
  rw [e1, e2] at hn
  exact hn

/-- A knight, bishop, rook, queen or king that reaches `t` from `s` attacks `t`. -/
theorem attacksGeom_of_reachesGeom (b : Board) (s t : Int) (c : Bool)
    (hside : isWhite (getSq b s) = c) (h : reachesGeom b (getSq b s) s t) :
    attacksGeom b s t c := by
  have a1 := iabs_cases (fileOf t - fileOf s)
  have a2 := iabs_cases (rankOf t - rankOf s)
  have a3 := iabs_cases (fileOf s - fileOf t)
  have a4 := iabs_cases (rankOf s - rankOf t)
  unfold reachesGeom at h
  unfold attacksGeom
  dsimp only at h ⊢
  obtain ⟨-, h | h | h | h⟩ := h
  · obtain ⟨hp, hg⟩ := h
    right; left
    refine ⟨?_, by omega⟩
    rcases hp with hp | hp <;> rw [hp] at hside <;> rw [← hside, hp] <;> rfl
  · obtain ⟨hp, hg1, hg2, hcl⟩ := h
    right; right; left
    refine ⟨?_, by omega, by omega, clearBetween_symm b s t (Or.inl hg1) hcl⟩
    rcases hp with hp | hp | hp | hp <;> rw [hp] at hside <;> rw [← hside, hp] <;> simp [isWhite, Piece.code]
  · obtain ⟨hp, hg, hcl⟩ := h
    right; right; right; left
    refine ⟨?_, by omega, clearBetween_symm b s t (by omega) hcl⟩
    rcases hp with hp | hp | hp | hp <;> rw [hp] at hside <;> rw [← hside, hp] <;> simp [isWhite, Piece.code]
  · obtain ⟨hp, hg⟩ := h
    right; right; right; right
    refine ⟨?_, by omega⟩
    rcases hp with hp | hp <;> rw [hp] at hside <;> rw [← hside, hp] <;> rfl

/-- A piece other than a pawn that attacks a square not held by its own side reaches it. -/
theorem reachesGeom_of_attacksGeom (b : Board) (s t : Int) (c : Bool)
    (hnp : getSq b s ≠ WP ∧ getSq b s ≠ BP)
    (hfree : getSq b t = EMPTY ∨ isWhite (getSq b t) ≠ c)
    (h : attacksGeom b s t c) :
    reachesGeom b (getSq b s) s t ∧ isWhite (getSq b s) = c ∧ getSq b s ≠ EMPTY := by
  have a1 := iabs_cases (fileOf t - fileOf s)
  have a2 := iabs_cases (rankOf t - rankOf s)
  have a3 := iabs_cases (fileOf s - fileOf t)
  have a4 := iabs_cases (rankOf s - rankOf t)
  unfold attacksGeom at h
  unfold reachesGeom
  dsimp only at h ⊢
  have hcol : ∀ p : Piece, isWhite p = c →
      ¬ (getSq b t ≠ EMPTY ∧ isWhite (getSq b t) = isWhite p) := by
    rintro p hp ⟨h1, h2⟩
    rcases hfree with h3 | h3
    · exact h1 h3
    · exact h3 (h2.trans hp)
  rcases h with h | h | h | h | h
  · exfalso
    cases c
    · exact hnp.2 h.1
    · exact hnp.1 h.1
  · obtain ⟨hp, hg⟩ := h
    have hw : isWhite (getSq b s) = c := by rw [hp]; cases c <;> rfl
    refine ⟨⟨hcol _ hw, Or.inl ⟨?_, by omega⟩⟩, hw, ?_⟩
    · rw [hp]; cases c <;> simp
    · rw [hp]; cases c <;> simp
  · obtain ⟨hp, hg1, hg2, hcl⟩ := h
    have hw : isWhite (getSq b s) = c := by
      rcases hp with hp | hp <;> rw [hp] <;> cases c <;> rfl
    refine ⟨⟨hcol _ hw, Or.inr (Or.inl ⟨?_, by omega, by omega,
      clearBetween_symm b t s (Or.inl hg1) hcl⟩)⟩, hw, ?_⟩
    · rcases hp with hp | hp <;> rw [hp] <;> cases c <;> simp
    · rcases hp with hp | hp <;> rw [hp] <;> cases c <;> simp
  · obtain ⟨hp, hg, hcl⟩ := h
    have hw : isWhite (getSq b s) = c := by
      rcases hp with hp | hp <;> rw [hp] <;> cases c <;> rfl
    refine ⟨⟨hcol _ hw, Or.inr (Or.inr (Or.inl ⟨?_, by omega,
      clearBetween_symm b t s (by omega) hcl⟩))⟩, hw, ?_⟩
    · rcases hp with hp | hp <;> rw [hp] <;> cases c <;> simp
    · rcases hp with hp | hp <;> rw [hp] <;> cases c <;> simp
  · obtain ⟨hp, hg⟩ := h
    have hw : isWhite (getSq b s) = c := by rw [hp]; cases c <;> rfl
    refine ⟨⟨hcol _ hw, Or.inr (Or.inr (Or.inr ⟨?_, by omega⟩))⟩, hw, ?_⟩
    · rw [hp]; cases c <;> simp
    · rw [hp]; cases c <;> simp

/-- The helper form of the geometric reading of `squareAttacked`. -/
theorem squareAttacked_geom (b : Board) (t : Int) (c : Bool) (ht : 0 ≤ t ∧ t < 64) :
    squareAttacked b t c = true ↔ ∃ s : Int, 0 ≤ s ∧ s < 64 ∧ attacksGeom b s t c := by
  unfold squareAttacked attacksGeom
  simp only [Bool.or_eq_true, pawnAttacked_iff b t c ht, knightAttacked_iff b t c,
    diagAttacked_iff b t c ht, straightAttacked_iff b t c ht, kingAttacked_iff b t c]
  constructor
  · rintro ((((⟨s, h0, h1, h⟩ | ⟨s, h0, h1, h⟩) | ⟨s, h0, h1, h⟩) | ⟨s, h0, h1, h⟩) |
      ⟨s, h0, h1, h⟩)
    · exact ⟨s, h0, h1, Or.inl h⟩
    · exact ⟨s, h0, h1, Or.inr (Or.inl h)⟩
    · exact ⟨s, h0, h1, Or.inr (Or.inr (Or.inl h))⟩
    · exact ⟨s, h0, h1, Or.inr (Or.inr (Or.inr (Or.inl h)))⟩
    · exact ⟨s, h0, h1, Or.inr (Or.inr (Or.inr (Or.inr h)))⟩
  · rintro ⟨s, h0, h1, h | h | h | h | h⟩
    · exact Or.inl (Or.inl (Or.inl (Or.inl ⟨s, h0, h1, h⟩)))
    · exact Or.inl (Or.inl (Or.inl (Or.inr ⟨s, h0, h1, h⟩)))
    · exact Or.inl (Or.inl (Or.inr ⟨s, h0, h1, h⟩))
    · exact Or.inl (Or.inr ⟨s, h0, h1, h⟩)
    · exact Or.inr ⟨s, h0, h1, h⟩

theorem exists_mem_promo_or_single (c : Prop) [Decidable c] (b : Board) (p : Piece) (s t : Int) :
    ∃ m ∈ (if c then promoMoves b p s t else [addMove b s t]), m.to_ = t := by
  by_cases h : c
  · rw [if_pos h]; exact ⟨_, List.mem_cons_self _ _, rfl⟩
  · rw [if_neg h]; exact ⟨_, List.mem_cons_self _ _, rfl⟩

/-- A pawn of the side to move captures onto every occupied enemy square diagonally ahead. -/
theorem pawnCapture_mem (P : Position) (s t : Int) (ht : 0 ≤ t ∧ t < 64)
    (hp : getSq P.b s = (if P.whiteToMove then WP else BP))
    (hf : iabs (fileOf s - fileOf t) = 1)
    (hr : rankOf s - rankOf t = (if P.whiteToMove then -1 else 1))
    (hocc : getSq P.b t ≠ EMPTY) (hcol : isWhite (getSq P.b t) = !P.whiteToMove) :
    ∃ m ∈ movesFrom P s, m.to_ = t := by
  have efs : fileOf s = s % 8 := rfl
  have eft : fileOf t = t % 8 := rfl
  have ers : rankOf s = s / 8 := rfl
  have ert : rankOf t = t / 8 := rfl
  have a := iabs_cases (fileOf s - fileOf t)
  have hob : onBoard t = true := by rw [onBoard_iff]; exact ht
  cases hw : P.whiteToMove
  · rw [hw] at hp hr hcol
    simp only [Bool.false_eq_true, if_false, Bool.not_false] at hp hr hcol
    rw [(movesFrom_pawn P s (by rw [hp, hw]; rfl)).2 hp]
    unfold pawnMoves
    simp only [reduceCtorEq, if_false, List.mem_append, List.mem_flatMap, List.mem_cons,
      List.mem_singleton, List.not_mem_nil, or_false, exists_eq_or_imp, exists_eq_left]
    have hcap : getSq P.b t ≠ EMPTY ∧ isWhite BP ≠ isWhite (getSq P.b t) := by
      refine ⟨hocc, ?_⟩
      rw [hcol]; decide
    by_cases hd : t = s + -1 * 8 + -1
    · have h1 : ¬ (fileOf s + -1 < 0 ∨ fileOf s + -1 ≥ 8) := by omega
      rw [if_neg h1, ← hd]
      simp only [hob, Bool.not_true, Bool.false_eq_true, if_false, List.mem_append, if_pos hcap]
      exact (exists_mem_promo_or_single _ P.b BP s t).elim
        fun m hm => ⟨m, Or.inr (Or.inl (Or.inl hm.1)), hm.2⟩
    · have hd2 : t = s + -1 * 8 + 1 := by omega
      have h1 : ¬ (fileOf s + 1 < 0 ∨ fileOf s + 1 ≥ 8) := by omega
      rw [if_neg h1, ← hd2]
      simp only [hob, Bool.not_true, Bool.false_eq_true, if_false, List.mem_append, if_pos hcap]
      exact (exists_mem_promo_or_single _ P.b BP s t).elim
        fun m hm => ⟨m, Or.inr (Or.inr (Or.inl hm.1)), hm.2⟩
  · rw [hw] at hp hr hcol
    simp only [if_true, Bool.not_true] at hp hr hcol
    rw [(movesFrom_pawn P s (by rw [hp, hw]; rfl)).1 hp]
    unfold pawnMoves
    simp only [if_true, List.mem_append, List.mem_flatMap, List.mem_cons,
      List.mem_singleton, List.not_mem_nil, or_false, exists_eq_or_imp, exists_eq_left]
    have hcap : getSq P.b t ≠ EMPTY ∧ isWhite WP ≠ isWhite (getSq P.b t) := by
      refine ⟨hocc, ?_⟩
      rw [hcol]; decide
    by_cases hd : t = s + 1 * 8 + -1
    · have h1 : ¬ (fileOf s + -1 < 0 ∨ fileOf s + -1 ≥ 8) := by omega
      rw [if_neg h1, ← hd]
      simp only [hob, Bool.not_true, Bool.false_eq_true, if_false, List.mem_append, if_pos hcap]
      exact (exists_mem_promo_or_single _ P.b WP s t).elim
        fun m hm => ⟨m, Or.inr (Or.inl (Or.inl hm.1)), hm.2⟩
    · have hd2 : t = s + 1 * 8 + 1 := by omega
      have h1 : ¬ (fileOf s + 1 < 0 ∨ fileOf s + 1 ≥ 8) := by omega
      rw [if_neg h1, ← hd2]
      simp only [hob, Bool.not_true, Bool.false_eq_true, if_false, List.mem_append, if_pos hcap]
      exact (exists_mem_promo_or_single _ P.b WP s t).elim
        fun m hm => ⟨m, Or.inr (Or.inr (Or.inl hm.1)), hm.2⟩

/-- A generated move onto an occupied square comes from a piece that attacks the square. -/
theorem generated_capture_attacked (P : Position) (m : Move) (hm : m ∈ genPseudoLegalMoves P)
    (hocc : getSq P.b m.to_ ≠ EMPTY) :
    squareAttacked P.b m.to_ P.whiteToMove = true := by
  have hs := genPseudoLegalMoves_shape P m hm
  have hmf := mem_movesFrom_of_mem P m hm
  have eff : fileOf m.from_ = m.from_ % 8 := rfl
  have eft : fileOf m.to_ = m.to_ % 8 := rfl
  have erf : rankOf m.from_ = m.from_ / 8 := rfl
  have ert : rankOf m.to_ = m.to_ / 8 := rfl
  have a := iabs_cases (fileOf m.from_ - fileOf m.to_)
  rw [squareAttacked_geom P.b m.to_ P.whiteToMove ⟨hs.to_lo, hs.to_hi⟩]
  refine ⟨m.from_, hs.from_lo, hs.from_hi, ?_⟩
  have hside := hs.side
  by_cases hw : getSq P.b m.from_ = WP
  · have hwm : P.whiteToMove = true := by rw [← hside, hw]; rfl
    unfold attacksGeom
    dsimp only
    left
    rw [hwm, hw]
    simp only [if_true, true_and]
    have hf0 := hs.from_lo
    have hf1 := hs.from_hi
    have ht0 := hs.to_lo
    have ht1 := hs.to_hi
    rcases hs.wp hw with ⟨-, h⟩ | ⟨-, -, -, h⟩ | ⟨h1, h2, -⟩
    · exact absurd h hocc
    · exact absurd h hocc
    · exact ⟨h2, by omega⟩
  by_cases hb : getSq P.b m.from_ = BP
  · have hwm : P.whiteToMove = false := by rw [← hside, hb]; rfl
    unfold attacksGeom
    dsimp only
    left
    rw [hwm, hb]
    simp only [Bool.false_eq_true, if_false, true_and]
    have hf0 := hs.from_lo
    have hf1 := hs.from_hi
    have ht0 := hs.to_lo
    have ht1 := hs.to_hi
    rcases hs.bp hb with ⟨-, h⟩ | ⟨-, -, -, h⟩ | ⟨h1, h2, -⟩
    · exact absurd h hocc
    · exact absurd h hocc
    · exact ⟨h2, by omega⟩
  have hnc : ¬ isCastling P m := by
    rintro (⟨h1, h2, h3 | h3⟩ | ⟨h1, h2, h3 | h3⟩)
    · exact hocc (by rw [h3]; exact ((hs.wk h1 h2).1 h3).2.2)
    · exact hocc (by rw [h3]; exact ((hs.wk h1 h2).2 h3).2.2.1)
    · exact hocc (by rw [h3]; exact ((hs.bk h1 h2).1 h3).2.2)
    · exact hocc (by rw [h3]; exact ((hs.bk h1 h2).2 h3).2.2.1)
  have hr := (movesFrom_dest_iff P m.from_ m.to_ ⟨hs.from_lo, hs.from_hi⟩ ⟨hs.nonempty, hw, hb⟩
    hs.side).1 ⟨m, hmf, rfl, hnc⟩
  exact attacksGeom_of_reachesGeom P.b m.from_ m.to_ P.whiteToMove hs.side hr.2.2

/-- Every square held by the side not to move and attacked by the side to move is the
destination of a generated move. -/
theorem attacked_capture_generated (P : Position) (t : Int)
    (hocc : getSq P.b t ≠ EMPTY) (hcol : isWhite (getSq P.b t) = !P.whiteToMove)
    (h : squareAttacked P.b t P.whiteToMove = true) :
    ∃ m ∈ genPseudoLegalMoves P, m.to_ = t := by
  have ht := getSq_onBoard P.b t hocc
  obtain ⟨s, hs0, hs1, hg⟩ := (squareAttacked_geom P.b t P.whiteToMove ht).1 h
  by_cases hpw : getSq P.b s = WP ∨ getSq P.b s = BP
  · have hg2 : getSq P.b s = (if P.whiteToMove then WP else BP) ∧
        iabs (fileOf s - fileOf t) = 1 ∧
        rankOf s - rankOf t = (if P.whiteToMove then -1 else 1) := by
      unfold attacksGeom at hg
      dsimp only at hg
      rcases hg with hg | hg | hg | hg | hg
      · exact hg
      · exfalso
        obtain ⟨h1, -⟩ := hg
        rw [h1] at hpw
        cases hw : P.whiteToMove <;> rw [hw] at hpw <;> simp at hpw
      · exfalso
        obtain ⟨h1, -⟩ := hg
        rcases h1 with h1 | h1 <;> rw [h1] at hpw <;> cases hw : P.whiteToMove <;>
          rw [hw] at hpw <;> simp at hpw
      · exfalso
        obtain ⟨h1, -⟩ := hg
        rcases h1 with h1 | h1 <;> rw [h1] at hpw <;> cases hw : P.whiteToMove <;>
          rw [hw] at hpw <;> simp at hpw
      · exfalso
        obtain ⟨h1, -⟩ := hg
        rw [h1] at hpw
        cases hw : P.whiteToMove <;> rw [hw] at hpw <;> simp at hpw
    obtain ⟨m, hm, hto⟩ := pawnCapture_mem P s t ht hg2.1 hg2.2.1 hg2.2.2 hocc hcol
    exact ⟨m, mem_genPseudoLegalMoves_of_movesFrom P s m ⟨hs0, hs1⟩ hm, hto⟩
  · have hnp : getSq P.b s ≠ WP ∧ getSq P.b s ≠ BP :=
      ⟨fun e => hpw (Or.inl e), fun e => hpw (Or.inr e)⟩
    have hfree : getSq P.b t = EMPTY ∨ isWhite (getSq P.b t) ≠ P.whiteToMove := by
      right
      rw [hcol]
      cases hw : P.whiteToMove <;> decide
    obtain ⟨hr, hside, hne⟩ := reachesGeom_of_attacksGeom P.b s t P.whiteToMove hnp hfree hg
    obtain ⟨m, hm, hto, -⟩ := (movesFrom_dest_iff P s t ⟨hs0, hs1⟩ ⟨hne, hnp.1, hnp.2⟩
      hside).2 ⟨ht.1, ht.2, hr⟩
    exact ⟨m, mem_genPseudoLegalMoves_of_movesFrom P s m ⟨hs0, hs1⟩ hm, hto⟩

/-- C32. For every position and every square `t` that holds a piece of the side not to move,
`squareAttacked` of `t` by the side to move is true exactly when `genPseudoLegalMoves` contains
a move whose destination is `t`. -/
theorem squareAttacked_iff_capture_generated (P : Position) (t : Int)
    (hocc : getSq P.b t ≠ EMPTY) (hcol : isWhite (getSq P.b t) = !P.whiteToMove) :
    squareAttacked P.b t P.whiteToMove = true ↔ ∃ m ∈ genPseudoLegalMoves P, m.to_ = t := by
  constructor
  · exact attacked_capture_generated P t hocc hcol
  · rintro ⟨m, hm, rfl⟩
    exact generated_capture_attacked P m hm hocc

set_option maxRecDepth 100000 in
/-- C32, at `minorPiecesPos` (White to move) and the black pawn on `a3` (16): the square is
attacked by the bishop on `c1`, and the generator emits a move onto it. -/
theorem squareAttacked_iff_capture_generated_a3 :
    (getSq minorPiecesPos.b 16 ≠ EMPTY ∧
      isWhite (getSq minorPiecesPos.b 16) = !minorPiecesPos.whiteToMove) ∧
    squareAttacked minorPiecesPos.b 16 minorPiecesPos.whiteToMove = true ∧
    (squareAttacked minorPiecesPos.b 16 minorPiecesPos.whiteToMove = true ↔
      ∃ m ∈ genPseudoLegalMoves minorPiecesPos, m.to_ = 16) :=
  ⟨⟨by decide!, by decide!⟩, by decide!,
    squareAttacked_iff_capture_generated minorPiecesPos 16 (by decide!) (by decide!)⟩

/-! ## Castling rights and the home squares -/

theorem findKingSq_unique (P : Position) (white : Bool) (k : Int)
    (hk : getSq P.b k = (if white then WK else BK))
    (h1 : OnePiece P.b (if white then WK else BK)) : findKingSq P white = k := by
  have hne : (if white then WK else BK) ≠ EMPTY := by cases white <;> decide
  have hr := getSq_onBoard P.b k (by rw [hk]; exact hne)
  unfold findKingSq
  dsimp only
  cases hf : (List.range 64).find? (fun i => decide (getSq P.b (i : Int) = if white then WK else BK)) with
  | none =>
    exfalso
    rw [List.find?_eq_none] at hf
    have := hf k (by
      simp only [List.bind_eq_flatMap, List.mem_flatMap, List.mem_range, List.pure_def,
        List.mem_singleton]
      exact ⟨k.toNat, by omega, by omega⟩)
    simp only [decide_eq_true_eq] at this
    exact this hk
  | some i =>
    have := List.find?_some hf
    simp only [decide_eq_true_eq] at this
    exact h1 _ _ this hk

theorem reachable_not_in_check (P : Position) (h : Reachable P) :
    isInCheck P (!P.whiteToMove) = false := by
  cases h with
  | start => decide!
  | step Q m _ hm =>
    simp only [genLegalMoves, List.mem_filter] at hm
    simpa using hm.2

/-- No generated move lands on a piece of the side to move when the en-passant target is none
or empty. -/
theorem generated_dest_not_own (P : Position) (hep : EpTargetEmpty P) (m : Move)
    (hm : m ∈ genPseudoLegalMoves P) :
    getSq P.b m.to_ = EMPTY ∨ isWhite (getSq P.b m.to_) ≠ P.whiteToMove := by
  have hs := genPseudoLegalMoves_shape P m hm
  have hmf := mem_movesFrom_of_mem P m hm
  have hside := hs.side
  have hepc : m.to_ = P.epSq → getSq P.b m.to_ = EMPTY := by
    intro e
    rcases hep with h | h
    · have := hs.to_lo; omega
    · rw [e]; exact h
  by_cases hw : getSq P.b m.from_ = WP
  · have hwm : P.whiteToMove = true := by rw [← hside, hw]; rfl
    rcases hs.wp hw with ⟨-, h⟩ | ⟨-, -, -, h⟩ | ⟨-, -, ⟨-, h⟩ | h⟩
    · exact Or.inl h
    · exact Or.inl h
    · right; rw [h, hwm]; decide
    · exact Or.inl (hepc h)
  by_cases hb : getSq P.b m.from_ = BP
  · have hwm : P.whiteToMove = false := by rw [← hside, hb]; rfl
    rcases hs.bp hb with ⟨-, h⟩ | ⟨-, -, -, h⟩ | ⟨-, -, ⟨-, h⟩ | h⟩
    · exact Or.inl h
    · exact Or.inl h
    · right; rw [h, hwm]; decide
    · exact Or.inl (hepc h)
  by_cases hc : isCastling P m
  · left
    rcases hc with ⟨h1, h2, h3 | h3⟩ | ⟨h1, h2, h3 | h3⟩
    · rw [h3]; exact ((hs.wk h1 h2).1 h3).2.2
    · rw [h3]; exact ((hs.wk h1 h2).2 h3).2.2.1
    · rw [h3]; exact ((hs.bk h1 h2).1 h3).2.2
    · rw [h3]; exact ((hs.bk h1 h2).2 h3).2.2.1
  · have hr := (movesFrom_dest_iff P m.from_ m.to_ ⟨hs.from_lo, hs.from_hi⟩
      ⟨hs.nonempty, hw, hb⟩ hs.side).1 ⟨m, hmf, rfl, hc⟩
    have h1 := hr.2.2
    unfold reachesGeom at h1
    dsimp only at h1
    have h2 := (notFriendly_iff P.b (getSq P.b m.from_) m.to_).1 h1.1
    rw [hside] at h2
    exact h2

theorem getSq_setSq_ne (b : Board) (i : Int) (v : Piece) (c : Int) (h : i ≠ c) :
    getSq (setSq b i v) c = getSq b c := by
  rw [getSq_setSq, if_neg]
  rintro ⟨e, -⟩
  exact h e.symm

/-- The squares `e1` (4) and `e8` (60) keep their content under a move that neither leaves nor
reaches them. -/
theorem makeMove_home_kept (P : Position) (m : Move) (hnr : ¬ defensiveReturn P m)
    (hep : EpTargetRegular P) (hto0 : 0 ≤ m.to_)
    (c : Int) (hc : c = 4 ∨ c = 60) (hfrom : m.from_ ≠ c) (hto : m.to_ ≠ c) :
    getSq (makeMove P m).1.b c = getSq P.b c := by
  have ere : rankOf P.epSq = P.epSq / 8 := rfl
  have hcap : ((getSq P.b m.from_ = WP ∨ getSq P.b m.from_ = BP) ∧ m.to_ = P.epSq ∧
      getSq P.b m.to_ = EMPTY) → m.to_ - 8 ≠ c ∧ m.to_ + 8 ≠ c := by
    rintro ⟨-, h2, -⟩
    rcases hep with h | ⟨-, h⟩ <;> omega
  have h5 : (5 : Int) ≠ c ∧ (7 : Int) ≠ c ∧ (3 : Int) ≠ c ∧ (0 : Int) ≠ c ∧ (61 : Int) ≠ c ∧
      (63 : Int) ≠ c ∧ (59 : Int) ≠ c ∧ (56 : Int) ≠ c := by omega
  obtain ⟨k5, k7, k3, k0, k61, k63, k59, k56⟩ := h5
  rw [makeMove_board P m hnr]
  dsimp only
  by_cases he : (getSq P.b m.from_ = WP ∨ getSq P.b m.from_ = BP) ∧ m.to_ = P.epSq ∧
      getSq P.b m.to_ = EMPTY
  · have hcp := hcap he
    rw [if_pos he]
    split_ifs <;>
      simp only [getSq_setSq_ne _ _ _ _ k5, getSq_setSq_ne _ _ _ _ k7, getSq_setSq_ne _ _ _ _ k3,
        getSq_setSq_ne _ _ _ _ k0, getSq_setSq_ne _ _ _ _ k61, getSq_setSq_ne _ _ _ _ k63,
        getSq_setSq_ne _ _ _ _ k59, getSq_setSq_ne _ _ _ _ k56, getSq_setSq_ne _ _ _ _ hfrom,
        getSq_setSq_ne _ _ _ _ hto, getSq_setSq_ne _ _ _ _ hcp.1, getSq_setSq_ne _ _ _ _ hcp.2]
  · rw [if_neg he]
    split_ifs <;>
      simp only [getSq_setSq_ne _ _ _ _ k5, getSq_setSq_ne _ _ _ _ k7, getSq_setSq_ne _ _ _ _ k3,
        getSq_setSq_ne _ _ _ _ k0, getSq_setSq_ne _ _ _ _ k61, getSq_setSq_ne _ _ _ _ k63,
        getSq_setSq_ne _ _ _ _ k59, getSq_setSq_ne _ _ _ _ k56, getSq_setSq_ne _ _ _ _ hfrom,
        getSq_setSq_ne _ _ _ _ hto]

/-- A king on its home square with a castling right held stays there under a legal move of a
position in which the side not to move is not in check. -/
theorem makeMove_castleKingsHome (P : Position) (m : Move) (hep : EpTargetRegular P)
    (h1 : OnePiece P.b WK ∧ OnePiece P.b BK)
    (hnc : isInCheck P (!P.whiteToMove) = false)
    (hk : CastleKingsHome P) (hm : m ∈ genPseudoLegalMoves P) :
    CastleKingsHome (makeMove P m).1 := by
  have hs := genPseudoLegalMoves_shape P m hm
  have hnr := not_defensiveReturn_of_shape P m hs hep.empty
  have hcas := makeMove_castle P m hnr
  obtain ⟨b1, b2, b4, b8⟩ := castleAfter_bits P.castle (getSq P.b m.from_)
    (makeMove P m).2.captured m.from_ m.to_
  have hown := generated_dest_not_own P hep.empty m hm
  have keep := makeMove_home_kept P m hnr hep hs.to_lo
  obtain ⟨kw, kb⟩ := hk
  refine ⟨?_, ?_⟩
  · intro h
    have hpk : getSq P.b m.from_ ≠ WK ∧ (P.castle &&& 1 ≠ 0 ∨ P.castle &&& 2 ≠ 0) := by
      rcases h with h | h
      · rw [hcas, b1] at h
        split_ifs at h with hcond
        · exact absurd rfl h
        · exact ⟨fun e => hcond (Or.inl e), Or.inl h⟩
      · rw [hcas, b2] at h
        split_ifs at h with hcond
        · exact absurd rfl h
        · exact ⟨fun e => hcond (Or.inl e), Or.inr h⟩
    have hking := kw hpk.2
    have hf : m.from_ ≠ 4 := fun e => hpk.1 (by rw [e]; exact hking)
    have ht : m.to_ ≠ 4 := by
      intro e
      rw [e, hking] at hown
      rcases hown with h0 | h0
      · exact absurd h0 (by decide)
      · have hwm : P.whiteToMove = false := by
          cases hw : P.whiteToMove
          · rfl
          · rw [hw] at h0; exact absurd rfl h0
        have hatt := generated_capture_attacked P m hm (by rw [e, hking]; decide)
        rw [e, hwm] at hatt
        rw [hwm] at hnc
        have hfk := findKingSq_unique P true 4 hking h1.1
        unfold isInCheck at hnc
        dsimp only at hnc
        rw [show (!false) = true from rfl, hfk] at hnc
        simp only [show ¬ ((4 : Int) < 0) by decide, if_false, Bool.not_true] at hnc
        rw [hnc] at hatt
        exact absurd hatt (by decide)
    rw [keep 4 (Or.inl rfl) hf ht]
    exact hking
  · intro h
    have hpk : getSq P.b m.from_ ≠ BK ∧ (P.castle &&& 4 ≠ 0 ∨ P.castle &&& 8 ≠ 0) := by
      rcases h with h | h
      · rw [hcas, b4] at h
        split_ifs at h with hcond
        · exact absurd rfl h
        · exact ⟨fun e => hcond (Or.inl e), Or.inl h⟩
      · rw [hcas, b8] at h
        split_ifs at h with hcond
        · exact absurd rfl h
        · exact ⟨fun e => hcond (Or.inl e), Or.inr h⟩
    have hking := kb hpk.2
    have hf : m.from_ ≠ 60 := fun e => hpk.1 (by rw [e]; exact hking)
    have ht : m.to_ ≠ 60 := by
      intro e
      rw [e, hking] at hown
      rcases hown with h0 | h0
      · exact absurd h0 (by decide)
      · have hwm : P.whiteToMove = true := by
          cases hw : P.whiteToMove
          · rw [hw] at h0; exact absurd rfl h0
          · rfl
        have hatt := generated_capture_attacked P m hm (by rw [e, hking]; decide)
        rw [e, hwm] at hatt
        rw [hwm] at hnc
        have hfk := findKingSq_unique P false 60 hking h1.2
        unfold isInCheck at hnc
        dsimp only at hnc
        rw [show (!true) = false from rfl, hfk] at hnc
        simp only [show ¬ ((60 : Int) < 0) by decide, if_false, Bool.not_false] at hnc
        rw [hnc] at hatt
        exact absurd hatt (by decide)
    rw [keep 60 (Or.inr rfl) hf ht]
    exact hking

set_option maxRecDepth 100000 in
theorem setStartPos_castleKingsHome : CastleKingsHome setStartPos := by
  decide!

theorem reachable_castleKingsHome (P : Position) (h : Reachable P) : CastleKingsHome P := by
  induction h with
  | start => exact setStartPos_castleKingsHome
  | step P m hP hm ih =>
    exact makeMove_castleKingsHome P m (reachable_regular P hP).1 (reachable_onePiece P hP)
      (reachable_not_in_check P hP) ih (genLegalMoves_subset P m hm)

/-- C31. In every position reachable from the start position by legal moves, a held castling
right has its king and its rook at home: WhiteKingside gives the white king on `e1` (4) and a
white rook on `h1` (7), WhiteQueenside the king on `e1` and a rook on `a1` (0), BlackKingside the
black king on `e8` (60) and a black rook on `h8` (63), BlackQueenside the king on `e8` and a rook
on `a8` (56). -/
theorem reachable_castle_home (P : Position) (h : Reachable P) :
    (P.castle &&& 1 ≠ 0 → getSq P.b 4 = WK ∧ getSq P.b 7 = WR) ∧
    (P.castle &&& 2 ≠ 0 → getSq P.b 4 = WK ∧ getSq P.b 0 = WR) ∧
    (P.castle &&& 4 ≠ 0 → getSq P.b 60 = BK ∧ getSq P.b 63 = BR) ∧
    (P.castle &&& 8 ≠ 0 → getSq P.b 60 = BK ∧ getSq P.b 56 = BR) := by
  obtain ⟨kw, kb⟩ := reachable_castleKingsHome P h
  obtain ⟨r1, r2, r4, r8⟩ := (reachable_regular P h).2
  exact ⟨fun c => ⟨kw (Or.inl c), r1 c⟩, fun c => ⟨kw (Or.inr c), r2 c⟩,
    fun c => ⟨kb (Or.inl c), r4 c⟩, fun c => ⟨kb (Or.inr c), r8 c⟩⟩

set_option maxRecDepth 100000 in
/-- C31, at the position after `g1f3` from the start position, where all four rights are
held. -/
theorem reachable_castle_home_afterNf3 :
    Reachable afterNf3Pos ∧ afterNf3Pos.castle = 15 ∧
    ((afterNf3Pos.castle &&& 1 ≠ 0 → getSq afterNf3Pos.b 4 = WK ∧ getSq afterNf3Pos.b 7 = WR) ∧
     (afterNf3Pos.castle &&& 2 ≠ 0 → getSq afterNf3Pos.b 4 = WK ∧ getSq afterNf3Pos.b 0 = WR) ∧
     (afterNf3Pos.castle &&& 4 ≠ 0 → getSq afterNf3Pos.b 60 = BK ∧ getSq afterNf3Pos.b 63 = BR) ∧
     (afterNf3Pos.castle &&& 8 ≠ 0 → getSq afterNf3Pos.b 60 = BK ∧ getSq afterNf3Pos.b 56 = BR)) :=
  ⟨reachable_afterNf3, by decide!, reachable_castle_home afterNf3Pos reachable_afterNf3⟩

/-! ## Index safety of generated moves -/

theorem readSq_eq (b : Board) (i : Int) (h : 0 ≤ i ∧ i < 64) : readSq b i = some (getSq b i) :=
  if_pos h

theorem writeSq_eq (b : Board) (i : Int) (v : Piece) (h : 0 ≤ i ∧ i < 64) :
    writeSq b i v = some (setSq b i v) :=
  if_pos h

theorem some_bind_do {α β : Type} (a : α) (f : α → Option β) : (some a >>= f) = f a := rfl

theorem unmakeMoveChecked_eq (P : Position) (m : Move) (u : Undo)
    (hf : 0 ≤ m.from_ ∧ m.from_ < 64) (ht : 0 ≤ m.to_ ∧ m.to_ < 64)
    (hc : u.wasCastle = true → (0 ≤ u.rookFrom ∧ u.rookFrom < 64) ∧ (0 ≤ u.rookTo ∧ u.rookTo < 64))
    (he : u.wasEP = true → 0 ≤ u.epCapturedSq ∧ u.epCapturedSq < 64) :
    unmakeMoveChecked P m u = some (unmakeMove P m u) := by
  unfold unmakeMoveChecked unmakeMove
  by_cases h1 : u.wasCastle = true ∧ u.rookFrom ≠ -1 ∧ u.rookTo ≠ -1
  · by_cases h2 : u.wasEP = true
    · simp only [h1, h2, and_self, if_true, writeSq_eq _ _ _ (hc h1.1).1,
        writeSq_eq _ _ _ (hc h1.1).2, writeSq_eq _ _ _ hf, writeSq_eq _ _ _ ht,
        writeSq_eq _ _ _ (he h2), some_bind_do, ne_eq, not_false_eq_true]
    · simp only [h1, h2, and_self, if_true, if_false, writeSq_eq _ _ _ (hc h1.1).1,
        writeSq_eq _ _ _ (hc h1.1).2, writeSq_eq _ _ _ hf, writeSq_eq _ _ _ ht,
        some_bind_do, ne_eq, not_false_eq_true, Bool.false_eq_true]
  · by_cases h2 : u.wasEP = true
    · simp only [h1, h2, if_true, if_false, writeSq_eq _ _ _ hf, writeSq_eq _ _ _ ht,
        writeSq_eq _ _ _ (he h2), some_bind_do]
    · simp only [h1, h2, if_false, writeSq_eq _ _ _ hf, writeSq_eq _ _ _ ht,
        some_bind_do, Bool.false_eq_true]

theorem ite_some_some {α : Type} (c : Prop) [Decidable c] (a b : α) :
    (if c then some a else some b) = some (if c then a else b) := by
  split_ifs <;> rfl

theorem ite_and_ite {α : Type} (a b c : Prop) [Decidable a] [Decidable b] [Decidable c]
    (x y : α) : (if a ∧ b then (if c then x else y) else y) = if a ∧ b ∧ c then x else y := by
  by_cases ha : a <;> by_cases hb : b <;> by_cases hc : c <;> simp [ha, hb, hc]

theorem makeMoveChecked_eq (P : Position) (m : Move)
    (hf : 0 ≤ m.from_ ∧ m.from_ < 64) (ht : 0 ≤ m.to_ ∧ m.to_ < 64)
    (hcap : ((getSq P.b m.from_ = WP ∨ getSq P.b m.from_ = BP) ∧ m.to_ = P.epSq ∧
      getSq P.b m.to_ = EMPTY) →
      0 ≤ (if getSq P.b m.from_ = WP then m.to_ - 8 else m.to_ + 8) ∧
      (if getSq P.b m.from_ = WP then m.to_ - 8 else m.to_ + 8) < 64) :
    makeMoveChecked P m = some (makeMove P m) := by
  have r5 : ∀ b : Board, readSq b 5 = some (getSq b 5) := fun b => readSq_eq b 5 (by decide)
  have r3 : ∀ b : Board, readSq b 3 = some (getSq b 3) := fun b => readSq_eq b 3 (by decide)
  have r61 : ∀ b : Board, readSq b 61 = some (getSq b 61) := fun b => readSq_eq b 61 (by decide)
  have r59 : ∀ b : Board, readSq b 59 = some (getSq b 59) := fun b => readSq_eq b 59 (by decide)
  have w5 : ∀ (b : Board) (v : Piece), writeSq b 5 v = some (setSq b 5 v) :=
    fun b v => writeSq_eq b 5 v (by decide)
  have w7 : ∀ (b : Board) (v : Piece), writeSq b 7 v = some (setSq b 7 v) :=
    fun b v => writeSq_eq b 7 v (by decide)
  have w3 : ∀ (b : Board) (v : Piece), writeSq b 3 v = some (setSq b 3 v) :=
    fun b v => writeSq_eq b 3 v (by decide)
  have w0 : ∀ (b : Board) (v : Piece), writeSq b 0 v = some (setSq b 0 v) :=
    fun b v => writeSq_eq b 0 v (by decide)
  have w61 : ∀ (b : Board) (v : Piece), writeSq b 61 v = some (setSq b 61 v) :=
    fun b v => writeSq_eq b 61 v (by decide)
  have w63 : ∀ (b : Board) (v : Piece), writeSq b 63 v = some (setSq b 63 v) :=
    fun b v => writeSq_eq b 63 v (by decide)
  have w59 : ∀ (b : Board) (v : Piece), writeSq b 59 v = some (setSq b 59 v) :=
    fun b v => writeSq_eq b 59 v (by decide)
  have w56 : ∀ (b : Board) (v : Piece), writeSq b 56 v = some (setSq b 56 v) :=
    fun b v => writeSq_eq b 56 v (by decide)
  unfold makeMove
  lift_lets
  intro captured0 p halfmove wasEP capSq captured b1 u0 diagonal hasEnemy put b2 ep
    c1 c2 c3 c4 c5 c6 c7 c8 c9 c10 wc u1 b3 bc u2 b4
  have hc10 : c10 = castleAfter P.castle p captured m.from_ m.to_ := rfl
  rw [hc10]
  unfold makeMoveChecked
  by_cases hE : (getSq P.b m.from_ = WP ∨ getSq P.b m.from_ = BP) ∧ m.to_ = P.epSq ∧
      getSq P.b m.to_ = EMPTY
  · have hAB : ((getSq P.b m.from_ = WP ∨ getSq P.b m.from_ = BP) ∧ m.to_ = P.epSq) = True :=
      eq_true ⟨hE.1, hE.2.1⟩
    have hE' := eq_true hE
    have hC : (getSq P.b m.to_ = EMPTY) = True := eq_true hE.2.2
    have hc := hcap hE
    have hwc : (getSq P.b m.from_ = WK ∧ m.from_ = 4 ∧ (m.to_ = 6 ∨ m.to_ = 2)) = False := by
      apply eq_false
      rintro ⟨h1, -⟩
      rcases hE.1 with h2 | h2 <;> rw [h1] at h2 <;> cases h2
    have hbc : (getSq P.b m.from_ = BK ∧ m.from_ = 60 ∧ (m.to_ = 62 ∨ m.to_ = 58)) = False := by
      apply eq_false
      rintro ⟨h1, -⟩
      rcases hE.1 with h2 | h2 <;> rw [h1] at h2 <;> cases h2
    simp only [b4, u2, bc, b3, u1, wc, ep, b2, put, hasEnemy, diagonal, u0, b1, captured, capSq,
      wasEP, halfmove, p, captured0,
      readSq_eq _ _ ht, readSq_eq _ _ hf, some_bind_do, Option.map_some',
      ite_some_some, hAB, hC, hE', hwc, hbc, if_true, if_false, decide_True, decide_False,
      Bool.and_true, Bool.true_and, Bool.false_eq_true,
      readSq_eq _ _ hc, writeSq_eq _ _ _ hc, writeSq_eq _ _ _ hf, writeSq_eq _ _ _ ht,
      r5, r3, r61, r59, w5, w7, w3, w0, w61, w63, w59, w56]
    have hp : (getSq P.b m.from_ = WP ∨ getSq P.b m.from_ = BP) = True := eq_true hE.1
    have hto : (m.to_ = P.epSq) = True := eq_true hE.2.1
    simp only [hp, hto, and_self, true_and, and_true, decide_True, if_true, Bool.true_eq_false,
      false_and, and_false, if_false, ite_and_ite]
  · have hE' := eq_false hE
    have hW : (decide ((getSq P.b m.from_ = WP ∨ getSq P.b m.from_ = BP) ∧ m.to_ = P.epSq) &&
        (if (getSq P.b m.from_ = WP ∨ getSq P.b m.from_ = BP) ∧ m.to_ = P.epSq
          then decide (getSq P.b m.to_ = EMPTY) else false)) = false := by
      by_cases hAB : (getSq P.b m.from_ = WP ∨ getSq P.b m.from_ = BP) ∧ m.to_ = P.epSq
      · have hC : ¬ getSq P.b m.to_ = EMPTY := fun h => hE ⟨hAB.1, hAB.2, h⟩
        rw [if_pos hAB, decide_eq_false hC, Bool.and_false]
      · rw [if_neg hAB, Bool.and_false]
    by_cases hwc : getSq P.b m.from_ = WK ∧ m.from_ = 4 ∧ (m.to_ = 6 ∨ m.to_ = 2)
    · have hk : (getSq P.b m.from_ = WK) = True := eq_true hwc.1
      have h4 : (m.from_ = 4) = True := eq_true hwc.2.1
      have hbk : (getSq P.b m.from_ = BK) = False := by
        apply eq_false; intro h1; rw [hwc.1] at h1; cases h1
      have hwp : (getSq P.b m.from_ = WP) = False := by
        apply eq_false; intro h1; rw [hwc.1] at h1; cases h1
      have hbp : (getSq P.b m.from_ = BP) = False := by
        apply eq_false; intro h1; rw [hwc.1] at h1; cases h1
      by_cases h6 : m.to_ = 6
      · have h6' := eq_true h6
        simp only [b4, u2, bc, b3, u1, wc, ep, b2, put, hasEnemy, diagonal, u0, b1, captured, capSq,
          wasEP, halfmove, p, captured0,
          readSq_eq _ _ ht, readSq_eq _ _ hf, some_bind_do, Option.map_some',
          ite_some_some, hW, hE', if_true, if_false, decide_True, decide_False,
          Bool.and_true, Bool.true_and, Bool.and_false, Bool.false_and, Bool.false_eq_true,
          Bool.true_eq_false, true_and, and_true, false_and, and_false, true_or, or_true,
          false_or, or_false, and_self,
          writeSq_eq _ _ _ hf, writeSq_eq _ _ _ ht,
          r5, r3, r61, r59, w5, w7, w3, w0, w61, w63, w59, w56, ite_and_ite, hk, h4, hbk, hwp, hbp, h6']
      · have h6' := eq_false h6
        have h2' : (m.to_ = 2) = True := eq_true (hwc.2.2.resolve_left h6)
        simp only [b4, u2, bc, b3, u1, wc, ep, b2, put, hasEnemy, diagonal, u0, b1, captured, capSq,
          wasEP, halfmove, p, captured0,
          readSq_eq _ _ ht, readSq_eq _ _ hf, some_bind_do, Option.map_some',
          ite_some_some, hW, hE', if_true, if_false, decide_True, decide_False,
          Bool.and_true, Bool.true_and, Bool.and_false, Bool.false_and, Bool.false_eq_true,
          Bool.true_eq_false, true_and, and_true, false_and, and_false, true_or, or_true,
          false_or, or_false, and_self,
          writeSq_eq _ _ _ hf, writeSq_eq _ _ _ ht,
          r5, r3, r61, r59, w5, w7, w3, w0, w61, w63, w59, w56, ite_and_ite, hk, h4, hbk, hwp, hbp, h6', h2']
    · have hwc' := eq_false hwc
      by_cases hbc : getSq P.b m.from_ = BK ∧ m.from_ = 60 ∧ (m.to_ = 62 ∨ m.to_ = 58)
      · have hk : (getSq P.b m.from_ = BK) = True := eq_true hbc.1
        have h4 : (m.from_ = 60) = True := eq_true hbc.2.1
        have hbk : (getSq P.b m.from_ = WK) = False := by
          apply eq_false; intro h1; rw [hbc.1] at h1; cases h1
        have hwp : (getSq P.b m.from_ = WP) = False := by
          apply eq_false; intro h1; rw [hbc.1] at h1; cases h1
        have hbp : (getSq P.b m.from_ = BP) = False := by
          apply eq_false; intro h1; rw [hbc.1] at h1; cases h1
        by_cases h6 : m.to_ = 62
        · have h6' := eq_true h6
          simp only [b4, u2, bc, b3, u1, wc, ep, b2, put, hasEnemy, diagonal, u0, b1, captured, capSq,
            wasEP, halfmove, p, captured0,
            readSq_eq _ _ ht, readSq_eq _ _ hf, some_bind_do, Option.map_some',
            ite_some_some, hW, hE', if_true, if_false, decide_True, decide_False,
            Bool.and_true, Bool.true_and, Bool.and_false, Bool.false_and, Bool.false_eq_true,
            Bool.true_eq_false, true_and, and_true, false_and, and_false, true_or, or_true,
            false_or, or_false, and_self,
            writeSq_eq _ _ _ hf, writeSq_eq _ _ _ ht,
            r5, r3, r61, r59, w5, w7, w3, w0, w61, w63, w59, w56, ite_and_ite, hk, h4, hbk, hwp, hbp, h6']
        · have h6' := eq_false h6
          have h2' : (m.to_ = 58) = True := eq_true (hbc.2.2.resolve_left h6)
          simp only [b4, u2, bc, b3, u1, wc, ep, b2, put, hasEnemy, diagonal, u0, b1, captured, capSq,
            wasEP, halfmove, p, captured0,
            readSq_eq _ _ ht, readSq_eq _ _ hf, some_bind_do, Option.map_some',
            ite_some_some, hW, hE', if_true, if_false, decide_True, decide_False,
            Bool.and_true, Bool.true_and, Bool.and_false, Bool.false_and, Bool.false_eq_true,
            Bool.true_eq_false, true_and, and_true, false_and, and_false, true_or, or_true,
            false_or, or_false, and_self,
            writeSq_eq _ _ _ hf, writeSq_eq _ _ _ ht,
            r5, r3, r61, r59, w5, w7, w3, w0, w61, w63, w59, w56, ite_and_ite, hk, h4, hbk, hwp, hbp, h6', h2']
      · have hbc' := eq_false hbc
        simp only [b4, u2, bc, b3, u1, wc, ep, b2, put, hasEnemy, diagonal, u0, b1, captured, capSq,
          wasEP, halfmove, p, captured0,
          readSq_eq _ _ ht, readSq_eq _ _ hf, some_bind_do, Option.map_some',
          ite_some_some, hW, hE', if_true, if_false, decide_True, decide_False,
          Bool.and_true, Bool.true_and, Bool.and_false, Bool.false_and, Bool.false_eq_true,
          Bool.true_eq_false, true_and, and_true, false_and, and_false, true_or, or_true,
          false_or, or_false, and_self,
          writeSq_eq _ _ _ hf, writeSq_eq _ _ _ ht,
          r5, r3, r61, r59, w5, w7, w3, w0, w61, w63, w59, w56, ite_and_ite, hwc', hbc']

/-- The rook squares recorded by a castling move are on the board. -/
theorem makeMove_undo_rook_range (P : Position) (m : Move)
    (h : (makeMove P m).2.wasCastle = true) :
    (0 ≤ (makeMove P m).2.rookFrom ∧ (makeMove P m).2.rookFrom < 64) ∧
    (0 ≤ (makeMove P m).2.rookTo ∧ (makeMove P m).2.rookTo < 64) := by
  revert h
  unfold makeMove
  lift_lets
  intro captured0 p halfmove wasEP capSq captured b1 u0 diagonal hasEnemy put b2 ep
    c1 c2 c3 c4 c5 c6 c7 c8 c9 c10 wc u1 b3 bc u2 b4
  have hu0 : u0.wasCastle = false := rfl
  clear_value u0 b2 wc
  have hu1 : u1.wasCastle = false ∨
      ((0 ≤ u1.rookFrom ∧ u1.rookFrom < 64) ∧ (0 ≤ u1.rookTo ∧ u1.rookTo < 64)) := by
    simp only [u1]
    split_ifs
    · right; simp
    · right; simp
    · left; exact hu0
  clear_value u1 b3 bc
  have hu2 : u2.wasCastle = false ∨
      ((0 ≤ u2.rookFrom ∧ u2.rookFrom < 64) ∧ (0 ≤ u2.rookTo ∧ u2.rookTo < 64)) := by
    simp only [u2]
    split_ifs
    · right; simp
    · right; simp
    · exact hu1
  clear_value u2
  by_cases hd : (p = WP ∨ p = BP) ∧ diagonal = true ∧ wasEP = false ∧ hasEnemy = false
  · rw [if_pos hd]
    intro h
    rw [hu0] at h
    cases h
  · rw [if_neg hd]
    intro h
    rcases hu2 with h2 | h2
    · rw [h2] at h; cases h
    · exact h2

/-- The square of the pawn taken en passant by a generated move is on the board. -/
theorem generated_epCapture_range (P : Position) (m : Move) (hs : GenShape P m)
    (_h : (getSq P.b m.from_ = WP ∨ getSq P.b m.from_ = BP) ∧ m.to_ = P.epSq ∧
      getSq P.b m.to_ = EMPTY) :
    0 ≤ (if getSq P.b m.from_ = WP then m.to_ - 8 else m.to_ + 8) ∧
    (if getSq P.b m.from_ = WP then m.to_ - 8 else m.to_ + 8) < 64 := by
  have hf0 := hs.from_lo
  have hf1 := hs.from_hi
  have ht0 := hs.to_lo
  have ht1 := hs.to_hi
  have eff : fileOf m.from_ = m.from_ % 8 := rfl
  have eft : fileOf m.to_ = m.to_ % 8 := rfl
  have a := iabs_cases (fileOf m.from_ - fileOf m.to_)
  by_cases hw : getSq P.b m.from_ = WP
  · rw [if_pos hw]
    rcases hs.wp hw with ⟨h1, -⟩ | ⟨h1, -⟩ | ⟨h1, h2, -⟩ <;> omega
  · rw [if_neg hw]
    have hb : getSq P.b m.from_ = BP := _h.1.resolve_left hw
    rcases hs.bp hb with ⟨h1, -⟩ | ⟨h1, -⟩ | ⟨h1, h2, -⟩ <;> omega

/-- C33. For every position (whatever its en-passant target) and every move of
`genPseudoLegalMoves`: origin and destination are in `0..63`, the origin holds a piece of the
side to move, and `makeMove` and the matching `unmakeMove` run with every board index in
`0..63`: the bounds-checked mutators `makeMoveChecked` and `unmakeMoveChecked` do not fail and
return what `makeMove` and `unmakeMove` return; in particular the square of the pawn taken en
passant, `to - 8` for a white pawn and `to + 8` for a black one, is in `0..63`. -/
theorem generated_moves_index_safe (P : Position) (m : Move) (hm : m ∈ genPseudoLegalMoves P) :
    (0 ≤ m.from_ ∧ m.from_ < 64) ∧ (0 ≤ m.to_ ∧ m.to_ < 64) ∧
    (getSq P.b m.from_ ≠ EMPTY ∧ isWhite (getSq P.b m.from_) = P.whiteToMove) ∧
    makeMoveChecked P m = some (makeMove P m) ∧
    unmakeMoveChecked (makeMove P m).1 m (makeMove P m).2 =
      some (unmakeMove (makeMove P m).1 m (makeMove P m).2) ∧
    ((makeMove P m).2.wasEP = true →
      (makeMove P m).2.epCapturedSq = (if getSq P.b m.from_ = WP then m.to_ - 8 else m.to_ + 8) ∧
      0 ≤ (makeMove P m).2.epCapturedSq ∧ (makeMove P m).2.epCapturedSq < 64) := by
  have hs := genPseudoLegalMoves_shape P m hm
  have hf : 0 ≤ m.from_ ∧ m.from_ < 64 := ⟨hs.from_lo, hs.from_hi⟩
  have ht : 0 ≤ m.to_ ∧ m.to_ < 64 := ⟨hs.to_lo, hs.to_hi⟩
  have hcap := generated_epCapture_range P m hs
  obtain ⟨-, -, -, -, hwe, -, hsq⟩ := makeMove_undo_basic P m
  have hep : (makeMove P m).2.wasEP = true →
      (makeMove P m).2.epCapturedSq = (if getSq P.b m.from_ = WP then m.to_ - 8 else m.to_ + 8) ∧
      0 ≤ (makeMove P m).2.epCapturedSq ∧ (makeMove P m).2.epCapturedSq < 64 := by
    intro h
    rw [hwe, decide_eq_true_eq] at h
    rw [hsq, if_pos h]
    exact ⟨rfl, hcap h⟩
  exact ⟨hf, ht, ⟨hs.nonempty, hs.side⟩, makeMoveChecked_eq P m hf ht hcap,
    unmakeMoveChecked_eq _ m _ hf ht (makeMove_undo_rook_range P m) (fun h => (hep h).2), hep⟩

set_option maxRecDepth 100000 in
/-- C33, at `epWhitePos` and the en-passant capture `e5d6` (36 to 43): the move is generated,
`makeMove` records an en-passant capture, and the captured pawn stands on `to - 8 = 35`. -/
theorem generated_moves_index_safe_e5d6 :
    ({ from_ := 36, to_ := 43, promo := EMPTY, captured := EMPTY } : Move) ∈
      genPseudoLegalMoves epWhitePos ∧
    (makeMove epWhitePos { from_ := 36, to_ := 43, promo := EMPTY, captured := EMPTY }).2.wasEP
      = true ∧
    makeMoveChecked epWhitePos { from_ := 36, to_ := 43, promo := EMPTY, captured := EMPTY } =
      some (makeMove epWhitePos { from_ := 36, to_ := 43, promo := EMPTY, captured := EMPTY }) ∧
    (makeMove epWhitePos { from_ := 36, to_ := 43, promo := EMPTY, captured := EMPTY }).2.epCapturedSq
      = 35 :=
  ⟨by decide!, by decide!,
    (generated_moves_index_safe epWhitePos
      { from_ := 36, to_ := 43, promo := EMPTY, captured := EMPTY } (by decide!)).2.2.2.1,
    by decide!⟩

end ChessAI
